import Mathlib

/-!
Verification of the POA (partial-order alignment) core of genominicus
(`src/align/mod.rs`, `src/align/poa.rs`).

The Rust code is shallowly embedded: petgraph's `Graph<POANode, Vec<SeqID>>`
becomes a structure holding the node list (indexed by insertion order, as
petgraph node indices are) and the edge list (in insertion order).  petgraph's
`edges_directed` iterates a node's edge list most-recently-added first; the
embedding reproduces that by filtering the edge list and reversing.
`HashMap<SeqID, Nucleotide>` node payloads become association lists with
insert-or-replace semantics (only membership of the value set and lookup by
key are ever observed by the algorithm, so the representation order is
irrelevant to every theorem below).  Machine integers (`i32` scores) become
`Int`: all scores produced stay far away from the `i32` range for the inputs
considered, and the code's own `NEG_INF = -3_000_000` sentinel is kept
verbatim.  Fallible operations (Rust panics: out-of-bounds indexing,
`unwrap` of `None`) are modelled with `Option`, `none` standing for a panic.
-/

namespace Genominicus

/-- Modelled from the spec: the symbol type `PoaElt` is defined outside the
provided sources (`src/` only contains its uses); §3 of the spec gives its
logical variants `GeneFamily(id)`, `Marker`, `Indel`, `Empty`, with only
equality and "is this the anchor" observable. -/
inductive PoaElt where
  | geneFamily : Nat → PoaElt
  | Marker : PoaElt
  | Indel : PoaElt
  | Empty : PoaElt
deriving DecidableEq, Repr

abbrev SeqID := Nat

abbrev Nucleotide := PoaElt

abbrev Sequence := List Nucleotide

/-- `POANode` from `align/poa.rs`: `nucs: HashMap<SeqID, Nucleotide>`,
represented as an association list. -/
structure POANode where
  nucs : List (SeqID × Nucleotide)
deriving DecidableEq, Repr

/-- One petgraph edge: endpoints and the `Vec<SeqID>` weight. -/
structure POAEdge where
  src : Nat
  tgt : Nat
  labels : List SeqID
deriving DecidableEq, Repr

/-- `POAGraph = Graph<POANode, Vec<SeqID>, Directed>`: nodes indexed by
insertion order, edges kept in insertion order. -/
structure POAGraph where
  nodes : List POANode
  edges : List POAEdge
deriving DecidableEq, Repr

def POAGraph.emptyGraph : POAGraph := ⟨[], []⟩

/-- `HashMap::insert` on a node's `nucs`: replace the binding of `k` if
present, otherwise add one. -/
def nucsInsert (l : List (SeqID × Nucleotide)) (k : SeqID) (v : Nucleotide) :
    List (SeqID × Nucleotide) :=
  if l.any (fun p => p.1 = k) then
    l.map (fun p => if p.1 = k then (k, v) else p)
  else
    l ++ [(k, v)]

/-- `nucs[seq_id]` lookup (panics in Rust when absent, hence `Option`). -/
def nucsLookup (l : List (SeqID × Nucleotide)) (k : SeqID) : Option Nucleotide :=
  (l.find? (fun p => p.1 = k)).map (·.2)

/-- `nucs.values()` as a list (used only through `contains`). -/
def nucsValues (l : List (SeqID × Nucleotide)) : List Nucleotide := l.map (·.2)

/-- `g.add_node(w)`: push the node, return its index. -/
def addNode (g : POAGraph) (w : POANode) : POAGraph × Nat :=
  ({ g with nodes := g.nodes ++ [w] }, g.nodes.length)

/-- Incoming edges of `v`, most recently added first (petgraph's
`edges_directed(v, Incoming)` iteration order). -/
def incomingEdges (g : POAGraph) (v : Nat) : List POAEdge :=
  (g.edges.filter (fun e => e.tgt = v)).reverse

/-- Outgoing edges of `v`, most recently added first (petgraph's
`edges_directed(v, Outgoing)` iteration order). -/
def outgoingEdges (g : POAGraph) (v : Nat) : List POAEdge :=
  (g.edges.filter (fun e => e.src = v)).reverse

/-- Helper for `update_edge`: push `label` onto the first existing `(s,t)`
edge's weight vector, or append a fresh edge `(s, t, [label])`. -/
def edgesAddLabel : List POAEdge → Nat → Nat → SeqID → List POAEdge
  | [], s, t, l => [⟨s, t, [l]⟩]
  | e :: es, s, t, l =>
    if e.src = s ∧ e.tgt = t then { e with labels := e.labels ++ [l] } :: es
    else e :: edgesAddLabel es s t l

/-- `poa::update_edge`: no-op unless both endpoints are `Some`; then append
the label to the existing edge or create it. -/
def updateEdge (g : POAGraph) (start? stop? : Option Nat) (label : SeqID) :
    POAGraph :=
  match start?, stop? with
  | some s, some t => { g with edges := edgesAddLabel g.edges s t label }
  | _, _ => g

/-- The loop body of `insert_hanging_seq`, threading
`(graph, first_node, last_node)`. -/
def ihsLoop (seq_id : SeqID) : List Nucleotide → POAGraph → Option Nat →
    Option Nat → POAGraph × Option Nat × Option Nat
  | [], g, first?, last? => (g, first?, last?)
  | n :: rest, g, first?, last? =>
    let an := addNode g ⟨[(seq_id, n)]⟩
    let g1 := an.1
    let node := an.2
    let first' := if first?.isNone then some node else first?
    let g2 := if last?.isSome then updateEdge g1 last? (some node) seq_id else g1
    ihsLoop seq_id rest g2 first' (some node)

/-- `insert_hanging_seq(g, seq, seq_id)`: append a fresh chain, one node per
symbol, and return its (first, last) node; `none` on the empty list. -/
def insertHangingSeq (g : POAGraph) (seq : List Nucleotide) (seq_id : SeqID) :
    POAGraph × Option (Nat × Nat) :=
  if seq = [] then (g, none)
  else
    match ihsLoop seq_id seq g none none with
    | (g', some f, some l) => (g', some (f, l))
    | (g', _, _) => (g', none)

/-! ### Scoring settings and DP matrices (`align/mod.rs`) -/

/-- `const NEG_INF: i32 = -3_000_000` — the large-magnitude negative finite
sentinel. -/
def NEG_INF : Int := -3000000

/-- `AffineNWSettings` (the `matches` field is renamed `matchesVal`: `matches`
is a Lean keyword). -/
structure AffineNWSettings where
  matchesVal : Int
  mismatches : Int
  open_gap : Int
  extend_gap : Int
deriving Repr

/-- The settings instantiated in `align()`. -/
def alignSettings : AffineNWSettings :=
  { matchesVal := 10, mismatches := 0, open_gap := -1, extend_gap := -1 }

/-- The match/mismatch cost used (verbatim, three times) in `build_matrix`
and in the backtracking of `affine_sw`:
`if nucs[i].contains(&sym) { if sym == Marker { 100 } else { matches } } else { mismatches }`. -/
def matchScore (vals : List Nucleotide) (sym : Nucleotide) (m n : Int) : Int :=
  if sym ∈ vals then (if sym = PoaElt.Marker then 100 else m) else n

/-- Pointwise update of a flat matrix. -/
def mupd (M : Nat → Int) (k : Nat) (v : Int) : Nat → Int :=
  fun p => if p = k then v else M p

/-- `nucs[idx]` — the value list of node `idx`, as precomputed in
`affine_sw`. -/
def nucsOf (g : POAGraph) (idx : Nat) : List Nucleotide :=
  nucsValues (g.nodes.getD idx ⟨[]⟩).nucs

/-- The three flat `(m_height)×(m_width)` score matrices, as total maps from
flat index (initially all `0`, like `vec![0; w*h]`). -/
structure Mats where
  H : Nat → Int
  F : Nat → Int
  E : Nat → Int

/-- First `build_matrix` loop: row-0 boundary,
`F[j] = NEG_INF; E[j] = open + (j-1)*extend` for `j in 1..w`. -/
def bmRow0 (w : Nat) (s : AffineNWSettings) (M : Mats) : Mats :=
  (List.range' 1 (w - 1)).foldl
    (fun M j =>
      { M with
        F := mupd M.F j NEG_INF
        E := mupd M.E j (s.open_gap + ((j : Int) - 1) * s.extend_gap) }) M

/-- One step of the second `build_matrix` loop (column-0 boundary).  Note the
source indexes the graph by the *raw node index* `i - 1` here
(`NodeIndex::new(i - 1)`), while the row written is row `i` and the rows read
are the predecessors' *rank* rows — reproduced verbatim. -/
def bmCol0Step (g : POAGraph) (s : AffineNWSettings) (ranksInv : Nat → Nat)
    (w : Nat) (M : Mats) (i : Nat) : Mats :=
  let edges := incomingEdges g (i - 1)
  let penalty0 : Int := if edges = [] then s.open_gap - s.extend_gap else NEG_INF
  let penalty := edges.foldl (fun p e => max p (M.F ((ranksInv e.src + 1) * w))) penalty0
  { M with
    F := mupd M.F (i * w) (penalty + s.extend_gap)
    E := mupd M.E (i * w) NEG_INF }

def bmCol0 (g : POAGraph) (s : AffineNWSettings) (ranksInv : Nat → Nat)
    (w h : Nat) (M : Mats) : Mats :=
  (List.range' 1 (h - 1)).foldl (bmCol0Step g s ranksInv w) M

/-- `H[1..w] = E[1..w]` and `H[i][0] = F[i][0]`. -/
def bmHInit (w h : Nat) (M : Mats) : Mats :=
  let M1 := (List.range' 1 (w - 1)).foldl
    (fun M j => { M with H := mupd M.H j (M.E j) }) M
  (List.range' 1 (h - 1)).foldl
    (fun M i => { M with H := mupd M.H (i * w) (M.F (i * w)) }) M1

/-- One `j` step of the first-predecessor pass of `build_matrix`'s main
loop. -/
def bmStepA (g : POAGraph) (seq : Sequence) (s : AffineNWSettings)
    (node_id row pred_row : Nat) (M : Mats) (j : Nat) : Mats :=
  let hv := M.H (pred_row + (j - 1)) +
    matchScore (nucsOf g node_id) (seq.getD (j - 1) PoaElt.Empty)
      s.matchesVal s.mismatches
  let fv := max (M.H (pred_row + j) + s.open_gap)
                (M.F (pred_row + j) + s.extend_gap)
  { M with H := mupd M.H (row + j) hv, F := mupd M.F (row + j) fv }

/-- One `j` step of the remaining-predecessors pass. -/
def bmStepB (g : POAGraph) (seq : Sequence) (s : AffineNWSettings)
    (node_id row pr : Nat) (M : Mats) (j : Nat) : Mats :=
  let hv := max (M.H (row + j))
    (M.H (pr + (j - 1)) +
      matchScore (nucsOf g node_id) (seq.getD (j - 1) PoaElt.Empty)
        s.matchesVal s.mismatches)
  let fv := max (M.F (row + j))
    (max (M.H (pr + j) + s.open_gap) (M.F (pr + j) + s.extend_gap))
  { M with H := mupd M.H (row + j) hv, F := mupd M.F (row + j) fv }

/-- One `j` step of the `E`/final-`H` pass. -/
def bmStepC (s : AffineNWSettings) (row : Nat) (M : Mats) (j : Nat) : Mats :=
  let ev := max (M.H (row + (j - 1)) + s.open_gap)
                (M.E (row + (j - 1)) + s.extend_gap)
  let hv := max (M.H (row + j)) (max (M.F (row + j)) ev)
  { M with E := mupd M.E (row + j) ev, H := mupd M.H (row + j) hv }

def bmPassA (g : POAGraph) (seq : Sequence) (s : AffineNWSettings) (w : Nat)
    (node_id row pred_row : Nat) (M : Mats) : Mats :=
  (List.range' 1 (w - 1)).foldl (bmStepA g seq s node_id row pred_row) M

def bmPassB (g : POAGraph) (seq : Sequence) (s : AffineNWSettings)
    (ranksInv : Nat → Nat) (w : Nat) (node_id row : Nat)
    (preds : List POAEdge) (M : Mats) : Mats :=
  (preds.drop 1).foldl
    (fun M p =>
      (List.range' 1 (w - 1)).foldl
        (bmStepB g seq s node_id row ((ranksInv p.src + 1) * w)) M) M

def bmPassC (s : AffineNWSettings) (w row : Nat) (M : Mats) : Mats :=
  (List.range' 1 (w - 1)).foldl (bmStepC s row) M

/-- Main per-node pass of `build_matrix`: first-predecessor pass, remaining
predecessors, then the `E`/final-`H` pass. -/
def bmMainNode (g : POAGraph) (seq : Sequence) (s : AffineNWSettings)
    (ranksInv : Nat → Nat) (w : Nat) (M : Mats) (node_id : Nat) : Mats :=
  let i := ranksInv node_id + 1
  let row := i * w
  let preds := incomingEdges g node_id
  let pred_i := match preds with
    | [] => 0
    | p :: _ => ranksInv p.src + 1
  bmPassC s w row
    (bmPassB g seq s ranksInv w node_id row preds
      (bmPassA g seq s w node_id row (pred_i * w) M))

/-- `build_matrix`, assembled from its four loop phases. -/
def buildMatrix (g : POAGraph) (seq : Sequence) (s : AffineNWSettings)
    (ranks : List Nat) (ranksInv : Nat → Nat) : Mats :=
  let w := seq.length + 1
  let h := ranks.length + 1
  let M1 := bmRow0 w s ⟨fun _ => 0, fun _ => 0, fun _ => 0⟩
  let M2 := bmCol0 g s ranksInv w h M1
  let M3 := bmHInit w h M2
  ranks.foldl (bmMainNode g seq s ranksInv w) M3

/-! ### Topological sort (`petgraph::algo::toposort`)

petgraph's toposort runs an iterative DFS over the node identifiers in index
order (neighbors iterated most-recently-added edge first, pushed onto a
`Vec` stack so the *oldest* edge's target surfaces first), collects the
finish order, reverses it, and fails exactly on cyclic graphs.  The
embedding reproduces the traversal (so the returned order is the same one)
and models "fails on a cycle" by validating the computed order; the `Nat`
fuel only bounds the loop and is chosen large enough for the traversal. -/

def getB (l : List Bool) (i : Nat) : Bool := l.getD i false

def setB (l : List Bool) (i : Nat) : List Bool := l.set i true

/-- The inner DFS driver: stack head = top of petgraph's `Vec` stack. -/
def dfsLoop (g : POAGraph) : Nat → List Bool → List Bool → List Nat →
    List Nat → Option (List Bool × List Bool × List Nat)
  | 0, _, _, _, _ => none
  | fuel + 1, disc, fin, stack, out =>
    match stack with
    | [] => some (disc, fin, out)
    | nx :: rest =>
      if getB disc nx then
        if getB fin nx then dfsLoop g fuel disc fin rest out
        else dfsLoop g fuel disc (setB fin nx) rest (out ++ [nx])
      else
        let disc' := setB disc nx
        let succs := (outgoingEdges g nx).map (·.tgt)
        if succs.contains nx then none
        else
          let toPush := succs.filter (fun v => !(getB disc' v))
          dfsLoop g fuel disc' fin (toPush.reverse ++ stack) out

def dfsRoots (g : POAGraph) (fuel : Nat) : List Nat → List Bool → List Bool →
    List Nat → Option (List Bool × List Bool × List Nat)
  | [], disc, fin, out => some (disc, fin, out)
  | r :: rs, disc, fin, out =>
    if getB disc r then dfsRoots g fuel rs disc fin out
    else
      match dfsLoop g fuel disc fin [r] out with
      | none => none
      | some (d, f, o) => dfsRoots g fuel rs d f o

/-- `findIdx`-based position (length when absent, matching the `vec![0;_]`
default never being observed for in-graph nodes). -/
def posOf (l : List Nat) (v : Nat) : Nat := l.findIdx (fun x => x == v)

/-- The computed order is a topological order: it enumerates exactly the
nodes, and every edge goes strictly forward. -/
def isValidTopo (g : POAGraph) (ord : List Nat) : Bool :=
  ord.length = g.nodes.length &&
  (List.range g.nodes.length).all (fun v => ord.contains v) &&
  g.edges.all (fun e => posOf ord e.src < posOf ord e.tgt)

def topoFuel (g : POAGraph) : Nat :=
  (g.nodes.length + g.edges.length + 2) * (g.nodes.length + 2) * 4

/-- `petgraph::algo::toposort(g, None).ok()`: `some order` exactly on acyclic
graphs, where `order` is the reversed DFS finish order. -/
def toposort (g : POAGraph) : Option (List Nat) :=
  let n := g.nodes.length
  match dfsRoots g (topoFuel g) (List.range n)
      (List.replicate n false) (List.replicate n false) [] with
  | none => none
  | some (_, _, out) =>
    let ord := out.reverse
    if isValidTopo g ord then some ord else none

/-! ### Backtracking (`affine_sw`) -/

/-- Result of a fueled loop: a value, a Rust panic, or fuel exhaustion
(`gas` is a modelling artifact — the theorems show it unreachable for the
fuels used). -/
inductive BtRes (α : Type) where
  | ok : α → BtRes α
  | panic : BtRes α
  | gas : BtRes α
deriving Repr

/-- The deletion gap-extension loop (`extend_left`): keeps consuming sequence
positions while the `E` recurrence keeps explaining the score.  At `j = 0`
the source computes `j - 1 : usize`, a panic. -/
def extendLeftLoop (M : Mats) (s : AffineNWSettings) (w i : Nat) :
    Nat → Nat → List (Option Nat) → List (Option Nat) →
    BtRes (Nat × List (Option Nat) × List (Option Nat))
  | 0, _, _, _ => .gas
  | fuel + 1, j, accG, accS =>
    if j = 0 then .panic
    else
      let accG1 := none :: accG
      let accS1 := some (j - 1) :: accS
      let j1 := j - 1
      if M.E (i * w + j1) + s.extend_gap == M.E (i * w + j1 + 1) then
        extendLeftLoop M s w i fuel j1 accG1 accS1
      else .ok (j1, accG1, accS1)

/-- The insertion gap-extension loop (`extend_up`): keeps stepping to
predecessors while the `F` recurrence keeps explaining the score.  At
`i = 0` the source computes `ranks_to_nodes[i - 1]`, a panic. -/
def extendUpLoop (g : POAGraph) (s : AffineNWSettings) (ranks : List Nat)
    (ranksInv : Nat → Nat) (M : Mats) (w j : Nat) :
    Nat → Nat → List (Option Nat) → List (Option Nat) →
    BtRes (Nat × List (Option Nat) × List (Option Nat))
  | 0, _, _, _ => .gas
  | fuel + 1, i, accG, accS =>
    if i = 0 then .panic
    else
      let fij := M.F (i * w + j)
      let node := ranks.getD (i - 1) 0
      let preds := incomingEdges g node
      let found := preds.find? (fun p =>
        fij == M.H ((ranksInv p.src + 1) * w + j) + s.open_gap ||
        fij == M.F ((ranksInv p.src + 1) * w + j) + s.extend_gap)
      let stop : Bool := match found with
        | some p => fij == M.H ((ranksInv p.src + 1) * w + j) + s.open_gap
        | none => false
      let prevI : Nat := match found with
        | some p => ranksInv p.src + 1
        | none => 0
      let accG1 := some node :: accG
      let accS1 := none :: accS
      if stop || prevI == 0 then .ok (prevI, accG1, accS1)
      else extendUpLoop g s ranks ranksInv M w j fuel prevI accG1 accS1

/-- The predecessor-row list scanned by both `build_matrix` and the
backtracking: the first (most recently inserted) incoming edge's rank row,
then the remaining ones, with the implicit super-source row 0 when there is
no predecessor. -/
def predIs (g : POAGraph) (ranksInv : Nat → Nat) (v : Nat) : List Nat :=
  match incomingEdges g v with
  | [] => [0]
  | p :: ps => (ranksInv p.src + 1) :: ps.map (fun q => ranksInv q.src + 1)

/-- The branch selection of one outer backtracking iteration: which cell
`(pI, pJ)` explains `H[i][j]`, and whether a gap-extension loop is entered
(`extL` for deletions, `extU` for insertions).  When no branch explains
`H[i][j]`, the source leaves `prev_i`/`prev_j` at their stale values —
reproduced verbatim (the termination theorem shows the case unreachable). -/
def btChoice (g : POAGraph) (s : AffineNWSettings) (seq : Sequence)
    (ranks : List Nat) (ranksInv : Nat → Nat) (M : Mats) (w : Nat)
    (i j prevI prevJ : Nat) : Nat × Nat × Bool × Bool :=
  let hij := M.H (i * w + j)
  let node := ranks.getD (i - 1) 0
  let mcost := matchScore (nucsOf g node) (seq.getD (j - 1) PoaElt.Empty)
    s.matchesVal s.mismatches
  let predIsL : List Nat := predIs g ranksInv node
  match predIsL.find? (fun pi => hij == M.H (pi * w + (j - 1)) + mcost) with
  | some pi => (pi, j - 1, false, false)
  | none =>
    match predIsL.find? (fun pi =>
        hij == M.F (pi * w + j) + s.extend_gap ||
        hij == M.H (pi * w + j) + s.open_gap) with
    | some pi => (pi, j, false, hij == M.F (pi * w + j) + s.extend_gap)
    | none =>
      if hij == M.E (i * w + (j - 1)) + s.extend_gap then (i, j - 1, true, false)
      else if hij == M.H (i * w + (j - 1)) + s.open_gap then (i, j - 1, false, false)
      else (prevI, prevJ, false, false)

/-- The outer backtracking loop of `affine_sw`.  The accumulators are built
by `cons`, which directly yields the source's final `reverse`d vectors. -/
def btLoop (g : POAGraph) (s : AffineNWSettings) (seq : Sequence)
    (ranks : List Nat) (ranksInv : Nat → Nat) (M : Mats) (w : Nat) :
    Nat → Nat → Nat → Nat → Nat → List (Option Nat) → List (Option Nat) →
    BtRes (List (Option Nat) × List (Option Nat))
  | 0, _, _, _, _, _, _ => .gas
  | fuel + 1, i, j, prevI, prevJ, accG, accS =>
    if i = 0 ∨ j = 0 then .ok (accG, accS)
    else
      let node := ranks.getD (i - 1) 0
      let choice : Nat × Nat × Bool × Bool :=
        btChoice g s seq ranks ranksInv M w i j prevI prevJ
      let pI := choice.1
      let pJ := choice.2.1
      let extL := choice.2.2.1
      let extU := choice.2.2.2
      let accG1 := (if i = pI then none else some node) :: accG
      let accS1 := (if j = pJ then none else some (j - 1)) :: accS
      if extL then
        match extendLeftLoop M s w pI (pJ + 2) pJ accG1 accS1 with
        | .gas => .gas
        | .panic => .panic
        | .ok (j2, accG2, accS2) =>
          btLoop g s seq ranks ranksInv M w fuel pI j2 pI pJ accG2 accS2
      else if extU then
        match extendUpLoop g s ranks ranksInv M w pJ (pI + 2) pI accG1 accS1 with
        | .gas => .gas
        | .panic => .panic
        | .ok (i2, accG2, accS2) =>
          btLoop g s seq ranks ranksInv M w fuel i2 pJ i2 pJ accG2 accS2
      else
        btLoop g s seq ranks ranksInv M w fuel pI pJ pI pJ accG1 accS1

/-- The `Alignment` trace: `(Vec<Option<NodeIndex>>, Vec<Option<usize>>)`. -/
abbrev Alignment := List (Option Nat) × List (Option Nat)

/-- The local-alignment endpoint: fold over the topological order keeping the
first tail node (no outgoing edges) whose last-column `H` strictly exceeds
the best so far, starting from `(NEG_INF, 0)`. -/
def btStart (g : POAGraph) (M : Mats) (ranks : List Nat) (ranksInv : Nat → Nat)
    (w : Nat) : Int × Nat :=
  ranks.foldl (fun ax node_id =>
    let i := ranksInv node_id + 1
    let score := M.H (i * w + w - 1)
    let isTail := outgoingEdges g node_id = []
    if isTail ∧ score > ax.1 then (score, i) else ax) (NEG_INF, 0)

/-- `affine_sw(g, seq, settings)`: `none` models a panic (cyclic graph, or a
backtracking panic). -/
def affineSW (g : POAGraph) (seq : Sequence) (s : AffineNWSettings) :
    Option (Int × Alignment) :=
  match toposort g with
  | none => none
  | some ranks =>
    let ranksInv := fun v => posOf ranks v
    let w := seq.length + 1
    let M := buildMatrix g seq s ranks ranksInv
    let best := btStart g M ranks ranksInv w
    let maxI := best.2
    let maxJ := w - 1
    match btLoop g s seq ranks ranksInv M w (maxI + maxJ + 2) maxI maxJ 0 0 [] [] with
    | .ok acc => some (best.1, acc)
    | _ => none

/-! ### Grafting (`add_alignment`) -/

/-- The main loop of `add_alignment` over `seq_idxs.zip(graph_ids)`,
threading `(graph, first_id, head_id)`; `none` models the panics
(`seq[idx]` or `g[graph_id]` out of bounds). -/
def aaLoop (seq_id : SeqID) (seq : Sequence) :
    List (Option Nat × Option Nat) → POAGraph → Option Nat → Option Nat →
    Option (POAGraph × Option Nat × Option Nat)
  | [], g, first?, head? => some (g, first?, head?)
  | (seqIdx?, graphId?) :: rest, g, first?, head? =>
    match seqIdx? with
    | none => aaLoop seq_id seq rest g first? head?
    | some sIdx =>
      match seq.get? sIdx with
      | none => none
      | some nuc =>
        match graphId? with
        | none =>
          let an := addNode g ⟨[(seq_id, nuc)]⟩
          let g2 := updateEdge an.1 head? (some an.2) seq_id
          let head' := some an.2
          let first' := if first?.isNone then head' else first?
          aaLoop seq_id seq rest g2 first' head'
        | some gid =>
          match g.nodes.get? gid with
          | none => none
          | some nd =>
            let g1 := { g with nodes := g.nodes.set gid ⟨nucsInsert nd.nucs seq_id nuc⟩ }
            let g2 := updateEdge g1 head? (some gid) seq_id
            let head' := some gid
            let first' := if first?.isNone then head' else first?
            aaLoop seq_id seq rest g2 first' head'

/-- The leading-hanging part of `add_alignment`: `&seq[0..start_seq_idx]`
panics when `start_seq_idx > seq.len()`. -/
def aaLead (g : POAGraph) (seq : Sequence) (seq_id : SeqID) (startIdx : Nat) :
    Option (POAGraph × Option Nat × Option Nat) :=
  if startIdx > 0 then
    if startIdx ≤ seq.length then
      let r := insertHangingSeq g (seq.take startIdx) seq_id
      match r.2 with
      | some fl => some (r.1, some fl.1, some fl.2)
      | none => some (r.1, none, none)
    else none
  else some (g, none, none)

/-- The trailing-hanging part of `add_alignment` (in-bounds by its guard). -/
def aaTrail (g : POAGraph) (seq : Sequence) (seq_id : SeqID) (endIdx : Nat) :
    POAGraph × Option Nat :=
  if endIdx < seq.length then
    let r := insertHangingSeq g (seq.drop (endIdx + 1)) seq_id
    (r.1, r.2.map (·.1))
  else (g, none)

/-- `add_alignment(g, alignment, seq, seq_id)`: `some (g', none)` for the
empty trace, `some (g', some head)` on success, `none` for a panic
(`valid_seq_idxs[0]` on an all-`None` trace, sequence slicing/indexing out
of bounds, or the final `first_id.unwrap()`). -/
def addAlignment (g : POAGraph) (al : Alignment) (seq : Sequence)
    (seq_id : SeqID) : Option (POAGraph × Option Nat) :=
  let graph_ids := al.1
  let seq_idxs := al.2
  let valid := seq_idxs.filterMap id
  if graph_ids = [] then some (g, none)
  else
    match valid with
    | [] => none
    | startIdx :: _ =>
      let endIdx := valid.getLastD 0
      match aaLead g seq seq_id startIdx with
      | none => none
      | some (g1, first0, head0) =>
        let trail := aaTrail g1 seq seq_id endIdx
        match aaLoop seq_id seq (seq_idxs.zip graph_ids) trail.1 first0 head0 with
        | none => none
        | some (g3, first?, head?) =>
          let g4 := updateEdge g3 head? trail.2 seq_id
          match first? with
          | some f => some (g4, some f)
          | none => none

/-! ### Orchestrator (`align`) and projector (`poa_to_strings`) -/

/-- One non-seed step of `align`'s loop: try the sequence and its reverse
against the current graph, keep the higher score (ties go to the direct
orientation), graft it. -/
def alignStep (g : POAGraph) (id : SeqID) (seq : Sequence) :
    Option (POAGraph × Option Nat) :=
  let rev_seq := seq.reverse
  match affineSW g seq alignSettings, affineSW g rev_seq alignSettings with
  | some (directScore, directAlignment), some (reverseScore, reverseAlignment) =>
    if directScore ≥ reverseScore then addAlignment g directAlignment seq id
    else addAlignment g reverseAlignment rev_seq id
  | _, _ => none

/-- The `filter_map` body of `align` over the sorted, enumerated sequences. -/
def alignLoop : List (Nat × SeqID × Sequence) → POAGraph → List (SeqID × Nat) →
    Option (POAGraph × List (SeqID × Nat))
  | [], g, starts => some (g, starts)
  | (i, id, seq) :: rest, g, starts =>
    if i = 0 then
      let r := insertHangingSeq g seq id
      match r.2 with
      | some fl => alignLoop rest r.1 (starts ++ [(id, fl.1)])
      | none => alignLoop rest r.1 starts
    else
      match alignStep g id seq with
      | none => none
      | some (g', none) => alignLoop rest g' starts
      | some (g', some h) => alignLoop rest g' (starts ++ [(id, h)])

/-- Stable insertion preserving the comparator
`|(_, seq1), (_, seq2)| seq2.len().cmp(&seq1.len())` (descending length,
earlier elements first on ties). -/
def insDesc (x : SeqID × Sequence) : List (SeqID × Sequence) →
    List (SeqID × Sequence)
  | [] => [x]
  | y :: ys => if x.2.length < y.2.length then y :: insDesc x ys else x :: y :: ys

/-- The stable sort performed by `sorted_seqs.sort_by(...)` (any stable sort
under the same total preorder produces the same list). -/
def sortSeqs : List (SeqID × Sequence) → List (SeqID × Sequence)
  | [] => []
  | x :: xs => insDesc x (sortSeqs xs)

/-- `align(seqs)`.  The input is the `HashMap` in its iteration order; the
result pairs the final graph with the heads map (in insertion order). -/
def align (seqs : List (SeqID × Sequence)) :
    Option (POAGraph × List (SeqID × Nat)) :=
  alignLoop (sortSeqs seqs).enum POAGraph.emptyGraph []

/-- The walk of `poa_to_strings` for one `(seq_id, start)` pair: follow the
first outgoing edge labelled `seq_id`, writing the node's contributed symbol
at its topological column. -/
def ptsWalk (g : POAGraph) (seq_id : SeqID) (rankCol : Nat → Nat) :
    Nat → Nat → List PoaElt → Option (List PoaElt)
  | 0, _, _ => none
  | fuel + 1, node, row =>
    match nucsLookup (g.nodes.getD node ⟨[]⟩).nucs seq_id with
    | none => none
    | some v =>
      let row1 := row.set (rankCol node) v
      match (outgoingEdges g node).find? (fun e => e.labels.contains seq_id) with
      | some e => ptsWalk g seq_id rankCol fuel e.tgt row1
      | none => some row1

/-- `poa_to_strings(g, starts)`: one `Indel`-padded row per head entry. -/
def poaToStrings (g : POAGraph) (starts : List (SeqID × Nat)) :
    Option (List (SeqID × List PoaElt)) :=
  match toposort g with
  | none => none
  | some nodesOrd =>
    let rankCol := fun v => posOf nodesOrd v
    starts.mapM (fun p =>
      (ptsWalk g p.1 rankCol (g.nodes.length + 1) p.2
        (List.replicate nodesOrd.length PoaElt.Indel)).map (fun row => (p.1, row)))

/-! ## Helper lemmas -/

/-- petgraph's node-index invariant: every edge endpoint is a live node. -/
def edgesValid (g : POAGraph) : Prop :=
  ∀ e ∈ g.edges, e.src < g.nodes.length ∧ e.tgt < g.nodes.length

instance (g : POAGraph) : Decidable (edgesValid g) := by
  unfold edgesValid; infer_instance

theorem edgesAddLabel_of_not_mem (es : List POAEdge) (s t : Nat) (l : SeqID)
    (h : ∀ e ∈ es, ¬(e.src = s ∧ e.tgt = t)) :
    edgesAddLabel es s t l = es ++ [⟨s, t, [l]⟩] := by
  induction es with
  | nil => rfl
  | cons e es ih =>
    rw [edgesAddLabel, if_neg (h e (List.mem_cons_self e es))]
    rw [ih (fun e' he' => h e' (List.mem_cons_of_mem e he'))]
    simp

theorem updateEdge_fresh (g : POAGraph) (s t : Nat) (l : SeqID)
    (h : ∀ e ∈ g.edges, ¬(e.src = s ∧ e.tgt = t)) :
    updateEdge g (some s) (some t) l =
      { g with edges := g.edges ++ [⟨s, t, [l]⟩] } := by
  show ({ g with edges := edgesAddLabel g.edges s t l } : POAGraph) = _
  rw [edgesAddLabel_of_not_mem g.edges s t l h]

/-- The chain of edges created by `insert_hanging_seq` for `len` nodes based
at node index `base`. -/
def chainEdges (base len : Nat) (seq_id : SeqID) : List POAEdge :=
  (List.range (len - 1)).map (fun k => ⟨base + k, base + k + 1, [seq_id]⟩)

/-- The chain of nodes created by `insert_hanging_seq`. -/
def chainNodes (seq : List Nucleotide) (seq_id : SeqID) : List POANode :=
  seq.map (fun n => ⟨[(seq_id, n)]⟩)

theorem ihsLoop_go (seq_id : SeqID) (rest : List Nucleotide) :
    ∀ (g : POAGraph) (f L : Nat), edgesValid g → g.nodes.length = L + 1 →
    ihsLoop seq_id rest g (some f) (some L) =
      ({ nodes := g.nodes ++ chainNodes rest seq_id,
         edges := g.edges ++ (List.range rest.length).map
           (fun k => ⟨L + k, L + 1 + k, [seq_id]⟩) },
       some f, some (L + rest.length)) := by
  induction rest with
  | nil => intro g f L _ _; simp [ihsLoop, chainNodes]
  | cons n rest ih =>
    intro g f L hval hlen
    rw [ihsLoop]
    simp only [addNode, Option.isNone_some, Bool.false_eq_true, if_false,
      Option.isSome_some, if_true]
    rw [hlen]
    rw [updateEdge_fresh _ L (L + 1) seq_id
      (by intro e he hc; exact absurd (hval e he).2 (by rw [hlen]; omega))]
    set g2 : POAGraph :=
      { nodes := g.nodes ++ [⟨[(seq_id, n)]⟩],
        edges := g.edges ++ [⟨L, L + 1, [seq_id]⟩] } with hg2
    have h2 : g2.nodes.length = (L + 1) + 1 := by rw [hg2]; simp; omega
    have hval2 : edgesValid g2 := by
      intro e he
      rw [hg2] at he ⊢
      simp only [List.mem_append, List.mem_singleton] at he
      simp only [List.length_append, List.length_singleton]
      rcases he with he | he
      · have := hval e he; omega
      · subst he; simp; omega
    have := ih g2 f (L + 1) hval2 h2
    rw [this]
    rw [hg2]
    simp only [List.append_assoc, Prod.mk.injEq, POAGraph.mk.injEq]
    refine ⟨⟨by simp [chainNodes], ?_⟩, trivial, by congr 1; simp only [List.length_cons]; omega⟩
    congr 1
    rw [List.length_cons, List.range_succ_eq_map]
    simp only [List.map_cons, List.map_map, List.cons_append, List.nil_append,
      List.cons.injEq]
    refine ⟨by simp, ?_⟩
    apply List.map_congr_left
    intro k _
    rw [Function.comp_apply, POAEdge.mk.injEq]
    refine ⟨by omega, by omega, rfl⟩

theorem insertHangingSeq_nil (g : POAGraph) (seq_id : SeqID) :
    insertHangingSeq g [] seq_id = (g, none) := rfl

theorem insertHangingSeq_cons (g : POAGraph) (n : Nucleotide)
    (rest : List Nucleotide) (seq_id : SeqID) (hval : edgesValid g) :
    insertHangingSeq g (n :: rest) seq_id =
      ({ nodes := g.nodes ++ chainNodes (n :: rest) seq_id,
         edges := g.edges ++ chainEdges g.nodes.length (n :: rest).length seq_id },
       some (g.nodes.length, g.nodes.length + rest.length)) := by
  rw [insertHangingSeq, if_neg (by simp)]
  rw [ihsLoop]
  simp only [addNode, Option.isNone_none, if_true, Option.isSome_none,
    Bool.false_eq_true, if_false]
  set g1 : POAGraph := { nodes := g.nodes ++ [⟨[(seq_id, n)]⟩], edges := g.edges } with hg1
  have h1 : g1.nodes.length = g.nodes.length + 1 := by rw [hg1]; simp
  have hval1 : edgesValid g1 := by
    intro e he
    rw [hg1] at he ⊢
    have := hval e he
    simp only [List.length_append, List.length_singleton]
    omega
  have := ihsLoop_go seq_id rest g1 g.nodes.length g.nodes.length hval1 h1
  rw [this]
  rw [hg1]
  simp only [List.append_assoc, Prod.mk.injEq, POAGraph.mk.injEq]
  refine ⟨⟨by simp [chainNodes], ?_⟩, trivial⟩
  congr 1
  rw [chainEdges]
  simp only [List.length_cons, Nat.add_sub_cancel]
  apply List.map_congr_left
  intro k _
  rw [POAEdge.mk.injEq]
  refine ⟨by omega, by omega, rfl⟩

/-! ## Concrete symbols shared by the examples below -/

def gf1 : PoaElt := PoaElt.geneFamily 1
def gf2 : PoaElt := PoaElt.geneFamily 2
def gf3 : PoaElt := PoaElt.geneFamily 3
def gf4 : PoaElt := PoaElt.geneFamily 4

/-! ## C3 — match score -/

/-- C3: for every node value set and sequence symbol, the match score used by
the DP (`build_matrix`, which calls `matchScore` in both predecessor passes)
and by the backtracking of `affine_sw` is: 100 when the symbol is present
among the node's contributed symbols and is the `Marker`; the configured
`matches` score when it is present and is not the `Marker`; and the
configured `mismatches` score when it is not present — in particular a
`Marker` absent from the node scores as a mismatch, not 100. -/
theorem matchScore_cases (vals : List Nucleotide) (sym : Nucleotide) (m n : Int) :
    (sym ∈ vals → sym = PoaElt.Marker → matchScore vals sym m n = 100) ∧
    (sym ∈ vals → sym ≠ PoaElt.Marker → matchScore vals sym m n = m) ∧
    (sym ∉ vals → matchScore vals sym m n = n) := by
  refine ⟨fun h1 h2 => ?_, fun h1 h2 => ?_, fun h1 => ?_⟩
  · subst h2; simp [matchScore, h1]
  · simp [matchScore, h1, h2]
  · simp [matchScore, h1]

theorem matchScore_cases_witness :
    (PoaElt.Marker ∈ [gf1, PoaElt.Marker] ∧
      matchScore [gf1, PoaElt.Marker] PoaElt.Marker 10 0 = 100) ∧
    (gf1 ∈ [gf1, PoaElt.Marker] ∧ gf1 ≠ PoaElt.Marker ∧
      matchScore [gf1, PoaElt.Marker] gf1 10 0 = 10) ∧
    (PoaElt.Marker ∉ [gf1, gf2] ∧ matchScore [gf1, gf2] PoaElt.Marker 10 0 = 0) :=
  ⟨⟨by decide, (matchScore_cases [gf1, PoaElt.Marker] PoaElt.Marker 10 0).1
      (by decide) (by decide)⟩,
   ⟨by decide, by decide, (matchScore_cases [gf1, PoaElt.Marker] gf1 10 0).2.1
      (by decide) (by decide)⟩,
   ⟨by decide, (matchScore_cases [gf1, gf2] PoaElt.Marker 10 0).2.2 (by decide)⟩⟩

/-! ## C8 — `insert_hanging_seq` -/

def seqA : Sequence := [gf1, PoaElt.Marker, gf2]

def seqB : Sequence := [gf2, PoaElt.Marker, gf1]

/-- The graph after seeding sequence A (id 0). -/
def GA : POAGraph :=
  { nodes := [⟨[(0, gf1)]⟩, ⟨[(0, PoaElt.Marker)]⟩, ⟨[(0, gf2)]⟩],
    edges := [⟨0, 1, [0]⟩, ⟨1, 2, [0]⟩] }

/-- C4: for each sequence after the first, `align` runs the aligner on the
sequence as given and on its reversal against the current graph and grafts
the orientation with the higher score (ties to the direct one); on
`{A: [g1,Marker,g2], B: [g2,Marker,g1]}` the reverse of B scores 120 against
A's seeded graph while B forward scores 100, so B's reverse is grafted,
yielding a 3-node graph in which every node is shared by A and B. -/
theorem align_orientation_selection :
    (∀ (g : POAGraph) (id : SeqID) (seq : Sequence) (ds rs : Int)
        (da ra : Alignment),
      affineSW g seq alignSettings = some (ds, da) →
      affineSW g seq.reverse alignSettings = some (rs, ra) →
      (ds ≥ rs → alignStep g id seq = addAlignment g da seq id) ∧
      (rs > ds → alignStep g id seq = addAlignment g ra seq.reverse id)) ∧
    (affineSW GA seqB alignSettings).map (·.1) = some 100 ∧
    (affineSW GA seqB.reverse alignSettings).map (·.1) = some 120 ∧
    align [(0, seqA), (1, seqB)] =
      some ({ nodes := [⟨[(0, gf1), (1, gf1)]⟩,
                        ⟨[(0, PoaElt.Marker), (1, PoaElt.Marker)]⟩,
                        ⟨[(0, gf2), (1, gf2)]⟩],
              edges := [⟨0, 1, [0, 1]⟩, ⟨1, 2, [0, 1]⟩] },
            [(0, 0), (1, 0)]) ∧
    (∀ r, align [(0, seqA), (1, seqB)] = some r →
      r.1.nodes.length = 3 ∧
      ∀ nd ∈ r.1.nodes, (nucsLookup nd.nucs 0).isSome ∧ (nucsLookup nd.nucs 1).isSome) := by
  refine ⟨?_, by decide, by decide, by decide, by decide⟩
  intro g id seq ds rs da ra h1 h2
  have hstep : alignStep g id seq =
      if ds ≥ rs then addAlignment g da seq id
      else addAlignment g ra seq.reverse id := by
    simp only [alignStep]
    rw [h1, h2]
  refine ⟨fun hge => ?_, fun hgt => ?_⟩
  · rw [hstep, if_pos hge]
  · rw [hstep, if_neg (not_le.mpr hgt)]

theorem align_orientation_selection_witness :
    (affineSW GA seqB alignSettings =
      some (100, ([some 0, some 1, some 2], [some 0, some 1, some 2]))) ∧
    (affineSW GA seqB.reverse alignSettings =
      some (120, ([some 0, some 1, some 2], [some 0, some 1, some 2]))) ∧
    (120 : Int) > 100 ∧
    alignStep GA 1 seqB =
      addAlignment GA ([some 0, some 1, some 2], [some 0, some 1, some 2])
        seqB.reverse 1 := by
  refine ⟨by decide, by decide, by decide, ?_⟩
  exact (align_orientation_selection.1 GA 1 seqB 100 120
    ([some 0, some 1, some 2], [some 0, some 1, some 2])
    ([some 0, some 1, some 2], [some 0, some 1, some 2])
    (by decide) (by decide)).2 (by decide)

/-! ## C2 — determinism / order dependence -/

def s12 : List (SeqID × Sequence) := [(0, [gf1, gf2]), (1, [gf2, gf1])]

def s21 : List (SeqID × Sequence) := [(1, [gf2, gf1]), (0, [gf1, gf2])]

/-- C2 counterexample: the two inputs are the same map (a permutation of the
same key-value pairs), yet `align` yields structurally different graphs —
with iteration order `s12` node 0 holds `g1` for both sequences, with `s21`
it holds `g2` (the stable length-sort leaves the equal-length tie to the
iteration order). -/
theorem align_order_dependent :
    s12.Perm s21 ∧ align s12 ≠ align s21 := by
  constructor
  · decide
  · decide

/-- Ordering by descending sequence length (the sort comparator). -/
def rLen (a b : SeqID × Sequence) : Prop := b.2.length ≤ a.2.length

theorem insDesc_perm (x : SeqID × Sequence) (l : List (SeqID × Sequence)) :
    (insDesc x l).Perm (x :: l) := by
  induction l with
  | nil => simp [insDesc]
  | cons y ys ih =>
    rw [insDesc]
    by_cases h : x.2.length < y.2.length
    · rw [if_pos h]
      exact (ih.cons y).trans (List.Perm.swap x y ys)
    · rw [if_neg h]

theorem sortSeqs_perm (l : List (SeqID × Sequence)) : (sortSeqs l).Perm l := by
  induction l with
  | nil => simp [sortSeqs]
  | cons x xs ih =>
    rw [sortSeqs]
    exact (insDesc_perm x (sortSeqs xs)).trans (ih.cons x)

theorem mem_insDesc {z x : SeqID × Sequence} {l : List (SeqID × Sequence)}
    (h : z ∈ insDesc x l) : z = x ∨ z ∈ l := by
  have := (insDesc_perm x l).mem_iff.mp h
  simpa using this

theorem insDesc_sorted (x : SeqID × Sequence) (l : List (SeqID × Sequence))
    (h : l.Pairwise rLen) : (insDesc x l).Pairwise rLen := by
  induction l with
  | nil => simp [insDesc, List.pairwise_singleton]
  | cons y ys ih =>
    rw [insDesc]
    rcases List.pairwise_cons.mp h with ⟨hy, hys⟩
    by_cases hlt : x.2.length < y.2.length
    · rw [if_pos hlt]
      refine List.pairwise_cons.mpr ⟨?_, ih hys⟩
      intro z hz
      rcases mem_insDesc hz with rfl | hz
      · exact le_of_lt hlt
      · exact hy z hz
    · rw [if_neg hlt]
      refine List.pairwise_cons.mpr ⟨?_, h⟩
      intro z hz
      rcases List.mem_cons.mp hz with rfl | hz
      · exact le_of_not_lt hlt
      · exact le_trans (hy z hz) (le_of_not_lt hlt)

theorem sortSeqs_sorted (l : List (SeqID × Sequence)) :
    (sortSeqs l).Pairwise rLen := by
  induction l with
  | nil => simp [sortSeqs]
  | cons x xs ih => exact insDesc_sorted x (sortSeqs xs) ih

/-- C2 amended: `align` is a pure function of the iteration order, and the
result is independent of the iteration order whenever all sequence lengths
are pairwise distinct (the stable descending-length sort then admits a
unique result); with equal-length ties the result depends on the order, as
the counterexample shows. -/
theorem align_deterministic_of_distinct_lengths
    (s1 s2 : List (SeqID × Sequence)) (hperm : s1.Perm s2)
    (hnodup : (s1.map (fun p => p.2.length)).Nodup) :
    align s1 = align s2 := by
  have hkey : sortSeqs s1 = sortSeqs s2 := by
    have hp : (sortSeqs s1).Perm (sortSeqs s2) :=
      (sortSeqs_perm s1).trans (hperm.trans (sortSeqs_perm s2).symm)
    have hn1 : ((sortSeqs s1).map (fun p => p.2.length)).Nodup :=
      (((sortSeqs_perm s1).map (fun p => p.2.length)).nodup_iff).mpr hnodup
    have hn2 : ((sortSeqs s2).map (fun p => p.2.length)).Nodup := by
      refine (((sortSeqs_perm s2).map (fun p => p.2.length)).nodup_iff).mpr ?_
      exact ((hperm.map (fun p => p.2.length)).nodup_iff).mp hnodup
    have hlt1 : (sortSeqs s1).Pairwise (fun a b => b.2.length < a.2.length) := by
      have := (sortSeqs_sorted s1).and (List.pairwise_map.mp hn1)
      exact this.imp (fun hab => lt_of_le_of_ne hab.1 (fun he => hab.2 he.symm))
    have hlt2 : (sortSeqs s2).Pairwise (fun a b => b.2.length < a.2.length) := by
      have := (sortSeqs_sorted s2).and (List.pairwise_map.mp hn2)
      exact this.imp (fun hab => lt_of_le_of_ne hab.1 (fun he => hab.2 he.symm))
    haveI : IsAntisymm (SeqID × Sequence) (fun a b => b.2.length < a.2.length) :=
      ⟨fun a b h1 h2 => absurd (h1.trans h2) (lt_irrefl _)⟩
    exact List.eq_of_perm_of_sorted hp hlt1 hlt2
  show alignLoop (sortSeqs s1).enum _ _ = alignLoop (sortSeqs s2).enum _ _
  rw [hkey]

theorem align_deterministic_of_distinct_lengths_witness :
    ([(0, [gf1]), (1, [gf2, gf3])] : List (SeqID × Sequence)).Perm
      [(1, [gf2, gf3]), (0, [gf1])] ∧
    (([(0, [gf1]), (1, [gf2, gf3])] : List (SeqID × Sequence)).map
      (fun p => p.2.length)).Nodup ∧
    align [(0, [gf1]), (1, [gf2, gf3])] = align [(1, [gf2, gf3]), (0, [gf1])] :=
  ⟨by decide, by decide,
    align_deterministic_of_distinct_lengths _ _ (by decide) (by decide)⟩

/-! ## C9 — partiality of `add_alignment` -/

theorem updateEdge_nodes (g : POAGraph) (a b : Option Nat) (l : SeqID) :
    (updateEdge g a b l).nodes = g.nodes := by
  cases a <;> cases b <;> rfl

theorem ihsLoop_nodes_length (seq_id : SeqID) (seq : List Nucleotide) :
    ∀ g f l, ((ihsLoop seq_id seq g f l).1).nodes.length =
      g.nodes.length + seq.length := by
  induction seq with
  | nil => intro g f l; simp [ihsLoop]
  | cons n rest ih =>
    intro g f l
    rw [ihsLoop]
    simp only [addNode]
    rw [ih]
    split
    · rw [updateEdge_nodes]
      simp only [List.length_append, List.length_cons, List.length_nil]
      omega
    · simp only [List.length_append, List.length_cons, List.length_nil]
      omega

theorem insertHangingSeq_fst (g : POAGraph) (seq : List Nucleotide)
    (seq_id : SeqID) (h : seq ≠ []) :
    (insertHangingSeq g seq seq_id).1 = (ihsLoop seq_id seq g none none).1 := by
  rw [insertHangingSeq, if_neg h]
  rcases hE : ihsLoop seq_id seq g none none with ⟨g', f?, l?⟩
  cases f? <;> cases l? <;> simp

theorem insertHangingSeq_nodes_length (g : POAGraph) (seq : List Nucleotide)
    (seq_id : SeqID) :
    ((insertHangingSeq g seq seq_id).1).nodes.length =
      g.nodes.length + seq.length := by
  by_cases h : seq = []
  · subst h; simp [insertHangingSeq]
  · rw [insertHangingSeq_fst g seq seq_id h, ihsLoop_nodes_length]

theorem aaLoop_ok (seq_id : SeqID) (seq : Sequence)
    (l : List (Option Nat × Option Nat)) :
    ∀ (g : POAGraph) (f h : Option Nat),
    (∀ p ∈ l, ∀ k, p.1 = some k → k < seq.length) →
    (∀ p ∈ l, ∀ gi, p.2 = some gi → gi < g.nodes.length) →
    ∃ g' f' h', aaLoop seq_id seq l g f h = some (g', f', h') ∧
      g.nodes.length ≤ g'.nodes.length ∧
      ((f.isSome = true ∨ l.any (fun p => p.1.isSome) = true) → f'.isSome = true) := by
  induction l with
  | nil =>
    intro g f h _ _
    refine ⟨g, f, h, rfl, le_refl _, fun hc => ?_⟩
    rcases hc with hc | hc
    · exact hc
    · simp at hc
  | cons p rest ih =>
    intro g f h hseq hg
    rcases p with ⟨s?, g?⟩
    cases s? with
    | none =>
      rw [aaLoop]
      obtain ⟨g', f', h', heq, hle, hsome⟩ := ih g f h
        (fun q hq => hseq q (List.mem_cons_of_mem _ hq))
        (fun q hq => hg q (List.mem_cons_of_mem _ hq))
      refine ⟨g', f', h', heq, hle, fun hc => hsome ?_⟩
      rcases hc with hc | hc
      · exact Or.inl hc
      · rw [List.any_cons] at hc
        simp only [Option.isSome_none, Bool.false_or] at hc
        exact Or.inr hc
    | some k =>
      have hk : k < seq.length :=
        hseq (some k, g?) (List.mem_cons_self _ _) k rfl
      have hget : seq.get? k = some (seq.get ⟨k, hk⟩) := List.get?_eq_get hk
      cases g? with
      | none =>
        have hred : aaLoop seq_id seq ((some k, none) :: rest) g f h =
            aaLoop seq_id seq rest
              (updateEdge { g with nodes := g.nodes ++ [⟨[(seq_id, seq.get ⟨k, hk⟩)]⟩] }
                h (some g.nodes.length) seq_id)
              (if f.isNone then some g.nodes.length else f)
              (some g.nodes.length) := by
          rw [aaLoop]
          simp only [hget, addNode]
        rw [hred]
        obtain ⟨g', f', h', heq, hle, hsome⟩ := ih
          (updateEdge { g with nodes := g.nodes ++ [⟨[(seq_id, seq.get ⟨k, hk⟩)]⟩] }
            h (some g.nodes.length) seq_id)
          (if f.isNone then some g.nodes.length else f) (some g.nodes.length)
          (fun q hq => hseq q (List.mem_cons_of_mem _ hq))
          (fun q hq gi hgi => lt_of_lt_of_le
            (hg q (List.mem_cons_of_mem _ hq) gi hgi)
            (by rw [updateEdge_nodes]; simp))
        have hle2 : g.nodes.length ≤ g'.nodes.length := by
          refine le_trans ?_ hle
          rw [updateEdge_nodes]; simp
        refine ⟨g', f', h', heq, hle2, fun _ => hsome (Or.inl ?_)⟩
        cases f <;> simp
      | some gid =>
        have hgid : gid < g.nodes.length :=
          hg (some k, some gid) (List.mem_cons_self _ _) gid rfl
        have hnd : g.nodes.get? gid = some (g.nodes.get ⟨gid, hgid⟩) :=
          List.get?_eq_get hgid
        have hred : aaLoop seq_id seq ((some k, some gid) :: rest) g f h =
            aaLoop seq_id seq rest
              (updateEdge { g with nodes := (g.nodes.set gid
                  (POANode.mk (nucsInsert (g.nodes.get ⟨gid, hgid⟩).nucs seq_id (seq.get ⟨k, hk⟩)))) }
                h (some gid) seq_id)
              (if f.isNone then some gid else f) (some gid) := by
          rw [aaLoop]
          simp only [hget, hnd]
        rw [hred]
        obtain ⟨g', f', h', heq, hle, hsome⟩ := ih
          (updateEdge { g with nodes := (g.nodes.set gid
              (POANode.mk (nucsInsert (g.nodes.get ⟨gid, hgid⟩).nucs seq_id (seq.get ⟨k, hk⟩)))) }
            h (some gid) seq_id)
          (if f.isNone then some gid else f) (some gid)
          (fun q hq => hseq q (List.mem_cons_of_mem _ hq))
          (fun q hq gi hgi => lt_of_lt_of_le
            (hg q (List.mem_cons_of_mem _ hq) gi hgi)
            (by rw [updateEdge_nodes]; simp))
        have hle2 : g.nodes.length ≤ g'.nodes.length := by
          refine le_trans ?_ hle
          rw [updateEdge_nodes]; simp
        refine ⟨g', f', h', heq, hle2, fun _ => hsome (Or.inl ?_)⟩
        cases f <;> simp

/-- C9 counterexample: `([none], [some 5])` is a non-empty trace with a
`Some` sequence position, yet `add_alignment` panics (slicing
`seq[0..5]` of the empty sequence) instead of returning a head node. -/
theorem addAlignment_counterexample :
    (([none], [some 5]) : Alignment).1 ≠ [] ∧
    (([none], [some 5]) : Alignment).2.any (fun o => o.isSome) = true ∧
    addAlignment POAGraph.emptyGraph ([none], [some 5]) [] 7 = none := by
  refine ⟨by decide, by decide, by decide⟩

/-- C9 amended: for a non-empty trace with at least one consumed sequence
position, `add_alignment` returns a head node provided additionally that the
trace rows are index-aligned (equal lengths), every consumed sequence
position is in bounds of `seq`, and every named graph node exists; a
non-empty trace whose `seq_steps` are all `None` panics at
`valid_seq_idxs[0]`. -/
theorem addAlignment_totality (g : POAGraph) (al : Alignment) (seq : Sequence)
    (seq_id : SeqID) :
    (al.1 ≠ [] → al.2.length = al.1.length →
     al.2.any (fun o => o.isSome) = true →
     (∀ k, some k ∈ al.2 → k < seq.length) →
     (∀ gi, some gi ∈ al.1 → gi < g.nodes.length) →
     ∃ g' hd, addAlignment g al seq seq_id = some (g', some hd)) ∧
    (al.1 ≠ [] → al.2.filterMap id = [] →
     addAlignment g al seq seq_id = none) := by
  constructor
  · intro hne hlen hsome hseq hg
    obtain ⟨o, ho, hos⟩ := List.any_eq_true.mp hsome
    obtain ⟨k0, rfl⟩ := Option.isSome_iff_exists.mp hos
    have hk0 : k0 ∈ al.2.filterMap id := List.mem_filterMap.mpr ⟨some k0, ho, rfl⟩
    rw [addAlignment]
    rw [if_neg hne]
    rcases hval : al.2.filterMap id with _ | ⟨startIdx, vrest⟩
    · rw [hval] at hk0; exact absurd hk0 (List.not_mem_nil k0)
    · have hstartmem : some startIdx ∈ al.2 := by
        have : startIdx ∈ al.2.filterMap id := by
          rw [hval]; exact List.mem_cons_self _ _
        obtain ⟨o', ho', ho''⟩ := List.mem_filterMap.mp this
        cases o' with
        | none => simp at ho''
        | some x => cases ho''; exact ho'
      have hstart : startIdx < seq.length := hseq startIdx hstartmem
      have hlead : ∃ g1 f0 h0, aaLead g seq seq_id startIdx = some (g1, f0, h0) ∧
          g.nodes.length ≤ g1.nodes.length := by
        rw [aaLead]
        by_cases h0 : startIdx > 0
        · rw [if_pos h0, if_pos (le_of_lt hstart)]
          rcases hr : (insertHangingSeq g (seq.take startIdx) seq_id).2 with _ | fl
          · exact ⟨(insertHangingSeq g (seq.take startIdx) seq_id).1, none, none,
              by simp only [hr],
              by rw [insertHangingSeq_nodes_length]; omega⟩
          · exact ⟨(insertHangingSeq g (seq.take startIdx) seq_id).1,
              some fl.1, some fl.2,
              by simp only [hr],
              by rw [insertHangingSeq_nodes_length]; omega⟩
        · rw [if_neg h0]
          exact ⟨g, none, none, rfl, le_refl _⟩
      obtain ⟨g1, f0, h0, hleadEq, hlead_le⟩ := hlead
      simp only [hleadEq]
      have htrail_le : g1.nodes.length ≤
          (aaTrail g1 seq seq_id ((startIdx :: vrest).getLastD 0)).1.nodes.length := by
        rw [aaTrail]
        split
        · rw [insertHangingSeq_nodes_length]; omega
        · exact le_refl _
      have hzip_any : (al.2.zip al.1).any (fun p => p.1.isSome) = true := by
        obtain ⟨idx, hidx⟩ := List.mem_iff_get.mp ho
        have hidx2 : idx.1 < (al.2.zip al.1).length := by
          rw [List.length_zip]
          have := idx.2
          omega
        refine List.any_eq_true.mpr ⟨(al.2.zip al.1).get ⟨idx.1, hidx2⟩,
          List.get_mem _ _ hidx2, ?_⟩
        have : (al.2.zip al.1).get ⟨idx.1, hidx2⟩ =
            (al.2.get idx, al.1.get ⟨idx.1, by have := idx.2; omega⟩) := by
          apply List.get_zip
        rw [this, hidx]
        rfl
      obtain ⟨g', f', h', heq, hle, hsomeF⟩ :=
        aaLoop_ok seq_id seq (al.2.zip al.1)
          (aaTrail g1 seq seq_id ((startIdx :: vrest).getLastD 0)).1 f0 h0
          (fun p hp k hk => hseq k (by
            have := (List.mem_zip hp).1
            rw [hk] at this
            exact this))
          (fun p hp gi hgi => by
            have := (List.mem_zip hp).2
            rw [hgi] at this
            exact lt_of_lt_of_le (hg gi this) (le_trans hlead_le htrail_le))
      simp only [heq]
      have hf' : f'.isSome = true := hsomeF (Or.inr hzip_any)
      obtain ⟨fd, hfd⟩ := Option.isSome_iff_exists.mp hf'
      simp only [hfd]
      exact ⟨_, fd, rfl⟩
  · intro hne hfm
    rw [addAlignment, if_neg hne, hfm]

theorem addAlignment_totality_witness :
    ((([none], [some 0]) : Alignment).1 ≠ [] ∧
     (([none], [some 0]) : Alignment).2.length = (([none], [some 0]) : Alignment).1.length ∧
     (([none], [some 0]) : Alignment).2.any (fun o => o.isSome) = true ∧
     (∃ g' hd, addAlignment POAGraph.emptyGraph ([none], [some 0]) [gf1] 3 =
        some (g', some hd))) ∧
    ((([none], [none]) : Alignment).1 ≠ [] ∧
     (([none], [none]) : Alignment).2.filterMap id = [] ∧
     addAlignment POAGraph.emptyGraph ([none], [none]) [gf1] 3 = none) := by
  refine ⟨⟨by decide, by decide, by decide, ?_⟩, ⟨by decide, by decide, ?_⟩⟩
  · exact (addAlignment_totality POAGraph.emptyGraph ([none], [some 0]) [gf1] 3).1
      (by decide) (by decide) (by decide)
      (by intro k hk; have hk0 : k = 0 := by simpa using hk
          subst hk0; decide)
      (by intro gi hgi; simp at hgi)
  · exact (addAlignment_totality POAGraph.emptyGraph ([none], [none]) [gf1] 3).2
      (by decide) (by decide)

/-! ## DP matrix infrastructure (shared by the boundary-column and
termination claims) -/

theorem mupd_self (M : Nat → Int) (k : Nat) (v : Int) : mupd M k v k = v := by
  simp [mupd]

theorem mupd_other (M : Nat → Int) (k : Nat) (v : Int) (p : Nat) (h : p ≠ k) :
    mupd M k v p = M p := by
  simp [mupd, h]

/-- Generic frame lemma: a fold whose every step only writes inside `S`
preserves every cell outside `S`. -/
theorem foldl_frame {α : Type} (step : Mats → α → Mats) (S : Nat → Prop)
    (l : List α)
    (hstep : ∀ M a, a ∈ l → ∀ p, ¬ S p →
      (step M a).H p = M.H p ∧ (step M a).F p = M.F p ∧ (step M a).E p = M.E p) :
    ∀ (M : Mats) (p : Nat), ¬ S p →
      (l.foldl step M).H p = M.H p ∧ (l.foldl step M).F p = M.F p ∧
      (l.foldl step M).E p = M.E p := by
  induction l with
  | nil => intro M p _; exact ⟨rfl, rfl, rfl⟩
  | cons a rest ih =>
    intro M p hp
    rcases hstep M a (List.mem_cons_self _ _) p hp with ⟨h1, h2, h3⟩
    rcases ih (fun M b hb => hstep M b (List.mem_cons_of_mem _ hb)) (step M a) p hp
      with ⟨k1, k2, k3⟩
    exact ⟨k1.trans h1, k2.trans h2, k3.trans h3⟩

/-- A row cell `(r+1)*w + j` (with `1 ≤ j < w`) is never a column-0 cell
`(v+1)*w`. -/
theorem row_cell_ne_col0 (w r v j : Nat) (h1 : 1 ≤ j) (h2 : j < w) :
    (v + 1) * w ≠ (r + 1) * w + j := by
  intro he
  rcases le_or_lt v r with h | h
  · have : (v + 1) * w ≤ (r + 1) * w := Nat.mul_le_mul_right w (by omega)
    omega
  · have h3 : (r + 2) * w ≤ (v + 1) * w := Nat.mul_le_mul_right w (by omega)
    have h4 : (r + 2) * w = (r + 1) * w + w := by ring
    omega

/-- `bmRow0` only writes `F`/`E` at indices `1 ≤ p < w` and never writes `H`. -/
theorem bmRow0_frame (w : Nat) (s : AffineNWSettings) (M : Mats) (p : Nat)
    (hp : ¬ (1 ≤ p ∧ p < w)) :
    (bmRow0 w s M).H p = M.H p ∧ (bmRow0 w s M).F p = M.F p ∧
    (bmRow0 w s M).E p = M.E p := by
  refine foldl_frame _ (fun q => 1 ≤ q ∧ q < w) _ ?_ M p hp
  intro M a ha q hq
  have haw : 1 ≤ a ∧ a < w := by
    have := List.mem_range'_1.mp ha
    omega
  have hqa : q ≠ a := fun h => hq (h ▸ haw)
  exact ⟨rfl, mupd_other _ _ _ _ hqa, mupd_other _ _ _ _ hqa⟩

/-- `bmCol0` only writes `F`/`E` at column-0 cells `i*w` with `i ≥ 1`, and
never writes `H`. -/
theorem bmCol0_frame (g : POAGraph) (s : AffineNWSettings) (ranksInv : Nat → Nat)
    (w h : Nat) (M : Mats) (p : Nat)
    (hp : ∀ i, 1 ≤ i → p ≠ i * w) :
    (bmCol0 g s ranksInv w h M).H p = M.H p ∧
    (bmCol0 g s ranksInv w h M).F p = M.F p ∧
    (bmCol0 g s ranksInv w h M).E p = M.E p := by
  refine foldl_frame _ (fun q => ∃ i, 1 ≤ i ∧ q = i * w) _ ?_ M p
    (fun ⟨i, hi, he⟩ => hp i hi he)
  intro M a ha q hq
  have haw : 1 ≤ a := by
    have := List.mem_range'_1.mp ha
    omega
  have hqa : q ≠ a * w := fun h => hq ⟨a, haw, h⟩
  exact ⟨rfl, mupd_other _ _ _ _ hqa, mupd_other _ _ _ _ hqa⟩

/-- `bmHInit` never writes `F` or `E`. -/
theorem bmHInit_FE (w h : Nat) (M : Mats) :
    (bmHInit w h M).F = M.F ∧ (bmHInit w h M).E = M.E := by
  rw [bmHInit]
  have step1 : ∀ (l : List Nat) (M : Mats),
      ((l.foldl (fun M j => { M with H := mupd M.H j (M.E j) }) M).F = M.F ∧
       (l.foldl (fun M j => { M with H := mupd M.H j (M.E j) }) M).E = M.E) := by
    intro l
    induction l with
    | nil => intro M; exact ⟨rfl, rfl⟩
    | cons a rest ih => intro M; exact ih _
  have step2 : ∀ (l : List Nat) (M : Mats),
      ((l.foldl (fun M i => { M with H := mupd M.H (i * w) (M.F (i * w)) }) M).F = M.F ∧
       (l.foldl (fun M i => { M with H := mupd M.H (i * w) (M.F (i * w)) }) M).E = M.E) := by
    intro l
    induction l with
    | nil => intro M; exact ⟨rfl, rfl⟩
    | cons a rest ih => intro M; exact ih _
  rcases step1 (List.range' 1 (w - 1)) M with ⟨f1, e1⟩
  rcases step2 (List.range' 1 (h - 1))
    ((List.range' 1 (w - 1)).foldl (fun M j => { M with H := mupd M.H j (M.E j) }) M)
    with ⟨f2, e2⟩
  exact ⟨f2.trans f1, e2.trans e1⟩

/-- Row membership predicate for the cells a main-loop pass may write. -/
def rowCells (row w : Nat) (q : Nat) : Prop := ∃ j, 1 ≤ j ∧ j < w ∧ q = row + j

theorem bmPassA_frame (g : POAGraph) (seq : Sequence) (s : AffineNWSettings)
    (w : Nat) (node_id row pred_row : Nat) (M : Mats) (p : Nat)
    (hp : ¬ rowCells row w p) :
    (bmPassA g seq s w node_id row pred_row M).H p = M.H p ∧
    (bmPassA g seq s w node_id row pred_row M).F p = M.F p ∧
    (bmPassA g seq s w node_id row pred_row M).E p = M.E p := by
  refine foldl_frame _ (rowCells row w) _ ?_ M p hp
  intro M a ha q hq
  have haw : 1 ≤ a ∧ a < w := by
    have := List.mem_range'_1.mp ha
    omega
  have hqa : q ≠ row + a := fun h => hq ⟨a, haw.1, haw.2, h⟩
  exact ⟨mupd_other _ _ _ _ hqa, mupd_other _ _ _ _ hqa, rfl⟩

theorem bmPassB_frame (g : POAGraph) (seq : Sequence) (s : AffineNWSettings)
    (ranksInv : Nat → Nat) (w : Nat) (node_id row : Nat) (preds : List POAEdge)
    (M : Mats) (p : Nat) (hp : ¬ rowCells row w p) :
    (bmPassB g seq s ranksInv w node_id row preds M).H p = M.H p ∧
    (bmPassB g seq s ranksInv w node_id row preds M).F p = M.F p ∧
    (bmPassB g seq s ranksInv w node_id row preds M).E p = M.E p := by
  refine foldl_frame _ (rowCells row w) _ ?_ M p hp
  intro M e _ q hq
  refine foldl_frame _ (rowCells row w) _ ?_ M q hq
  intro M a ha q' hq'
  have haw : 1 ≤ a ∧ a < w := by
    have := List.mem_range'_1.mp ha
    omega
  have hqa : q' ≠ row + a := fun h => hq' ⟨a, haw.1, haw.2, h⟩
  exact ⟨mupd_other _ _ _ _ hqa, mupd_other _ _ _ _ hqa, rfl⟩

theorem bmPassC_frame (s : AffineNWSettings) (w row : Nat) (M : Mats) (p : Nat)
    (hp : ¬ rowCells row w p) :
    (bmPassC s w row M).H p = M.H p ∧ (bmPassC s w row M).F p = M.F p ∧
    (bmPassC s w row M).E p = M.E p := by
  refine foldl_frame _ (rowCells row w) _ ?_ M p hp
  intro M a ha q hq
  have haw : 1 ≤ a ∧ a < w := by
    have := List.mem_range'_1.mp ha
    omega
  have hqa : q ≠ row + a := fun h => hq ⟨a, haw.1, haw.2, h⟩
  exact ⟨mupd_other _ _ _ _ hqa, rfl, mupd_other _ _ _ _ hqa⟩

theorem bmMainNode_eq (g : POAGraph) (seq : Sequence) (s : AffineNWSettings)
    (ranksInv : Nat → Nat) (w : Nat) (M : Mats) (v : Nat) :
    bmMainNode g seq s ranksInv w M v =
      bmPassC s w ((ranksInv v + 1) * w)
        (bmPassB g seq s ranksInv w v ((ranksInv v + 1) * w) (incomingEdges g v)
          (bmPassA g seq s w v ((ranksInv v + 1) * w)
            ((match incomingEdges g v with
              | [] => 0
              | p :: _ => ranksInv p.src + 1) * w) M)) := rfl

/-- `bmMainNode` writes only inside its node's row. -/
theorem bmMainNode_frame (g : POAGraph) (seq : Sequence) (s : AffineNWSettings)
    (ranksInv : Nat → Nat) (w : Nat) (M : Mats) (v : Nat) (p : Nat)
    (hp : ¬ rowCells ((ranksInv v + 1) * w) w p) :
    (bmMainNode g seq s ranksInv w M v).H p = M.H p ∧
    (bmMainNode g seq s ranksInv w M v).F p = M.F p ∧
    (bmMainNode g seq s ranksInv w M v).E p = M.E p := by
  rw [bmMainNode_eq]
  rcases bmPassA_frame g seq s w v ((ranksInv v + 1) * w)
    ((match incomingEdges g v with
      | [] => 0
      | p :: _ => ranksInv p.src + 1) * w) M p hp with ⟨a1, a2, a3⟩
  rcases bmPassB_frame g seq s ranksInv w v ((ranksInv v + 1) * w)
    (incomingEdges g v) _ p hp with ⟨b1, b2, b3⟩
  rcases bmPassC_frame s w ((ranksInv v + 1) * w) _ p hp with ⟨c1, c2, c3⟩
  exact ⟨(c1.trans b1).trans a1, (c2.trans b2).trans a2, (c3.trans b3).trans a3⟩

/-! ## C7 — boundary column of the DP matrices -/

/-- Depth of the chain following only *first* predecessors (the claim's
"(first-)predecessor chain": `preds[0]` is the most recently added incoming
edge). -/
def firstChainDepth (g : POAGraph) : Nat → Nat → Nat
  | 0, _ => 1
  | fuel + 1, v =>
    match incomingEdges g v with
    | [] => 1
    | p :: _ => 1 + firstChainDepth g fuel p.src

/-- Length (in nodes) of a *shortest* predecessor chain from a source to `v`
(what the code's max-over-predecessors recurrence computes for
non-positive `extend_gap`). -/
def minChainDepth (g : POAGraph) : Nat → Nat → Nat
  | 0, _ => 1
  | fuel + 1, v =>
    match (incomingEdges g v).map (fun e => minChainDepth g fuel e.src) with
    | [] => 1
    | d :: ds => 1 + ds.foldl min d

theorem mem_incomingEdges {g : POAGraph} {v : Nat} {e : POAEdge} :
    e ∈ incomingEdges g v ↔ e ∈ g.edges ∧ e.tgt = v := by
  simp [incomingEdges, List.mem_reverse, List.mem_filter]

theorem mem_outgoingEdges {g : POAGraph} {v : Nat} {e : POAEdge} :
    e ∈ outgoingEdges g v ↔ e ∈ g.edges ∧ e.src = v := by
  simp [outgoingEdges, List.mem_reverse, List.mem_filter]

theorem foldl_min_le_init : ∀ (l : List Nat) (a : Nat), l.foldl min a ≤ a := by
  intro l
  induction l with
  | nil => intro a; exact le_refl a
  | cons x xs ih =>
    intro a
    exact le_trans (ih (min a x)) (min_le_left a x)

theorem minChainDepth_stable (g : POAGraph)
    (hfwd : ∀ e ∈ g.edges, e.src < e.tgt) :
    ∀ v fuel1 fuel2, v < fuel1 → v < fuel2 →
    minChainDepth g fuel1 v = minChainDepth g fuel2 v := by
  intro v
  induction v using Nat.strong_induction_on with
  | _ v ih =>
    intro fuel1 fuel2 h1 h2
    obtain ⟨f1, rfl⟩ : ∃ f, fuel1 = f + 1 := ⟨fuel1 - 1, by omega⟩
    obtain ⟨f2, rfl⟩ : ∃ f, fuel2 = f + 1 := ⟨fuel2 - 1, by omega⟩
    rw [minChainDepth, minChainDepth]
    have hmap : (incomingEdges g v).map (fun e => minChainDepth g f1 e.src) =
        (incomingEdges g v).map (fun e => minChainDepth g f2 e.src) := by
      apply List.map_congr_left
      intro e he
      have hev := mem_incomingEdges.mp he
      have hsrc : e.src < v := by
        have := hfwd e hev.1
        omega
      exact ih e.src hsrc f1 f2 (by omega) (by omega)
    rw [hmap]

theorem minChainDepth_le (g : POAGraph)
    (hfwd : ∀ e ∈ g.edges, e.src < e.tgt) :
    ∀ v fuel, minChainDepth g fuel v ≤ v + 1 := by
  intro v
  induction v using Nat.strong_induction_on with
  | _ v ih =>
    intro fuel
    cases fuel with
    | zero => rw [minChainDepth]; omega
    | succ f =>
      rw [minChainDepth]
      rcases hinc : incomingEdges g v with _ | ⟨e0, es⟩
      · simp
      · simp only [List.map_cons]
        have he0 : e0.src < v := by
          have hev := mem_incomingEdges.mp (hinc ▸ List.mem_cons_self e0 es)
          have := hfwd e0 hev.1
          omega
        have hd0 : minChainDepth g f e0.src ≤ v := by
          have := ih e0.src he0 f
          omega
        have := foldl_min_le_init (es.map (fun e => minChainDepth g f e.src))
          (minChainDepth g f e0.src)
        omega

/-- The boundary value `open_gap + extend_gap × (d − 1)`. -/
def colVal (s : AffineNWSettings) (d : Nat) : Int :=
  s.open_gap + s.extend_gap * ((d : Int) - 1)

theorem colVal_antitone (s : AffineNWSettings) (he : s.extend_gap ≤ 0)
    {d1 d2 : Nat} (h : d1 ≤ d2) : colVal s d2 ≤ colVal s d1 := by
  unfold colVal
  have hc : ((d1 : Int) - 1) ≤ ((d2 : Int) - 1) := by
    have : (d1 : Int) ≤ (d2 : Int) := by exact_mod_cast h
    omega
  have := mul_le_mul_of_nonpos_left hc he
  omega

theorem colVal_gt_neginf (s : AffineNWSettings) (n : Nat)
    (he : s.extend_gap ≤ 0)
    (hb : NEG_INF < s.open_gap + s.extend_gap * (n : Int))
    {d : Nat} (hd : d ≤ n) : NEG_INF < colVal s d := by
  have h1 : s.open_gap + s.extend_gap * (n : Int) ≤ colVal s d := by
    unfold colVal
    have hc : ((d : Int) - 1) ≤ (n : Int) := by
      have : (d : Int) ≤ (n : Int) := by exact_mod_cast hd
      omega
    have := mul_le_mul_of_nonpos_left hc he
    omega
  omega

theorem foldl_max_colVal (s : AffineNWSettings) (he : s.extend_gap ≤ 0) :
    ∀ (ds : List Nat) (a : Nat),
    ds.foldl (fun p d => max p (colVal s d)) (colVal s a) =
      colVal s (ds.foldl min a) := by
  intro ds
  induction ds with
  | nil => intro a; rfl
  | cons d rest ih =>
    intro a
    rw [List.foldl_cons, List.foldl_cons]
    have hmax : max (colVal s a) (colVal s d) = colVal s (min a d) := by
      rcases le_total a d with h | h
      · rw [max_eq_left (colVal_antitone s he h), min_eq_left h]
      · rw [max_eq_right (colVal_antitone s he h), min_eq_right h]
    rw [hmax, ih]

theorem foldl_ext_mem {α β : Type} (l : List α) (f1 f2 : β → α → β) :
    ∀ (a : β), (∀ b x, x ∈ l → f1 b x = f2 b x) →
    l.foldl f1 a = l.foldl f2 a := by
  induction l with
  | nil => intro a _; rfl
  | cons x xs ih =>
    intro a h
    rw [List.foldl_cons, List.foldl_cons, h a x (List.mem_cons_self _ _)]
    exact ih _ (fun b y hy => h b y (List.mem_cons_of_mem _ hy))

theorem colVal_succ (s : AffineNWSettings) (d : Nat) :
    colVal s (d + 1) = colVal s d + s.extend_gap := by
  unfold colVal
  push_cast
  ring

theorem bmCol0Step_F (g : POAGraph) (s : AffineNWSettings) (ranksInv : Nat → Nat)
    (w : Nat) (M : Mats) (i : Nat) (p : Nat) :
    (bmCol0Step g s ranksInv w M i).F p =
      mupd M.F (i * w)
        (((incomingEdges g (i - 1)).foldl
            (fun pe e => max pe (M.F ((ranksInv e.src + 1) * w)))
            (if incomingEdges g (i - 1) = [] then s.open_gap - s.extend_gap
             else NEG_INF))
          + s.extend_gap) p := rfl

theorem bmCol0Step_E (g : POAGraph) (s : AffineNWSettings) (ranksInv : Nat → Nat)
    (w : Nat) (M : Mats) (i : Nat) (p : Nat) :
    (bmCol0Step g s ranksInv w M i).E p = mupd M.E (i * w) NEG_INF p := rfl

/-- Closed form of the column-0 boundary loop when the topological ranks
coincide with the node indices: `F[i][0] = open_gap + extend_gap×(d−1)`
where `d` is the length of a *shortest* predecessor chain, and
`E[i][0] = NEG_INF`. -/
theorem bmCol0_closed (g : POAGraph) (s : AffineNWSettings) (ranksInv : Nat → Nat)
    (w : Nat) (hw : 1 ≤ w) (n : Nat)
    (hfwd : ∀ e ∈ g.edges, e.src < e.tgt ∧ e.tgt < n)
    (hinv : ∀ v, v < n → ranksInv v = v)
    (he : s.extend_gap ≤ 0)
    (hb : NEG_INF < s.open_gap + s.extend_gap * (n : Int))
    (M1 : Mats) :
    ∀ (m : Nat), m ≤ n → ∀ i, 1 ≤ i → i ≤ m →
      (((List.range' 1 m).foldl (bmCol0Step g s ranksInv w) M1).F (i * w) =
        colVal s (minChainDepth g n (i - 1))) ∧
      (((List.range' 1 m).foldl (bmCol0Step g s ranksInv w) M1).E (i * w) =
        NEG_INF) := by
  have hfwd' : ∀ e ∈ g.edges, e.src < e.tgt := fun e he' => (hfwd e he').1
  intro m
  induction m with
  | zero => intro _ i h1 h2; omega
  | succ m ih =>
    intro hm i h1 h2
    have hconcat : List.range' 1 (m + 1) = List.range' 1 m ++ [1 + m] :=
      List.range'_1_concat 1 m
    rw [hconcat, List.foldl_append, List.foldl_cons, List.foldl_nil]
    set Mm := (List.range' 1 m).foldl (bmCol0Step g s ranksInv w) M1 with hMm
    by_cases hcase : i ≤ m
    · have hlt : i * w < (1 + m) * w := by
        have h0w : 0 < w := by omega
        exact Nat.mul_lt_mul_of_lt_of_le (by omega) (le_refl w) h0w
      have hne : i * w ≠ (1 + m) * w := by omega
      rcases ih (by omega) i h1 hcase with ⟨ihF, ihE⟩
      constructor
      · rw [bmCol0Step_F, mupd_other _ _ _ _ hne]
        exact ihF
      · rw [bmCol0Step_E, mupd_other _ _ _ _ hne]
        exact ihE
    · have hieq : i = 1 + m := by omega
      subst hieq
      have hmn : m < n := by omega
      obtain ⟨n', hn'⟩ : ∃ k, n = k + 1 := ⟨n - 1, by omega⟩
      have hm1 : (1 + m) - 1 = m := by omega
      constructor
      · rw [bmCol0Step_F, mupd_self, hm1]
        rcases hinc : incomingEdges g m with _ | ⟨e0, es⟩
        · simp only [List.foldl_nil, if_pos rfl]
          have hdep : minChainDepth g n m = 1 := by
            rw [hn', minChainDepth]
            rw [show incomingEdges g m = [] from hinc]
            rfl
          rw [hdep]
          unfold colVal
          push_cast
          ring
        · have hmem0 : e0 ∈ incomingEdges g m := by
            rw [hinc]; exact List.mem_cons_self _ _
          have hreads : ∀ (pe : Int) (e : POAEdge), e ∈ incomingEdges g m →
              (fun pe e => max pe (Mm.F ((ranksInv e.src + 1) * w))) pe e =
              (fun pe e => max pe (colVal s (minChainDepth g n e.src))) pe e := by
            intro pe e he'
            have hev := mem_incomingEdges.mp he'
            have hsrc : e.src < m := by
              have := hfwd e hev.1
              omega
            have hrinv : ranksInv e.src = e.src := hinv e.src (by omega)
            rcases ih (by omega) (e.src + 1) (by omega) (by omega) with ⟨ihF, _⟩
            have : Mm.F ((e.src + 1) * w) =
                colVal s (minChainDepth g n (e.src + 1 - 1)) := ihF
            simp only [Nat.add_sub_cancel] at this
            simp only [hrinv, this]
          rw [if_neg (by simp)]
          rw [foldl_ext_mem _ _ _ _ (fun b x hx => hreads b x (by rw [hinc]; exact hx))]
          rw [List.foldl_cons]
          have habs : max NEG_INF (colVal s (minChainDepth g n e0.src)) =
              colVal s (minChainDepth g n e0.src) := by
            apply max_eq_right
            apply le_of_lt
            apply colVal_gt_neginf s n he hb
            have hev := mem_incomingEdges.mp hmem0
            have hsrc : e0.src < m := by
              have := hfwd e0 hev.1
              omega
            have := minChainDepth_le g hfwd' e0.src n
            omega
          rw [habs]
          have hfoldmap : es.foldl
              (fun p e => max p (colVal s (minChainDepth g n e.src)))
              (colVal s (minChainDepth g n e0.src)) =
              (es.map (fun e => minChainDepth g n e.src)).foldl
                (fun p d => max p (colVal s d))
                (colVal s (minChainDepth g n e0.src)) := by
            rw [List.foldl_map]
          rw [hfoldmap, foldl_max_colVal s he]
          have hdep : minChainDepth g n m =
              1 + (es.map (fun e => minChainDepth g n e.src)).foldl min
                    (minChainDepth g n e0.src) := by
            conv_lhs => rw [hn']
            rw [minChainDepth]
            rw [show incomingEdges g m = e0 :: es from hinc]
            simp only [List.map_cons]
            have hstab : ∀ e ∈ (e0 :: es), minChainDepth g n' e.src =
                minChainDepth g n e.src := by
              intro e he'
              have hev := mem_incomingEdges.mp (hinc ▸ he')
              have hsrc : e.src < m := by
                have := hfwd e hev.1
                omega
              exact minChainDepth_stable g hfwd' e.src n' n (by omega) (by omega)
            rw [hstab e0 (List.mem_cons_self _ _)]
            congr 1
            congr 1
            apply List.map_congr_left
            intro e he'
            exact hstab e (List.mem_cons_of_mem _ he')
          rw [hdep]
          rw [Nat.add_comm 1]
          rw [colVal_succ]
      · rw [bmCol0Step_E, mupd_self]

/-- C7 amended: when the topological order coincides with node-index order,
for every graph node `v` the column-0 boundary cells satisfy
`F[v+1][0] = open_gap + extend_gap×(d−1)` where `d` is the length of a
*shortest* predecessor chain from a source to `v` (the code maximizes the
boundary score over all predecessors, which for non-positive `extend_gap`
selects a shortest chain, not the first-predecessor chain), with base
`open_gap − extend_gap` for sources, and `E[v+1][0]` is the `NEG_INF`
sentinel.  The score bound keeps the sentinel from absorbing the maxima. -/
theorem buildMatrix_boundary_col (g : POAGraph) (seq : Sequence)
    (s : AffineNWSettings) (ranks : List Nat)
    (hlen : ranks.length = g.nodes.length)
    (hfwd : ∀ e ∈ g.edges, e.src < e.tgt ∧ e.tgt < g.nodes.length)
    (hinv : ∀ v, v < g.nodes.length → posOf ranks v = v)
    (he : s.extend_gap ≤ 0)
    (hb : NEG_INF < s.open_gap + s.extend_gap * (g.nodes.length : Int))
    (v : Nat) (hv : v < g.nodes.length) :
    ((buildMatrix g seq s ranks (posOf ranks)).F ((v + 1) * (seq.length + 1)) =
      s.open_gap + s.extend_gap *
        ((minChainDepth g g.nodes.length v : Int) - 1)) ∧
    ((buildMatrix g seq s ranks (posOf ranks)).E ((v + 1) * (seq.length + 1)) =
      NEG_INF) := by
  have hbm : buildMatrix g seq s ranks (posOf ranks) =
      ranks.foldl (bmMainNode g seq s (posOf ranks) (seq.length + 1))
        (bmHInit (seq.length + 1) (ranks.length + 1)
          (bmCol0 g s (posOf ranks) (seq.length + 1) (ranks.length + 1)
            (bmRow0 (seq.length + 1) s ⟨fun _ => 0, fun _ => 0, fun _ => 0⟩))) := rfl
  rw [hbm]
  have hnotS : ¬ (∃ r j, 1 ≤ j ∧ j < seq.length + 1 ∧
      (v + 1) * (seq.length + 1) = (r + 1) * (seq.length + 1) + j) := by
    rintro ⟨r, j, h1, h2, h3⟩
    exact row_cell_ne_col0 (seq.length + 1) r v j h1 h2 h3
  rcases foldl_frame (bmMainNode g seq s (posOf ranks) (seq.length + 1))
      (fun q => ∃ r j, 1 ≤ j ∧ j < seq.length + 1 ∧ q = (r + 1) * (seq.length + 1) + j)
      ranks
      (fun M a _ p hp => bmMainNode_frame g seq s (posOf ranks) (seq.length + 1)
        M a p (fun ⟨j, hj1, hj2, hj3⟩ => hp ⟨posOf ranks a, j, hj1, hj2, hj3⟩))
      _ ((v + 1) * (seq.length + 1)) hnotS with ⟨_, hmainF, hmainE⟩
  rw [hmainF, hmainE]
  rcases bmHInit_FE (seq.length + 1) (ranks.length + 1)
      (bmCol0 g s (posOf ranks) (seq.length + 1) (ranks.length + 1)
        (bmRow0 (seq.length + 1) s ⟨fun _ => 0, fun _ => 0, fun _ => 0⟩))
    with ⟨hHF, hHE⟩
  rw [congrFun hHF, congrFun hHE]
  have hcol : bmCol0 g s (posOf ranks) (seq.length + 1) (ranks.length + 1)
      (bmRow0 (seq.length + 1) s ⟨fun _ => 0, fun _ => 0, fun _ => 0⟩) =
      (List.range' 1 g.nodes.length).foldl
        (bmCol0Step g s (posOf ranks) (seq.length + 1))
        (bmRow0 (seq.length + 1) s ⟨fun _ => 0, fun _ => 0, fun _ => 0⟩) := by
    rw [bmCol0]
    have hlen1 : ranks.length + 1 - 1 = g.nodes.length := by omega
    rw [hlen1]
  rw [hcol]
  have := bmCol0_closed g s (posOf ranks) (seq.length + 1) (by omega)
    g.nodes.length hfwd hinv he hb
    (bmRow0 (seq.length + 1) s ⟨fun _ => 0, fun _ => 0, fun _ => 0⟩)
    g.nodes.length (le_refl _) (v + 1) (Nat.succ_le_succ (Nat.zero_le v)) hv
  simp only [Nat.add_sub_cancel] at this
  exact ⟨this.1, this.2⟩

/-- The counterexample graph for the first-predecessor-chain reading of the
boundary recurrence: a 4-chain `0→1→2→3` with a shortcut edge `0→3` added
*before* the chain edge `2→3`, so the first (most recently added) incoming
edge of node 3 is the deep one. -/
def G7 : POAGraph :=
  let g0 := (addNode POAGraph.emptyGraph ⟨[(9, gf1)]⟩).1
  let g1 := (addNode g0 ⟨[(9, gf2)]⟩).1
  let g2 := (addNode g1 ⟨[(9, gf3)]⟩).1
  let g3 := (addNode g2 ⟨[(9, gf4)]⟩).1
  let g4 := updateEdge g3 (some 0) (some 1) 9
  let g5 := updateEdge g4 (some 0) (some 3) 9
  let g6 := updateEdge g5 (some 1) (some 2) 9
  updateEdge g6 (some 2) (some 3) 9

/-- C7 counterexample: on `G7` (whose topological order is the node-index
order, so no rank/index mixing is involved), node 3's first-predecessor
chain has 4 nodes, so the claim predicts
`F[4][0] = open_gap + extend_gap×3 = −4`; `build_matrix` computes `−2`
(the code maximizes over all predecessors — here the shortcut `0→3`). -/
theorem buildMatrix_boundary_col_counterexample :
    toposort G7 = some [0, 1, 2, 3] ∧
    firstChainDepth G7 4 3 = 4 ∧
    (buildMatrix G7 [gf1] alignSettings [0, 1, 2, 3]
      (posOf [0, 1, 2, 3])).F ((3 + 1) * ([gf1].length + 1)) = -2 ∧
    alignSettings.open_gap + alignSettings.extend_gap *
      ((firstChainDepth G7 4 3 : Int) - 1) = -4 ∧
    ((-2 : Int) ≠ -4) := by
  refine ⟨by decide, by decide, by decide, by decide, by decide⟩

theorem buildMatrix_boundary_col_witness :
    (((insertHangingSeq POAGraph.emptyGraph [gf1, gf2, gf3] 0).1.nodes.length = 3) ∧
     ([0, 1, 2] : List Nat).length = 3 ∧
     (∀ e ∈ (insertHangingSeq POAGraph.emptyGraph [gf1, gf2, gf3] 0).1.edges,
        e.src < e.tgt ∧ e.tgt < 3) ∧
     (∀ v, v < 3 → posOf [0, 1, 2] v = v) ∧
     alignSettings.extend_gap ≤ 0 ∧
     NEG_INF < alignSettings.open_gap + alignSettings.extend_gap * (3 : Int)) ∧
    (buildMatrix (insertHangingSeq POAGraph.emptyGraph [gf1, gf2, gf3] 0).1
      [gf4] alignSettings [0, 1, 2] (posOf [0, 1, 2])).F ((2 + 1) * ([gf4].length + 1)) =
      alignSettings.open_gap + alignSettings.extend_gap *
        ((minChainDepth (insertHangingSeq POAGraph.emptyGraph [gf1, gf2, gf3] 0).1
          3 2 : Int) - 1) ∧
    (buildMatrix (insertHangingSeq POAGraph.emptyGraph [gf1, gf2, gf3] 0).1
      [gf4] alignSettings [0, 1, 2] (posOf [0, 1, 2])).E ((2 + 1) * ([gf4].length + 1)) =
      NEG_INF := by
  have h := buildMatrix_boundary_col
    (insertHangingSeq POAGraph.emptyGraph [gf1, gf2, gf3] 0).1 [gf4]
    alignSettings [0, 1, 2] (by decide)
    (by decide) (by decide) (by decide) (by decide) 2 (by decide)
  exact ⟨⟨by decide, by decide, by decide, by decide, by decide, by decide⟩,
    h.1, h.2⟩

/-! ## C10 — DP recurrence characterization and backtracking termination -/

/-- First-element-seeded fold of `max` over a predecessor-row list (the
shape of both predecessor scans in `build_matrix`). -/
def foldMax1 (f : Nat → Int) : List Nat → Int
  | [] => 0
  | x :: xs => xs.foldl (fun acc y => max acc (f y)) (f x)

theorem foldl_max_attained (f : Nat → Int) :
    ∀ (xs : List Nat) (a : Int),
      xs.foldl (fun acc y => max acc (f y)) a = a ∨
      ∃ x ∈ xs, xs.foldl (fun acc y => max acc (f y)) a = f x := by
  intro xs
  induction xs with
  | nil => intro a; exact Or.inl rfl
  | cons y ys ih =>
    intro a
    rw [List.foldl_cons]
    rcases ih (max a (f y)) with h | ⟨x, hx, hfx⟩
    · rcases max_choice a (f y) with hm | hm
      · exact Or.inl (h.trans hm)
      · exact Or.inr ⟨y, List.mem_cons_self _ _, h.trans hm⟩
    · exact Or.inr ⟨x, List.mem_cons_of_mem _ hx, hfx⟩

theorem foldMax1_attained (f : Nat → Int) (l : List Nat) (hne : l ≠ []) :
    ∃ x ∈ l, foldMax1 f l = f x := by
  match l, hne with
  | x :: xs, _ =>
    rw [foldMax1]
    rcases foldl_max_attained f xs (f x) with h | ⟨y, hy, hfy⟩
    · exact ⟨x, List.mem_cons_self _ _, h⟩
    · exact ⟨y, List.mem_cons_of_mem _ hy, hfy⟩

theorem cell_inj (w a b j1 j2 : Nat) (h1 : j1 < w) (h2 : j2 < w)
    (he : a * w + j1 = b * w + j2) : a = b ∧ j1 = j2 := by
  rcases lt_trichotomy a b with h | h | h
  · have h3 : (a + 1) * w ≤ b * w := Nat.mul_le_mul_right w (by omega)
    have h4 : (a + 1) * w = a * w + w := by ring
    omega
  · exact ⟨h, by subst h; omega⟩
  · have h3 : (b + 1) * w ≤ a * w := Nat.mul_le_mul_right w (by omega)
    have h4 : (b + 1) * w = b * w + w := by ring
    omega

theorem bmStepA_H (g : POAGraph) (seq : Sequence) (s : AffineNWSettings)
    (v row pr : Nat) (M : Mats) (j p : Nat) :
    (bmStepA g seq s v row pr M j).H p =
      mupd M.H (row + j)
        (M.H (pr + (j - 1)) +
          matchScore (nucsOf g v) (seq.getD (j - 1) PoaElt.Empty)
            s.matchesVal s.mismatches) p := rfl

theorem bmStepA_F (g : POAGraph) (seq : Sequence) (s : AffineNWSettings)
    (v row pr : Nat) (M : Mats) (j p : Nat) :
    (bmStepA g seq s v row pr M j).F p =
      mupd M.F (row + j)
        (max (M.H (pr + j) + s.open_gap) (M.F (pr + j) + s.extend_gap)) p := rfl

theorem bmStepA_E (g : POAGraph) (seq : Sequence) (s : AffineNWSettings)
    (v row pr : Nat) (M : Mats) (j : Nat) :
    (bmStepA g seq s v row pr M j).E = M.E := rfl

theorem bmStepB_H (g : POAGraph) (seq : Sequence) (s : AffineNWSettings)
    (v row pr : Nat) (M : Mats) (j p : Nat) :
    (bmStepB g seq s v row pr M j).H p =
      mupd M.H (row + j)
        (max (M.H (row + j))
          (M.H (pr + (j - 1)) +
            matchScore (nucsOf g v) (seq.getD (j - 1) PoaElt.Empty)
              s.matchesVal s.mismatches)) p := rfl

theorem bmStepB_F (g : POAGraph) (seq : Sequence) (s : AffineNWSettings)
    (v row pr : Nat) (M : Mats) (j p : Nat) :
    (bmStepB g seq s v row pr M j).F p =
      mupd M.F (row + j)
        (max (M.F (row + j))
          (max (M.H (pr + j) + s.open_gap) (M.F (pr + j) + s.extend_gap))) p := rfl

theorem bmStepB_E (g : POAGraph) (seq : Sequence) (s : AffineNWSettings)
    (v row pr : Nat) (M : Mats) (j : Nat) :
    (bmStepB g seq s v row pr M j).E = M.E := rfl

theorem bmStepC_E (s : AffineNWSettings) (row : Nat) (M : Mats) (j p : Nat) :
    (bmStepC s row M j).E p =
      mupd M.E (row + j)
        (max (M.H (row + (j - 1)) + s.open_gap)
             (M.E (row + (j - 1)) + s.extend_gap)) p := rfl

theorem bmStepC_H (s : AffineNWSettings) (row : Nat) (M : Mats) (j p : Nat) :
    (bmStepC s row M j).H p =
      mupd M.H (row + j)
        (max (M.H (row + j)) (max (M.F (row + j))
          (max (M.H (row + (j - 1)) + s.open_gap)
               (M.E (row + (j - 1)) + s.extend_gap)))) p := rfl

theorem bmStepC_F (s : AffineNWSettings) (row : Nat) (M : Mats) (j : Nat) :
    (bmStepC s row M j).F = M.F := rfl

/-- Value of the first-predecessor pass on its own row: each cell is written
once, from the (untouched) predecessor row. -/
theorem bmPassA_go (g : POAGraph) (seq : Sequence) (s : AffineNWSettings)
    (v row pred_row w : Nat) (hdisj : pred_row + w ≤ row) :
    ∀ (b a : Nat) (M : Mats), 1 ≤ a → a + b ≤ w →
    ∀ j, a ≤ j → j < a + b →
    (((List.range' a b).foldl (bmStepA g seq s v row pred_row) M).H (row + j) =
      M.H (pred_row + (j - 1)) +
        matchScore (nucsOf g v) (seq.getD (j - 1) PoaElt.Empty)
          s.matchesVal s.mismatches) ∧
    (((List.range' a b).foldl (bmStepA g seq s v row pred_row) M).F (row + j) =
      max (M.H (pred_row + j) + s.open_gap) (M.F (pred_row + j) + s.extend_gap)) := by
  intro b
  induction b with
  | zero => intro a M _ _ j h1 h2; omega
  | succ b ih =>
    intro a M ha hab j h1 h2
    have hcons : List.range' a (b + 1) = a :: List.range' (a + 1) b :=
      List.range'_succ a b 1
    rw [hcons, List.foldl_cons]
    by_cases hja : j = a
    · have hframe := foldl_frame (bmStepA g seq s v row pred_row)
        (fun q => ∃ k, a + 1 ≤ k ∧ k < a + 1 + b ∧ q = row + k)
        (List.range' (a + 1) b)
        (fun M' k hk q hq => by
          have hkb : a + 1 ≤ k ∧ k < a + 1 + b := by
            have := List.mem_range'_1.mp hk
            omega
          have hqk : q ≠ row + k := fun hc => hq ⟨k, hkb.1, hkb.2, hc⟩
          exact ⟨by rw [bmStepA_H, mupd_other _ _ _ _ hqk],
                 by rw [bmStepA_F, mupd_other _ _ _ _ hqk],
                 by rw [bmStepA_E]⟩)
        (bmStepA g seq s v row pred_row M a) (row + j)
        (by rintro ⟨k, hk1, hk2, hk3⟩; omega)
      rcases hframe with ⟨hH, hF, _⟩
      constructor
      · rw [hH, bmStepA_H, hja, mupd_self]
      · rw [hF, bmStepA_F, hja, mupd_self]
    · have hpr1 : pred_row + (j - 1) ≠ row + a := by omega
      have hpr2 : pred_row + j ≠ row + a := by omega
      rcases ih (a + 1) (bmStepA g seq s v row pred_row M a) (by omega) (by omega)
        j (by omega) (by omega) with ⟨hH, hF⟩
      constructor
      · rw [hH, bmStepA_H, mupd_other _ _ _ _ hpr1]
      · rw [hF, bmStepA_F, mupd_other _ _ _ _ hpr2, bmStepA_H,
          mupd_other _ _ _ _ hpr2]

/-- Frame of one predecessor's inner pass of `bmPassB`. -/
theorem bmInnerB_frame (g : POAGraph) (seq : Sequence) (s : AffineNWSettings)
    (v row pr w : Nat) (M : Mats) (p : Nat) (hp : ¬ rowCells row w p) :
    (((List.range' 1 (w - 1)).foldl (bmStepB g seq s v row pr) M)).H p = M.H p ∧
    (((List.range' 1 (w - 1)).foldl (bmStepB g seq s v row pr) M)).F p = M.F p ∧
    (((List.range' 1 (w - 1)).foldl (bmStepB g seq s v row pr) M)).E p = M.E p := by
  refine foldl_frame _ (rowCells row w) _ ?_ M p hp
  intro M a ha q hq
  have haw : 1 ≤ a ∧ a < w := by
    have := List.mem_range'_1.mp ha
    omega
  have hqa : q ≠ row + a := fun h => hq ⟨a, haw.1, haw.2, h⟩
  exact ⟨by rw [bmStepB_H, mupd_other _ _ _ _ hqa],
         by rw [bmStepB_F, mupd_other _ _ _ _ hqa],
         by rw [bmStepB_E]⟩

/-- Value of one predecessor's inner pass on the node's row. -/
theorem bmInnerB_go (g : POAGraph) (seq : Sequence) (s : AffineNWSettings)
    (v row pr w : Nat) (hdisj : pr + w ≤ row) :
    ∀ (b a : Nat) (M : Mats), 1 ≤ a → a + b ≤ w →
    ∀ j, a ≤ j → j < a + b →
    (((List.range' a b).foldl (bmStepB g seq s v row pr) M).H (row + j) =
      max (M.H (row + j))
        (M.H (pr + (j - 1)) +
          matchScore (nucsOf g v) (seq.getD (j - 1) PoaElt.Empty)
            s.matchesVal s.mismatches)) ∧
    (((List.range' a b).foldl (bmStepB g seq s v row pr) M).F (row + j) =
      max (M.F (row + j))
        (max (M.H (pr + j) + s.open_gap) (M.F (pr + j) + s.extend_gap))) := by
  intro b
  induction b with
  | zero => intro a M _ _ j h1 h2; omega
  | succ b ih =>
    intro a M ha hab j h1 h2
    have hcons : List.range' a (b + 1) = a :: List.range' (a + 1) b :=
      List.range'_succ a b 1
    rw [hcons, List.foldl_cons]
    by_cases hja : j = a
    · have hframe := foldl_frame (bmStepB g seq s v row pr)
        (fun q => ∃ k, a + 1 ≤ k ∧ k < a + 1 + b ∧ q = row + k)
        (List.range' (a + 1) b)
        (fun M' k hk q hq => by
          have hkb : a + 1 ≤ k ∧ k < a + 1 + b := by
            have := List.mem_range'_1.mp hk
            omega
          have hqk : q ≠ row + k := fun hc => hq ⟨k, hkb.1, hkb.2, hc⟩
          exact ⟨by rw [bmStepB_H, mupd_other _ _ _ _ hqk],
                 by rw [bmStepB_F, mupd_other _ _ _ _ hqk],
                 by rw [bmStepB_E]⟩)
        (bmStepB g seq s v row pr M a) (row + j)
        (by rintro ⟨k, hk1, hk2, hk3⟩; omega)
      rcases hframe with ⟨hH, hF, _⟩
      constructor
      · rw [hH, bmStepB_H, hja, mupd_self]
      · rw [hF, bmStepB_F, hja, mupd_self]
    · have hrj : row + j ≠ row + a := by omega
      have hpr1 : pr + (j - 1) ≠ row + a := by omega
      have hpr2 : pr + j ≠ row + a := by omega
      rcases ih (a + 1) (bmStepB g seq s v row pr M a) (by omega) (by omega)
        j (by omega) (by omega) with ⟨hH, hF⟩
      constructor
      · rw [hH, bmStepB_H, mupd_other _ _ _ _ hrj, bmStepB_H,
          mupd_other _ _ _ _ hpr1]
      · rw [hF, bmStepB_F, mupd_other _ _ _ _ hrj, bmStepB_F,
          mupd_other _ _ _ _ hpr2, bmStepB_H, mupd_other _ _ _ _ hpr2]

/-- Value of the whole remaining-predecessors pass: each cell accumulates
the max over the remaining predecessor rows (which stay untouched). -/
theorem bmPassB_spec (g : POAGraph) (seq : Sequence) (s : AffineNWSettings)
    (ranksInv : Nat → Nat) (w : Nat) (v row : Nat) :
    ∀ (l : List POAEdge),
    (∀ p ∈ l, (ranksInv p.src + 1) * w + w ≤ row) →
    ∀ (M : Mats) (j : Nat), 1 ≤ j → j < w →
    ((l.foldl (fun M p => (List.range' 1 (w - 1)).foldl
        (bmStepB g seq s v row ((ranksInv p.src + 1) * w)) M) M).H (row + j) =
      l.foldl (fun acc p => max acc
        (M.H ((ranksInv p.src + 1) * w + (j - 1)) +
          matchScore (nucsOf g v) (seq.getD (j - 1) PoaElt.Empty)
            s.matchesVal s.mismatches)) (M.H (row + j))) ∧
    ((l.foldl (fun M p => (List.range' 1 (w - 1)).foldl
        (bmStepB g seq s v row ((ranksInv p.src + 1) * w)) M) M).F (row + j) =
      l.foldl (fun acc p => max acc
        (max (M.H ((ranksInv p.src + 1) * w + j) + s.open_gap)
             (M.F ((ranksInv p.src + 1) * w + j) + s.extend_gap))) (M.F (row + j))) := by
  intro l
  induction l with
  | nil => intro _ M j h1 h2; exact ⟨rfl, rfl⟩
  | cons p l' ih =>
    intro hdisj M j h1 h2
    rw [List.foldl_cons, List.foldl_cons, List.foldl_cons]
    have hp := hdisj p (List.mem_cons_self _ _)
    set M1 := (List.range' 1 (w - 1)).foldl
      (bmStepB g seq s v row ((ranksInv p.src + 1) * w)) M with hM1
    have hspec := bmInnerB_go g seq s v row ((ranksInv p.src + 1) * w) w hp
      (w - 1) 1 M (le_refl 1) (by omega) j h1 (by omega)
    have hpredframe : ∀ (q : POAEdge), q ∈ l' → ∀ x, x < w →
        M1.H ((ranksInv q.src + 1) * w + x) = M.H ((ranksInv q.src + 1) * w + x) ∧
        M1.F ((ranksInv q.src + 1) * w + x) = M.F ((ranksInv q.src + 1) * w + x) := by
      intro q hq x hx
      have hqd := hdisj q (List.mem_cons_of_mem _ hq)
      have hnot : ¬ rowCells row w ((ranksInv q.src + 1) * w + x) := by
        rintro ⟨k, hk1, hk2, hk3⟩
        omega
      rcases bmInnerB_frame g seq s v row ((ranksInv p.src + 1) * w) w M
        ((ranksInv q.src + 1) * w + x) hnot with ⟨hh, hf, _⟩
      exact ⟨hh, hf⟩
    rcases ih (fun q hq => hdisj q (List.mem_cons_of_mem _ hq)) M1 j h1 h2
      with ⟨ihH, ihF⟩
    constructor
    · rw [ihH, hspec.1]
      apply foldl_ext_mem
      intro b q hq
      rw [(hpredframe q hq (j - 1) (by omega)).1]
    · rw [ihF, hspec.2]
      apply foldl_ext_mem
      intro b q hq
      rw [(hpredframe q hq j h2).1, (hpredframe q hq j h2).2]

/-- Value and frame of the `E`/final-`H` pass: after the pass, each row cell
satisfies the `E` recurrence (in terms of the *final* values of the previous
column) and the final-`H` maximization (in terms of the pass-input `H`/`F`
and the final `E`). -/
theorem bmPassC_spec (s : AffineNWSettings) (w row : Nat) :
    ∀ (b : Nat), b ≤ w - 1 → ∀ (M : Mats),
    (∀ j, 1 ≤ j → j ≤ b →
      (((List.range' 1 b).foldl (bmStepC s row) M).E (row + j) =
        max (((List.range' 1 b).foldl (bmStepC s row) M).H (row + (j - 1)) + s.open_gap)
            (((List.range' 1 b).foldl (bmStepC s row) M).E (row + (j - 1)) + s.extend_gap)) ∧
      (((List.range' 1 b).foldl (bmStepC s row) M).H (row + j) =
        max (M.H (row + j)) (max (M.F (row + j))
          (((List.range' 1 b).foldl (bmStepC s row) M).E (row + j))))) ∧
    (∀ p, (∀ k, 1 ≤ k → k ≤ b → p ≠ row + k) →
      ((List.range' 1 b).foldl (bmStepC s row) M).H p = M.H p ∧
      ((List.range' 1 b).foldl (bmStepC s row) M).E p = M.E p) ∧
    ((List.range' 1 b).foldl (bmStepC s row) M).F = M.F := by
  intro b
  induction b with
  | zero =>
    intro _ M
    refine ⟨fun j h1 h2 => by omega, fun p _ => ⟨rfl, rfl⟩, rfl⟩
  | succ b ih =>
    intro hb M
    have hconcat : List.range' 1 (b + 1) = List.range' 1 b ++ [1 + b] :=
      List.range'_1_concat 1 b
    rw [hconcat, List.foldl_append, List.foldl_cons, List.foldl_nil]
    obtain ⟨ihEq, ihFrame, ihF⟩ := ih (by omega) M
    set Mc := (List.range' 1 b).foldl (bmStepC s row) M with hMc
    have hstepne : ∀ x, x ≤ b → row + x ≠ row + (1 + b) := by intro x hx; omega
    refine ⟨?_, ?_, ?_⟩
    · intro j h1 h2
      by_cases hjb : j = 1 + b
      · constructor
        · rw [bmStepC_E, hjb, mupd_self, bmStepC_H,
            mupd_other _ _ _ _ (hstepne (1 + b - 1) (by omega)), bmStepC_E,
            mupd_other _ _ _ _ (hstepne (1 + b - 1) (by omega))]
        · rw [bmStepC_H, hjb, mupd_self, bmStepC_E, mupd_self]
          rw [(ihFrame (row + (1 + b)) (fun k hk1 hk2 => by omega)).1]
          rw [congrFun ihF]
      · have hj : j ≤ b := by omega
        rcases ihEq j h1 hj with ⟨ihE, ihH⟩
        constructor
        · rw [bmStepC_E, mupd_other _ _ _ _ (hstepne j hj), bmStepC_H,
            mupd_other _ _ _ _ (hstepne (j - 1) (by omega)), bmStepC_E,
            mupd_other _ _ _ _ (hstepne (j - 1) (by omega))]
          exact ihE
        · rw [bmStepC_H, mupd_other _ _ _ _ (hstepne j hj), bmStepC_E,
            mupd_other _ _ _ _ (hstepne j hj)]
          exact ihH
    · intro p hp
      have hp1 : ∀ k, 1 ≤ k → k ≤ b → p ≠ row + k := fun k hk1 hk2 =>
        hp k hk1 (by omega)
      have hpb : p ≠ row + (1 + b) := hp (1 + b) (by omega) (by omega)
      rcases ihFrame p hp1 with ⟨hH, hE⟩
      exact ⟨by rw [bmStepC_H, mupd_other _ _ _ _ hpb]; exact hH,
             by rw [bmStepC_E, mupd_other _ _ _ _ hpb]; exact hE⟩
    · rw [bmStepC_F]
      exact ihF

/-- The three `build_matrix` recurrences, as equations on a matrix `M`, for
the node `v` sitting at rank `r` (row `r+1`). -/
def eqAt (g : POAGraph) (seq : Sequence) (s : AffineNWSettings)
    (ranksInv : Nat → Nat) (w : Nat) (M : Mats) (r : Nat) (v : Nat) : Prop :=
  ∀ j, 1 ≤ j → j < w →
    (M.F ((r + 1) * w + j) =
      foldMax1 (fun pi => max (M.H (pi * w + j) + s.open_gap)
        (M.F (pi * w + j) + s.extend_gap)) (predIs g ranksInv v)) ∧
    (M.E ((r + 1) * w + j) =
      max (M.H ((r + 1) * w + (j - 1)) + s.open_gap)
          (M.E ((r + 1) * w + (j - 1)) + s.extend_gap)) ∧
    (M.H ((r + 1) * w + j) =
      max (foldMax1 (fun pi => M.H (pi * w + (j - 1)) +
          matchScore (nucsOf g v) (seq.getD (j - 1) PoaElt.Empty)
            s.matchesVal s.mismatches) (predIs g ranksInv v))
        (max (M.F ((r + 1) * w + j)) (M.E ((r + 1) * w + j))))

theorem foldMax1_ext (f1 f2 : Nat → Int) (l : List Nat)
    (h : ∀ x ∈ l, f1 x = f2 x) : foldMax1 f1 l = foldMax1 f2 l := by
  match l with
  | [] => rfl
  | x :: xs =>
    rw [foldMax1, foldMax1, h x (List.mem_cons_self _ _)]
    apply foldl_ext_mem
    intro b y hy
    rw [h y (List.mem_cons_of_mem _ hy)]

theorem predIs_ne_nil (g : POAGraph) (ranksInv : Nat → Nat) (v : Nat) :
    predIs g ranksInv v ≠ [] := by
  rw [predIs]
  rcases incomingEdges g v with _ | ⟨p, ps⟩ <;> simp

/-- `eqAt` only reads cells in rows `≤ r + 1`, so it is preserved by any
change that agrees there. -/
theorem eqAt_preserved (g : POAGraph) (seq : Sequence) (s : AffineNWSettings)
    (ranksInv : Nat → Nat) (w : Nat) (M M' : Mats) (r v : Nat)
    (hpis : ∀ pi ∈ predIs g ranksInv v, pi ≤ r)
    (hagree : ∀ x q, x ≤ r + 1 → q < w →
      M'.H (x * w + q) = M.H (x * w + q) ∧
      M'.F (x * w + q) = M.F (x * w + q) ∧
      M'.E (x * w + q) = M.E (x * w + q))
    (he : eqAt g seq s ranksInv w M r v) :
    eqAt g seq s ranksInv w M' r v := by
  intro j h1 h2
  rcases he j h1 h2 with ⟨hF, hE, hH⟩
  have hown : ∀ q, q < w →
      M'.H ((r + 1) * w + q) = M.H ((r + 1) * w + q) ∧
      M'.F ((r + 1) * w + q) = M.F ((r + 1) * w + q) ∧
      M'.E ((r + 1) * w + q) = M.E ((r + 1) * w + q) :=
    fun q hq => hagree (r + 1) q (le_refl _) hq
  have hFmax : foldMax1 (fun pi => max (M'.H (pi * w + j) + s.open_gap)
      (M'.F (pi * w + j) + s.extend_gap)) (predIs g ranksInv v) =
      foldMax1 (fun pi => max (M.H (pi * w + j) + s.open_gap)
      (M.F (pi * w + j) + s.extend_gap)) (predIs g ranksInv v) := by
    apply foldMax1_ext
    intro pi hpi
    rcases hagree pi j (by have := hpis pi hpi; omega) h2 with ⟨hh, hf, _⟩
    rw [hh, hf]
  have hHmax : foldMax1 (fun pi => M'.H (pi * w + (j - 1)) +
      matchScore (nucsOf g v) (seq.getD (j - 1) PoaElt.Empty)
        s.matchesVal s.mismatches) (predIs g ranksInv v) =
      foldMax1 (fun pi => M.H (pi * w + (j - 1)) +
      matchScore (nucsOf g v) (seq.getD (j - 1) PoaElt.Empty)
        s.matchesVal s.mismatches) (predIs g ranksInv v) := by
    apply foldMax1_ext
    intro pi hpi
    rcases hagree pi (j - 1) (by have := hpis pi hpi; omega) (by omega) with ⟨hh, _, _⟩
    rw [hh]
  refine ⟨?_, ?_, ?_⟩
  · rw [(hown j h2).2.1, hFmax]
    exact hF
  · rw [(hown j h2).2.2, (hown (j - 1) (by omega)).1, (hown (j - 1) (by omega)).2.2]
    exact hE
  · rw [(hown j h2).1, hHmax, (hown j h2).2.1, (hown j h2).2.2]
    exact hH

theorem predIs_eq (g : POAGraph) (ranksInv : Nat → Nat) (v : Nat) :
    predIs g ranksInv v =
      (match incomingEdges g v with
        | [] => 0
        | p :: _ => ranksInv p.src + 1) ::
      ((incomingEdges g v).drop 1).map (fun q => ranksInv q.src + 1) := by
  rw [predIs]
  rcases incomingEdges g v with _ | ⟨p, ps⟩ <;> rfl

/-- Processing one node establishes the three recurrences at its row. -/
theorem bmMainNode_establishes (g : POAGraph) (seq : Sequence)
    (s : AffineNWSettings) (ranksInv : Nat → Nat) (w : Nat) (M : Mats) (v : Nat)
    (hpis : ∀ pi ∈ predIs g ranksInv v, pi ≤ ranksInv v) :
    eqAt g seq s ranksInv w (bmMainNode g seq s ranksInv w M v) (ranksInv v) v := by
  intro j h1 h2
  have hw1 : 1 ≤ w := by omega
  have hrowd : ∀ pi, pi ≤ ranksInv v → pi * w + w ≤ (ranksInv v + 1) * w := by
    intro pi hpi
    calc pi * w + w = (pi + 1) * w := by ring
    _ ≤ (ranksInv v + 1) * w := Nat.mul_le_mul_right w (by omega)
  have hnotrow : ∀ pi x, pi ≤ ranksInv v → x < w →
      ¬ rowCells ((ranksInv v + 1) * w) w (pi * w + x) := by
    rintro pi x hpi hx ⟨k, hk1, hk2, hk3⟩
    rcases cell_inj w pi (ranksInv v + 1) x k hx hk2 hk3 with ⟨hab, _⟩
    omega
  set pr0 : Nat := (match incomingEdges g v with
    | [] => 0
    | p :: _ => ranksInv p.src + 1) with hpr0
  have hpr0mem : pr0 ∈ predIs g ranksInv v := by
    rw [predIs_eq]
    exact List.mem_cons_self _ _
  have hpr0le : pr0 ≤ ranksInv v := hpis pr0 hpr0mem
  have htailmem : ∀ q ∈ (incomingEdges g v).drop 1,
      ranksInv q.src + 1 ≤ ranksInv v := by
    intro q hq
    refine hpis (ranksInv q.src + 1) ?_
    rw [predIs_eq]
    exact List.mem_cons_of_mem _ (List.mem_map_of_mem _ hq)
  set MA := bmPassA g seq s w v ((ranksInv v + 1) * w) (pr0 * w) M with hMA
  set MB := bmPassB g seq s ranksInv w v ((ranksInv v + 1) * w)
    (incomingEdges g v) MA with hMB
  have hbm : bmMainNode g seq s ranksInv w M v =
      bmPassC s w ((ranksInv v + 1) * w) MB := bmMainNode_eq g seq s ranksInv w M v
  obtain ⟨cEq, cFrame, cF⟩ := bmPassC_spec s w ((ranksInv v + 1) * w) (w - 1)
    (le_refl _) MB
  have hCexp : bmPassC s w ((ranksInv v + 1) * w) MB =
      (List.range' 1 (w - 1)).foldl (bmStepC s ((ranksInv v + 1) * w)) MB := rfl
  -- the whole node frame: cells outside the row are untouched
  have hframe : ∀ pi x, pi ≤ ranksInv v → x < w →
      (bmMainNode g seq s ranksInv w M v).H (pi * w + x) = M.H (pi * w + x) ∧
      (bmMainNode g seq s ranksInv w M v).F (pi * w + x) = M.F (pi * w + x) ∧
      (bmMainNode g seq s ranksInv w M v).E (pi * w + x) = M.E (pi * w + x) :=
    fun pi x hpi hx => bmMainNode_frame g seq s ranksInv w M v (pi * w + x)
      (hnotrow pi x hpi hx)
  -- pass A values and pred-row frame
  have hAval : (MA.H ((ranksInv v + 1) * w + j) =
      M.H (pr0 * w + (j - 1)) + matchScore (nucsOf g v)
        (seq.getD (j - 1) PoaElt.Empty) s.matchesVal s.mismatches) ∧
    (MA.F ((ranksInv v + 1) * w + j) =
      max (M.H (pr0 * w + j) + s.open_gap) (M.F (pr0 * w + j) + s.extend_gap)) :=
    bmPassA_go g seq s v ((ranksInv v + 1) * w) (pr0 * w) w
      (hrowd pr0 hpr0le) (w - 1) 1 M (le_refl 1) (by omega) j h1 (by omega)
  have hAframe : ∀ pi x, pi ≤ ranksInv v → x < w →
      MA.H (pi * w + x) = M.H (pi * w + x) ∧
      MA.F (pi * w + x) = M.F (pi * w + x) := by
    intro pi x hpi hx
    rcases bmPassA_frame g seq s w v ((ranksInv v + 1) * w) (pr0 * w) M
      (pi * w + x) (hnotrow pi x hpi hx) with ⟨hh, hf, _⟩
    exact ⟨hh, hf⟩
  -- pass B values
  have hBdisj : ∀ q ∈ (incomingEdges g v).drop 1,
      (ranksInv q.src + 1) * w + w ≤ (ranksInv v + 1) * w :=
    fun q hq => hrowd _ (htailmem q hq)
  have hBexp : MB = ((incomingEdges g v).drop 1).foldl
      (fun M p => (List.range' 1 (w - 1)).foldl
        (bmStepB g seq s v ((ranksInv v + 1) * w) ((ranksInv p.src + 1) * w)) M)
      MA := rfl
  have hBval := bmPassB_spec g seq s ranksInv w v ((ranksInv v + 1) * w)
    ((incomingEdges g v).drop 1) hBdisj MA j h1 h2
  rw [← hBexp] at hBval
  -- B in terms of the original matrix
  have hBH : MB.H ((ranksInv v + 1) * w + j) =
      ((incomingEdges g v).drop 1).foldl (fun acc q => max acc
        (M.H ((ranksInv q.src + 1) * w + (j - 1)) +
          matchScore (nucsOf g v) (seq.getD (j - 1) PoaElt.Empty)
            s.matchesVal s.mismatches))
        (M.H (pr0 * w + (j - 1)) +
          matchScore (nucsOf g v) (seq.getD (j - 1) PoaElt.Empty)
            s.matchesVal s.mismatches) := by
    rw [hBval.1, hAval.1]
    apply foldl_ext_mem
    intro b q hq
    rw [(hAframe (ranksInv q.src + 1) (j - 1) (htailmem q hq) (by omega)).1]
  have hBF : MB.F ((ranksInv v + 1) * w + j) =
      ((incomingEdges g v).drop 1).foldl (fun acc q => max acc
        (max (M.H ((ranksInv q.src + 1) * w + j) + s.open_gap)
             (M.F ((ranksInv q.src + 1) * w + j) + s.extend_gap)))
        (max (M.H (pr0 * w + j) + s.open_gap)
             (M.F (pr0 * w + j) + s.extend_gap)) := by
    rw [hBval.2, hAval.2]
    apply foldl_ext_mem
    intro b q hq
    rw [(hAframe (ranksInv q.src + 1) j (htailmem q hq) h2).1,
        (hAframe (ranksInv q.src + 1) j (htailmem q hq) h2).2]
  -- fold shapes as foldMax1 over predIs
  have hshapeF : foldMax1 (fun pi => max (M.H (pi * w + j) + s.open_gap)
      (M.F (pi * w + j) + s.extend_gap)) (predIs g ranksInv v) =
      ((incomingEdges g v).drop 1).foldl (fun acc q => max acc
        (max (M.H ((ranksInv q.src + 1) * w + j) + s.open_gap)
             (M.F ((ranksInv q.src + 1) * w + j) + s.extend_gap)))
        (max (M.H (pr0 * w + j) + s.open_gap)
             (M.F (pr0 * w + j) + s.extend_gap)) := by
    rw [predIs_eq, foldMax1, ← hpr0, List.foldl_map]
  have hshapeH : foldMax1 (fun pi => M.H (pi * w + (j - 1)) +
      matchScore (nucsOf g v) (seq.getD (j - 1) PoaElt.Empty)
        s.matchesVal s.mismatches) (predIs g ranksInv v) =
      ((incomingEdges g v).drop 1).foldl (fun acc q => max acc
        (M.H ((ranksInv q.src + 1) * w + (j - 1)) +
          matchScore (nucsOf g v) (seq.getD (j - 1) PoaElt.Empty)
            s.matchesVal s.mismatches))
        (M.H (pr0 * w + (j - 1)) +
          matchScore (nucsOf g v) (seq.getD (j - 1) PoaElt.Empty)
            s.matchesVal s.mismatches) := by
    rw [predIs_eq, foldMax1, ← hpr0, List.foldl_map]
  -- transport reads from M to the final matrix
  have hextF : foldMax1 (fun pi => max
      ((bmMainNode g seq s ranksInv w M v).H (pi * w + j) + s.open_gap)
      ((bmMainNode g seq s ranksInv w M v).F (pi * w + j) + s.extend_gap))
      (predIs g ranksInv v) =
      foldMax1 (fun pi => max (M.H (pi * w + j) + s.open_gap)
      (M.F (pi * w + j) + s.extend_gap)) (predIs g ranksInv v) := by
    apply foldMax1_ext
    intro pi hpi
    rcases hframe pi j (hpis pi hpi) h2 with ⟨hh, hf, _⟩
    rw [hh, hf]
  have hextH : foldMax1 (fun pi =>
      (bmMainNode g seq s ranksInv w M v).H (pi * w + (j - 1)) +
        matchScore (nucsOf g v) (seq.getD (j - 1) PoaElt.Empty)
          s.matchesVal s.mismatches) (predIs g ranksInv v) =
      foldMax1 (fun pi => M.H (pi * w + (j - 1)) +
        matchScore (nucsOf g v) (seq.getD (j - 1) PoaElt.Empty)
          s.matchesVal s.mismatches) (predIs g ranksInv v) := by
    apply foldMax1_ext
    intro pi hpi
    rcases hframe pi (j - 1) (hpis pi hpi) (by omega) with ⟨hh, _, _⟩
    rw [hh]
  refine ⟨?_, ?_, ?_⟩
  · -- F equation
    rw [hextF, hshapeF]
    have : (bmMainNode g seq s ranksInv w M v).F ((ranksInv v + 1) * w + j) =
        MB.F ((ranksInv v + 1) * w + j) := by
      rw [hbm, hCexp, congrFun cF]
    rw [this, hBF]
  · -- E equation
    rcases cEq j h1 (by omega) with ⟨hEe, _⟩
    rw [hbm, hCexp]
    exact hEe
  · -- H equation
    rcases cEq j h1 (by omega) with ⟨_, hHe⟩
    rw [hextH, hshapeH]
    have hfinE : (bmMainNode g seq s ranksInv w M v).E ((ranksInv v + 1) * w + j) =
        ((List.range' 1 (w - 1)).foldl (bmStepC s ((ranksInv v + 1) * w)) MB).E
          ((ranksInv v + 1) * w + j) := by
      rw [hbm, hCexp]
    have hfinF : (bmMainNode g seq s ranksInv w M v).F ((ranksInv v + 1) * w + j) =
        MB.F ((ranksInv v + 1) * w + j) := by
      rw [hbm, hCexp, congrFun cF]
    have hfinH : (bmMainNode g seq s ranksInv w M v).H ((ranksInv v + 1) * w + j) =
        ((List.range' 1 (w - 1)).foldl (bmStepC s ((ranksInv v + 1) * w)) MB).H
          ((ranksInv v + 1) * w + j) := by
      rw [hbm, hCexp]
    rw [hfinH, hHe, hBH, hfinF, hBF, hfinE]

/-- Folding `bmMainNode` over nodes whose rows all lie above `p` leaves cell
`p` unchanged. -/
theorem bmFold_frame (g : POAGraph) (seq : Sequence) (s : AffineNWSettings)
    (ranksInv : Nat → Nat) (w : Nat) :
    ∀ (L : List Nat) (M : Mats) (p : Nat),
    (∀ u ∈ L, p < (ranksInv u + 1) * w) →
    (L.foldl (bmMainNode g seq s ranksInv w) M).H p = M.H p ∧
    (L.foldl (bmMainNode g seq s ranksInv w) M).F p = M.F p ∧
    (L.foldl (bmMainNode g seq s ranksInv w) M).E p = M.E p := by
  intro L
  induction L with
  | nil => intro M p _; exact ⟨rfl, rfl, rfl⟩
  | cons u L' ih =>
    intro M p hp
    rw [List.foldl_cons]
    have hu := hp u (List.mem_cons_self _ _)
    have hnot : ¬ rowCells ((ranksInv u + 1) * w) w p := by
      rintro ⟨k, hk1, hk2, hk3⟩
      omega
    rcases bmMainNode_frame g seq s ranksInv w M u p hnot with ⟨h1, h2, h3⟩
    rcases ih (bmMainNode g seq s ranksInv w M u) p
      (fun q hq => hp q (List.mem_cons_of_mem _ hq)) with ⟨i1, i2, i3⟩
    exact ⟨i1.trans h1, i2.trans h2, i3.trans h3⟩

/-- Folding `bmMainNode` over a rank-increasing node list with forward-only
predecessors establishes the recurrences at every processed node's row. -/
theorem bmFold_establishes (g : POAGraph) (seq : Sequence)
    (s : AffineNWSettings) (ranksInv : Nat → Nat) (w : Nat) :
    ∀ (L : List Nat),
    (∀ v ∈ L, ∀ pi ∈ predIs g ranksInv v, pi ≤ ranksInv v) →
    List.Pairwise (fun u v => ranksInv u < ranksInv v) L →
    ∀ (M : Mats), ∀ v ∈ L,
    eqAt g seq s ranksInv w (L.foldl (bmMainNode g seq s ranksInv w) M)
      (ranksInv v) v := by
  intro L
  induction L with
  | nil => intro _ _ M v hv; exact absurd hv (List.not_mem_nil v)
  | cons v0 L' ih =>
    intro hpis hpw M v hv
    rw [List.foldl_cons]
    rcases List.pairwise_cons.mp hpw with ⟨hv0lt, hpw'⟩
    rcases List.mem_cons.mp hv with hveq | hvmem
    · subst hveq
      have h0 := bmMainNode_establishes g seq s ranksInv w M v
        (hpis v (List.mem_cons_self _ _))
      refine eqAt_preserved g seq s ranksInv w
        (bmMainNode g seq s ranksInv w M v) _ (ranksInv v) v
        (hpis v (List.mem_cons_self _ _)) ?_ h0
      intro x q hx hq
      refine bmFold_frame g seq s ranksInv w L' _ (x * w + q) ?_
      intro u hu
      have hlt := hv0lt u hu
      have hstep : x * w + q < (x + 1) * w := by
        have hxw : (x + 1) * w = x * w + w := by ring
        omega
      have hstep2 : (x + 1) * w ≤ (ranksInv u + 1) * w :=
        Nat.mul_le_mul_right w (by omega)
      omega
    · exact ih (fun u hu => hpis u (List.mem_cons_of_mem _ hu)) hpw'
        (bmMainNode g seq s ranksInv w M v0) v hvmem

/-! ### Topological-order facts feeding the backtracking -/

theorem toposort_valid (g : POAGraph) (ranks : List Nat)
    (h : toposort g = some ranks) : isValidTopo g ranks = true := by
  rw [toposort] at h
  rcases hd : dfsRoots g (topoFuel g) (List.range g.nodes.length)
      (List.replicate g.nodes.length false)
      (List.replicate g.nodes.length false) [] with _ | ⟨d, f, o⟩
  · rw [hd] at h
    exact absurd h (by simp)
  · rw [hd] at h
    by_cases hv : isValidTopo g o.reverse = true
    · simp only [hv, if_pos] at h
      rw [← Option.some_inj.mp h]
      exact hv
    · simp only [hv] at h
      exact absurd h (by simp)

theorem isValidTopo_facts (g : POAGraph) (ranks : List Nat)
    (h : isValidTopo g ranks = true) :
    ranks.length = g.nodes.length ∧
    (∀ v, v < g.nodes.length → v ∈ ranks) ∧
    (∀ e ∈ g.edges, posOf ranks e.src < posOf ranks e.tgt) := by
  rw [isValidTopo, Bool.and_eq_true, Bool.and_eq_true] at h
  obtain ⟨⟨h1, h2⟩, h3⟩ := h
  refine ⟨of_decide_eq_true h1, ?_, ?_⟩
  · intro v hv
    have hc := List.all_eq_true.mp h2 v (List.mem_range.mpr hv)
    exact List.mem_of_elem_eq_true hc
  · intro e he
    have hc := List.all_eq_true.mp h3 e he
    exact of_decide_eq_true hc

theorem valid_topo_perm (g : POAGraph) (ranks : List Nat)
    (h : isValidTopo g ranks = true) :
    List.Perm (List.range g.nodes.length) ranks := by
  obtain ⟨h1, h2, _⟩ := isValidTopo_facts g ranks h
  refine List.Subperm.perm_of_length_le ?_ (by rw [h1, List.length_range])
  exact List.subperm_of_subset (List.nodup_range _)
    (fun v hv => h2 v (List.mem_range.mp hv))

theorem valid_topo_nodup (g : POAGraph) (ranks : List Nat)
    (h : isValidTopo g ranks = true) : ranks.Nodup :=
  (valid_topo_perm g ranks h).nodup (List.nodup_range _)

theorem posOf_get : ∀ (l : List Nat), l.Nodup → ∀ t (ht : t < l.length),
    posOf l (l.get ⟨t, ht⟩) = t := by
  intro l
  induction l with
  | nil => intro _ t ht; exact absurd ht (by simp)
  | cons a l' ih =>
    intro hnd t ht
    rcases List.nodup_cons.mp hnd with ⟨ha, hnd'⟩
    cases t with
    | zero => simp [posOf, List.findIdx_cons]
    | succ t' =>
      have ht' : t' < l'.length := by
        have := ht
        simp only [List.length_cons] at this
        omega
      have hget : (a :: l').get ⟨t' + 1, ht⟩ = l'.get ⟨t', ht'⟩ := rfl
      rw [posOf, hget, List.findIdx_cons]
      have hne : (a == l'.get ⟨t', ht'⟩) = false := by
        have hane : a ≠ l'.get ⟨t', ht'⟩ :=
          fun hc => ha (hc ▸ List.get_mem _ _ ht')
        simpa using hane
      rw [hne, cond_false]
      have hrec := ih hnd' t' ht'
      rw [posOf] at hrec
      rw [hrec]

theorem valid_topo_pairwise (g : POAGraph) (ranks : List Nat)
    (h : isValidTopo g ranks = true) :
    List.Pairwise (fun u v => posOf ranks u < posOf ranks v) ranks := by
  have hnd := valid_topo_nodup g ranks h
  rw [List.pairwise_iff_get]
  intro i j hij
  rw [posOf_get ranks hnd i.1 i.2, posOf_get ranks hnd j.1 j.2]
  exact hij

theorem predIs_cases (g : POAGraph) (ranksInv : Nat → Nat) (v : Nat) :
    ∀ pi ∈ predIs g ranksInv v,
      pi = 0 ∨ ∃ q ∈ incomingEdges g v, pi = ranksInv q.src + 1 := by
  intro pi hpi
  rw [predIs_eq] at hpi
  rcases List.mem_cons.mp hpi with hh | hmap
  · subst hh
    rcases hinc : incomingEdges g v with _ | ⟨q, qs⟩
    · exact Or.inl rfl
    · exact Or.inr ⟨q, List.mem_cons_self _ _, rfl⟩
  · rcases List.mem_map.mp hmap with ⟨q, hq, hqeq⟩
    exact Or.inr ⟨q, List.drop_subset 1 _ hq, hqeq.symm⟩

theorem predIs_mem_of_incoming (g : POAGraph) (ranksInv : Nat → Nat)
    (v : Nat) (p : POAEdge) (hp : p ∈ incomingEdges g v) :
    ranksInv p.src + 1 ∈ predIs g ranksInv v := by
  rw [predIs_eq]
  rcases hinc : incomingEdges g v with _ | ⟨q, qs⟩
  · rw [hinc] at hp
    exact absurd hp (List.not_mem_nil p)
  · rw [hinc] at hp
    rcases List.mem_cons.mp hp with hh | ht
    · subst hh
      exact List.mem_cons_self _ _
    · refine List.mem_cons_of_mem _ (List.mem_map_of_mem _ ?_)
      simpa using ht

theorem valid_topo_predIs (g : POAGraph) (ranks : List Nat)
    (h : isValidTopo g ranks = true) :
    ∀ v ∈ ranks, ∀ pi ∈ predIs g (posOf ranks) v, pi ≤ posOf ranks v := by
  intro v _ pi hpi
  obtain ⟨_, _, hfwd⟩ := isValidTopo_facts g ranks h
  rcases predIs_cases g (posOf ranks) v pi hpi with h0 | ⟨q, hq, hqeq⟩
  · omega
  · rcases mem_incomingEdges.mp hq with ⟨hqe, hqt⟩
    have := hfwd q hqe
    rw [hqt] at this
    omega

/-- The full DP recurrences of `build_matrix` hold at every node's row, for
any valid topological order. -/
theorem buildMatrix_eqAt (g : POAGraph) (seq : Sequence) (s : AffineNWSettings)
    (ranks : List Nat) (h : isValidTopo g ranks = true) :
    ∀ v ∈ ranks, eqAt g seq s (posOf ranks) (seq.length + 1)
      (buildMatrix g seq s ranks (posOf ranks)) (posOf ranks v) v := by
  intro v hv
  have hbm : buildMatrix g seq s ranks (posOf ranks) =
      ranks.foldl (bmMainNode g seq s (posOf ranks) (seq.length + 1))
        (bmHInit (seq.length + 1) (ranks.length + 1)
          (bmCol0 g s (posOf ranks) (seq.length + 1) (ranks.length + 1)
            (bmRow0 (seq.length + 1) s ⟨fun _ => 0, fun _ => 0, fun _ => 0⟩))) := rfl
  rw [hbm]
  exact bmFold_establishes g seq s (posOf ranks) (seq.length + 1) ranks
    (valid_topo_predIs g ranks h) (valid_topo_pairwise g ranks h) _ v hv

/-! ### Fuel sufficiency for the gap-extension loops -/

theorem extendLeftLoop_no_gas (M : Mats) (s : AffineNWSettings) (w i : Nat) :
    ∀ (fuel j : Nat) (accG accS : List (Option Nat)), j < fuel →
    extendLeftLoop M s w i fuel j accG accS ≠ .gas ∧
    (∀ j2 aG aS,
      extendLeftLoop M s w i fuel j accG accS = .ok (j2, aG, aS) → j2 < j) := by
  intro fuel
  induction fuel with
  | zero => intro j accG accS h; omega
  | succ fuel ih =>
    intro j accG accS h
    simp only [extendLeftLoop]
    by_cases hj : j = 0
    · rw [if_pos hj]
      exact ⟨fun hc => BtRes.noConfusion hc,
             fun j2 aG aS hc => BtRes.noConfusion hc⟩
    · rw [if_neg hj]
      by_cases hcond :
          (M.E (i * w + (j - 1)) + s.extend_gap == M.E (i * w + (j - 1) + 1)) = true
      · rw [if_pos hcond]
        have hrec := ih (j - 1) (none :: accG) (some (j - 1) :: accS) (by omega)
        refine ⟨hrec.1, fun j2 aG aS hc => ?_⟩
        have hlt := hrec.2 j2 aG aS hc
        omega
      · rw [if_neg hcond]
        refine ⟨fun hc => BtRes.noConfusion hc, fun j2 aG aS hc => ?_⟩
        simp only [BtRes.ok.injEq, Prod.mk.injEq] at hc
        omega

theorem extendUpLoop_no_gas (g : POAGraph) (s : AffineNWSettings)
    (ranks : List Nat) (ranksInv : Nat → Nat) (M : Mats) (w j : Nat)
    (hb : ∀ i, 1 ≤ i → i ≤ ranks.length →
      ∀ p ∈ incomingEdges g (ranks.getD (i - 1) 0),
        ranksInv p.src + 1 ≤ i - 1) :
    ∀ (fuel i : Nat) (accG accS : List (Option Nat)),
    i < fuel → i ≤ ranks.length →
    extendUpLoop g s ranks ranksInv M w j fuel i accG accS ≠ .gas ∧
    (∀ i2 aG aS,
      extendUpLoop g s ranks ranksInv M w j fuel i accG accS = .ok (i2, aG, aS) →
      i2 < i) := by
  intro fuel
  induction fuel with
  | zero => intro i accG accS h _; omega
  | succ fuel ih =>
    intro i accG accS h hle
    simp only [extendUpLoop]
    by_cases hi : i = 0
    · rw [if_pos hi]
      exact ⟨fun hc => BtRes.noConfusion hc,
             fun i2 aG aS hc => BtRes.noConfusion hc⟩
    · rw [if_neg hi]
      rcases hfound : (incomingEdges g (ranks.getD (i - 1) 0)).find? (fun p =>
          M.F (i * w + j) == M.H ((ranksInv p.src + 1) * w + j) + s.open_gap ||
          M.F (i * w + j) == M.F ((ranksInv p.src + 1) * w + j) + s.extend_gap)
        with _ | p
      · refine ⟨fun hc => ?_, fun i2 aG aS hc => ?_⟩
        · rw [hfound] at hc
          simp at hc
        · rw [hfound] at hc
          simp at hc
          omega
      · have hple : ranksInv p.src + 1 ≤ i - 1 := by
          have hm := List.mem_of_find?_eq_some hfound
          exact hb i (by omega) hle p hm
        refine ⟨fun hc => ?_, fun i2 aG aS hc => ?_⟩
        · rw [hfound] at hc
          split at hc
          · exact BtRes.noConfusion hc
          · have hrec := ih (ranksInv p.src + 1)
              (some (ranks.getD (i - 1) 0) :: accG) (none :: accS)
              (by omega) (by omega)
            exact hrec.1 hc
        · rw [hfound] at hc
          split at hc
          · simp only [BtRes.ok.injEq, Prod.mk.injEq] at hc
            omega
          · have hrec := ih (ranksInv p.src + 1)
              (some (ranks.getD (i - 1) 0) :: accG) (none :: accS)
              (by omega) (by omega)
            have hlt := hrec.2 i2 aG aS hc
            omega

/-- Under the DP recurrences, the backtracking branch selection never falls
through to the stale `(prevI, prevJ)` pair: the chosen cell strictly
precedes `(i, j)`. -/
theorem btChoice_cases (g : POAGraph) (s : AffineNWSettings) (seq : Sequence)
    (ranks : List Nat) (ranksInv : Nat → Nat) (M : Mats) (w : Nat)
    (i j prevI prevJ pI pJ : Nat) (extL extU : Bool)
    (hi1 : 1 ≤ i) (hj1 : 1 ≤ j) (hjw : j ≤ w - 1)
    (heqi : eqAt g seq s ranksInv w M (i - 1) (ranks.getD (i - 1) 0))
    (hpisn : ∀ pi ∈ predIs g ranksInv (ranks.getD (i - 1) 0), pi ≤ i - 1)
    (hch : btChoice g s seq ranks ranksInv M w i j prevI prevJ =
      (pI, pJ, extL, extU)) :
    (pI ≤ i - 1 ∧ pJ = j - 1 ∧ extL = false ∧ extU = false) ∨
    (pI ≤ i - 1 ∧ pJ = j ∧ extL = false) ∨
    (pI = i ∧ pJ = j - 1 ∧ extL = true ∧ extU = false) ∨
    (pI = i ∧ pJ = j - 1 ∧ extL = false ∧ extU = false) := by
  have hw2 : 2 ≤ w := by omega
  simp only [btChoice] at hch
  rcases hf1 : (predIs g ranksInv (ranks.getD (i - 1) 0)).find? (fun pi =>
      M.H (i * w + j) == M.H (pi * w + (j - 1)) +
        matchScore (nucsOf g (ranks.getD (i - 1) 0))
          (seq.getD (j - 1) PoaElt.Empty) s.matchesVal s.mismatches)
    with _ | pi1
  · rw [hf1] at hch
    rcases hf2 : (predIs g ranksInv (ranks.getD (i - 1) 0)).find? (fun pi =>
        M.H (i * w + j) == M.F (pi * w + j) + s.extend_gap ||
        M.H (i * w + j) == M.H (pi * w + j) + s.open_gap)
      with _ | pi2
    · rw [hf2] at hch
      by_cases hE : (M.H (i * w + j) ==
          M.E (i * w + (j - 1)) + s.extend_gap) = true
      · rw [if_pos hE] at hch
        simp only [Prod.mk.injEq] at hch
        obtain ⟨h1, h2, h3, h4⟩ := hch
        exact Or.inr (Or.inr (Or.inl ⟨h1.symm, h2.symm, h3.symm, h4.symm⟩))
      · rw [if_neg hE] at hch
        by_cases hHl : (M.H (i * w + j) ==
            M.H (i * w + (j - 1)) + s.open_gap) = true
        · rw [if_pos hHl] at hch
          simp only [Prod.mk.injEq] at hch
          obtain ⟨h1, h2, h3, h4⟩ := hch
          exact Or.inr (Or.inr (Or.inr ⟨h1.symm, h2.symm, h3.symm, h4.symm⟩))
        · exfalso
          have he := heqi j hj1 (by omega)
          have hrow : i - 1 + 1 = i := by omega
          rw [hrow] at he
          obtain ⟨hFeq, hEeq, hHeq⟩ := he
          rcases max_choice
            (foldMax1 (fun pi => M.H (pi * w + (j - 1)) +
              matchScore (nucsOf g (ranks.getD (i - 1) 0))
                (seq.getD (j - 1) PoaElt.Empty) s.matchesVal s.mismatches)
              (predIs g ranksInv (ranks.getD (i - 1) 0)))
            (max (M.F (i * w + j)) (M.E (i * w + j))) with hA | hFE
          · rw [hA] at hHeq
            rcases foldMax1_attained _ _
              (predIs_ne_nil g ranksInv (ranks.getD (i - 1) 0)) with ⟨x, hx, hfx⟩
            rw [hfx] at hHeq
            have hpred := List.find?_eq_none.mp hf1 x hx
            exact hpred (beq_iff_eq.mpr hHeq)
          · rw [hFE] at hHeq
            rcases max_choice (M.F (i * w + j)) (M.E (i * w + j)) with hF | hE2
            · rw [hF] at hHeq
              rw [hFeq] at hHeq
              rcases foldMax1_attained _ _
                (predIs_ne_nil g ranksInv (ranks.getD (i - 1) 0)) with ⟨x, hx, hfx⟩
              rw [hfx] at hHeq
              have hpred := List.find?_eq_none.mp hf2 x hx
              rcases max_choice (M.H (x * w + j) + s.open_gap)
                (M.F (x * w + j) + s.extend_gap) with ho | hx2
              · rw [ho] at hHeq
                refine hpred ?_
                rw [Bool.or_eq_true]
                exact Or.inr (beq_iff_eq.mpr hHeq)
              · rw [hx2] at hHeq
                refine hpred ?_
                rw [Bool.or_eq_true]
                exact Or.inl (beq_iff_eq.mpr hHeq)
            · rw [hE2, hEeq] at hHeq
              rcases max_choice (M.H (i * w + (j - 1)) + s.open_gap)
                (M.E (i * w + (j - 1)) + s.extend_gap) with ho | hx2
              · rw [ho] at hHeq
                exact hHl (beq_iff_eq.mpr hHeq)
              · rw [hx2] at hHeq
                exact hE (beq_iff_eq.mpr hHeq)
    · rw [hf2] at hch
      simp only [Prod.mk.injEq] at hch
      obtain ⟨h1, h2, h3, _⟩ := hch
      have hm := hpisn pi2 (List.mem_of_find?_eq_some hf2)
      exact Or.inr (Or.inl ⟨h1 ▸ hm, h2.symm, h3.symm⟩)
  · rw [hf1] at hch
    simp only [Prod.mk.injEq] at hch
    obtain ⟨h1, h2, h3, h4⟩ := hch
    have hm := hpisn pi1 (List.mem_of_find?_eq_some hf1)
    exact Or.inl ⟨h1 ▸ hm, h2.symm, h3.symm, h4.symm⟩

/-- The outer backtracking loop cannot exhaust its fuel when the matrix
satisfies the DP recurrences at every row and all predecessors precede
their nodes in the order: every iteration strictly decreases `i + j`. -/
theorem btLoop_no_gas (g : POAGraph) (s : AffineNWSettings) (seq : Sequence)
    (ranks : List Nat) (ranksInv : Nat → Nat) (M : Mats) (w : Nat)
    (heq : ∀ i, 1 ≤ i → i ≤ ranks.length →
      eqAt g seq s ranksInv w M (i - 1) (ranks.getD (i - 1) 0))
    (hpis : ∀ i, 1 ≤ i → i ≤ ranks.length →
      ∀ pi ∈ predIs g ranksInv (ranks.getD (i - 1) 0), pi ≤ i - 1) :
    ∀ (fuel i j prevI prevJ : Nat) (accG accS : List (Option Nat)),
    i ≤ ranks.length → j ≤ w - 1 → i + j < fuel →
    btLoop g s seq ranks ranksInv M w fuel i j prevI prevJ accG accS ≠ .gas := by
  have hb : ∀ i', 1 ≤ i' → i' ≤ ranks.length →
      ∀ p ∈ incomingEdges g (ranks.getD (i' - 1) 0),
        ranksInv p.src + 1 ≤ i' - 1 :=
    fun i' h1 h2 p hp =>
      hpis i' h1 h2 _ (predIs_mem_of_incoming g ranksInv _ p hp)
  intro fuel
  induction fuel with
  | zero => intro i j prevI prevJ accG accS _ _ h; omega
  | succ fuel ih =>
    intro i j prevI prevJ accG accS hi hj hf
    simp only [btLoop]
    by_cases h0 : i = 0 ∨ j = 0
    · rw [if_pos h0]
      exact fun hc => BtRes.noConfusion hc
    · rw [if_neg h0]
      have h0' := not_or.mp h0
      have hi1 : 1 ≤ i := Nat.one_le_iff_ne_zero.mpr h0'.1
      have hj1 : 1 ≤ j := Nat.one_le_iff_ne_zero.mpr h0'.2
      rcases hch : btChoice g s seq ranks ranksInv M w i j prevI prevJ
        with ⟨pI, pJ, extL, extU⟩
      try simp only [hch]
      try dsimp only
      have hcases := btChoice_cases g s seq ranks ranksInv M w i j prevI prevJ
        pI pJ extL extU hi1 hj1 hj (heq i hi1 hi) (hpis i hi1 hi) hch
      cases extL with
      | true =>
        rw [if_pos rfl]
        have h3 : pI = i ∧ pJ = j - 1 := by
          rcases hcases with ⟨_, _, hx, _⟩ | ⟨_, _, hx⟩ | ⟨hp1, hp2, _, _⟩ |
            ⟨_, _, hx, _⟩
          · exact absurd hx (by simp)
          · exact absurd hx (by simp)
          · exact ⟨hp1, hp2⟩
          · exact absurd hx (by simp)
        have hEL := extendLeftLoop_no_gas M s w pI (pJ + 2) pJ
          ((if i = pI then none else some (ranks.getD (i - 1) 0)) :: accG)
          ((if j = pJ then none else some (j - 1)) :: accS) (by omega)
        rcases hres : extendLeftLoop M s w pI (pJ + 2) pJ
          ((if i = pI then none else some (ranks.getD (i - 1) 0)) :: accG)
          ((if j = pJ then none else some (j - 1)) :: accS)
          with ⟨j2, aG2, aS2⟩ | _ | _
        · have hj2 := hEL.2 j2 aG2 aS2 hres
          try rw [hres]
          exact ih pI j2 pI pJ aG2 aS2 (by omega) (by omega) (by omega)
        · try rw [hres]
          exact fun hc => BtRes.noConfusion hc
        · exact absurd hres hEL.1
      | false =>
        rw [if_neg Bool.false_ne_true]
        cases extU with
        | true =>
          rw [if_pos rfl]
          have h2 : pI ≤ i - 1 ∧ pJ = j := by
            rcases hcases with ⟨_, _, _, hx⟩ | ⟨hp1, hp2, _⟩ | ⟨_, _, hx, _⟩ |
              ⟨_, _, _, hx⟩
            · exact absurd hx (by simp)
            · exact ⟨hp1, hp2⟩
            · exact absurd hx (by simp)
            · exact absurd hx (by simp)
          have hEU := extendUpLoop_no_gas g s ranks ranksInv M w pJ hb
            (pI + 2) pI
            ((if i = pI then none else some (ranks.getD (i - 1) 0)) :: accG)
            ((if j = pJ then none else some (j - 1)) :: accS)
            (by omega) (by omega)
          rcases hres : extendUpLoop g s ranks ranksInv M w pJ (pI + 2) pI
            ((if i = pI then none else some (ranks.getD (i - 1) 0)) :: accG)
            ((if j = pJ then none else some (j - 1)) :: accS)
            with ⟨i2, aG2, aS2⟩ | _ | _
          · have hi2 := hEU.2 i2 aG2 aS2 hres
            try rw [hres]
            exact ih i2 pJ i2 pJ aG2 aS2 (by omega) (by omega) (by omega)
          · try rw [hres]
            exact fun hc => BtRes.noConfusion hc
          · exact absurd hres hEU.1
        | false =>
          rw [if_neg Bool.false_ne_true]
          rcases hcases with ⟨hp1, hp2, _, _⟩ | ⟨hp1, hp2, _⟩ | ⟨_, _, hx, _⟩ |
            ⟨hp1, hp2, _, _⟩
          · exact ih pI pJ pI pJ _ _ (by omega) (by omega) (by omega)
          · exact ih pI pJ pI pJ _ _ (by omega) (by omega) (by omega)
          · exact absurd hx (by simp)
          · exact ih pI pJ pI pJ _ _ (by omega) (by omega) (by omega)

/-- Generic fold invariant over a list. -/
theorem foldl_inv {α β : Type} (f : β → α → β) (P : β → Prop) :
    ∀ (l : List α), (∀ b a, a ∈ l → P b → P (f b a)) →
    ∀ b, P b → P (l.foldl f b) := by
  intro l
  induction l with
  | nil => intro _ b hb; exact hb
  | cons a l' ih =>
    intro hstep b hb
    rw [List.foldl_cons]
    exact ih (fun b' a' ha' hb' => hstep b' a' (List.mem_cons_of_mem _ ha') hb')
      (f b a) (hstep b a (List.mem_cons_self _ _) hb)

/-- The local-alignment endpoint row picked by `affine_sw` never exceeds the
number of ranks. -/
theorem btStart_snd_le (g : POAGraph) (M : Mats) (ranks : List Nat) (w : Nat) :
    (btStart g M ranks (posOf ranks) w).2 ≤ ranks.length := by
  have hbt : btStart g M ranks (posOf ranks) w = ranks.foldl
      (fun ax node_id =>
        if outgoingEdges g node_id = [] ∧
            M.H ((posOf ranks node_id + 1) * w + w - 1) > ax.1
        then (M.H ((posOf ranks node_id + 1) * w + w - 1),
              posOf ranks node_id + 1)
        else ax) (NEG_INF, 0) := rfl
  rw [hbt]
  refine foldl_inv _ (fun ax : Int × Nat => ax.2 ≤ ranks.length) ranks ?_ _
    (by simp)
  intro b a ha hbP
  by_cases hc : outgoingEdges g a = [] ∧
      M.H ((posOf ranks a + 1) * w + w - 1) > b.1
  · rw [if_pos hc]
    have hlt : posOf ranks a < ranks.length :=
      List.findIdx_lt_length_of_exists ⟨a, ha, by simp⟩
    simpa using hlt
  · rw [if_neg hc]
    exact hbP

/-- Access facts for `ranks.getD (i - 1) 0` on a valid topological order. -/
theorem valid_topo_getD (g : POAGraph) (ranks : List Nat)
    (h : isValidTopo g ranks = true) :
    ∀ i, 1 ≤ i → i ≤ ranks.length →
      ranks.getD (i - 1) 0 ∈ ranks ∧
      posOf ranks (ranks.getD (i - 1) 0) = i - 1 := by
  intro i h1 h2
  have hti : i - 1 < ranks.length := by omega
  have hget : ranks.getD (i - 1) 0 = ranks.get ⟨i - 1, hti⟩ := by
    rw [List.getD_eq_get?, List.get?_eq_get hti]
    rfl
  constructor
  · rw [hget]
    exact List.get_mem _ _ hti
  · rw [hget]
    exact posOf_get ranks (valid_topo_nodup g ranks h) (i - 1) hti

/-- C10: on an acyclic graph (`toposort` succeeds) the backtracking phase of
`affine_sw` terminates for every sequence and settings: with the fuel the
embedding gives the outer loop (`maxI + maxJ + 2`, one unit per strict
decrease of `i + j` plus slack), neither the outer loop nor the two
gap-extension loops inside it can exhaust fuel (`BtRes.gas`, the divergence
marker, is unreachable): some match, insertion, or deletion branch always
explains `H[i][j]`, each outer iteration strictly decreases `i + j`, and the
extension loops strictly decrease `j` (resp. `i`). -/
theorem affineSW_backtrack_terminates (g : POAGraph) (seq : Sequence)
    (s : AffineNWSettings) (ranks : List Nat)
    (htopo : toposort g = some ranks) :
    btLoop g s seq ranks (posOf ranks)
      (buildMatrix g seq s ranks (posOf ranks)) (seq.length + 1)
      ((btStart g (buildMatrix g seq s ranks (posOf ranks)) ranks
          (posOf ranks) (seq.length + 1)).2 + (seq.length + 1 - 1) + 2)
      (btStart g (buildMatrix g seq s ranks (posOf ranks)) ranks
          (posOf ranks) (seq.length + 1)).2
      (seq.length + 1 - 1) 0 0 [] [] ≠ .gas := by
  have hv := toposort_valid g ranks htopo
  have heq : ∀ i, 1 ≤ i → i ≤ ranks.length →
      eqAt g seq s (posOf ranks) (seq.length + 1)
        (buildMatrix g seq s ranks (posOf ranks)) (i - 1)
        (ranks.getD (i - 1) 0) := by
    intro i h1 h2
    obtain ⟨hmem, hpos⟩ := valid_topo_getD g ranks hv i h1 h2
    have hres := buildMatrix_eqAt g seq s ranks hv _ hmem
    rw [hpos] at hres
    exact hres
  have hpis : ∀ i, 1 ≤ i → i ≤ ranks.length →
      ∀ pi ∈ predIs g (posOf ranks) (ranks.getD (i - 1) 0), pi ≤ i - 1 := by
    intro i h1 h2 pi hpi
    obtain ⟨hmem, hpos⟩ := valid_topo_getD g ranks hv i h1 h2
    have hle := valid_topo_predIs g ranks hv _ hmem pi hpi
    omega
  have hle := btStart_snd_le g (buildMatrix g seq s ranks (posOf ranks)) ranks
    (seq.length + 1)
  exact btLoop_no_gas g s seq ranks (posOf ranks)
    (buildMatrix g seq s ranks (posOf ranks)) (seq.length + 1) heq hpis
    _ _ _ 0 0 [] [] hle (by omega) (by omega)

/-- A one-node graph for exercising the termination theorem. -/
def G10 : POAGraph :=
  { nodes := [⟨[(0, PoaElt.geneFamily 1)]⟩], edges := [] }

theorem affineSW_backtrack_terminates_witness :
    toposort G10 = some [0] ∧
    btLoop G10 alignSettings [PoaElt.geneFamily 1] [0] (posOf [0])
      (buildMatrix G10 [PoaElt.geneFamily 1] alignSettings [0] (posOf [0]))
      ([PoaElt.geneFamily 1].length + 1)
      ((btStart G10
          (buildMatrix G10 [PoaElt.geneFamily 1] alignSettings [0] (posOf [0]))
          [0] (posOf [0]) ([PoaElt.geneFamily 1].length + 1)).2 +
        ([PoaElt.geneFamily 1].length + 1 - 1) + 2)
      (btStart G10
          (buildMatrix G10 [PoaElt.geneFamily 1] alignSettings [0] (posOf [0]))
          [0] (posOf [0]) ([PoaElt.geneFamily 1].length + 1)).2
      ([PoaElt.geneFamily 1].length + 1 - 1) 0 0 [] [] ≠ .gas :=
  ⟨by decide,
   affineSW_backtrack_terminates G10 [PoaElt.geneFamily 1] alignSettings [0]
     (by decide)⟩

/-! ## C6 — per-`SeqID` out-degree invariant -/

/-- Number of outgoing edges of `v` whose label list contains `sid`. -/
def sidOut (es : List POAEdge) (v : Nat) (sid : SeqID) : Nat :=
  es.countP (fun e => e.src == v && e.labels.contains sid)

theorem sidOut_nil (v : Nat) (sid : SeqID) : sidOut [] v sid = 0 := rfl

theorem sidOut_append (es1 es2 : List POAEdge) (v : Nat) (sid : SeqID) :
    sidOut (es1 ++ es2) v sid = sidOut es1 v sid + sidOut es2 v sid :=
  List.countP_append _ _ _

/-- Appending a different label to an edge's labels does not change
`contains sid`. -/
theorem contains_append_ne (ls : List SeqID) (l sid : SeqID) (h : sid ≠ l) :
    (ls ++ [l]).contains sid = ls.contains sid := by
  induction ls with
  | nil => simpa using h
  | cons a ls ih =>
    by_cases ha : sid = a
    · subst ha
      simp [List.contains_cons]
    · simp only [List.cons_append, List.contains_cons] at ih ⊢
      rw [ih]

theorem sidOut_edgesAddLabel_other (es : List POAEdge) (s t : Nat)
    (l : SeqID) (v : Nat) (sid : SeqID) (h : sid ≠ l) :
    sidOut (edgesAddLabel es s t l) v sid = sidOut es v sid := by
  induction es with
  | nil =>
    simp only [edgesAddLabel, sidOut, List.countP_cons, List.countP_nil]
    simp [h]
  | cons e es ih =>
    rw [edgesAddLabel]
    by_cases hm : e.src = s ∧ e.tgt = t
    · rw [if_pos hm]
      simp only [sidOut, List.countP_cons]
      simp [h]
    · rw [if_neg hm]
      simp only [sidOut, List.countP_cons] at ih ⊢
      rw [ih]

theorem sidOut_edgesAddLabel_src_ne (es : List POAEdge) (s t : Nat)
    (l : SeqID) (v : Nat) (sid : SeqID) (h : v ≠ s) :
    sidOut (edgesAddLabel es s t l) v sid = sidOut es v sid := by
  induction es with
  | nil =>
    simp only [edgesAddLabel, sidOut, List.countP_cons, List.countP_nil]
    have hsv : s ≠ v := fun hc => h hc.symm
    simp [hsv]
  | cons e es ih =>
    rw [edgesAddLabel]
    by_cases hm : e.src = s ∧ e.tgt = t
    · rw [if_pos hm]
      simp only [sidOut, List.countP_cons]
      have hf : e.src ≠ v := by
        rw [hm.1]
        exact fun hc => h hc.symm
      simp [hf]
    · rw [if_neg hm]
      simp only [sidOut, List.countP_cons] at ih ⊢
      rw [ih]

theorem sidOut_edgesAddLabel_src (es : List POAEdge) (s t : Nat) (l : SeqID)
    (v : Nat) (sid : SeqID) :
    sidOut (edgesAddLabel es s t l) v sid ≤ sidOut es v sid + 1 := by
  induction es with
  | nil =>
    simp only [edgesAddLabel, sidOut, List.countP_cons, List.countP_nil]
    split <;> omega
  | cons e es ih =>
    rw [edgesAddLabel]
    by_cases hm : e.src = s ∧ e.tgt = t
    · rw [if_pos hm]
      simp only [sidOut, List.countP_cons]
      split <;> split <;> omega
    · rw [if_neg hm]
      simp only [sidOut, List.countP_cons] at ih ⊢
      split <;> omega

/-- Structure of `edgesAddLabel`'s output: every edge either comes from the
input (possibly with `l` appended to its labels) or is the fresh
`(s, t, [l])` edge. -/
theorem edgesAddLabel_shape (es : List POAEdge) (s t : Nat) (l : SeqID) :
    ∀ e' ∈ edgesAddLabel es s t l,
      (∃ e ∈ es, e'.src = e.src ∧ e'.tgt = e.tgt ∧
        (e'.labels = e.labels ∨ e'.labels = e.labels ++ [l])) ∨
      e' = ⟨s, t, [l]⟩ := by
  induction es with
  | nil =>
    intro e' he'
    simp only [edgesAddLabel] at he'
    rcases List.mem_singleton.mp he' with rfl
    exact Or.inr rfl
  | cons e es ih =>
    intro e' he'
    rw [edgesAddLabel] at he'
    by_cases hm : e.src = s ∧ e.tgt = t
    · rw [if_pos hm] at he'
      rcases List.mem_cons.mp he' with rfl | hmem
      · exact Or.inl ⟨e, List.mem_cons_self _ _, rfl, rfl, Or.inr rfl⟩
      · exact Or.inl ⟨e', List.mem_cons_of_mem _ hmem, rfl, rfl, Or.inl rfl⟩
    · rw [if_neg hm] at he'
      rcases List.mem_cons.mp he' with rfl | hmem
      · exact Or.inl ⟨e', List.mem_cons_self _ _, rfl, rfl, Or.inl rfl⟩
      · rcases ih e' hmem with ⟨e0, he0, h1, h2, h3⟩ | h
        · exact Or.inl ⟨e0, List.mem_cons_of_mem _ he0, h1, h2, h3⟩
        · exact Or.inr h

/-- A node with no live edges (in particular any index past the live nodes
under `edgesValid`) has no labelled outgoing edge. -/
theorem sidOut_eq_zero_of_ge (g : POAGraph) (hv : edgesValid g) (v : Nat)
    (h : g.nodes.length ≤ v) (sid : SeqID) : sidOut g.edges v sid = 0 := by
  rw [sidOut, List.countP_eq_zero]
  intro e he
  have := (hv e he).1
  simp only [Bool.and_eq_true, beq_iff_eq]
  rintro ⟨rfl, -⟩
  omega

/-- The backtracking accumulator invariant: the recorded graph nodes are the
rank-row nodes of a strictly increasing list of rows, all above the current
row `i`. -/
def accChain (ranks : List Nat) (i : Nat) (acc : List (Option Nat)) : Prop :=
  ∃ rows : List Nat,
    acc.filterMap id = rows.map (fun r => ranks.getD (r - 1) 0) ∧
    List.Chain' (· < ·) rows ∧ (∀ r ∈ rows, i < r ∧ r ≤ ranks.length)

theorem accChain_nil (ranks : List Nat) (i : Nat) : accChain ranks i [] :=
  ⟨[], rfl, List.chain'_nil, by simp⟩

theorem accChain_mono (ranks : List Nat) (i i' : Nat) (acc : List (Option Nat))
    (h : i' ≤ i) : accChain ranks i acc → accChain ranks i' acc := by
  rintro ⟨rows, h1, h2, h3⟩
  exact ⟨rows, h1, h2, fun r hr => ⟨by have := (h3 r hr).1; omega, (h3 r hr).2⟩⟩

theorem accChain_none (ranks : List Nat) (i : Nat) (acc : List (Option Nat)) :
    accChain ranks i acc → accChain ranks i (none :: acc) := by
  rintro ⟨rows, h1, h2, h3⟩
  exact ⟨rows, by simpa using h1, h2, h3⟩

theorem accChain_push (ranks : List Nat) (i pI : Nat) (acc : List (Option Nat))
    (h : accChain ranks i acc) (hpi : pI < i) (hlen : i ≤ ranks.length) :
    accChain ranks pI (some (ranks.getD (i - 1) 0) :: acc) := by
  rcases h with ⟨rows, h1, h2, h3⟩
  refine ⟨i :: rows, ?_, ?_, ?_⟩
  · simpa using h1
  · rw [List.chain'_cons']
    exact ⟨fun y hy => (h3 y (List.mem_of_mem_head? hy)).1, h2⟩
  · intro r hr
    rcases List.mem_cons.mp hr with rfl | hr'
    · omega
    · have := h3 r hr'
      omega

/-- Same `filterMap id` means same `accChain`. -/
theorem accChain_of_filterMap (ranks : List Nat) (i : Nat)
    (acc acc' : List (Option Nat)) (h : acc'.filterMap id = acc.filterMap id) :
    accChain ranks i acc → accChain ranks i acc' := by
  rintro ⟨rows, h1, h2, h3⟩
  exact ⟨rows, h.trans h1, h2, h3⟩

/-- `extendLeftLoop` only pushes `none` onto the node accumulator. -/
theorem extendLeftLoop_filterMap (M : Mats) (s : AffineNWSettings) (w i : Nat) :
    ∀ (fuel j : Nat) (accG accS : List (Option Nat)) (j2 : Nat)
      (aG aS : List (Option Nat)),
    extendLeftLoop M s w i fuel j accG accS = .ok (j2, aG, aS) →
    aG.filterMap id = accG.filterMap id := by
  intro fuel
  induction fuel with
  | zero => intro j accG accS j2 aG aS hc; cases hc
  | succ fuel ih =>
    intro j accG accS j2 aG aS hc
    rw [extendLeftLoop] at hc
    by_cases hj : j = 0
    · rw [if_pos hj] at hc
      cases hc
    · rw [if_neg hj] at hc
      by_cases hcond :
          (M.E (i * w + (j - 1)) + s.extend_gap == M.E (i * w + (j - 1) + 1)) = true
      · rw [if_pos hcond] at hc
        have := ih (j - 1) (none :: accG) (some (j - 1) :: accS) j2 aG aS hc
        simpa using this
      · rw [if_neg hcond] at hc
        simp only [BtRes.ok.injEq, Prod.mk.injEq] at hc
        rw [← hc.2.1]
        simp

/-- `extendUpLoop` pushes the rank-row nodes of a strictly decreasing run of
rows, preserving the accumulator invariant. -/
theorem extendUpLoop_acc (g : POAGraph) (s : AffineNWSettings)
    (ranks : List Nat) (ranksInv : Nat → Nat) (M : Mats) (w j : Nat)
    (hb : ∀ i, 1 ≤ i → i ≤ ranks.length →
      ∀ p ∈ incomingEdges g (ranks.getD (i - 1) 0),
        ranksInv p.src + 1 ≤ i - 1) :
    ∀ (fuel i : Nat) (accG accS : List (Option Nat)) (i2 : Nat)
      (aG aS : List (Option Nat)),
    i ≤ ranks.length → accChain ranks i accG →
    extendUpLoop g s ranks ranksInv M w j fuel i accG accS = .ok (i2, aG, aS) →
    accChain ranks i2 aG ∧ i2 < i := by
  intro fuel
  induction fuel with
  | zero => intro i accG accS i2 aG aS _ _ hc; cases hc
  | succ fuel ih =>
    intro i accG accS i2 aG aS hle hacc hc
    simp only [extendUpLoop] at hc
    by_cases hi : i = 0
    · rw [if_pos hi] at hc
      cases hc
    · rw [if_neg hi] at hc
      rcases hfound : (incomingEdges g (ranks.getD (i - 1) 0)).find? (fun p =>
          M.F (i * w + j) == M.H ((ranksInv p.src + 1) * w + j) + s.open_gap ||
          M.F (i * w + j) == M.F ((ranksInv p.src + 1) * w + j) + s.extend_gap)
        with _ | p
      · rw [hfound] at hc
        have hc2 : BtRes.ok ((0 : Nat), some (ranks.getD (i - 1) 0) :: accG,
            none :: accS) = BtRes.ok (i2, aG, aS) := hc
        simp only [BtRes.ok.injEq, Prod.mk.injEq] at hc2
        rcases hc2 with ⟨h1, h2, _⟩
        refine ⟨?_, by omega⟩
        rw [← h1, ← h2]
        exact accChain_push ranks i 0 accG hacc (by omega) hle
      · rw [hfound] at hc
        have hple : ranksInv p.src + 1 ≤ i - 1 := by
          have hm := List.mem_of_find?_eq_some hfound
          exact hb i (by omega) hle p hm
        split at hc
        · simp only [BtRes.ok.injEq, Prod.mk.injEq] at hc
          rcases hc with ⟨h1, h2, _⟩
          refine ⟨?_, by omega⟩
          rw [← h1, ← h2]
          exact accChain_push ranks i (ranksInv p.src + 1) accG hacc
            (by omega) hle
        · have hrec := ih (ranksInv p.src + 1)
            (some (ranks.getD (i - 1) 0) :: accG) (none :: accS) i2 aG aS
            (by omega)
            (accChain_push ranks i (ranksInv p.src + 1) accG hacc
              (by omega) hle) hc
          exact ⟨hrec.1, by omega⟩

/-- The node entries recorded by the whole backtracking loop are rank-row
nodes of strictly increasing rows: no graph node is recorded twice. -/
theorem btLoop_acc (g : POAGraph) (s : AffineNWSettings) (seq : Sequence)
    (ranks : List Nat) (ranksInv : Nat → Nat) (M : Mats) (w : Nat)
    (heq : ∀ i, 1 ≤ i → i ≤ ranks.length →
      eqAt g seq s ranksInv w M (i - 1) (ranks.getD (i - 1) 0))
    (hpis : ∀ i, 1 ≤ i → i ≤ ranks.length →
      ∀ pi ∈ predIs g ranksInv (ranks.getD (i - 1) 0), pi ≤ i - 1) :
    ∀ (fuel i j prevI prevJ : Nat) (accG accS aG aS : List (Option Nat)),
    i ≤ ranks.length → j ≤ w - 1 → accChain ranks i accG →
    btLoop g s seq ranks ranksInv M w fuel i j prevI prevJ accG accS =
      .ok (aG, aS) →
    accChain ranks 0 aG := by
  have hb : ∀ i', 1 ≤ i' → i' ≤ ranks.length →
      ∀ p ∈ incomingEdges g (ranks.getD (i' - 1) 0),
        ranksInv p.src + 1 ≤ i' - 1 :=
    fun i' h1 h2 p hp =>
      hpis i' h1 h2 _ (predIs_mem_of_incoming g ranksInv _ p hp)
  intro fuel
  induction fuel with
  | zero => intro i j prevI prevJ accG accS aG aS _ _ _ hc; cases hc
  | succ fuel ih =>
    intro i j prevI prevJ accG accS aG aS hi hj hacc hc
    simp only [btLoop] at hc
    by_cases h0 : i = 0 ∨ j = 0
    · rw [if_pos h0] at hc
      simp only [BtRes.ok.injEq, Prod.mk.injEq] at hc
      rw [← hc.1]
      exact accChain_mono ranks i 0 accG (by omega) hacc
    · rw [if_neg h0] at hc
      have h0' := not_or.mp h0
      have hi1 : 1 ≤ i := Nat.one_le_iff_ne_zero.mpr h0'.1
      have hj1 : 1 ≤ j := Nat.one_le_iff_ne_zero.mpr h0'.2
      rcases hch : btChoice g s seq ranks ranksInv M w i j prevI prevJ
        with ⟨pI, pJ, extL, extU⟩
      rw [hch] at hc
      have hcases := btChoice_cases g s seq ranks ranksInv M w i j prevI prevJ
        pI pJ extL extU hi1 hj1 hj (heq i hi1 hi) (hpis i hi1 hi) hch
      cases extL with
      | true =>
        have h3 : pI = i ∧ pJ = j - 1 := by
          rcases hcases with ⟨_, _, hx, _⟩ | ⟨_, _, hx⟩ | ⟨hp1, hp2, _, _⟩ |
            ⟨_, _, hx, _⟩
          · exact absurd hx (by simp)
          · exact absurd hx (by simp)
          · exact ⟨hp1, hp2⟩
          · exact absurd hx (by simp)
        have hc2 : (match extendLeftLoop M s w pI (pJ + 2) pJ
            ((if i = pI then none else some (ranks.getD (i - 1) 0)) :: accG)
            ((if j = pJ then none else some (j - 1)) :: accS) with
          | .gas => (.gas : BtRes (List (Option Nat) × List (Option Nat)))
          | .panic => .panic
          | .ok (j2, accG2, accS2) =>
            btLoop g s seq ranks ranksInv M w fuel pI j2 pI pJ accG2 accS2) =
            .ok (aG, aS) := hc
        rcases hres : extendLeftLoop M s w pI (pJ + 2) pJ
            ((if i = pI then none else some (ranks.getD (i - 1) 0)) :: accG)
            ((if j = pJ then none else some (j - 1)) :: accS)
          with ⟨j2, aG2, aS2⟩ | _ | _
        · rw [hres] at hc2
          have hc3 : btLoop g s seq ranks ranksInv M w fuel pI j2 pI pJ
              aG2 aS2 = .ok (aG, aS) := hc2
          have hEL := extendLeftLoop_no_gas M s w pI (pJ + 2) pJ
            ((if i = pI then none else some (ranks.getD (i - 1) 0)) :: accG)
            ((if j = pJ then none else some (j - 1)) :: accS) (by omega)
          have hj2 := hEL.2 j2 aG2 aS2 hres
          have hfm := extendLeftLoop_filterMap M s w pI (pJ + 2) pJ
            ((if i = pI then none else some (ranks.getD (i - 1) 0)) :: accG)
            ((if j = pJ then none else some (j - 1)) :: accS) j2 aG2 aS2 hres
          have hN : ((if i = pI then none else
              some (ranks.getD (i - 1) 0)) :: accG).filterMap id =
              accG.filterMap id := by
            rw [if_pos h3.1.symm]
            simp
          have hacc2 : accChain ranks pI aG2 :=
            accChain_of_filterMap ranks pI _ _ (hfm.trans hN)
              (accChain_mono ranks i pI accG (by omega) hacc)
          exact ih pI j2 pI pJ aG2 aS2 aG aS (by omega) (by omega) hacc2 hc3
        · rw [hres] at hc2
          have hc3 : (BtRes.panic :
              BtRes (List (Option Nat) × List (Option Nat))) =
              .ok (aG, aS) := hc2
          cases hc3
        · rw [hres] at hc2
          have hc3 : (BtRes.gas :
              BtRes (List (Option Nat) × List (Option Nat))) =
              .ok (aG, aS) := hc2
          cases hc3
      | false =>
        cases extU with
        | true =>
          have h2 : pI ≤ i - 1 ∧ pJ = j := by
            rcases hcases with ⟨_, _, _, hx⟩ | ⟨hp1, hp2, _⟩ | ⟨_, _, hx, _⟩ |
              ⟨_, _, _, hx⟩
            · exact absurd hx (by simp)
            · exact ⟨hp1, hp2⟩
            · exact absurd hx (by simp)
            · exact absurd hx (by simp)
          have hc2 : (match extendUpLoop g s ranks ranksInv M w pJ (pI + 2) pI
              ((if i = pI then none else some (ranks.getD (i - 1) 0)) :: accG)
              ((if j = pJ then none else some (j - 1)) :: accS) with
            | .gas => (.gas : BtRes (List (Option Nat) × List (Option Nat)))
            | .panic => .panic
            | .ok (i2, accG2, accS2) =>
              btLoop g s seq ranks ranksInv M w fuel i2 pJ i2 pJ accG2 accS2) =
              .ok (aG, aS) := hc
          rcases hres : extendUpLoop g s ranks ranksInv M w pJ (pI + 2) pI
              ((if i = pI then none else some (ranks.getD (i - 1) 0)) :: accG)
              ((if j = pJ then none else some (j - 1)) :: accS)
            with ⟨i2, aG2, aS2⟩ | _ | _
          · rw [hres] at hc2
            have hc3 : btLoop g s seq ranks ranksInv M w fuel i2 pJ i2 pJ
                aG2 aS2 = .ok (aG, aS) := hc2
            have hne : i ≠ pI := by omega
            have hA1 : accChain ranks pI
                ((if i = pI then none else
                  some (ranks.getD (i - 1) 0)) :: accG) := by
              rw [if_neg hne]
              exact accChain_push ranks i pI accG hacc (by omega) hi
            have hUP := extendUpLoop_acc g s ranks ranksInv M w pJ hb
              (pI + 2) pI
              ((if i = pI then none else some (ranks.getD (i - 1) 0)) :: accG)
              ((if j = pJ then none else some (j - 1)) :: accS) i2 aG2 aS2
              (by omega) hA1 hres
            exact ih i2 pJ i2 pJ aG2 aS2 aG aS (by omega) (by omega)
              hUP.1 hc3
          · rw [hres] at hc2
            have hc3 : (BtRes.panic :
                BtRes (List (Option Nat) × List (Option Nat))) =
                .ok (aG, aS) := hc2
            cases hc3
          · rw [hres] at hc2
            have hc3 : (BtRes.gas :
                BtRes (List (Option Nat) × List (Option Nat))) =
                .ok (aG, aS) := hc2
            cases hc3
        | false =>
          have hc3 : btLoop g s seq ranks ranksInv M w fuel pI pJ pI pJ
              ((if i = pI then none else some (ranks.getD (i - 1) 0)) :: accG)
              ((if j = pJ then none else some (j - 1)) :: accS) =
              .ok (aG, aS) := hc
          rcases hcases with ⟨hp1, hp2, _, _⟩ | ⟨hp1, hp2, _⟩ | ⟨_, _, hx, _⟩ |
            ⟨hp1, hp2, _, _⟩
          · have hne : i ≠ pI := by omega
            have hA1 : accChain ranks pI
                ((if i = pI then none else
                  some (ranks.getD (i - 1) 0)) :: accG) := by
              rw [if_neg hne]
              exact accChain_push ranks i pI accG hacc (by omega) hi
            exact ih pI pJ pI pJ _ _ aG aS (by omega) (by omega) hA1 hc3
          · have hne : i ≠ pI := by omega
            have hA1 : accChain ranks pI
                ((if i = pI then none else
                  some (ranks.getD (i - 1) 0)) :: accG) := by
              rw [if_neg hne]
              exact accChain_push ranks i pI accG hacc (by omega) hi
            exact ih pI pJ pI pJ _ _ aG aS (by omega) (by omega) hA1 hc3
          · exact absurd hx (by simp)
          · have hA1 : accChain ranks pI
                ((if i = pI then none else
                  some (ranks.getD (i - 1) 0)) :: accG) := by
              rw [if_pos hp1.symm]
              exact accChain_none ranks pI accG
                (accChain_mono ranks i pI accG (by omega) hacc)
            exact ih pI pJ pI pJ _ _ aG aS (by omega) (by omega) hA1 hc3

theorem accChain_facts (g : POAGraph) (ranks : List Nat)
    (hv : isValidTopo g ranks = true) (acc : List (Option Nat))
    (h : accChain ranks 0 acc) :
    (acc.filterMap id).Nodup ∧ ∀ x ∈ acc.filterMap id, x < g.nodes.length := by
  rcases h with ⟨rows, h1, h2, h3⟩
  have hnd := valid_topo_nodup g ranks hv
  have hrowsnd : rows.Nodup :=
    (List.chain'_iff_pairwise.mp h2).imp (fun hxy => Nat.ne_of_lt hxy)
  have hget : ∀ r ∈ rows, ∀ (hr : r - 1 < ranks.length),
      ranks.getD (r - 1) 0 = ranks.get ⟨r - 1, hr⟩ := by
    intro r _ hr
    rw [List.getD_eq_get?, List.get?_eq_get hr]
    rfl
  constructor
  · rw [h1]
    refine List.Nodup.map_on ?_ hrowsnd
    intro r1 hr1 r2 hr2 hf
    have hb1 := h3 r1 hr1
    have hb2 := h3 r2 hr2
    have hl1 : r1 - 1 < ranks.length := by omega
    have hl2 : r2 - 1 < ranks.length := by omega
    rw [hget r1 hr1 hl1, hget r2 hr2 hl2] at hf
    have := (List.Nodup.get_inj_iff hnd).mp hf
    have : r1 - 1 = r2 - 1 := congrArg Fin.val this
    omega
  · intro x hx
    rw [h1] at hx
    rcases List.mem_map.mp hx with ⟨r, hr, hfr⟩
    have hb := h3 r hr
    have hl : r - 1 < ranks.length := by omega
    rw [hget r hr hl] at hfr
    have hmem : x ∈ ranks := hfr ▸ List.get_mem _ _ hl
    have := (valid_topo_perm g ranks hv).mem_iff.mpr hmem
    exact List.mem_range.mp this

/-- The graph-node entries of any alignment trace produced by `affine_sw`
name pairwise distinct live nodes. -/
theorem affineSW_trace (g : POAGraph) (seq : Sequence) (s : AffineNWSettings)
    (score : Int) (aG aS : List (Option Nat))
    (h : affineSW g seq s = some (score, (aG, aS))) :
    (aG.filterMap id).Nodup ∧ ∀ x ∈ aG.filterMap id, x < g.nodes.length := by
  rw [affineSW] at h
  rcases htp : toposort g with _ | ranks
  · rw [htp] at h
    cases h
  · rw [htp] at h
    have hv := toposort_valid g ranks htp
    have heq : ∀ i, 1 ≤ i → i ≤ ranks.length →
        eqAt g seq s (posOf ranks) (seq.length + 1)
          (buildMatrix g seq s ranks (posOf ranks)) (i - 1)
          (ranks.getD (i - 1) 0) := by
      intro i h1 h2
      obtain ⟨hmem, hpos⟩ := valid_topo_getD g ranks hv i h1 h2
      have hres := buildMatrix_eqAt g seq s ranks hv _ hmem
      rw [hpos] at hres
      exact hres
    have hpis : ∀ i, 1 ≤ i → i ≤ ranks.length →
        ∀ pi ∈ predIs g (posOf ranks) (ranks.getD (i - 1) 0), pi ≤ i - 1 := by
      intro i h1 h2 pi hpi
      obtain ⟨hmem, hpos⟩ := valid_topo_getD g ranks hv i h1 h2
      have hle := valid_topo_predIs g ranks hv _ hmem pi hpi
      omega
    have h2 : (match btLoop g s seq ranks (posOf ranks)
        (buildMatrix g seq s ranks (posOf ranks)) (seq.length + 1)
        ((btStart g (buildMatrix g seq s ranks (posOf ranks)) ranks
            (posOf ranks) (seq.length + 1)).2 + (seq.length + 1 - 1) + 2)
        (btStart g (buildMatrix g seq s ranks (posOf ranks)) ranks
            (posOf ranks) (seq.length + 1)).2
        (seq.length + 1 - 1) 0 0 [] [] with
      | BtRes.ok acc => some ((btStart g
          (buildMatrix g seq s ranks (posOf ranks)) ranks (posOf ranks)
          (seq.length + 1)).1, acc)
      | _ => none) = some (score, aG, aS) := h
    rcases hbt : btLoop g s seq ranks (posOf ranks)
        (buildMatrix g seq s ranks (posOf ranks)) (seq.length + 1)
        ((btStart g (buildMatrix g seq s ranks (posOf ranks)) ranks
            (posOf ranks) (seq.length + 1)).2 + (seq.length + 1 - 1) + 2)
        (btStart g (buildMatrix g seq s ranks (posOf ranks)) ranks
            (posOf ranks) (seq.length + 1)).2
        (seq.length + 1 - 1) 0 0 [] [] with acc | _ | _
    · rw [hbt] at h2
      rcases acc with ⟨aG', aS'⟩
      simp only [Option.some_inj, Prod.mk.injEq] at h2
      have hle := btStart_snd_le g (buildMatrix g seq s ranks (posOf ranks))
        ranks (seq.length + 1)
      have hchain := btLoop_acc g s seq ranks (posOf ranks)
        (buildMatrix g seq s ranks (posOf ranks)) (seq.length + 1) heq hpis
        _ _ _ 0 0 [] [] aG' aS' hle (by omega) (accChain_nil _ _) hbt
      rcases accChain_facts g ranks hv aG' hchain with ⟨hn, hb2⟩
      have haG : aG' = aG := h2.2.1
      rw [haG] at hn hb2
      exact ⟨hn, hb2⟩
    · rw [hbt] at h2
      cases h2
    · rw [hbt] at h2
      cases h2

/-- Every label of `es` is either `sid` or already occurs in `es0`. -/
def labelsFrom (es es0 : List POAEdge) (sid : SeqID) : Prop :=
  ∀ e ∈ es, ∀ x ∈ e.labels, x = sid ∨ ∃ e0 ∈ es0, x ∈ e0.labels

theorem labelsFrom_refl (es : List POAEdge) (sid : SeqID) :
    labelsFrom es es sid :=
  fun e he x hx => Or.inr ⟨e, he, hx⟩

theorem labelsFrom_trans (es2 es1 es0 : List POAEdge) (sid : SeqID)
    (h21 : labelsFrom es2 es1 sid) (h10 : labelsFrom es1 es0 sid) :
    labelsFrom es2 es0 sid := by
  intro e he x hx
  rcases h21 e he x hx with h | ⟨e1, he1, hx1⟩
  · exact Or.inl h
  · exact h10 e1 he1 x hx1

theorem labelsFrom_addLabel (es : List POAEdge) (s t : Nat) (sid : SeqID) :
    labelsFrom (edgesAddLabel es s t sid) es sid := by
  intro e' he' x hx
  rcases edgesAddLabel_shape es s t sid e' he' with ⟨e, he, _, _, hl⟩ | rfl
  · rcases hl with hl | hl
    · exact Or.inr ⟨e, he, hl ▸ hx⟩
    · rw [hl] at hx
      rcases List.mem_append.mp hx with hx | hx
      · exact Or.inr ⟨e, he, hx⟩
      · exact Or.inl (List.mem_singleton.mp hx)
  · exact Or.inl (List.mem_singleton.mp hx)

/-- A label absent from the graph has no labelled edge at all. -/
theorem sidOut_zero_of_labels (es : List POAEdge) (done : List SeqID)
    (sid : SeqID) (hl : ∀ e ∈ es, ∀ x ∈ e.labels, x ∈ done) (hs : sid ∉ done)
    (v : Nat) : sidOut es v sid = 0 := by
  rw [sidOut, List.countP_eq_zero]
  intro e he
  simp only [Bool.and_eq_true, beq_iff_eq]
  rintro ⟨-, hcon⟩
  exact hs (hl e he sid (by simpa using hcon))

/-- `edgesAddLabel` keeps all edges inside the live-node range when the new
endpoints are. -/
theorem edgesAddLabel_valid (es : List POAEdge) (s t : Nat) (l : SeqID)
    (N : Nat) (h : ∀ e ∈ es, e.src < N ∧ e.tgt < N) (hs : s < N) (ht : t < N) :
    ∀ e' ∈ edgesAddLabel es s t l, e'.src < N ∧ e'.tgt < N := by
  intro e' he'
  rcases edgesAddLabel_shape es s t l e' he' with ⟨e, he, h1, h2, _⟩ | rfl
  · rw [h1, h2]
    exact h e he
  · exact ⟨hs, ht⟩

/-- Invariant of the `insert_hanging_seq` loop: the chain edges have fresh,
pairwise distinct sources, so every per-`SeqID` out-degree stays `≤ 1`, old
nodes are untouched, and only `sid` is added to the labels. -/
theorem ihsLoop_sid (sid : SeqID) (N : Nat) :
    ∀ (seq : List Nucleotide) (g : POAGraph) (first? last? : Option Nat)
      (g' : POAGraph) (f' l' : Option Nat),
    ihsLoop sid seq g first? last? = (g', f', l') →
    N ≤ g.nodes.length →
    edgesValid g →
    (∀ v sid', sidOut g.edges v sid' ≤ 1) →
    (∀ lv, last? = some lv → lv < g.nodes.length ∧ N ≤ lv ∧
      sidOut g.edges lv sid = 0) →
    (∀ fv, first? = some fv → fv < g.nodes.length) →
    edgesValid g' ∧
    (∀ v sid', sidOut g'.edges v sid' ≤ 1) ∧
    (∀ lv, l' = some lv → lv < g'.nodes.length ∧ N ≤ lv ∧
      sidOut g'.edges lv sid = 0) ∧
    (∀ fv, f' = some fv → fv < g'.nodes.length) ∧
    g.nodes.length ≤ g'.nodes.length ∧
    (∀ v, v < N → ∀ sid', sidOut g'.edges v sid' = sidOut g.edges v sid') ∧
    labelsFrom g'.edges g.edges sid := by
  intro seq
  induction seq with
  | nil =>
    intro g first? last? g' f' l' hres hN hval hle hlast hfirst
    have hres2 : (g, first?, last?) = (g', f', l') := hres
    simp only [Prod.mk.injEq] at hres2
    obtain ⟨h1, h2, h3⟩ := hres2
    subst h1; subst h2; subst h3
    exact ⟨hval, hle, hlast, hfirst, le_refl _, fun _ _ _ => rfl,
      labelsFrom_refl _ _⟩
  | cons n rest ih =>
    intro g first? last? g' f' l' hres hN hval hle hlast hfirst
    have hlen1 : ({ g with nodes := g.nodes ++ [⟨[(sid, n)]⟩] } :
        POAGraph).nodes.length = g.nodes.length + 1 := by
      simp
    rcases last? with _ | lv
    · have hres2 : ihsLoop sid rest
          ({ g with nodes := g.nodes ++ [⟨[(sid, n)]⟩] })
          (if first?.isNone then some g.nodes.length else first?)
          (some g.nodes.length) = (g', f', l') := hres
      have hfa : ∀ fv, (if first?.isNone then some g.nodes.length
          else first?) = some fv →
          fv < ({ g with nodes := g.nodes ++ [⟨[(sid, n)]⟩] } :
            POAGraph).nodes.length := by
        intro fv hfv
        rw [hlen1]
        rcases first? with _ | f0
        · simp only [Option.isNone_none, if_pos] at hfv
          have : g.nodes.length = fv := Option.some_inj.mp hfv
          omega
        · simp only [Option.isNone_some, Bool.false_eq_true, if_false] at hfv
          have := hfirst fv hfv
          omega
      rcases ih ({ g with nodes := g.nodes ++ [⟨[(sid, n)]⟩] })
        (if first?.isNone then some g.nodes.length else first?)
        (some g.nodes.length) g' f' l' hres2
        (by rw [hlen1]; omega)
        (fun e he => by
          have := hval e he
          rw [hlen1]
          omega)
        hle
        (fun lv hlv => by
          have hlveq : g.nodes.length = lv := Option.some_inj.mp hlv
          rw [hlen1]
          refine ⟨by omega, by omega, ?_⟩
          rw [← hlveq]
          exact sidOut_eq_zero_of_ge g hval _ (le_refl _) sid)
        hfa
        with ⟨c1, c2, c3, c4, c5, c6, c7⟩
      refine ⟨c1, c2, c3, c4, by rw [hlen1] at c5; omega, c6, c7⟩
    · have hlv := hlast lv rfl
      have hres2 : ihsLoop sid rest
          (updateEdge { g with nodes := g.nodes ++ [⟨[(sid, n)]⟩] }
            (some lv) (some g.nodes.length) sid)
          (if first?.isNone then some g.nodes.length else first?)
          (some g.nodes.length) = (g', f', l') := hres
      have hed : (updateEdge { g with nodes := g.nodes ++ [⟨[(sid, n)]⟩] }
          (some lv) (some g.nodes.length) sid).edges =
          edgesAddLabel g.edges lv g.nodes.length sid := rfl
      have hnd : (updateEdge { g with nodes := g.nodes ++ [⟨[(sid, n)]⟩] }
          (some lv) (some g.nodes.length) sid).nodes =
          g.nodes ++ [⟨[(sid, n)]⟩] := rfl
      have hlen2 : (updateEdge { g with nodes := g.nodes ++ [⟨[(sid, n)]⟩] }
          (some lv) (some g.nodes.length) sid).nodes.length =
          g.nodes.length + 1 := by
        rw [hnd]
        simp
      have hfa : ∀ fv, (if first?.isNone then some g.nodes.length
          else first?) = some fv →
          fv < (updateEdge { g with nodes := g.nodes ++ [⟨[(sid, n)]⟩] }
            (some lv) (some g.nodes.length) sid).nodes.length := by
        intro fv hfv
        rw [hlen2]
        rcases first? with _ | f0
        · simp only [Option.isNone_none, if_pos] at hfv
          have : g.nodes.length = fv := Option.some_inj.mp hfv
          omega
        · simp only [Option.isNone_some, Bool.false_eq_true, if_false] at hfv
          have := hfirst fv hfv
          omega
      rcases ih (updateEdge { g with nodes := g.nodes ++ [⟨[(sid, n)]⟩] }
          (some lv) (some g.nodes.length) sid)
        (if first?.isNone then some g.nodes.length else first?)
        (some g.nodes.length) g' f' l' hres2
        (by rw [hlen2]; omega)
        (fun e he => by
          rw [hed] at he
          rw [hlen2]
          exact edgesAddLabel_valid g.edges lv g.nodes.length sid
            (g.nodes.length + 1)
            (fun e0 he0 => by have := hval e0 he0; omega)
            (by omega) (by omega) e he)
        (fun v sid' => by
          rw [hed]
          by_cases hv : v = lv
          · by_cases hs : sid' = sid
            · rw [hv, hs]
              have hsl := sidOut_edgesAddLabel_src g.edges lv g.nodes.length
                sid lv sid
              have h0 := hlv.2.2
              omega
            · rw [sidOut_edgesAddLabel_other g.edges lv g.nodes.length sid
                v sid' hs]
              exact hle v sid'
          · rw [sidOut_edgesAddLabel_src_ne g.edges lv g.nodes.length sid
              v sid' hv]
            exact hle v sid')
        (fun lv' hlv' => by
          have hlveq : g.nodes.length = lv' := Option.some_inj.mp hlv'
          rw [hlen2, hed]
          refine ⟨by omega, by omega, ?_⟩
          rw [sidOut_edgesAddLabel_src_ne g.edges lv g.nodes.length sid
            lv' sid (by omega)]
          rw [← hlveq]
          exact sidOut_eq_zero_of_ge g hval _ (le_refl _) sid)
        hfa
        with ⟨c1, c2, c3, c4, c5, c6, c7⟩
      rw [hlen2] at c5
      refine ⟨c1, c2, c3, c4, by omega, ?_, ?_⟩
      · intro v hv sid'
        rw [c6 v hv sid', hed,
          sidOut_edgesAddLabel_src_ne g.edges lv g.nodes.length sid v sid'
            (by omega)]
      · refine labelsFrom_trans g'.edges
          (edgesAddLabel g.edges lv g.nodes.length sid) g.edges sid ?_ ?_
        · rw [← hed]
          exact c7
        · exact labelsFrom_addLabel g.edges lv g.nodes.length sid

theorem insertHangingSeq_sid (g : POAGraph) (seq : List Nucleotide)
    (sid : SeqID) (g' : POAGraph) (fl : Option (Nat × Nat))
    (hres : insertHangingSeq g seq sid = (g', fl))
    (hval : edgesValid g) (hle : ∀ v sid', sidOut g.edges v sid' ≤ 1) :
    edgesValid g' ∧ (∀ v sid', sidOut g'.edges v sid' ≤ 1) ∧
    g.nodes.length ≤ g'.nodes.length ∧
    (∀ v, v < g.nodes.length → ∀ sid', sidOut g'.edges v sid' =
      sidOut g.edges v sid') ∧
    labelsFrom g'.edges g.edges sid ∧
    (∀ f l, fl = some (f, l) → f < g'.nodes.length ∧
      l < g'.nodes.length ∧ g.nodes.length ≤ l ∧
      sidOut g'.edges l sid = 0) := by
  rw [insertHangingSeq] at hres
  by_cases hseq : seq = []
  · rw [if_pos hseq] at hres
    simp only [Prod.mk.injEq] at hres
    obtain ⟨h1, h2⟩ := hres
    subst h1
    refine ⟨hval, hle, le_refl _, fun _ _ _ => rfl, labelsFrom_refl _ _,
      fun f l hfl => ?_⟩
    rw [← h2] at hfl
    cases hfl
  · rw [if_neg hseq] at hres
    rcases hds : ihsLoop sid seq g none none with ⟨g1, f1, l1⟩
    rw [hds] at hres
    rcases ihsLoop_sid sid g.nodes.length seq g none none g1 f1 l1 hds
      (le_refl _) hval hle (fun lv hlv => by cases hlv)
      (fun fv hfv => by cases hfv)
      with ⟨c1, c2, c3, c4, c5, c6, c7⟩
    rcases f1 with _ | f
    · rcases l1 with _ | l
      · have hres2 : (g1, (none : Option (Nat × Nat))) = (g', fl) := hres
        simp only [Prod.mk.injEq] at hres2
        obtain ⟨h1, h2⟩ := hres2
        subst h1
        refine ⟨c1, c2, c5, c6, c7, fun f l hfl => ?_⟩
        rw [← h2] at hfl
        cases hfl
      · have hres2 : (g1, (none : Option (Nat × Nat))) = (g', fl) := hres
        simp only [Prod.mk.injEq] at hres2
        obtain ⟨h1, h2⟩ := hres2
        subst h1
        refine ⟨c1, c2, c5, c6, c7, fun f l hfl => ?_⟩
        rw [← h2] at hfl
        cases hfl
    · rcases l1 with _ | l
      · have hres2 : (g1, (none : Option (Nat × Nat))) = (g', fl) := hres
        simp only [Prod.mk.injEq] at hres2
        obtain ⟨h1, h2⟩ := hres2
        subst h1
        refine ⟨c1, c2, c5, c6, c7, fun f l hfl => ?_⟩
        rw [← h2] at hfl
        cases hfl
      · have hres2 : (g1, some (f, l)) = (g', fl) := hres
        simp only [Prod.mk.injEq] at hres2
        obtain ⟨h1, h2⟩ := hres2
        subst h1
        refine ⟨c1, c2, c5, c6, c7, fun f0 l0 hfl => ?_⟩
        rw [← h2] at hfl
        have hfl2 := Option.some_inj.mp hfl
        have hf0 : f = f0 := congrArg Prod.fst hfl2
        have hl0 : l = l0 := congrArg Prod.snd hfl2
        rcases c3 l rfl with ⟨d1, d2, d3⟩
        have hf := c4 f rfl
        exact ⟨hf0 ▸ hf, hl0 ▸ d1, hl0 ▸ d2, hl0 ▸ d3⟩

/-- One `update_edge` from a source with no `sid`-labelled outgoing edge
keeps every per-`SeqID` out-degree `≤ 1` and changes no other source. -/
theorem sidOut_step (es : List POAEdge) (h0 tgt : Nat) (sid : SeqID)
    (hle : ∀ v sid', sidOut es v sid' ≤ 1) (hh0 : sidOut es h0 sid = 0) :
    (∀ v sid', sidOut (edgesAddLabel es h0 tgt sid) v sid' ≤ 1) ∧
    (∀ v, v ≠ h0 → ∀ sid', sidOut (edgesAddLabel es h0 tgt sid) v sid' =
      sidOut es v sid') := by
  constructor
  · intro v sid'
    by_cases hv : v = h0
    · by_cases hs : sid' = sid
      · rw [hv, hs]
        have := sidOut_edgesAddLabel_src es h0 tgt sid h0 sid
        omega
      · rw [sidOut_edgesAddLabel_other es h0 tgt sid v sid' hs]
        exact hle v sid'
    · rw [sidOut_edgesAddLabel_src_ne es h0 tgt sid v sid' hv]
      exact hle v sid'
  · intro v hv sid'
    exact sidOut_edgesAddLabel_src_ne es h0 tgt sid v sid' hv

/-- The main `add_alignment` loop: each consumed step adds exactly one
`sid`-labelled edge, out of the previous head, which is never reused — so
all per-`SeqID` out-degrees stay `≤ 1`. -/
theorem aaLoop_sid (sid : SeqID) (seq : Sequence) (N0 : Nat) :
    ∀ (rest : List (Option Nat × Option Nat)) (g : POAGraph)
      (first? head? : Option Nat) (g' : POAGraph) (first' head' : Option Nat),
    aaLoop sid seq rest g first? head? = some (g', first', head') →
    edgesValid g →
    (∀ v sid', sidOut g.edges v sid' ≤ 1) →
    (∀ h, head? = some h → h < g.nodes.length ∧ sidOut g.edges h sid = 0) →
    (rest.filterMap (fun p => p.2)).Nodup →
    (∀ gid ∈ rest.filterMap (fun p => p.2), gid < N0 ∧
      sidOut g.edges gid sid = 0 ∧ ∀ h, head? = some h → gid ≠ h) →
    N0 ≤ g.nodes.length →
    edgesValid g' ∧
    (∀ v sid', sidOut g'.edges v sid' ≤ 1) ∧
    (∀ h, head' = some h → h < g'.nodes.length ∧
      sidOut g'.edges h sid = 0) ∧
    g.nodes.length ≤ g'.nodes.length ∧
    labelsFrom g'.edges g.edges sid := by
  intro rest
  induction rest with
  | nil =>
    intro g first? head? g' first' head' hres hval hle hhead _ _ _
    have hres2 : some (g, first?, head?) = some (g', first', head') := hres
    simp only [Option.some_inj, Prod.mk.injEq] at hres2
    obtain ⟨h1, h2, h3⟩ := hres2
    subst h1; subst h3
    exact ⟨hval, hle, hhead, le_refl _, labelsFrom_refl _ _⟩
  | cons pr rest' ih =>
    rcases pr with ⟨sIdx?, gid?⟩
    intro g first? head? g' first' head' hres hval hle hhead hnd hgids hN0
    have hsubl : List.Sublist (rest'.filterMap (fun p => p.2))
        (((sIdx?, gid?) :: rest').filterMap (fun p => p.2)) :=
      List.Sublist.filterMap _ (List.sublist_cons_self _ _)
    rcases sIdx? with _ | sIdx
    · have hres2 : aaLoop sid seq rest' g first? head? =
          some (g', first', head') := hres
      exact ih g first? head? g' first' head' hres2 hval hle hhead
        (hsubl.nodup hnd) (fun gid hg => hgids gid (hsubl.subset hg)) hN0
    · rcases hget : seq.get? sIdx with _ | nuc
      · have hres2 : (match seq.get? sIdx with
            | none => none
            | some nuc =>
              match gid? with
              | none =>
                aaLoop sid seq rest'
                  (updateEdge { g with nodes := g.nodes ++ [⟨[(sid, nuc)]⟩] }
                    head? (some g.nodes.length) sid)
                  (if first?.isNone then some g.nodes.length else first?)
                  (some g.nodes.length)
              | some gid =>
                match g.nodes.get? gid with
                | none => none
                | some nd =>
                  aaLoop sid seq rest'
                    (updateEdge { g with nodes := g.nodes.set gid (POANode.mk (nucsInsert nd.nucs sid nuc)) } head? (some gid) sid)
                    (if first?.isNone then some gid else first?)
                    (some gid) :
            Option (POAGraph × Option Nat × Option Nat)) =
            some (g', first', head') := hres
        rw [hget] at hres2
        cases hres2
      · have hres2 : (match gid? with
            | none =>
              aaLoop sid seq rest'
                (updateEdge { g with nodes := g.nodes ++ [⟨[(sid, nuc)]⟩] }
                  head? (some g.nodes.length) sid)
                (if first?.isNone then some g.nodes.length else first?)
                (some g.nodes.length)
            | some gid =>
              match g.nodes.get? gid with
              | none => none
              | some nd =>
                aaLoop sid seq rest'
                  (updateEdge { g with nodes := g.nodes.set gid (POANode.mk (nucsInsert nd.nucs sid nuc)) } head? (some gid) sid)
                  (if first?.isNone then some gid else first?)
                  (some gid) :
            Option (POAGraph × Option Nat × Option Nat)) =
            some (g', first', head') := by
          have hres3 : (match seq.get? sIdx with
              | none => none
              | some nuc =>
                match gid? with
                | none =>
                  aaLoop sid seq rest'
                    (updateEdge { g with nodes :=
                        g.nodes ++ [⟨[(sid, nuc)]⟩] }
                      head? (some g.nodes.length) sid)
                    (if first?.isNone then some g.nodes.length else first?)
                    (some g.nodes.length)
                | some gid =>
                  match g.nodes.get? gid with
                  | none => none
                  | some nd =>
                    aaLoop sid seq rest'
                      (updateEdge { g with nodes := g.nodes.set gid (POANode.mk (nucsInsert nd.nucs sid nuc)) } head? (some gid) sid)
                      (if first?.isNone then some gid else first?)
                      (some gid) :
              Option (POAGraph × Option Nat × Option Nat)) =
              some (g', first', head') := hres
          rw [hget] at hres3
          exact hres3
        rcases gid? with _ | gid
        · -- insertion: a fresh node becomes the new head
          have hlenA : ({ g with nodes := g.nodes ++ [⟨[(sid, nuc)]⟩] } :
              POAGraph).nodes.length = g.nodes.length + 1 := by simp
          rcases head? with _ | h0
          · have hres3 : aaLoop sid seq rest'
                ({ g with nodes := g.nodes ++ [⟨[(sid, nuc)]⟩] })
                (if first?.isNone then some g.nodes.length else first?)
                (some g.nodes.length) = some (g', first', head') := hres2
            rcases ih _ _ _ _ _ _ hres3
              (fun e he => by have := hval e he; rw [hlenA]; omega)
              hle
              (fun h hh => by
                have hh2 : g.nodes.length = h := Option.some_inj.mp hh
                rw [hlenA]
                refine ⟨by omega, ?_⟩
                rw [← hh2]
                exact sidOut_eq_zero_of_ge g hval _ (le_refl _) sid)
              (hsubl.nodup hnd)
              (fun gid hg => by
                rcases hgids gid (hsubl.subset hg) with ⟨d1, d2, _⟩
                refine ⟨d1, d2, fun h hh => ?_⟩
                have hh2 : g.nodes.length = h := Option.some_inj.mp hh
                omega)
              (by rw [hlenA]; omega)
              with ⟨c1, c2, c3, c4, c5⟩
            rw [hlenA] at c4
            exact ⟨c1, c2, c3, by omega, c5⟩
          · have hres3 : aaLoop sid seq rest'
                (updateEdge { g with nodes := g.nodes ++ [⟨[(sid, nuc)]⟩] }
                  (some h0) (some g.nodes.length) sid)
                (if first?.isNone then some g.nodes.length else first?)
                (some g.nodes.length) = some (g', first', head') := hres2
            have hed : (updateEdge { g with nodes :=
                g.nodes ++ [⟨[(sid, nuc)]⟩] }
                (some h0) (some g.nodes.length) sid).edges =
                edgesAddLabel g.edges h0 g.nodes.length sid := rfl
            have hlen2 : (updateEdge { g with nodes :=
                g.nodes ++ [⟨[(sid, nuc)]⟩] }
                (some h0) (some g.nodes.length) sid).nodes.length =
                g.nodes.length + 1 := by
              show (g.nodes ++ [(POANode.mk [(sid, nuc)])]).length =
                g.nodes.length + 1
              simp
            rcases hhead h0 rfl with ⟨hh1, hh2⟩
            rcases sidOut_step g.edges h0 g.nodes.length sid hle hh2
              with ⟨s1, s2⟩
            rcases ih _ _ _ _ _ _ hres3
              (fun e he => by
                rw [hed] at he
                rw [hlen2]
                exact edgesAddLabel_valid g.edges h0 g.nodes.length sid
                  (g.nodes.length + 1)
                  (fun e0 he0 => by have := hval e0 he0; omega)
                  (by omega) (by omega) e he)
              (fun v sid' => by rw [hed]; exact s1 v sid')
              (fun h hh => by
                have hh3 : g.nodes.length = h := Option.some_inj.mp hh
                rw [hlen2, hed]
                refine ⟨by omega, ?_⟩
                rw [s2 h (by omega) sid, ← hh3]
                exact sidOut_eq_zero_of_ge g hval _ (le_refl _) sid)
              (hsubl.nodup hnd)
              (fun gid hg => by
                rcases hgids gid (hsubl.subset hg) with ⟨d1, d2, d3⟩
                rw [hed]
                refine ⟨d1, ?_, fun h hh => ?_⟩
                · rw [s2 gid (d3 h0 rfl) sid]
                  exact d2
                · have hh3 : g.nodes.length = h := Option.some_inj.mp hh
                  omega)
              (by rw [hlen2]; omega)
              with ⟨c1, c2, c3, c4, c5⟩
            rw [hlen2] at c4
            refine ⟨c1, c2, c3, by omega, ?_⟩
            refine labelsFrom_trans g'.edges
              (edgesAddLabel g.edges h0 g.nodes.length sid) g.edges sid ?_
              (labelsFrom_addLabel g.edges h0 g.nodes.length sid)
            rw [← hed]
            exact c5
        · -- match step: an existing node becomes the new head
          have hres4 : (match g.nodes.get? gid with
              | none => none
              | some nd =>
                aaLoop sid seq rest'
                  (updateEdge { g with nodes := g.nodes.set gid (POANode.mk (nucsInsert nd.nucs sid nuc)) } head? (some gid) sid)
                  (if first?.isNone then some gid else first?) (some gid) :
              Option (POAGraph × Option Nat × Option Nat)) =
              some (g', first', head') := hres2
          rcases hnode : g.nodes.get? gid with _ | nd
          · rw [hnode] at hres4
            cases hres4
          · rw [hnode] at hres4
            have hfmc : ((some sIdx, some gid) :: rest').filterMap
                (fun p => p.2) = gid :: rest'.filterMap (fun p => p.2) := rfl
            have hgid0 : gid < N0 ∧ sidOut g.edges gid sid = 0 ∧
                ∀ h, head? = some h → gid ≠ h := by
              apply hgids
              rw [hfmc]
              exact List.mem_cons_self _ _
            have hndc : (gid :: rest'.filterMap (fun p => p.2)).Nodup := by
              rw [← hfmc]
              exact hnd
            have hgnotin : gid ∉ rest'.filterMap (fun p => p.2) :=
              (List.nodup_cons.mp hndc).1
            have hndtail := (List.nodup_cons.mp hndc).2
            rcases head? with _ | h0
            · have hres3 : aaLoop sid seq rest'
                  ({ g with nodes := g.nodes.set gid (POANode.mk (nucsInsert nd.nucs sid nuc)) })
                  (if first?.isNone then some gid else first?) (some gid) =
                  some (g', first', head') := hres4
              rcases ih _ _ _ _ _ _ hres3
                (fun e he => by
                  have := hval e he
                  simpa using this)
                hle
                (fun h hh => by
                  have hh2 : gid = h := Option.some_inj.mp hh
                  refine ⟨?_, ?_⟩
                  · show h < (g.nodes.set gid
                      (POANode.mk (nucsInsert nd.nucs sid nuc))).length
                    simp only [List.length_set]
                    omega
                  · rw [← hh2]
                    exact hgid0.2.1)
                hndtail
                (fun gid' hg => by
                  rcases hgids gid' (hsubl.subset hg) with ⟨d1, d2, _⟩
                  refine ⟨d1, d2, fun h hh => ?_⟩
                  have hh2 : gid = h := Option.some_inj.mp hh
                  intro hc
                  rw [← hh2] at hc
                  rw [hc] at hg
                  exact hgnotin hg)
                (by
                  show N0 ≤ (g.nodes.set gid
                    (POANode.mk (nucsInsert nd.nucs sid nuc))).length
                  simp only [List.length_set]
                  omega)
                with ⟨c1, c2, c3, c4, c5⟩
              have hlenS : (g.nodes.set gid
                  (POANode.mk (nucsInsert nd.nucs sid nuc))).length =
                  g.nodes.length := by
                simp
              refine ⟨c1, c2, c3, ?_, c5⟩
              have hc4 : ({ g with nodes := g.nodes.set gid (POANode.mk (nucsInsert nd.nucs sid nuc)) } :
                  POAGraph).nodes.length ≤ g'.nodes.length := c4
              rw [show ({ g with nodes := g.nodes.set gid (POANode.mk (nucsInsert nd.nucs sid nuc)) } :
                  POAGraph).nodes.length = g.nodes.length from hlenS] at hc4
              exact hc4
            · rcases hhead h0 rfl with ⟨hh1, hh2⟩
              rcases sidOut_step g.edges h0 gid sid hle hh2 with ⟨s1, s2⟩
              have hed : (updateEdge { g with nodes := g.nodes.set gid (POANode.mk (nucsInsert nd.nucs sid nuc)) } (some h0)
                  (some gid) sid).edges =
                  edgesAddLabel g.edges h0 gid sid := rfl
              have hlen2 : (updateEdge { g with nodes := g.nodes.set gid (POANode.mk (nucsInsert nd.nucs sid nuc)) } (some h0)
                  (some gid) sid).nodes.length = g.nodes.length := by
                show (g.nodes.set gid
                  (POANode.mk (nucsInsert nd.nucs sid nuc))).length = _
                simp
              rcases ih _ _ _ _ _ _ hres4
                (fun e he => by
                  rw [hed] at he
                  rw [hlen2]
                  exact edgesAddLabel_valid g.edges h0 gid sid g.nodes.length
                    (fun e0 he0 => hval e0 he0) hh1 (by omega) e he)
                (fun v sid' => by
                  rw [hed]
                  exact s1 v sid')
                (fun h hh => by
                  have hh3 : gid = h := Option.some_inj.mp hh
                  rw [hlen2, hed]
                  refine ⟨by omega, ?_⟩
                  rw [← hh3, s2 gid (hgid0.2.2 h0 rfl) sid]
                  exact hgid0.2.1)
                hndtail
                (fun gid' hg => by
                  rcases hgids gid' (hsubl.subset hg) with ⟨d1, d2, d3⟩
                  rw [hed]
                  refine ⟨d1, ?_, fun h hh => ?_⟩
                  · rw [s2 gid' (d3 h0 rfl) sid]
                    exact d2
                  · have hh3 : gid = h := Option.some_inj.mp hh
                    intro hc
                    rw [← hh3] at hc
                    rw [hc] at hg
                    exact hgnotin hg)
                (by rw [hlen2]; omega)
                with ⟨c1, c2, c3, c4, c5⟩
              rw [hlen2] at c4
              refine ⟨c1, c2, c3, c4, ?_⟩
              refine labelsFrom_trans g'.edges
                (edgesAddLabel g.edges h0 gid sid) g.edges sid ?_
                (labelsFrom_addLabel g.edges h0 gid sid)
              rw [← hed]
              exact c5

theorem aaLead_sid (g : POAGraph) (seq : Sequence) (sid : SeqID)
    (startIdx : Nat) (g1 : POAGraph) (first0 head0 : Option Nat)
    (hres : aaLead g seq sid startIdx = some (g1, first0, head0))
    (hval : edgesValid g) (hle : ∀ v sid', sidOut g.edges v sid' ≤ 1) :
    edgesValid g1 ∧ (∀ v sid', sidOut g1.edges v sid' ≤ 1) ∧
    g.nodes.length ≤ g1.nodes.length ∧
    (∀ v, v < g.nodes.length → ∀ sid',
      sidOut g1.edges v sid' = sidOut g.edges v sid') ∧
    labelsFrom g1.edges g.edges sid ∧
    (∀ hv, head0 = some hv → hv < g1.nodes.length ∧
      g.nodes.length ≤ hv ∧ sidOut g1.edges hv sid = 0) := by
  rw [aaLead] at hres
  by_cases h1 : startIdx > 0
  · rw [if_pos h1] at hres
    by_cases h2 : startIdx ≤ seq.length
    · rw [if_pos h2] at hres
      rcases hins : insertHangingSeq g (seq.take startIdx) sid
        with ⟨gI, fl⟩
      rcases insertHangingSeq_sid g (seq.take startIdx) sid gI fl hins
        hval hle with ⟨c1, c2, c3, c4, c5, c6⟩
      rcases fl with _ | ⟨f, l⟩
      · have hres2 : some ((insertHangingSeq g (seq.take startIdx) sid).1,
            (none : Option Nat), (none : Option Nat)) =
            some (g1, first0, head0) := by
          rw [hins] at hres ⊢
          exact hres
        simp only [Option.some_inj, Prod.mk.injEq] at hres2
        obtain ⟨e1, _, e3⟩ := hres2
        rw [hins] at e1
        rw [← e1]
        refine ⟨c1, c2, c3, c4, c5, fun hv hh => ?_⟩
        rw [← e3] at hh
        cases hh
      · have hres2 : some ((insertHangingSeq g (seq.take startIdx) sid).1,
            some (f, l).1, some (f, l).2) = some (g1, first0, head0) := by
          rw [hins] at hres ⊢
          exact hres
        simp only [Option.some_inj, Prod.mk.injEq] at hres2
        obtain ⟨e1, _, e3⟩ := hres2
        rw [hins] at e1
        rw [← e1]
        refine ⟨c1, c2, c3, c4, c5, fun hv hh => ?_⟩
        rw [← e3] at hh
        have hlv : l = hv := Option.some_inj.mp hh
        rcases c6 f l rfl with ⟨_, d2, d3, d4⟩
        rw [← hlv]
        exact ⟨d2, d3, d4⟩
    · rw [if_neg h2] at hres
      cases hres
  · rw [if_neg h1] at hres
    have hres2 : some (g, (none : Option Nat), (none : Option Nat)) =
        some (g1, first0, head0) := hres
    simp only [Option.some_inj, Prod.mk.injEq] at hres2
    obtain ⟨e1, _, e3⟩ := hres2
    rw [← e1]
    refine ⟨hval, hle, le_refl _, fun _ _ _ => rfl, labelsFrom_refl _ _,
      fun hv hh => ?_⟩
    rw [← e3] at hh
    cases hh

theorem aaTrail_sid (g : POAGraph) (seq : Sequence) (sid : SeqID)
    (endIdx : Nat) (hval : edgesValid g)
    (hle : ∀ v sid', sidOut g.edges v sid' ≤ 1) :
    edgesValid (aaTrail g seq sid endIdx).1 ∧
    (∀ v sid', sidOut (aaTrail g seq sid endIdx).1.edges v sid' ≤ 1) ∧
    g.nodes.length ≤ (aaTrail g seq sid endIdx).1.nodes.length ∧
    (∀ v, v < g.nodes.length → ∀ sid',
      sidOut (aaTrail g seq sid endIdx).1.edges v sid' =
      sidOut g.edges v sid') ∧
    labelsFrom (aaTrail g seq sid endIdx).1.edges g.edges sid ∧
    (∀ tv, (aaTrail g seq sid endIdx).2 = some tv →
      tv < (aaTrail g seq sid endIdx).1.nodes.length) := by
  rw [aaTrail]
  by_cases h1 : endIdx < seq.length
  · rw [if_pos h1]
    rcases hins : insertHangingSeq g (seq.drop (endIdx + 1)) sid
      with ⟨gI, fl⟩
    rcases insertHangingSeq_sid g (seq.drop (endIdx + 1)) sid gI fl hins
      hval hle with ⟨c1, c2, c3, c4, c5, c6⟩
    refine ⟨c1, c2, c3, c4, c5, fun tv htv => ?_⟩
    rcases fl with _ | ⟨f, l⟩
    · cases htv
    · have : f = tv := Option.some_inj.mp htv
      rcases c6 f l rfl with ⟨d1, _, _, _⟩
      rw [← this]
      exact d1
  · rw [if_neg h1]
    exact ⟨hval, hle, le_refl _, fun _ _ _ => rfl, labelsFrom_refl _ _,
      fun tv htv => by cases htv⟩

theorem zip_filterMap_snd_sublist {α : Type} :
    ∀ (l1 : List α) (l2 : List (Option Nat)),
    List.Sublist ((l1.zip l2).filterMap (fun p => p.2)) (l2.filterMap id) := by
  intro l1
  induction l1 with
  | nil => intro l2; exact List.nil_sublist _
  | cons a l1 ih =>
    intro l2
    rcases l2 with _ | ⟨b, l2'⟩
    · exact List.nil_sublist _
    · rcases b with _ | gid
      · exact ih l2'
      · exact List.Sublist.cons₂ _ (ih l2')

/-- `add_alignment` of a fresh `SeqID` along a duplicate-free trace
preserves all per-`SeqID` out-degrees and adds only `sid` labels. -/
theorem addAlignment_sid (g : POAGraph) (al : Alignment) (seq : Sequence)
    (sid : SeqID) (g2 : POAGraph) (head? : Option Nat)
    (hres : addAlignment g al seq sid = some (g2, head?))
    (hval : edgesValid g)
    (hle : ∀ v sid', sidOut g.edges v sid' ≤ 1)
    (hfresh : ∀ v, sidOut g.edges v sid = 0)
    (hnd : (al.1.filterMap id).Nodup)
    (hbnd : ∀ x ∈ al.1.filterMap id, x < g.nodes.length) :
    edgesValid g2 ∧ (∀ v sid', sidOut g2.edges v sid' ≤ 1) ∧
    labelsFrom g2.edges g.edges sid ∧ g.nodes.length ≤ g2.nodes.length := by
  simp only [addAlignment] at hres
  by_cases hgids : al.1 = []
  · rw [if_pos hgids] at hres
    simp only [Option.some_inj, Prod.mk.injEq] at hres
    rw [← hres.1]
    exact ⟨hval, hle, labelsFrom_refl _ _, le_refl _⟩
  · rw [if_neg hgids] at hres
    rcases hv2 : al.2.filterMap id with _ | ⟨startIdx, restIdx⟩
    · rw [hv2] at hres
      cases hres
    · rw [hv2] at hres
      have hres3 : (match aaLead g seq sid startIdx with
          | none => none
          | some (g1, first0, head0) =>
            match aaLoop sid seq (al.2.zip al.1)
                (aaTrail g1 seq sid
                  ((startIdx :: restIdx).getLastD 0)).1 first0 head0 with
            | none => none
            | some (g3, first?, head?) =>
              match first? with
              | some f => some (updateEdge g3 head?
                  (aaTrail g1 seq sid
                    ((startIdx :: restIdx).getLastD 0)).2 sid, some f)
              | none => none :
          Option (POAGraph × Option Nat)) = some (g2, head?) := hres
      rcases hlead : aaLead g seq sid startIdx with _ | ⟨g1, first0, head0⟩
      · rw [hlead] at hres3
        cases hres3
      · rw [hlead] at hres3
        rcases aaLead_sid g seq sid startIdx g1 first0 head0 hlead hval hle
          with ⟨l1, l2, l3, l4, l5, l6⟩
        rcases aaTrail_sid g1 seq sid ((startIdx :: restIdx).getLastD 0) l1 l2
          with ⟨t1, t2, t3, t4, t5, t6⟩
        have hres4 : (match aaLoop sid seq (al.2.zip al.1)
            (aaTrail g1 seq sid
              ((startIdx :: restIdx).getLastD 0)).1 first0 head0 with
          | none => none
          | some (g3, first?, head?) =>
            match first? with
            | some f => some (updateEdge g3 head?
                (aaTrail g1 seq sid
                  ((startIdx :: restIdx).getLastD 0)).2 sid, some f)
            | none => none :
          Option (POAGraph × Option Nat)) = some (g2, head?) := hres3
        rcases hloop : aaLoop sid seq (al.2.zip al.1)
            (aaTrail g1 seq sid ((startIdx :: restIdx).getLastD 0)).1
            first0 head0 with _ | ⟨g3, firstF, headF⟩
        · rw [hloop] at hres4
          cases hres4
        · rw [hloop] at hres4
          have hsubz := zip_filterMap_snd_sublist al.2 al.1
          rcases aaLoop_sid sid seq g.nodes.length (al.2.zip al.1)
              (aaTrail g1 seq sid ((startIdx :: restIdx).getLastD 0)).1
              first0 head0 g3 firstF headF hloop t1 t2
              (fun h hh => by
                rcases l6 h hh with ⟨d1, d2, d3⟩
                refine ⟨by omega, ?_⟩
                rw [t4 h d1 sid]
                exact d3)
              (hsubz.nodup hnd)
              (fun gid hg => by
                have hgm := hsubz.subset hg
                have hgb := hbnd gid hgm
                refine ⟨hgb, ?_, fun h hh => ?_⟩
                · rw [t4 gid (by omega) sid, l4 gid hgb sid]
                  exact hfresh gid
                · rcases l6 h hh with ⟨_, d2, _⟩
                  omega)
              (by omega)
            with ⟨a1, a2, a3, a4, a5⟩
          rcases firstF with _ | f
          · cases hres4
          · have hres6 : some ((updateEdge g3 headF
                (aaTrail g1 seq sid
                  ((startIdx :: restIdx).getLastD 0)).2 sid : POAGraph),
                some f) = some (g2, head?) := hres4
            simp only [Option.some_inj, Prod.mk.injEq] at hres6
            have hg2 : g2 = updateEdge g3 headF
                (aaTrail g1 seq sid
                  ((startIdx :: restIdx).getLastD 0)).2 sid := hres6.1.symm
            have hLF : labelsFrom g3.edges g.edges sid :=
              labelsFrom_trans g3.edges _ g.edges sid a5
                (labelsFrom_trans _ _ g.edges sid t5 l5)
            rcases headF with _ | hF
            · rw [hg2]
              refine ⟨a1, a2, hLF, ?_⟩
              show g.nodes.length ≤ g3.nodes.length
              omega
            · rcases htv : (aaTrail g1 seq sid
                  ((startIdx :: restIdx).getLastD 0)).2 with _ | tv
              · rw [htv] at hg2
                rw [hg2]
                refine ⟨a1, a2, hLF, ?_⟩
                show g.nodes.length ≤ g3.nodes.length
                omega
              · rw [htv] at hg2
                rcases a3 hF rfl with ⟨b1, b2⟩
                rcases sidOut_step g3.edges hF tv sid a2 b2 with ⟨u1, u2⟩
                have hedg : (updateEdge g3 (some hF) (some tv) sid).edges =
                    edgesAddLabel g3.edges hF tv sid := rfl
                have hndg : (updateEdge g3 (some hF) (some tv) sid).nodes =
                    g3.nodes := rfl
                rw [hg2]
                refine ⟨?_, ?_, ?_, ?_⟩
                · intro e he
                  rw [hedg] at he
                  have htvb := t6 tv htv
                  rw [show (updateEdge g3 (some hF) (some tv)
                      sid).nodes.length = g3.nodes.length from
                    congrArg List.length hndg]
                  exact edgesAddLabel_valid g3.edges hF tv sid
                    g3.nodes.length (fun e0 he0 => a1 e0 he0) b1
                    (by omega) e he
                · intro v sid'
                  rw [hedg]
                  exact u1 v sid'
                · refine labelsFrom_trans _
                    (edgesAddLabel g3.edges hF tv sid) g.edges sid ?_ ?_
                  · rw [hedg]
                    exact labelsFrom_refl _ _
                  · exact labelsFrom_trans _ g3.edges g.edges sid
                      (labelsFrom_addLabel g3.edges hF tv sid) hLF
                · rw [show (updateEdge g3 (some hF) (some tv)
                      sid).nodes.length = g3.nodes.length from
                    congrArg List.length hndg]
                  omega

/-- The `align`-loop invariant: live edge endpoints, per-`SeqID` out-degree
at most one, and all labels drawn from the already-processed ids. -/
def graphInv (g : POAGraph) (done : List SeqID) : Prop :=
  edgesValid g ∧ (∀ v sid', sidOut g.edges v sid' ≤ 1) ∧
  (∀ e ∈ g.edges, ∀ x ∈ e.labels, x ∈ done)

theorem alignStep_inv (g : POAGraph) (id : SeqID) (seq : Sequence)
    (g' : POAGraph) (head? : Option Nat) (done : List SeqID)
    (hres : alignStep g id seq = some (g', head?))
    (hinv : graphInv g done) (hid : id ∉ done) :
    graphInv g' (done ++ [id]) := by
  obtain ⟨i1, i2, i3⟩ := hinv
  have hfresh : ∀ v, sidOut g.edges v id = 0 :=
    sidOut_zero_of_labels g.edges done id i3 hid
  simp only [alignStep] at hres
  rcases hd : affineSW g seq alignSettings with _ | ⟨ds, dal⟩
  · rw [hd] at hres
    cases hres
  · rw [hd] at hres
    rcases hr : affineSW g seq.reverse alignSettings with _ | ⟨rs, ral⟩
    · rw [hr] at hres
      cases hres
    · rw [hr] at hres
      rcases dal with ⟨daG, daS⟩
      rcases ral with ⟨raG, raS⟩
      have hres2 : (if ds ≥ rs then addAlignment g (daG, daS) seq id
          else addAlignment g (raG, raS) seq.reverse id) =
          some (g', head?) := hres
      have hlab : labelsFrom g'.edges g.edges id →
          (∀ e ∈ g'.edges, ∀ x ∈ e.labels, x ∈ done ++ [id]) := by
        intro hLF e he x hx
        rcases hLF e he x hx with rfl | ⟨e0, he0, hx0⟩
        · exact List.mem_append.mpr (Or.inr (List.mem_singleton.mpr rfl))
        · exact List.mem_append.mpr (Or.inl (i3 e0 he0 x hx0))
      by_cases hs : ds ≥ rs
      · rw [if_pos hs] at hres2
        rcases affineSW_trace g seq alignSettings ds daG daS hd
          with ⟨w1, w2⟩
        rcases addAlignment_sid g (daG, daS) seq id g' head? hres2 i1 i2
          hfresh w1 w2 with ⟨c1, c2, c3, _⟩
        exact ⟨c1, c2, hlab c3⟩
      · rw [if_neg hs] at hres2
        rcases affineSW_trace g seq.reverse alignSettings rs raG raS hr
          with ⟨w1, w2⟩
        rcases addAlignment_sid g (raG, raS) seq.reverse id g' head? hres2
          i1 i2 hfresh w1 w2 with ⟨c1, c2, c3, _⟩
        exact ⟨c1, c2, hlab c3⟩

theorem alignLoop_inv : ∀ (jobs : List (Nat × SeqID × Sequence))
    (g : POAGraph) (starts : List (SeqID × Nat)) (done : List SeqID),
    graphInv g done →
    (∀ j ∈ jobs, j.2.1 ∉ done) →
    ((jobs.map (fun j => j.2.1)).Nodup) →
    ∀ (g' : POAGraph) (starts' : List (SeqID × Nat)),
    alignLoop jobs g starts = some (g', starts') →
    ∃ done', graphInv g' done' := by
  intro jobs
  induction jobs with
  | nil =>
    intro g starts done hinv _ _ g' starts' hres
    have hres2 : some (g, starts) = some (g', starts') := hres
    simp only [Option.some_inj, Prod.mk.injEq] at hres2
    rw [← hres2.1]
    exact ⟨done, hinv⟩
  | cons job rest ih =>
    rcases job with ⟨i, id, seq⟩
    intro g starts done hinv hdis hnd g' starts' hres
    have hndid : id ∉ rest.map (fun j => j.2.1) := by
      have : ((i, id, seq) :: rest).map (fun j => j.2.1) =
          id :: rest.map (fun j => j.2.1) := rfl
      rw [this] at hnd
      exact (List.nodup_cons.mp hnd).1
    have hnd' : (rest.map (fun j => j.2.1)).Nodup := by
      have : ((i, id, seq) :: rest).map (fun j => j.2.1) =
          id :: rest.map (fun j => j.2.1) := rfl
      rw [this] at hnd
      exact (List.nodup_cons.mp hnd).2
    have hdis' : ∀ j ∈ rest, j.2.1 ∉ done ++ [id] := by
      intro j hj hc
      rcases List.mem_append.mp hc with hc | hc
      · exact hdis j (List.mem_cons_of_mem _ hj) hc
      · have : j.2.1 = id := List.mem_singleton.mp hc
        rw [← this] at hndid
        exact hndid (List.mem_map_of_mem _ hj)
    simp only [alignLoop] at hres
    by_cases hi : i = 0
    · rw [if_pos hi] at hres
      rcases hins : insertHangingSeq g seq id with ⟨gI, fl⟩
      obtain ⟨i1, i2, i3⟩ := hinv
      rcases insertHangingSeq_sid g seq id gI fl hins i1 i2
        with ⟨c1, c2, _, _, c5, _⟩
      have hinvI : graphInv gI (done ++ [id]) := by
        refine ⟨c1, c2, fun e he x hx => ?_⟩
        rcases c5 e he x hx with rfl | ⟨e0, he0, hx0⟩
        · exact List.mem_append.mpr (Or.inr (List.mem_singleton.mpr rfl))
        · exact List.mem_append.mpr (Or.inl (i3 e0 he0 x hx0))
      rw [hins] at hres
      rcases fl with _ | fl0
      · have hres2 : alignLoop rest gI starts = some (g', starts') := hres
        exact ih gI starts (done ++ [id]) hinvI hdis' hnd' g' starts' hres2
      · have hres2 : alignLoop rest gI (starts ++ [(id, fl0.1)]) =
            some (g', starts') := hres
        exact ih gI (starts ++ [(id, fl0.1)]) (done ++ [id]) hinvI hdis'
          hnd' g' starts' hres2
    · rw [if_neg hi] at hres
      rcases hstep : alignStep g id seq with _ | ⟨gS, h?⟩
      · rw [hstep] at hres
        cases hres
      · rw [hstep] at hres
        have hinvS : graphInv gS (done ++ [id]) :=
          alignStep_inv g id seq gS h? done hstep hinv
            (hdis (i, id, seq) (List.mem_cons_self _ _))
        rcases h? with _ | hv
        · have hres2 : alignLoop rest gS starts = some (g', starts') := hres
          exact ih gS starts (done ++ [id]) hinvS hdis' hnd' g' starts' hres2
        · have hres2 : alignLoop rest gS (starts ++ [(id, hv)]) =
              some (g', starts') := hres
          exact ih gS (starts ++ [(id, hv)]) (done ++ [id]) hinvS hdis'
            hnd' g' starts' hres2

theorem outgoing_filter_eq (g : POAGraph) (v : Nat) (sid : SeqID) :
    ((outgoingEdges g v).filter (fun e => e.labels.contains sid)).length =
    sidOut g.edges v sid := by
  rw [outgoingEdges, sidOut, List.filter_reverse, List.length_reverse,
    List.filter_filter, List.countP_eq_length_filter]
  congr 1
  apply List.filter_congr
  intro e _
  by_cases h : e.src = v
  · simp [h]
  · simp [h, fun hc => h (by simpa using hc)]

/-- C6: after every graft performed during `align` — that is, after `align`'s
loop has processed any prefix of the sorted, enumerated sequence list (with
the `HashMap`-guaranteed distinct keys) — every node of the graph has at
most one outgoing edge whose label list contains any fixed `SeqID`: each
sequence traces a single path through the graph, the one `poa_to_strings`
follows from its head. -/
theorem align_per_seqid_unique (seqs : List (SeqID × Sequence))
    (hkeys : (seqs.map Prod.fst).Nodup)
    (pfx sfx : List (Nat × SeqID × Sequence))
    (hsplit : (sortSeqs seqs).enum = pfx ++ sfx)
    (g' : POAGraph) (starts' : List (SeqID × Nat))
    (hrun : alignLoop pfx POAGraph.emptyGraph [] = some (g', starts')) :
    ∀ sid v, ((outgoingEdges g' v).filter
      (fun e => e.labels.contains sid)).length ≤ 1 := by
  have hperm : List.Perm (sortSeqs seqs) seqs := sortSeqs_perm seqs
  have hsortnd : ((sortSeqs seqs).map Prod.fst).Nodup :=
    (hperm.map Prod.fst).symm.nodup hkeys
  have henum : ((sortSeqs seqs).enum.map (fun j => j.2.1)).Nodup := by
    have h1 : (sortSeqs seqs).enum.map (fun j : Nat × SeqID × Sequence =>
        j.2.1) = ((sortSeqs seqs).enum.map Prod.snd).map Prod.fst := by
      rw [List.map_map]
      rfl
    rw [h1, List.enum_map_snd]
    exact hsortnd
  have hpfxnd : (pfx.map (fun j => j.2.1)).Nodup := by
    rw [hsplit, List.map_append] at henum
    exact henum.of_append_left
  have hinv0 : graphInv POAGraph.emptyGraph [] := by
    refine ⟨fun e he => ?_, fun v sid' => ?_, fun e he => ?_⟩
    · exact absurd he (List.not_mem_nil e)
    · show sidOut [] v sid' ≤ 1
      rw [sidOut_nil]
      omega
    · exact absurd he (List.not_mem_nil e)
  rcases alignLoop_inv pfx POAGraph.emptyGraph [] [] hinv0
    (fun j _ hc => List.not_mem_nil _ hc) hpfxnd g' starts' hrun
    with ⟨done', _, hle, _⟩
  intro sid v
  rw [outgoing_filter_eq]
  exact hle v sid

theorem align_per_seqid_unique_witness :
    (([((0 : SeqID), [PoaElt.geneFamily 1])].map Prod.fst).Nodup) ∧
    (sortSeqs [((0 : SeqID), [PoaElt.geneFamily 1])]).enum =
      [((0 : Nat), (0 : SeqID), [PoaElt.geneFamily 1])] ++ [] ∧
    alignLoop [((0 : Nat), (0 : SeqID), [PoaElt.geneFamily 1])]
      POAGraph.emptyGraph [] =
      some (POAGraph.mk [POANode.mk [(0, PoaElt.geneFamily 1)]] [],
        [((0 : SeqID), 0)]) ∧
    ((outgoingEdges (POAGraph.mk [POANode.mk [(0, PoaElt.geneFamily 1)]] [])
        0).filter (fun e => e.labels.contains 0)).length ≤ 1 :=
  ⟨by decide, by decide, by decide,
   align_per_seqid_unique [((0 : SeqID), [PoaElt.geneFamily 1])] (by decide)
     [((0 : Nat), (0 : SeqID), [PoaElt.geneFamily 1])] [] (by decide)
     (POAGraph.mk [POANode.mk [(0, PoaElt.geneFamily 1)]] [])
     [((0 : SeqID), 0)] (by decide) 0 0⟩

/-! ## C5 — acyclicity and success of the topological sorts -/

/-- A potential function certifying acyclicity: every edge strictly
increases it. -/
def EdgesForward (es : List POAEdge) (rho : Nat → Nat) : Prop :=
  ∀ e ∈ es, rho e.src < rho e.tgt

/-- Reachability along the graph's edges. -/
inductive Reaches (g : POAGraph) : Nat → Nat → Prop
  | refl (v : Nat) : Reaches g v v
  | step {a b : Nat} (e : POAEdge) : Reaches g a b → e ∈ g.edges →
      e.src = b → Reaches g a e.tgt

theorem reaches_rho (g : POAGraph) (rho : Nat → Nat)
    (hrho : EdgesForward g.edges rho) :
    ∀ a b : Nat, Reaches g a b → rho a ≤ rho b := by
  intro a b h
  induction h with
  | refl => exact le_refl _
  | step e _ he hsrc ih =>
    have hlt := hrho e he
    rw [hsrc] at hlt
    omega

theorem getB_lt (l : List Bool) (i : Nat) (h : getB l i = true) :
    i < l.length := by
  by_contra hc
  rw [getB, List.getD_eq_get?, List.get?_eq_none.mpr (by omega)] at h
  cases h

theorem setB_length (l : List Bool) (i : Nat) :
    (setB l i).length = l.length := by
  rw [setB, List.length_set]

theorem getB_setB_self : ∀ (l : List Bool) (i : Nat), i < l.length →
    getB (setB l i) i = true := by
  intro l
  induction l with
  | nil => intro i h; exact absurd h (by simp)
  | cons a t ih =>
    intro i h
    cases i with
    | zero => rfl
    | succ i' => exact ih i' (by simpa using h)

theorem getB_setB_ne : ∀ (l : List Bool) (i j : Nat), j ≠ i →
    getB (setB l i) j = getB l j := by
  intro l
  induction l with
  | nil => intro i j _; rfl
  | cons a t ih =>
    intro i j hne
    cases i with
    | zero =>
      cases j with
      | zero => exact absurd rfl hne
      | succ j' => rfl
    | succ i' =>
      cases j with
      | zero => rfl
      | succ j' => exact ih i' j' (fun hc => hne (by omega))

theorem countP_agree (p q : Nat → Bool) :
    ∀ l : List Nat, (∀ x ∈ l, p x = q x) → l.countP p = l.countP q := by
  intro l
  induction l with
  | nil => intro _; rfl
  | cons a t ih =>
    intro h
    rw [List.countP_cons, List.countP_cons,
      h a (List.mem_cons_self a t), ih (fun x hx => h x (List.mem_cons_of_mem a hx))]

theorem countP_update (p q : Nat → Bool) :
    ∀ l : List Nat, l.Nodup → ∀ v : Nat, v ∈ l →
    p v = true → q v = false → (∀ x, x ≠ v → q x = p x) →
    l.countP q + 1 = l.countP p := by
  intro l
  induction l with
  | nil => intro _ v hv; exact absurd hv (by simp)
  | cons a t ih =>
    intro hnd v hv hpv hqv hagree
    rcases List.nodup_cons.mp hnd with ⟨hat, hndt⟩
    rcases List.mem_cons.mp hv with rfl | hvt
    · rw [List.countP_cons, List.countP_cons, hpv, hqv,
        if_pos rfl, if_neg (by simp)]
      have hagt : t.countP q = t.countP p :=
        countP_agree q p t (fun x hx => hagree x (fun hc => hat (hc ▸ hx)))
      omega
    · have hav : a ≠ v := fun hc => hat (hc ▸ hvt)
      rw [List.countP_cons, List.countP_cons, hagree a hav]
      have hrec := ih hndt v hvt hpv hqv hagree
      by_cases hpa : p a = true
      · rw [if_pos hpa]
        omega
      · rw [if_neg hpa]
        omega

/-- Number of not-yet-discovered node indices. -/
def undiscCount (n : Nat) (disc : List Bool) : Nat :=
  (List.range n).countP (fun v => !(getB disc v))

theorem undiscCount_setB (n : Nat) (disc : List Bool) (v : Nat)
    (hlen : disc.length = n) (hv : v < n) (hd : getB disc v = false) :
    undiscCount n (setB disc v) + 1 = undiscCount n disc := by
  refine countP_update _ _ (List.range n) (List.nodup_range n) v
    (List.mem_range.mpr hv) ?_ ?_ ?_
  · rw [hd]; rfl
  · rw [getB_setB_self disc v (by omega)]; rfl
  · intro x hx
    rw [getB_setB_ne disc v x hx]

theorem undiscCount_le (n : Nat) (disc : List Bool) : undiscCount n disc ≤ n := by
  have := List.countP_le_length (l := List.range n) (p := fun v => !(getB disc v))
  simpa using this

theorem mem_first_split {α : Type} [DecidableEq α] :
    ∀ (l : List α) (a : α), a ∈ l → ∃ s t, l = s ++ a :: t ∧ a ∉ s := by
  intro l
  induction l with
  | nil => intro a ha; exact absurd ha (by simp)
  | cons b t ih =>
    intro a ha
    by_cases hab : a = b
    · exact ⟨[], t, by rw [hab]; rfl, by simp⟩
    · rcases List.mem_cons.mp ha with h1 | h2
      · exact absurd h1 hab
      · rcases ih a h2 with ⟨s, t', heq, hns⟩
        refine ⟨b :: s, t', by rw [heq]; rfl, ?_⟩
        intro hc
        rcases List.mem_cons.mp hc with h3 | h4
        · exact hab h3
        · exact hns h4

theorem findIdx_none_append (p : Nat → Bool) :
    ∀ (l1 l2 : List Nat), (∀ x ∈ l1, p x = false) →
    (l1 ++ l2).findIdx p = l1.length + l2.findIdx p := by
  intro l1
  induction l1 with
  | nil => intro l2 _; simp
  | cons a t ih =>
    intro l2 h
    rw [List.cons_append, List.findIdx_cons, h a (List.mem_cons_self a t),
      cond_false, ih l2 (fun x hx => h x (List.mem_cons_of_mem a hx))]
    simp only [List.length_cons]
    omega

/-- The state invariant of petgraph's iterative post-order DFS, as performed
by `dfsLoop`: bookkeeping lengths, the output characterises the finished
set in finish order and is closed under successors, every gray node (being
discovered but unfinished) still has a stack occurrence, and a gray
occurrence with nothing equal above it has all its unfinished successors
and only reachable entries above it. -/
structure DFSInv (g : POAGraph) (n : Nat) (disc fin : List Bool)
    (stack out : List Nat) : Prop where
  dlen : disc.length = n
  flen : fin.length = n
  fsubd : ∀ v, getB fin v = true → getB disc v = true
  stackLt : ∀ x ∈ stack, x < n
  outChar : ∀ v, getB fin v = true ↔ v ∈ out
  outNd : out.Nodup
  outClosed : ∀ o1 u o2, out = o1 ++ u :: o2 →
    ∀ e ∈ g.edges, e.src = u → e.tgt ∈ o1
  graysIn : ∀ v, getB disc v = true → getB fin v = false → v ∈ stack
  succAbove : ∀ A x B, stack = A ++ x :: B → getB disc x = true →
    getB fin x = false →
    x ∈ A ∨ ∀ e ∈ g.edges, e.src = x → getB fin e.tgt = false → e.tgt ∈ A
  reachAbove : ∀ A x B, stack = A ++ x :: B → getB disc x = true →
    getB fin x = false → x ∈ A ∨ ∀ a ∈ A, Reaches g x a

theorem dfsLoop_step (g : POAGraph) (fuel : Nat) (disc fin : List Bool)
    (nx : Nat) (rest out : List Nat) :
    dfsLoop g (fuel + 1) disc fin (nx :: rest) out =
      if getB disc nx then
        if getB fin nx then dfsLoop g fuel disc fin rest out
        else dfsLoop g fuel disc (setB fin nx) rest (out ++ [nx])
      else
        if ((outgoingEdges g nx).map (·.tgt)).contains nx then none
        else
          dfsLoop g fuel (setB disc nx) fin
            ((((outgoingEdges g nx).map (·.tgt)).filter
              (fun v => !(getB (setB disc nx) v))).reverse ++ nx :: rest)
            out := rfl

theorem dfsLoop_skip (g : POAGraph) (fuel : Nat) (disc fin : List Bool)
    (nx : Nat) (rest out : List Nat) (hd : getB disc nx = true)
    (hf : getB fin nx = true) :
    dfsLoop g (fuel + 1) disc fin (nx :: rest) out =
      dfsLoop g fuel disc fin rest out := by
  rw [dfsLoop_step, hd, hf]
  rfl

theorem dfsLoop_finish (g : POAGraph) (fuel : Nat) (disc fin : List Bool)
    (nx : Nat) (rest out : List Nat) (hd : getB disc nx = true)
    (hf : getB fin nx = false) :
    dfsLoop g (fuel + 1) disc fin (nx :: rest) out =
      dfsLoop g fuel disc (setB fin nx) rest (out ++ [nx]) := by
  rw [dfsLoop_step, hd, hf]
  rfl

theorem dfsLoop_expand (g : POAGraph) (fuel : Nat) (disc fin : List Bool)
    (nx : Nat) (rest out : List Nat) (hd : getB disc nx = false)
    (hns : ((outgoingEdges g nx).map (·.tgt)).contains nx = false) :
    dfsLoop g (fuel + 1) disc fin (nx :: rest) out =
      dfsLoop g fuel (setB disc nx) fin
        ((((outgoingEdges g nx).map (·.tgt)).filter
          (fun v => !(getB (setB disc nx) v))).reverse ++ nx :: rest)
        out := by
  rw [dfsLoop_step, hd, hns]
  rfl

/-- Skip-popping an already finished head preserves the DFS invariant. -/
theorem skip_inv (g : POAGraph) (n : Nat) (disc fin : List Bool) (nx : Nat)
    (rest out : List Nat) (hinv : DFSInv g n disc fin (nx :: rest) out)
    (hf : getB fin nx = true) : DFSInv g n disc fin rest out := by
  refine ⟨hinv.dlen, hinv.flen, hinv.fsubd, ?_, hinv.outChar, hinv.outNd,
    hinv.outClosed, ?_, ?_, ?_⟩
  · intro x hx
    exact hinv.stackLt x (List.mem_cons_of_mem nx hx)
  · intro v hdv hfv
    have hvne : v ≠ nx := fun hc => by rw [hc, hf] at hfv; cases hfv
    rcases List.mem_cons.mp (hinv.graysIn v hdv hfv) with h1 | h2
    · exact absurd h1 hvne
    · exact h2
  · intro A x B hsplit hdx hfx
    have hxne : x ≠ nx := fun hc => by rw [hc, hf] at hfx; cases hfx
    have hsplit2 : nx :: rest = (nx :: A) ++ x :: B := by rw [hsplit]; rfl
    rcases hinv.succAbove (nx :: A) x B hsplit2 hdx hfx with h1 | h2
    · rcases List.mem_cons.mp h1 with h3 | h4
      · exact absurd h3 hxne
      · exact Or.inl h4
    · refine Or.inr (fun e he hsrc hft => ?_)
      have htne : e.tgt ≠ nx := fun hc => by rw [hc, hf] at hft; cases hft
      rcases List.mem_cons.mp (h2 e he hsrc hft) with h3 | h4
      · exact absurd h3 htne
      · exact h4
  · intro A x B hsplit hdx hfx
    have hxne : x ≠ nx := fun hc => by rw [hc, hf] at hfx; cases hfx
    have hsplit2 : nx :: rest = (nx :: A) ++ x :: B := by rw [hsplit]; rfl
    rcases hinv.reachAbove (nx :: A) x B hsplit2 hdx hfx with h1 | h2
    · rcases List.mem_cons.mp h1 with h3 | h4
      · exact absurd h3 hxne
      · exact Or.inl h4
    · exact Or.inr (fun a ha => h2 a (List.mem_cons_of_mem nx ha))

/-- Finish-popping a gray head preserves the DFS invariant: by `succAbove`
at the head, all its unfinished successors would have to live above the
head, so they are all finished and the output stays successor-closed. -/
theorem finish_inv (g : POAGraph) (n : Nat) (disc fin : List Bool) (nx : Nat)
    (rest out : List Nat) (hinv : DFSInv g n disc fin (nx :: rest) out)
    (hd : getB disc nx = true) (hf : getB fin nx = false) (hnx_lt : nx < n) :
    DFSInv g n disc (setB fin nx) rest (out ++ [nx]) := by
  have hkey : ∀ e ∈ g.edges, e.src = nx → getB fin e.tgt = true := by
    intro e he hsrc
    cases hft : getB fin e.tgt with
    | true => rfl
    | false =>
      rcases hinv.succAbove [] nx rest rfl hd hf with h1 | h2
      · exact absurd h1 (List.not_mem_nil nx)
      · exact absurd (h2 e he hsrc hft) (List.not_mem_nil _)
  have hnotout : nx ∉ out := fun hc => by
    have h2 := (hinv.outChar nx).mpr hc
    rw [hf] at h2
    cases h2
  have hfin'nx : getB (setB fin nx) nx = true :=
    getB_setB_self fin nx (by rw [hinv.flen]; exact hnx_lt)
  have hfin'mono : ∀ v, getB fin v = true → getB (setB fin nx) v = true := by
    intro v hv
    by_cases hvn : v = nx
    · rw [hvn]; exact hfin'nx
    · rw [getB_setB_ne fin nx v hvn]; exact hv
  have hfin'back : ∀ v, getB (setB fin nx) v = true →
      v = nx ∨ getB fin v = true := by
    intro v hv
    by_cases hvn : v = nx
    · exact Or.inl hvn
    · rw [getB_setB_ne fin nx v hvn] at hv; exact Or.inr hv
  have hfinlow : ∀ v, getB (setB fin nx) v = false → getB fin v = false := by
    intro v hv
    cases hfvo : getB fin v with
    | false => rfl
    | true => rw [hfin'mono v hfvo] at hv; cases hv
  refine ⟨hinv.dlen, by rw [setB_length]; exact hinv.flen, ?_, ?_, ?_, ?_,
    ?_, ?_, ?_, ?_⟩
  · intro v hv
    rcases hfin'back v hv with rfl | hv2
    · exact hd
    · exact hinv.fsubd v hv2
  · intro x hx
    exact hinv.stackLt x (List.mem_cons_of_mem nx hx)
  · intro v
    constructor
    · intro hv
      rcases hfin'back v hv with rfl | hv2
      · exact List.mem_append_right out (List.mem_singleton.mpr rfl)
      · exact List.mem_append_left _ ((hinv.outChar v).mp hv2)
    · intro hv
      rcases List.mem_append.mp hv with hv1 | hv2
      · exact hfin'mono v ((hinv.outChar v).mpr hv1)
      · rw [List.mem_singleton.mp hv2]; exact hfin'nx
  · rw [List.nodup_append]
    exact ⟨hinv.outNd, List.nodup_singleton nx,
      fun a ha hb => hnotout ((List.mem_singleton.mp hb) ▸ ha)⟩
  · intro o1 u o2 hsplit e he hsrc
    rw [List.append_eq_append_iff] at hsplit
    rcases hsplit with ⟨w, hw1, hw2⟩ | ⟨w, hw1, hw2⟩
    · rcases w with _ | ⟨y, ys⟩
      · rw [List.nil_append] at hw2
        injection hw2 with h1 h2
        rw [← h1] at hsrc
        have hmem := (hinv.outChar e.tgt).mp (hkey e he hsrc)
        rw [hw1, List.append_nil]
        exact hmem
      · rw [List.cons_append] at hw2
        injection hw2 with h1 h2
        exact absurd h2.symm (by simp)
    · rcases w with _ | ⟨y, ys⟩
      · rw [List.append_nil] at hw1
        rw [List.nil_append] at hw2
        injection hw2 with h1 h2
        rw [h1] at hsrc
        have hmem := (hinv.outChar e.tgt).mp (hkey e he hsrc)
        rw [hw1] at hmem
        exact hmem
      · rw [List.cons_append] at hw2
        injection hw2 with h1 h2
        rw [← h1] at hw1
        exact hinv.outClosed o1 u ys hw1 e he hsrc
  · intro v hdv hfv
    have hfv0 : getB fin v = false := hfinlow v hfv
    have hvne : v ≠ nx := fun hc => by rw [hc, hfin'nx] at hfv; cases hfv
    rcases List.mem_cons.mp (hinv.graysIn v hdv hfv0) with h1 | h2
    · exact absurd h1 hvne
    · exact h2
  · intro A x B hsplit hdx hfx
    have hfx0 : getB fin x = false := hfinlow x hfx
    have hxne : x ≠ nx := fun hc => by rw [hc, hfin'nx] at hfx; cases hfx
    have hsplit2 : nx :: rest = (nx :: A) ++ x :: B := by rw [hsplit]; rfl
    rcases hinv.succAbove (nx :: A) x B hsplit2 hdx hfx0 with h1 | h2
    · rcases List.mem_cons.mp h1 with h3 | h4
      · exact absurd h3 hxne
      · exact Or.inl h4
    · refine Or.inr (fun e he hsrc hft => ?_)
      have hft0 : getB fin e.tgt = false := hfinlow _ hft
      have htne : e.tgt ≠ nx := fun hc => by rw [hc, hfin'nx] at hft; cases hft
      rcases List.mem_cons.mp (h2 e he hsrc hft0) with h3 | h4
      · exact absurd h3 htne
      · exact h4
  · intro A x B hsplit hdx hfx
    have hfx0 : getB fin x = false := hfinlow x hfx
    have hxne : x ≠ nx := fun hc => by rw [hc, hfin'nx] at hfx; cases hfx
    have hsplit2 : nx :: rest = (nx :: A) ++ x :: B := by rw [hsplit]; rfl
    rcases hinv.reachAbove (nx :: A) x B hsplit2 hdx hfx0 with h1 | h2
    · rcases List.mem_cons.mp h1 with h3 | h4
      · exact absurd h3 hxne
      · exact Or.inl h4
    · exact Or.inr (fun a ha => h2 a (List.mem_cons_of_mem nx ha))

/-- Expanding an undiscovered head preserves the DFS invariant, for any
pushed block `tpr` that consists of successors of the head, is
undiscovered after marking the head, and contains every unfinished
successor of the head. -/
theorem expand_inv (g : POAGraph) (n : Nat) (disc fin : List Bool) (nx : Nat)
    (rest out : List Nat) (tpr : List Nat)
    (hinv : DFSInv g n disc fin (nx :: rest) out)
    (hd : getB disc nx = false) (hnx_lt : nx < n)
    (tp1 : ∀ v ∈ tpr, getB (setB disc nx) v = false)
    (tp2 : ∀ v ∈ tpr, v < n)
    (tp3 : ∀ e ∈ g.edges, e.src = nx → getB fin e.tgt = false → e.tgt ∈ tpr)
    (tp4 : ∀ v ∈ tpr, ∃ e ∈ g.edges, e.src = nx ∧ e.tgt = v) :
    DFSInv g n (setB disc nx) fin (tpr ++ nx :: rest) out := by
  have hdisc'nx : getB (setB disc nx) nx = true :=
    getB_setB_self disc nx (by rw [hinv.dlen]; exact hnx_lt)
  have hdmono : ∀ v, getB disc v = true → getB (setB disc nx) v = true := by
    intro v hv
    by_cases hvn : v = nx
    · rw [hvn]; exact hdisc'nx
    · rw [getB_setB_ne disc nx v hvn]; exact hv
  have hdisc'back : ∀ v, getB (setB disc nx) v = true →
      v = nx ∨ getB disc v = true := by
    intro v hv
    by_cases hvn : v = nx
    · exact Or.inl hvn
    · rw [getB_setB_ne disc nx v hvn] at hv; exact Or.inr hv
  refine ⟨by rw [setB_length]; exact hinv.dlen, hinv.flen, ?_, ?_,
    hinv.outChar, hinv.outNd, hinv.outClosed, ?_, ?_, ?_⟩
  · intro v hv
    exact hdmono v (hinv.fsubd v hv)
  · intro x hx
    rcases List.mem_append.mp hx with h1 | h2
    · exact tp2 x h1
    · exact hinv.stackLt x h2
  · intro v hdv hfv
    rcases hdisc'back v hdv with rfl | hdv2
    · exact List.mem_append_right tpr (List.mem_cons_self v rest)
    · exact List.mem_append_right tpr (hinv.graysIn v hdv2 hfv)
  · -- succAbove
    intro A x B hsplit hdx hfx
    rw [List.append_eq_append_iff] at hsplit
    rcases hsplit with ⟨w, hw1, hw2⟩ | ⟨w, hw1, hw2⟩
    · rcases w with _ | ⟨z, zs⟩
      · -- split at the head: A = tpr
        rw [List.append_nil] at hw1
        rw [List.nil_append] at hw2
        injection hw2 with h1 h2
        refine Or.inr (fun e he hsrc hft => ?_)
        rw [hw1]
        exact tp3 e he (by rw [hsrc, ← h1]) hft
      · -- split strictly below the head
        rw [List.cons_append] at hw2
        injection hw2 with h1 h2
        by_cases hxnx : x = nx
        · refine Or.inl ?_
          rw [hw1, hxnx, ← h1]
          exact List.mem_append_right tpr (List.mem_cons_self nx zs)
        · have hdx0 : getB disc x = true :=
            (hdisc'back x hdx).resolve_left hxnx
          have hsplit2 : nx :: rest = (nx :: zs) ++ x :: B := by
            rw [h2]; rfl
          rcases hinv.succAbove (nx :: zs) x B hsplit2 hdx0 hfx with h3 | h4
          · refine Or.inl ?_
            rw [hw1, ← h1]
            exact List.mem_append_right tpr h3
          · refine Or.inr (fun e he hsrc hft => ?_)
            rw [hw1, ← h1]
            exact List.mem_append_right tpr (h4 e he hsrc hft)
    · rcases w with _ | ⟨y, ys⟩
      · -- A = tpr again (right-form with empty remainder)
        rw [List.append_nil] at hw1
        rw [List.nil_append] at hw2
        injection hw2 with h1 h2
        refine Or.inr (fun e he hsrc hft => ?_)
        rw [← hw1]
        exact tp3 e he (by rw [hsrc, h1]) hft
      · -- the gray occurrence sits inside the pushed block: impossible
        rw [List.cons_append] at hw2
        injection hw2 with h1 h2
        have hx_tpr : x ∈ tpr := by
          rw [hw1, h1]
          exact List.mem_append_right A (List.mem_cons_self y ys)
        rw [tp1 x hx_tpr] at hdx
        cases hdx
  · -- reachAbove
    intro A x B hsplit hdx hfx
    rw [List.append_eq_append_iff] at hsplit
    rcases hsplit with ⟨w, hw1, hw2⟩ | ⟨w, hw1, hw2⟩
    · rcases w with _ | ⟨z, zs⟩
      · rw [List.append_nil] at hw1
        rw [List.nil_append] at hw2
        injection hw2 with h1 h2
        refine Or.inr (fun a ha => ?_)
        rw [hw1] at ha
        rcases tp4 a ha with ⟨e, he, hsrc, htgt⟩
        have hr : Reaches g nx e.tgt := Reaches.step e (Reaches.refl nx) he hsrc
        rw [htgt] at hr
        rw [← h1]
        exact hr
      · rw [List.cons_append] at hw2
        injection hw2 with h1 h2
        by_cases hxnx : x = nx
        · refine Or.inl ?_
          rw [hw1, hxnx, ← h1]
          exact List.mem_append_right tpr (List.mem_cons_self nx zs)
        · have hdx0 : getB disc x = true :=
            (hdisc'back x hdx).resolve_left hxnx
          have hsplit2 : nx :: rest = (nx :: zs) ++ x :: B := by
            rw [h2]; rfl
          rcases hinv.reachAbove (nx :: zs) x B hsplit2 hdx0 hfx with h3 | h4
          · refine Or.inl ?_
            rw [hw1, ← h1]
            exact List.mem_append_right tpr h3
          · refine Or.inr (fun a ha => ?_)
            rw [hw1, ← h1] at ha
            rcases List.mem_append.mp ha with ha1 | ha2
            · rcases tp4 a ha1 with ⟨e, he, hsrc, htgt⟩
              have hrnx : Reaches g x nx := h4 nx (List.mem_cons_self nx zs)
              exact htgt ▸ Reaches.step e hrnx he hsrc
            · exact h4 a ha2
    · rcases w with _ | ⟨y, ys⟩
      · rw [List.append_nil] at hw1
        rw [List.nil_append] at hw2
        injection hw2 with h1 h2
        refine Or.inr (fun a ha => ?_)
        rw [← hw1] at ha
        rcases tp4 a ha with ⟨e, he, hsrc, htgt⟩
        have hr : Reaches g nx e.tgt := Reaches.step e (Reaches.refl nx) he hsrc
        rw [htgt] at hr
        rw [h1]
        exact hr
      · rw [List.cons_append] at hw2
        injection hw2 with h1 h2
        have hx_tpr : x ∈ tpr := by
          rw [hw1, h1]
          exact List.mem_append_right A (List.mem_cons_self y ys)
        rw [tp1 x hx_tpr] at hdx
        cases hdx

/-- Main completeness run of the DFS driver: on a graph with a forward
potential (hence acyclic), with enough fuel the loop returns, empties its
stack, discovers everything that was on it, and preserves the invariant. -/
theorem dfsLoop_complete (g : POAGraph) (n : Nat) (hn : n = g.nodes.length)
    (hval : edgesValid g) (rho : Nat → Nat)
    (hrho : EdgesForward g.edges rho) :
    ∀ (fuel : Nat) (disc fin : List Bool) (stack out : List Nat),
    DFSInv g n disc fin stack out →
    undiscCount n disc * (g.edges.length + 2) + stack.length < fuel →
    ∃ disc2 fin2 out2,
      dfsLoop g fuel disc fin stack out = some (disc2, fin2, out2) ∧
      DFSInv g n disc2 fin2 [] out2 ∧
      (∀ v, getB disc v = true → getB disc2 v = true) ∧
      (∀ v, getB fin v = true → getB fin2 v = true) ∧
      (∀ v ∈ stack, getB disc2 v = true) ∧
      ∃ delta, out2 = out ++ delta := by
  intro fuel
  induction fuel with
  | zero =>
    intro disc fin stack out _ hfuel
    omega
  | succ fuel ih =>
    intro disc fin stack out hinv hfuel
    rcases stack with _ | ⟨nx, rest⟩
    · exact ⟨disc, fin, out, rfl, hinv, fun v h => h, fun v h => h,
        fun v hv => absurd hv (List.not_mem_nil v), [], by simp⟩
    · have hnx_lt : nx < n := hinv.stackLt nx (List.mem_cons_self nx rest)
      cases hd : getB disc nx with
      | true =>
        cases hf : getB fin nx with
        | true =>
          -- skip-pop
          have hinv' := skip_inv g n disc fin nx rest out hinv hf
          have hmeas : undiscCount n disc * (g.edges.length + 2) +
              rest.length < fuel := by
            simp only [List.length_cons] at hfuel
            omega
          obtain ⟨disc2, fin2, out2, hres, hinv2, hdm, hfm, hsd, delta,
            hdelta⟩ := ih disc fin rest out hinv' hmeas
          refine ⟨disc2, fin2, out2, ?_, hinv2, hdm, hfm, ?_, delta, hdelta⟩
          · rw [dfsLoop_skip g fuel disc fin nx rest out hd hf]
            exact hres
          · intro v hv
            rcases List.mem_cons.mp hv with rfl | h2
            · exact hdm v hd
            · exact hsd v h2
        | false =>
          -- finish-pop
          have hinv' := finish_inv g n disc fin nx rest out hinv hd hf hnx_lt
          have hfin'mono : ∀ v, getB fin v = true →
              getB (setB fin nx) v = true := by
            intro v hv
            by_cases hvn : v = nx
            · rw [hvn]
              exact getB_setB_self fin nx (by rw [hinv.flen]; exact hnx_lt)
            · rw [getB_setB_ne fin nx v hvn]; exact hv
          have hmeas : undiscCount n disc * (g.edges.length + 2) +
              rest.length < fuel := by
            simp only [List.length_cons] at hfuel
            omega
          obtain ⟨disc2, fin2, out2, hres, hinv2, hdm, hfm, hsd, delta,
            hdelta⟩ := ih disc (setB fin nx) rest (out ++ [nx]) hinv' hmeas
          refine ⟨disc2, fin2, out2, ?_, hinv2, hdm, ?_, ?_, ?_⟩
          · rw [dfsLoop_finish g fuel disc fin nx rest out hd hf]
            exact hres
          · intro v hv
            exact hfm v (hfin'mono v hv)
          · intro v hv
            rcases List.mem_cons.mp hv with rfl | h2
            · exact hdm v hd
            · exact hsd v h2
          · exact ⟨[nx] ++ delta, by rw [hdelta, List.append_assoc]⟩
      | false =>
        -- expansion
        have hnoself : ((outgoingEdges g nx).map (·.tgt)).contains nx =
            false := by
          cases hns : ((outgoingEdges g nx).map (·.tgt)).contains nx with
          | false => rfl
          | true =>
            have hm := List.mem_of_elem_eq_true hns
            rcases List.mem_map.mp hm with ⟨e, he, htgt⟩
            rcases mem_outgoingEdges.mp he with ⟨he2, hsrc⟩
            have hlt := hrho e he2
            rw [hsrc, htgt] at hlt
            omega
        have hdisc'nx : getB (setB disc nx) nx = true :=
          getB_setB_self disc nx (by rw [hinv.dlen]; exact hnx_lt)
        have hdmono0 : ∀ v, getB disc v = true →
            getB (setB disc nx) v = true := by
          intro v hv
          by_cases hvn : v = nx
          · rw [hvn]; exact hdisc'nx
          · rw [getB_setB_ne disc nx v hvn]; exact hv
        have hgray : ∀ w, getB disc w = true → getB fin w = false →
            ∀ e ∈ g.edges, e.src = nx → e.tgt = w → False := by
          intro w hdw hfw e he hsrc htgt
          have hw_in : w ∈ nx :: rest := hinv.graysIn w hdw hfw
          have hw_ne : w ≠ nx := by
            intro hc
            rw [hc, hd] at hdw
            cases hdw
          have hw_rest : w ∈ rest := (List.mem_cons.mp hw_in).resolve_left hw_ne
          obtain ⟨A2, B2, hsplit2, hnotin⟩ := mem_first_split rest w hw_rest
          have hsplit3 : nx :: rest = (nx :: A2) ++ w :: B2 := by
            rw [hsplit2]; rfl
          rcases hinv.reachAbove (nx :: A2) w B2 hsplit3 hdw hfw with h1 | h2
          · rcases List.mem_cons.mp h1 with h3 | h4
            · exact hw_ne h3
            · exact hnotin h4
          · have hr := h2 nx (List.mem_cons_self nx A2)
            have hle := reaches_rho g rho hrho w nx hr
            have hlt := hrho e he
            rw [hsrc, htgt] at hlt
            omega
        have tp1 : ∀ v ∈ (((outgoingEdges g nx).map (·.tgt)).filter
            (fun v => !(getB (setB disc nx) v))).reverse,
            getB (setB disc nx) v = false := by
          intro v hv
          rw [List.mem_reverse] at hv
          rcases List.mem_filter.mp hv with ⟨_, hcond⟩
          cases hgb : getB (setB disc nx) v with
          | false => rfl
          | true => rw [hgb] at hcond; cases hcond
        have tp2 : ∀ v ∈ (((outgoingEdges g nx).map (·.tgt)).filter
            (fun v => !(getB (setB disc nx) v))).reverse, v < n := by
          intro v hv
          rw [List.mem_reverse] at hv
          rcases List.mem_filter.mp hv with ⟨hmem, _⟩
          rcases List.mem_map.mp hmem with ⟨e, he, htgt⟩
          rcases mem_outgoingEdges.mp he with ⟨he2, _⟩
          have := (hval e he2).2
          rw [htgt] at this
          omega
        have tp4 : ∀ v ∈ (((outgoingEdges g nx).map (·.tgt)).filter
            (fun v => !(getB (setB disc nx) v))).reverse,
            ∃ e ∈ g.edges, e.src = nx ∧ e.tgt = v := by
          intro v hv
          rw [List.mem_reverse] at hv
          rcases List.mem_filter.mp hv with ⟨hmem, _⟩
          rcases List.mem_map.mp hmem with ⟨e, he, htgt⟩
          rcases mem_outgoingEdges.mp he with ⟨he2, hsrc⟩
          exact ⟨e, he2, hsrc, htgt⟩
        have tp3 : ∀ e ∈ g.edges, e.src = nx → getB fin e.tgt = false →
            e.tgt ∈ (((outgoingEdges g nx).map (·.tgt)).filter
              (fun v => !(getB (setB disc nx) v))).reverse := by
          intro e he hsrc hft
          rw [List.mem_reverse]
          refine List.mem_filter.mpr ⟨?_, ?_⟩
          · exact List.mem_map.mpr ⟨e, mem_outgoingEdges.mpr ⟨he, hsrc⟩, rfl⟩
          · have hgb : getB (setB disc nx) e.tgt = false := by
              cases hgb2 : getB (setB disc nx) e.tgt with
              | false => rfl
              | true =>
                by_cases htn : e.tgt = nx
                · have hlt := hrho e he
                  rw [hsrc, htn] at hlt
                  omega
                · rw [getB_setB_ne disc nx e.tgt htn] at hgb2
                  exact (hgray e.tgt hgb2 hft e he hsrc rfl).elim
            rw [hgb]
            rfl
        have hinv' := expand_inv g n disc fin nx rest out
          ((((outgoingEdges g nx).map (·.tgt)).filter
            (fun v => !(getB (setB disc nx) v))).reverse)
          hinv hd hnx_lt tp1 tp2 tp3 tp4
        have hueq := undiscCount_setB n disc nx hinv.dlen hnx_lt hd
        have htp_len : (((outgoingEdges g nx).map (·.tgt)).filter
            (fun v => !(getB (setB disc nx) v))).length ≤
            g.edges.length := by
          have h1 : (((outgoingEdges g nx).map (·.tgt)).filter
              (fun v => !(getB (setB disc nx) v))).length ≤
              ((outgoingEdges g nx).map (·.tgt)).length :=
            List.length_filter_le _ _
          have h2 : ((outgoingEdges g nx).map (·.tgt)).length =
              (outgoingEdges g nx).length := List.length_map _ _
          have h3 : (outgoingEdges g nx).length ≤ g.edges.length := by
            rw [outgoingEdges, List.length_reverse]
            exact List.length_filter_le _ _
          omega
        have hmul : undiscCount n disc * (g.edges.length + 2) =
            undiscCount n (setB disc nx) * (g.edges.length + 2) +
            (g.edges.length + 2) := by
          rw [← hueq]; ring
        have hmeas : undiscCount n (setB disc nx) * (g.edges.length + 2) +
            ((((outgoingEdges g nx).map (·.tgt)).filter
              (fun v => !(getB (setB disc nx) v))).reverse ++
              nx :: rest).length < fuel := by
          rw [List.length_append, List.length_reverse]
          simp only [List.length_cons] at hfuel ⊢
          omega
        obtain ⟨disc2, fin2, out2, hres, hinv2, hdm, hfm, hsd, delta,
          hdelta⟩ := ih (setB disc nx) fin
            ((((outgoingEdges g nx).map (·.tgt)).filter
              (fun v => !(getB (setB disc nx) v))).reverse ++ nx :: rest)
            out hinv' hmeas
        refine ⟨disc2, fin2, out2, ?_, hinv2, ?_, hfm, ?_, delta, hdelta⟩
        · rw [dfsLoop_expand g fuel disc fin nx rest out hd hnoself]
          exact hres
        · intro v hv
          exact hdm v (hdmono0 v hv)
        · intro v hv
          rcases List.mem_cons.mp hv with rfl | h2
          · exact hdm v hdisc'nx
          · exact hsd v (List.mem_append_right _ (List.mem_cons_of_mem nx h2))

theorem dfsRoots_skip (g : POAGraph) (fuel r : Nat) (rs : List Nat)
    (disc fin : List Bool) (out : List Nat) (hdr : getB disc r = true) :
    dfsRoots g fuel (r :: rs) disc fin out =
      dfsRoots g fuel rs disc fin out := by
  show (if getB disc r then dfsRoots g fuel rs disc fin out
    else
      match dfsLoop g fuel disc fin [r] out with
      | none => none
      | some (d, f, o) => dfsRoots g fuel rs d f o) =
    dfsRoots g fuel rs disc fin out
  rw [hdr]
  rfl

theorem dfsRoots_go (g : POAGraph) (fuel r : Nat) (rs : List Nat)
    (disc fin : List Bool) (out : List Nat) (d f : List Bool) (o : List Nat)
    (hdr : getB disc r = false)
    (hloop : dfsLoop g fuel disc fin [r] out = some (d, f, o)) :
    dfsRoots g fuel (r :: rs) disc fin out = dfsRoots g fuel rs d f o := by
  show (if getB disc r then dfsRoots g fuel rs disc fin out
    else
      match dfsLoop g fuel disc fin [r] out with
      | none => none
      | some (d2, f2, o2) => dfsRoots g fuel rs d2 f2 o2) =
    dfsRoots g fuel rs d f o
  rw [hdr, hloop]
  rfl

/-- Running the DFS driver over a root list discovers every root and keeps
the invariant with an empty stack. -/
theorem dfsRoots_complete (g : POAGraph) (n : Nat) (hn : n = g.nodes.length)
    (hval : edgesValid g) (rho : Nat → Nat)
    (hrho : EdgesForward g.edges rho) :
    ∀ (roots : List Nat) (disc fin : List Bool) (out : List Nat),
    DFSInv g n disc fin [] out →
    (∀ r ∈ roots, r < n) →
    ∃ disc2 fin2 out2,
      dfsRoots g (topoFuel g) roots disc fin out = some (disc2, fin2, out2) ∧
      DFSInv g n disc2 fin2 [] out2 ∧
      (∀ v, getB disc v = true → getB disc2 v = true) ∧
      (∀ r ∈ roots, getB disc2 r = true) := by
  intro roots
  induction roots with
  | nil =>
    intro disc fin out hinv _
    exact ⟨disc, fin, out, rfl, hinv, fun v h => h,
      fun r hr => absurd hr (List.not_mem_nil r)⟩
  | cons r rs ih =>
    intro disc fin out hinv hroots
    have hr_lt : r < n := hroots r (List.mem_cons_self r rs)
    cases hdr : getB disc r with
    | true =>
      obtain ⟨disc2, fin2, out2, hres, hinv2, hdm, hrts⟩ :=
        ih disc fin out hinv (fun x hx => hroots x (List.mem_cons_of_mem r hx))
      refine ⟨disc2, fin2, out2, ?_, hinv2, hdm, ?_⟩
      · rw [dfsRoots_skip g (topoFuel g) r rs disc fin out hdr]
        exact hres
      · intro x hx
        rcases List.mem_cons.mp hx with rfl | h2
        · exact hdm x hdr
        · exact hrts x h2
    | false =>
      have hinv1 : DFSInv g n disc fin [r] out := by
        refine ⟨hinv.dlen, hinv.flen, hinv.fsubd, ?_, hinv.outChar,
          hinv.outNd, hinv.outClosed, ?_, ?_, ?_⟩
        · intro x hx
          have hx2 := List.mem_singleton.mp hx
          rw [hx2]
          exact hr_lt
        · intro v hdv hfv
          exact absurd (hinv.graysIn v hdv hfv) (List.not_mem_nil v)
        · intro A x B _ hdx hfx
          exact absurd (hinv.graysIn x hdx hfx) (List.not_mem_nil x)
        · intro A x B _ hdx hfx
          exact absurd (hinv.graysIn x hdx hfx) (List.not_mem_nil x)
      have hmeas : undiscCount n disc * (g.edges.length + 2) +
          ([r] : List Nat).length < topoFuel g := by
        have hub := undiscCount_le n disc
        have hmul2 : undiscCount n disc * (g.edges.length + 2) ≤
            n * (g.edges.length + 2) :=
          Nat.mul_le_mul_right _ hub
        have hexp2 : n * (g.edges.length + 2) =
            g.edges.length * n + 2 * n := by ring
        have hexp : topoFuel g = 4 * (n * n) + 4 * (g.edges.length * n) +
            16 * n + 8 * g.edges.length + 16 := by
          rw [topoFuel, ← hn]; ring
        simp only [List.length_singleton]
        omega
      obtain ⟨disc2, fin2, out2, hres, hinv2, hdm, hfm, hsd, delta,
        hdelta⟩ := dfsLoop_complete g n hn hval rho hrho (topoFuel g)
          disc fin [r] out hinv1 hmeas
      obtain ⟨disc3, fin3, out3, hres3, hinv3, hdm3, hrts3⟩ :=
        ih disc2 fin2 out2 hinv2
          (fun x hx => hroots x (List.mem_cons_of_mem r hx))
      refine ⟨disc3, fin3, out3, ?_, hinv3, ?_, ?_⟩
      · rw [dfsRoots_go g (topoFuel g) r rs disc fin out disc2 fin2 out2
          hdr hres]
        exact hres3
      · intro v hv
        exact hdm3 v (hdm v hv)
      · intro x hx
        rcases List.mem_cons.mp hx with rfl | h2
        · exact hdm3 x (hsd x (List.mem_singleton.mpr rfl))
        · exact hrts3 x h2

theorem getB_replicate (n v : Nat) :
    getB (List.replicate n false) v = false := by
  induction n generalizing v with
  | zero => rfl
  | succ n ih =>
    cases v with
    | zero => rfl
    | succ v' => exact ih v'

theorem posOf_append_of_not_mem (l1 l2 : List Nat) (v : Nat) (hv : v ∉ l1) :
    posOf (l1 ++ l2) v = l1.length + posOf l2 v := by
  rw [posOf, posOf]
  refine findIdx_none_append _ l1 l2 ?_
  intro x hx
  have hne : x ≠ v := fun hc => hv (hc ▸ hx)
  simpa using hne

theorem posOf_cons_self (v : Nat) (l : List Nat) : posOf (v :: l) v = 0 := by
  rw [posOf, List.findIdx_cons]
  simp

theorem posOf_cons_ne (a v : Nat) (l : List Nat) (h : a ≠ v) :
    posOf (a :: l) v = posOf l v + 1 := by
  rw [posOf, List.findIdx_cons]
  have hne : (a == v) = false := by simpa using h
  rw [hne, cond_false]
  rfl

/-- Completeness of the embedded `petgraph::algo::toposort`: on any graph
with valid edge endpoints and a forward potential (equivalently, an acyclic
graph), the sort returns a valid topological order — its failure branch is
unreachable. -/
theorem toposort_complete (g : POAGraph) (hval : edgesValid g)
    (rho : Nat → Nat) (hrho : EdgesForward g.edges rho) :
    ∃ ord, toposort g = some ord ∧ isValidTopo g ord = true := by
  have hinv0 : DFSInv g g.nodes.length
      (List.replicate g.nodes.length false)
      (List.replicate g.nodes.length false) [] [] := by
    refine ⟨by simp, by simp, ?_, ?_, ?_, List.nodup_nil, ?_, ?_, ?_, ?_⟩
    · intro v hv
      rw [getB_replicate] at hv
      cases hv
    · intro x hx
      exact absurd hx (List.not_mem_nil x)
    · intro v
      constructor
      · intro hv
        rw [getB_replicate] at hv
        cases hv
      · intro hv
        exact absurd hv (List.not_mem_nil v)
    · intro o1 u o2 h
      exact absurd h.symm (by simp)
    · intro v hv
      rw [getB_replicate] at hv
      cases hv
    · intro A x B h
      exact absurd h.symm (by simp)
    · intro A x B h
      exact absurd h.symm (by simp)
  obtain ⟨disc2, fin2, out2, hres, hinv2, _, hrts⟩ :=
    dfsRoots_complete g g.nodes.length rfl hval rho hrho
      (List.range g.nodes.length)
      (List.replicate g.nodes.length false)
      (List.replicate g.nodes.length false) [] hinv0
      (fun r hr => List.mem_range.mp hr)
  have hnogray : ∀ v, getB disc2 v = true → getB fin2 v = true := by
    intro v hv
    cases hfv : getB fin2 v with
    | true => rfl
    | false => exact absurd (hinv2.graysIn v hv hfv) (List.not_mem_nil v)
  have hallfin : ∀ v, v < g.nodes.length → getB fin2 v = true := by
    intro v hv
    exact hnogray v (hrts v (List.mem_range.mpr hv))
  have hmemiff : ∀ v, v ∈ out2 ↔ v < g.nodes.length := by
    intro v
    constructor
    · intro hv
      have hfv := (hinv2.outChar v).mpr hv
      have hlt := getB_lt fin2 v hfv
      rw [hinv2.flen] at hlt
      exact hlt
    · intro hv
      exact (hinv2.outChar v).mp (hallfin v hv)
  have hperm : List.Perm out2 (List.range g.nodes.length) := by
    rw [List.perm_ext_iff_of_nodup hinv2.outNd (List.nodup_range _)]
    intro v
    rw [hmemiff v, List.mem_range]
  have hlen : out2.length = g.nodes.length := by
    rw [hperm.length_eq, List.length_range]
  have hvalid : isValidTopo g out2.reverse = true := by
    rw [isValidTopo]
    rw [Bool.and_eq_true, Bool.and_eq_true]
    refine ⟨⟨?_, ?_⟩, ?_⟩
    · exact decide_eq_true (by rw [List.length_reverse]; exact hlen)
    · refine List.all_eq_true.mpr ?_
      intro v hv
      refine List.elem_eq_true_of_mem ?_
      rw [List.mem_reverse]
      exact (hmemiff v).mpr (List.mem_range.mp hv)
    · refine List.all_eq_true.mpr ?_
      intro e he
      refine decide_eq_true ?_
      have hsrc_mem : e.src ∈ out2 := (hmemiff e.src).mpr (hval e he).1
      obtain ⟨o1, o2, hsplit, _⟩ := mem_first_split out2 e.src hsrc_mem
      have hnd := hinv2.outNd
      rw [hsplit] at hnd
      rw [List.nodup_append] at hnd
      obtain ⟨hnd1, hnd2, hdisj⟩ := hnd
      have hsrc_no2 : e.src ∉ o2 := (List.nodup_cons.mp hnd2).1
      have htgt_o1 : e.tgt ∈ o1 := hinv2.outClosed o1 e.src o2 hsplit e he rfl
      have htgt_no2 : e.tgt ∉ o2 := fun hc =>
        hdisj htgt_o1 (List.mem_cons_of_mem _ hc)
      have htgt_ne : e.tgt ≠ e.src := fun hc =>
        hdisj htgt_o1 (hc ▸ List.mem_cons_self e.src o2)
      have hrev : out2.reverse = o2.reverse ++ e.src :: o1.reverse := by
        rw [hsplit]
        simp
      have hpos_src : posOf out2.reverse e.src = o2.reverse.length := by
        rw [hrev, posOf_append_of_not_mem _ _ _
          (by rw [List.mem_reverse]; exact hsrc_no2), posOf_cons_self]
        omega
      have hpos_tgt : posOf out2.reverse e.tgt =
          o2.reverse.length + (posOf o1.reverse e.tgt + 1) := by
        rw [hrev, posOf_append_of_not_mem _ _ _
          (by rw [List.mem_reverse]; exact htgt_no2),
          posOf_cons_ne e.src e.tgt o1.reverse (fun hc => htgt_ne hc.symm)]
      rw [hpos_src, hpos_tgt]
      omega
  refine ⟨out2.reverse, ?_, hvalid⟩
  show (match dfsRoots g (topoFuel g) (List.range g.nodes.length)
      (List.replicate g.nodes.length false)
      (List.replicate g.nodes.length false) [] with
    | none => none
    | some (_, _, out) =>
      if isValidTopo g out.reverse then some out.reverse else none) =
    some out2.reverse
  rw [hres]
  show (if isValidTopo g out2.reverse then some out2.reverse else none) =
    some out2.reverse
  rw [hvalid]
  rfl

theorem edgesAddLabel_forward (es : List POAEdge) (s t : Nat) (l : SeqID)
    (rho : Nat → Nat) (hf : EdgesForward es rho) (hst : rho s < rho t) :
    EdgesForward (edgesAddLabel es s t l) rho := by
  intro e he
  rcases edgesAddLabel_shape es s t l e he with ⟨e0, he0, h1, h2, _⟩ | rfl
  · rw [h1, h2]
    exact hf e0 he0
  · exact hst

theorem updateEdge_forward (g : POAGraph) (a b : Option Nat) (l : SeqID)
    (rho : Nat → Nat) (hf : EdgesForward g.edges rho)
    (hab : ∀ s t, a = some s → b = some t → rho s < rho t) :
    EdgesForward (updateEdge g a b l).edges rho := by
  cases a with
  | none => exact hf
  | some s =>
    cases b with
    | none => exact hf
    | some t =>
      exact edgesAddLabel_forward g.edges s t l rho hf (hab s t rfl rfl)

theorem updateEdge_valid (g : POAGraph) (a b : Option Nat) (l : SeqID)
    (N : Nat) (hv : ∀ e ∈ g.edges, e.src < N ∧ e.tgt < N)
    (hab : ∀ s t, a = some s → b = some t → s < N ∧ t < N) :
    ∀ e ∈ (updateEdge g a b l).edges, e.src < N ∧ e.tgt < N := by
  cases a with
  | none => exact hv
  | some s =>
    cases b with
    | none => exact hv
    | some t =>
      exact edgesAddLabel_valid g.edges s t l N hv (hab s t rfl rfl).1
        (hab s t rfl rfl).2

/-- The `insert_hanging_seq` loop keeps every edge forward under a potential
that increases along all indices past the caller's node count. -/
theorem ihsLoop_forward (sid : SeqID) (rho : Nat → Nat) :
    ∀ (seq : List Nucleotide) (g : POAGraph) (first? last? : Option Nat)
      (g' : POAGraph) (f' l' : Option Nat),
    ihsLoop sid seq g first? last? = (g', f', l') →
    edgesValid g →
    EdgesForward g.edges rho →
    (∀ lv, last? = some lv → lv < g.nodes.length ∧
      rho lv < rho g.nodes.length) →
    (∀ k, g.nodes.length ≤ k → rho k < rho (k + 1)) →
    edgesValid g' ∧ EdgesForward g'.edges rho ∧
    g.nodes.length ≤ g'.nodes.length := by
  intro seq
  induction seq with
  | nil =>
    intro g first? last? g' f' l' hres hval hf _ _
    have hres2 : (g, first?, last?) = (g', f', l') := hres
    simp only [Prod.mk.injEq] at hres2
    rw [← hres2.1]
    exact ⟨hval, hf, le_refl _⟩
  | cons n rest ih =>
    intro g first? last? g' f' l' hres hval hf hlast hinc
    rcases last? with _ | lv
    · -- no edge; just the new node
      have hres2 : ihsLoop sid rest
          ({ g with nodes := g.nodes ++ [⟨[(sid, n)]⟩] })
          (if first?.isNone then some g.nodes.length else first?)
          (some g.nodes.length) = (g', f', l') := hres
      have hlen1 : ({ g with nodes := g.nodes ++ [⟨[(sid, n)]⟩] } :
          POAGraph).nodes.length = g.nodes.length + 1 := by simp
      rcases ih ({ g with nodes := g.nodes ++ [⟨[(sid, n)]⟩] })
          (if first?.isNone then some g.nodes.length else first?)
          (some g.nodes.length) g' f' l' hres2
          (fun e he => by
            have := hval e he
            rw [hlen1]
            omega)
          hf
          (fun lv0 hlv0 => by
            have hlveq : g.nodes.length = lv0 := Option.some_inj.mp hlv0
            rw [hlen1, ← hlveq]
            exact ⟨by omega, hinc g.nodes.length (le_refl _)⟩)
          (fun k hk => hinc k (by rw [hlen1] at hk; omega))
        with ⟨c1, c2, c3⟩
      rw [hlen1] at c3
      exact ⟨c1, c2, by omega⟩
    · -- chain edge (lv, g.nodes.length)
      have hlv := hlast lv rfl
      have hres2 : ihsLoop sid rest
          (updateEdge { g with nodes := g.nodes ++ [⟨[(sid, n)]⟩] }
            (some lv) (some g.nodes.length) sid)
          (if first?.isNone then some g.nodes.length else first?)
          (some g.nodes.length) = (g', f', l') := hres
      have hed : (updateEdge { g with nodes := g.nodes ++ [⟨[(sid, n)]⟩] }
          (some lv) (some g.nodes.length) sid).edges =
          edgesAddLabel g.edges lv g.nodes.length sid := rfl
      have hnd : (updateEdge { g with nodes := g.nodes ++ [⟨[(sid, n)]⟩] }
          (some lv) (some g.nodes.length) sid).nodes =
          g.nodes ++ [⟨[(sid, n)]⟩] := rfl
      have hlen2 : (updateEdge { g with nodes := g.nodes ++ [⟨[(sid, n)]⟩] }
          (some lv) (some g.nodes.length) sid).nodes.length =
          g.nodes.length + 1 := by
        rw [hnd]; simp
      rcases ih (updateEdge { g with nodes := g.nodes ++ [⟨[(sid, n)]⟩] }
          (some lv) (some g.nodes.length) sid)
          (if first?.isNone then some g.nodes.length else first?)
          (some g.nodes.length) g' f' l' hres2
          (fun e he => by
            rw [hed] at he
            rw [hlen2]
            exact edgesAddLabel_valid g.edges lv g.nodes.length sid
              (g.nodes.length + 1)
              (fun e0 he0 => by have := hval e0 he0; omega)
              (by omega) (by omega) e he)
          (by
            rw [hed]
            exact edgesAddLabel_forward g.edges lv g.nodes.length sid rho
              hf hlv.2)
          (fun lv0 hlv0 => by
            have hlveq : g.nodes.length = lv0 := Option.some_inj.mp hlv0
            rw [hlen2, ← hlveq]
            exact ⟨by omega, hinc g.nodes.length (le_refl _)⟩)
          (fun k hk => hinc k (by rw [hlen2] at hk; omega))
        with ⟨c1, c2, c3⟩
      rw [hlen2] at c3
      exact ⟨c1, c2, by omega⟩

theorem insertHangingSeq_forward (g : POAGraph) (seq : List Nucleotide)
    (sid : SeqID) (g' : POAGraph) (fl : Option (Nat × Nat))
    (hres : insertHangingSeq g seq sid = (g', fl))
    (hval : edgesValid g) (rho : Nat → Nat)
    (hf : EdgesForward g.edges rho)
    (hinc : ∀ k, g.nodes.length ≤ k → rho k < rho (k + 1)) :
    edgesValid g' ∧ EdgesForward g'.edges rho ∧
    g.nodes.length ≤ g'.nodes.length := by
  rw [insertHangingSeq] at hres
  by_cases hseq : seq = []
  · rw [if_pos hseq] at hres
    have hres2 : (g, (none : Option (Nat × Nat))) = (g', fl) := hres
    simp only [Prod.mk.injEq] at hres2
    rw [← hres2.1]
    exact ⟨hval, hf, le_refl _⟩
  · rw [if_neg hseq] at hres
    rcases hE : ihsLoop sid seq g none none with ⟨g2, f?, l?⟩
    rw [hE] at hres
    have hmain := ihsLoop_forward sid rho seq g none none g2 f? l? hE hval
      hf (fun lv hlv => by cases hlv) hinc
    have hg2 : g2 = g' := by
      rcases f? with _ | fv
      · exact congrArg Prod.fst hres
      · rcases l? with _ | lv2
        · exact congrArg Prod.fst hres
        · exact congrArg Prod.fst hres
    rw [hg2] at hmain
    exact hmain

/-- The range of last-node values produced by the `insert_hanging_seq`
loop: every returned last node is a fresh one (or the incoming one). -/
theorem ihsLoop_last_range (sid : SeqID) (N : Nat) :
    ∀ (seq : List Nucleotide) (g : POAGraph) (first? last? : Option Nat)
      (g' : POAGraph) (f' l' : Option Nat),
    ihsLoop sid seq g first? last? = (g', f', l') →
    N ≤ g.nodes.length →
    (∀ lv, last? = some lv → N ≤ lv ∧ lv < g.nodes.length) →
    (∀ lv, l' = some lv → N ≤ lv ∧ lv < g'.nodes.length) := by
  intro seq
  induction seq with
  | nil =>
    intro g first? last? g' f' l' hres hN hlast
    have hres2 : (g, first?, last?) = (g', f', l') := hres
    simp only [Prod.mk.injEq] at hres2
    rw [← hres2.2.2, ← hres2.1]
    exact hlast
  | cons n rest ih =>
    intro g first? last? g' f' l' hres hN hlast
    rcases last? with _ | lv
    · have hres2 : ihsLoop sid rest
          ({ g with nodes := g.nodes ++ [⟨[(sid, n)]⟩] })
          (if first?.isNone then some g.nodes.length else first?)
          (some g.nodes.length) = (g', f', l') := hres
      have hlen1 : ({ g with nodes := g.nodes ++ [⟨[(sid, n)]⟩] } :
          POAGraph).nodes.length = g.nodes.length + 1 := by simp
      exact ih ({ g with nodes := g.nodes ++ [⟨[(sid, n)]⟩] })
        (if first?.isNone then some g.nodes.length else first?)
        (some g.nodes.length) g' f' l' hres2 (by rw [hlen1]; omega)
        (fun lv0 hlv0 => by
          have hlveq : g.nodes.length = lv0 := Option.some_inj.mp hlv0
          rw [hlen1, ← hlveq]
          omega)
    · have hres2 : ihsLoop sid rest
          (updateEdge { g with nodes := g.nodes ++ [⟨[(sid, n)]⟩] }
            (some lv) (some g.nodes.length) sid)
          (if first?.isNone then some g.nodes.length else first?)
          (some g.nodes.length) = (g', f', l') := hres
      have hnd : (updateEdge { g with nodes := g.nodes ++ [⟨[(sid, n)]⟩] }
          (some lv) (some g.nodes.length) sid).nodes =
          g.nodes ++ [⟨[(sid, n)]⟩] := rfl
      have hlen2 : (updateEdge { g with nodes := g.nodes ++ [⟨[(sid, n)]⟩] }
          (some lv) (some g.nodes.length) sid).nodes.length =
          g.nodes.length + 1 := by
        rw [hnd]; simp
      exact ih (updateEdge { g with nodes := g.nodes ++ [⟨[(sid, n)]⟩] }
          (some lv) (some g.nodes.length) sid)
        (if first?.isNone then some g.nodes.length else first?)
        (some g.nodes.length) g' f' l' hres2 (by rw [hlen2]; omega)
        (fun lv0 hlv0 => by
          have hlveq : g.nodes.length = lv0 := Option.some_inj.mp hlv0
          rw [hlen2, ← hlveq]
          omega)

/-- A strict upper bound for `rho` on the live nodes. -/
def rhoSup (rho : Nat → Nat) (N : Nat) : Nat :=
  ((List.range N).map rho).foldr max 0 + 1

theorem rhoSup_lt (rho : Nat → Nat) (N v : Nat) (hv : v < N) :
    rho v < rhoSup rho N := by
  have hmem : rho v ∈ (List.range N).map rho :=
    List.mem_map.mpr ⟨v, List.mem_range.mpr hv, rfl⟩
  have hle : rho v ≤ ((List.range N).map rho).foldr max 0 :=
    List.le_max_of_le hmem (le_refl _)
  rw [rhoSup]
  omega

/-- The graph nodes matched (both trace components `Some`) by the
`add_alignment` loop, in loop order. -/
def matchedG (l : List (Option Nat × Option Nat)) : List Nat :=
  l.filterMap (fun p => match p.1, p.2 with
    | some _, some gid => some gid
    | _, _ => none)

theorem matchedG_sublist : ∀ (l1 l2 : List (Option Nat)),
    List.Sublist (matchedG (l1.zip l2)) (l2.filterMap id) := by
  intro l1
  induction l1 with
  | nil => intro l2; exact List.nil_sublist _
  | cons a l1 ih =>
    intro l2
    rcases l2 with _ | ⟨b, l2'⟩
    · exact List.nil_sublist _
    · rcases b with _ | gid
      · rcases a with _ | sv
        · exact ih l2'
        · exact ih l2'
      · rcases a with _ | sv
        · exact List.Sublist.cons gid (ih l2')
        · exact List.Sublist.cons₂ gid (ih l2')

/-- The graph-node entries of a backtracking accumulator have strictly
increasing topological positions, and are live nodes with in-range
positions. -/
theorem accChain_pairwise_pos (g : POAGraph) (ranks : List Nat)
    (hv : isValidTopo g ranks = true) (acc : List (Option Nat))
    (h : accChain ranks 0 acc) :
    List.Pairwise (fun a b => posOf ranks a < posOf ranks b)
      (acc.filterMap id) ∧
    ∀ x ∈ acc.filterMap id, x < g.nodes.length ∧
      posOf ranks x < ranks.length := by
  rcases h with ⟨rows, h1, h2, h3⟩
  have hget : ∀ r ∈ rows, ranks.getD (r - 1) 0 ∈ ranks ∧
      posOf ranks (ranks.getD (r - 1) 0) = r - 1 := by
    intro r hr
    exact valid_topo_getD g ranks hv r (h3 r hr).1 (h3 r hr).2
  constructor
  · rw [h1, List.pairwise_map]
    have hpw : List.Pairwise (· < ·) rows := List.chain'_iff_pairwise.mp h2
    refine List.Pairwise.imp_of_mem ?_ hpw
    intro r1 r2 hr1 hr2 hlt
    rw [(hget r1 hr1).2, (hget r2 hr2).2]
    have hb1 := h3 r1 hr1
    have hb2 := h3 r2 hr2
    omega
  · intro x hx
    rw [h1] at hx
    rcases List.mem_map.mp hx with ⟨r, hr, hfr⟩
    have hmem := (hget r hr).1
    have hpos := (hget r hr).2
    rw [hfr] at hmem hpos
    constructor
    · have := (valid_topo_perm g ranks hv).mem_iff.mpr hmem
      exact List.mem_range.mp this
    · have hb := h3 r hr
      rw [hpos]
      omega

/-- `affine_sw` success yields the toposort order of its input graph and
the accumulator-chain property of the returned trace. -/
theorem affineSW_chain (g : POAGraph) (seq : Sequence) (s : AffineNWSettings)
    (score : Int) (aG aS : List (Option Nat))
    (h : affineSW g seq s = some (score, (aG, aS))) :
    ∃ ranks, toposort g = some ranks ∧ accChain ranks 0 aG := by
  rw [affineSW] at h
  rcases htp : toposort g with _ | ranks
  · rw [htp] at h
    cases h
  · rw [htp] at h
    have hv := toposort_valid g ranks htp
    have heq : ∀ i, 1 ≤ i → i ≤ ranks.length →
        eqAt g seq s (posOf ranks) (seq.length + 1)
          (buildMatrix g seq s ranks (posOf ranks)) (i - 1)
          (ranks.getD (i - 1) 0) := by
      intro i h1 h2
      obtain ⟨hmem, hpos⟩ := valid_topo_getD g ranks hv i h1 h2
      have hres := buildMatrix_eqAt g seq s ranks hv _ hmem
      rw [hpos] at hres
      exact hres
    have hpis : ∀ i, 1 ≤ i → i ≤ ranks.length →
        ∀ pi ∈ predIs g (posOf ranks) (ranks.getD (i - 1) 0), pi ≤ i - 1 := by
      intro i h1 h2 pi hpi
      obtain ⟨hmem, hpos⟩ := valid_topo_getD g ranks hv i h1 h2
      have hle := valid_topo_predIs g ranks hv _ hmem pi hpi
      omega
    have h2 : (match btLoop g s seq ranks (posOf ranks)
        (buildMatrix g seq s ranks (posOf ranks)) (seq.length + 1)
        ((btStart g (buildMatrix g seq s ranks (posOf ranks)) ranks
            (posOf ranks) (seq.length + 1)).2 + (seq.length + 1 - 1) + 2)
        (btStart g (buildMatrix g seq s ranks (posOf ranks)) ranks
            (posOf ranks) (seq.length + 1)).2
        (seq.length + 1 - 1) 0 0 [] [] with
      | BtRes.ok acc => some ((btStart g
          (buildMatrix g seq s ranks (posOf ranks)) ranks (posOf ranks)
          (seq.length + 1)).1, acc)
      | _ => none) = some (score, aG, aS) := h
    rcases hbt : btLoop g s seq ranks (posOf ranks)
        (buildMatrix g seq s ranks (posOf ranks)) (seq.length + 1)
        ((btStart g (buildMatrix g seq s ranks (posOf ranks)) ranks
            (posOf ranks) (seq.length + 1)).2 + (seq.length + 1 - 1) + 2)
        (btStart g (buildMatrix g seq s ranks (posOf ranks)) ranks
            (posOf ranks) (seq.length + 1)).2
        (seq.length + 1 - 1) 0 0 [] [] with acc | _ | _
    · rw [hbt] at h2
      rcases acc with ⟨aG', aS'⟩
      simp only [Option.some_inj, Prod.mk.injEq] at h2
      have hle := btStart_snd_le g (buildMatrix g seq s ranks (posOf ranks))
        ranks (seq.length + 1)
      have hchain := btLoop_acc g s seq ranks (posOf ranks)
        (buildMatrix g seq s ranks (posOf ranks)) (seq.length + 1) heq hpis
        _ _ _ 0 0 [] [] aG' aS' hle (by omega) (accChain_nil _ _) hbt
      have haG : aG' = aG := h2.2.1
      rw [haG] at hchain
      exact ⟨ranks, rfl, hchain⟩
    · rw [hbt] at h2
      cases h2
    · rw [hbt] at h2
      cases h2

/-- Pointwise extension of a potential at one fresh index. -/
def rhoExt (rho : Nat → Nat) (f c : Nat) : Nat → Nat :=
  fun v => if v = f then c else rho v

theorem rhoExt_self (rho : Nat → Nat) (f c : Nat) : rhoExt rho f c f = c :=
  if_pos rfl

theorem rhoExt_ne (rho : Nat → Nat) (f c v : Nat) (h : v ≠ f) :
    rhoExt rho f c v = rho v := if_neg h

theorem aaLoop_cons_some (sid : SeqID) (seq : Sequence) (sIdx : Nat)
    (gid? : Option Nat) (rest' : List (Option Nat × Option Nat))
    (g : POAGraph) (first? head? : Option Nat) :
    aaLoop sid seq ((some sIdx, gid?) :: rest') g first? head? =
      match seq.get? sIdx with
      | none => none
      | some nuc =>
        match gid? with
        | none =>
          aaLoop sid seq rest'
            (updateEdge { g with nodes := g.nodes ++ [⟨[(sid, nuc)]⟩] }
              head? (some g.nodes.length) sid)
            (if first?.isNone then some g.nodes.length else first?)
            (some g.nodes.length)
        | some gid =>
          match g.nodes.get? gid with
          | none => none
          | some nd =>
            aaLoop sid seq rest'
              (updateEdge { g with nodes := g.nodes.set gid (POANode.mk (nucsInsert nd.nucs sid nuc)) } head? (some gid) sid)
              (if first?.isNone then some gid else first?)
              (some gid) := rfl

/-- The `add_alignment` loop keeps every edge forward under an evolving
potential: matched nodes keep their scaled topological position, inserted
nodes get one more than the running head value, and the head value always
stays below the next matched node's value and below the trail chain. -/
theorem aaLoop_forward (sid : SeqID) (seq : Sequence) (N n S : Nat)
    (pos : Nat → Nat) :
    ∀ (rest : List (Option Nat × Option Nat)) (g : POAGraph)
      (first? head? : Option Nat) (g' : POAGraph) (f' h' : Option Nat)
      (rho : Nat → Nat) (c : Nat) (trailF? : Option Nat),
    aaLoop sid seq rest g first? head? = some (g', f', h') →
    N ≤ g.nodes.length →
    edgesValid g →
    EdgesForward g.edges rho →
    (∀ hv, head? = some hv → hv < g.nodes.length ∧ rho hv = c) →
    (∀ gid ∈ matchedG rest, gid < N ∧ pos gid < n ∧
      rho gid = (pos gid + 1) * S ∧
      c + rest.length + 1 ≤ (pos gid + 1) * S) →
    List.Pairwise (fun a b => pos a < pos b) (matchedG rest) →
    rest.length + 1 ≤ S →
    c + rest.length + 1 ≤ (n + 1) * S →
    (∀ tf, trailF? = some tf → tf < g.nodes.length ∧
      (n + 1) * S + 1 ≤ rho tf) →
    ∃ (rho2 : Nat → Nat) (c2 : Nat),
      edgesValid g' ∧ EdgesForward g'.edges rho2 ∧
      N ≤ g'.nodes.length ∧
      (∀ hv, h' = some hv → hv < g'.nodes.length ∧ rho2 hv = c2) ∧
      c2 + 1 ≤ (n + 1) * S ∧
      (∀ tf, trailF? = some tf → tf < g'.nodes.length ∧
        (n + 1) * S + 1 ≤ rho2 tf) := by
  intro rest
  induction rest with
  | nil =>
    intro g first? head? g' f' h' rho c trailF? hres hN hval hf hhead
      hm hpw hS hcb htrail
    have hres2 : some (g, first?, head?) = some (g', f', h') := hres
    simp only [Option.some_inj, Prod.mk.injEq] at hres2
    obtain ⟨h1, h2, h3⟩ := hres2
    subst h1; subst h3
    exact ⟨rho, c, hval, hf, hN, hhead, by omega, htrail⟩
  | cons pr rest' ih =>
    rcases pr with ⟨sIdx?, gid?⟩
    intro g first? head? g' f' h' rho c trailF? hres hN hval hf hhead
      hm hpw hS hcb htrail
    rcases sIdx? with _ | sIdx
    · -- deletion step: nothing changes
      have hres2 : aaLoop sid seq rest' g first? head? =
          some (g', f', h') := hres
      have hmg : matchedG ((none, gid?) :: rest') = matchedG rest' := by
        rcases gid? with _ | gv <;> rfl
      refine ih g first? head? g' f' h' rho c trailF? hres2 hN hval hf hhead
        ?_ (by rw [← hmg]; exact hpw)
        (by simp only [List.length_cons] at hS; omega)
        (by simp only [List.length_cons] at hcb; omega) htrail
      intro gid hg
      have hbase := hm gid (by rw [hmg]; exact hg)
      simp only [List.length_cons] at hbase
      exact ⟨hbase.1, hbase.2.1, hbase.2.2.1, by have := hbase.2.2.2; omega⟩
    · rw [aaLoop_cons_some] at hres
      rcases hget : seq.get? sIdx with _ | nuc
      · rw [hget] at hres
        cases hres
      · rw [hget] at hres
        rcases gid? with _ | gid
        · -- insertion step: fresh node, potential value c + 1
          have hres3 : aaLoop sid seq rest'
              (updateEdge { g with nodes := g.nodes ++ [⟨[(sid, nuc)]⟩] }
                head? (some g.nodes.length) sid)
              (if first?.isNone then some g.nodes.length else first?)
              (some g.nodes.length) = some (g', f', h') := hres
          have hlenIns : (updateEdge { g with nodes :=
              g.nodes ++ [⟨[(sid, nuc)]⟩] }
              head? (some g.nodes.length) sid).nodes.length =
              g.nodes.length + 1 := by
            rw [updateEdge_nodes]
            simp
          have hfwd : EdgesForward (updateEdge { g with nodes :=
              g.nodes ++ [⟨[(sid, nuc)]⟩] }
              head? (some g.nodes.length) sid).edges
              (rhoExt rho g.nodes.length (c + 1)) := by
            refine updateEdge_forward _ head? (some g.nodes.length) sid _
              ?_ ?_
            · intro e he
              have he2 : e ∈ g.edges := he
              have hb := hval e he2
              rw [rhoExt_ne rho _ _ e.src (by omega),
                rhoExt_ne rho _ _ e.tgt (by omega)]
              exact hf e he2
            · intro s t hs ht
              have hhs := hhead s hs
              have ht2 : g.nodes.length = t := Option.some_inj.mp ht
              rw [rhoExt_ne rho _ _ s (by omega), ← ht2, rhoExt_self, hhs.2]
              omega
          have hval2 : edgesValid (updateEdge { g with nodes :=
              g.nodes ++ [⟨[(sid, nuc)]⟩] }
              head? (some g.nodes.length) sid) := by
            intro e he
            rw [hlenIns]
            refine updateEdge_valid _ head? (some g.nodes.length) sid
              (g.nodes.length + 1) ?_ ?_ e he
            · intro e0 he0
              have he02 : e0 ∈ g.edges := he0
              have := hval e0 he02
              omega
            · intro s t hs ht
              have hhs := hhead s hs
              have ht2 : g.nodes.length = t := Option.some_inj.mp ht
              omega
          have hmg : matchedG ((some sIdx, none) :: rest') =
              matchedG rest' := rfl
          obtain ⟨rho2, c2, d1, d2, d3, d4, d5, d6⟩ :=
            ih (updateEdge { g with nodes := g.nodes ++ [⟨[(sid, nuc)]⟩] }
                head? (some g.nodes.length) sid)
              (if first?.isNone then some g.nodes.length else first?)
              (some g.nodes.length) g' f' h'
              (rhoExt rho g.nodes.length (c + 1)) (c + 1) trailF? hres3
              (by rw [hlenIns]; omega) hval2 hfwd
              (fun hv hh => by
                have hh2 : g.nodes.length = hv := Option.some_inj.mp hh
                rw [hlenIns, ← hh2, rhoExt_self]
                exact ⟨by omega, rfl⟩)
              (fun gid hg => by
                have hbase := hm gid (by rw [hmg]; exact hg)
                simp only [List.length_cons] at hbase
                refine ⟨hbase.1, hbase.2.1, ?_, ?_⟩
                · rw [rhoExt_ne rho _ _ gid (by omega)]
                  exact hbase.2.2.1
                · have := hbase.2.2.2
                  omega)
              (by rw [← hmg]; exact hpw)
              (by simp only [List.length_cons] at hS; omega)
              (by simp only [List.length_cons] at hcb; omega)
              (fun tf htf => by
                have hb := htrail tf htf
                rw [hlenIns, rhoExt_ne rho _ _ tf (by omega)]
                exact ⟨by omega, hb.2⟩)
          exact ⟨rho2, c2, d1, d2, d3, d4, d5, d6⟩
        · -- matched step: the head jumps to the matched node's value
          have hres4 : (match g.nodes.get? gid with
              | none => none
              | some nd =>
                aaLoop sid seq rest'
                  (updateEdge { g with nodes := g.nodes.set gid (POANode.mk (nucsInsert nd.nucs sid nuc)) } head? (some gid) sid)
                  (if first?.isNone then some gid else first?)
                  (some gid) :
              Option (POAGraph × Option Nat × Option Nat)) =
              some (g', f', h') := hres
          rcases hndget : g.nodes.get? gid with _ | nd
          · rw [hndget] at hres4
            cases hres4
          · rw [hndget] at hres4
            have hres3 : aaLoop sid seq rest'
                (updateEdge { g with nodes := g.nodes.set gid (POANode.mk (nucsInsert nd.nucs sid nuc)) } head? (some gid) sid)
                (if first?.isNone then some gid else first?)
                (some gid) = some (g', f', h') := hres4
            have hmg : matchedG ((some sIdx, some gid) :: rest') =
                gid :: matchedG rest' := rfl
            have hmgid := hm gid (by rw [hmg]; exact List.mem_cons_self _ _)
            simp only [List.length_cons] at hmgid
            obtain ⟨hgidN, hgidpos, hgidrho, hgidbound⟩ := hmgid
            have hlenMat : (updateEdge { g with nodes := g.nodes.set gid (POANode.mk (nucsInsert nd.nucs sid nuc)) }
                head? (some gid) sid).nodes.length = g.nodes.length := by
              rw [updateEdge_nodes]
              simp
            have hfwd : EdgesForward (updateEdge { g with nodes := g.nodes.set gid (POANode.mk (nucsInsert nd.nucs sid nuc)) }
                head? (some gid) sid).edges rho := by
              refine updateEdge_forward _ head? (some gid) sid rho ?_ ?_
              · intro e he
                have he2 : e ∈ g.edges := he
                exact hf e he2
              · intro s t hs ht
                have hhs := hhead s hs
                have ht2 : gid = t := Option.some_inj.mp ht
                rw [← ht2, hgidrho, hhs.2]
                omega
            have hval2 : edgesValid (updateEdge { g with nodes := g.nodes.set gid (POANode.mk (nucsInsert nd.nucs sid nuc)) }
                head? (some gid) sid) := by
              intro e he
              rw [hlenMat]
              refine updateEdge_valid _ head? (some gid) sid
                g.nodes.length ?_ ?_ e he
              · intro e0 he0
                have he02 : e0 ∈ g.edges := he0
                exact hval e0 he02
              · intro s t hs ht
                have hhs := hhead s hs
                have ht2 : gid = t := Option.some_inj.mp ht
                omega
            have hpw2 := hpw
            rw [hmg] at hpw2
            have hpwparts := List.pairwise_cons.mp hpw2
            obtain ⟨rho2, c2, d1, d2, d3, d4, d5, d6⟩ :=
              ih (updateEdge { g with nodes := g.nodes.set gid (POANode.mk (nucsInsert nd.nucs sid nuc)) }
                  head? (some gid) sid)
                (if first?.isNone then some gid else first?)
                (some gid) g' f' h' rho ((pos gid + 1) * S) trailF? hres3
                (by rw [hlenMat]; omega) hval2 hfwd
                (fun hv hh => by
                  have hh2 : gid = hv := Option.some_inj.mp hh
                  rw [hlenMat, ← hh2]
                  exact ⟨by omega, hgidrho⟩)
                (fun gid2 hg2 => by
                  have hbase := hm gid2
                    (by rw [hmg]; exact List.mem_cons_of_mem _ hg2)
                  simp only [List.length_cons] at hbase
                  refine ⟨hbase.1, hbase.2.1, hbase.2.2.1, ?_⟩
                  have hposlt : pos gid < pos gid2 := hpwparts.1 gid2 hg2
                  have hmul1 : ((pos gid + 1) + 1) * S ≤ (pos gid2 + 1) * S :=
                    Nat.mul_le_mul_right S (by omega)
                  have hexp1 : ((pos gid + 1) + 1) * S =
                      (pos gid + 1) * S + S := by ring
                  simp only [List.length_cons] at hS
                  omega)
                hpwparts.2
                (by simp only [List.length_cons] at hS; omega)
                (by
                  have hmul2 : (pos gid + 1) * S ≤ n * S :=
                    Nat.mul_le_mul_right S (by omega)
                  have hexp2 : (n + 1) * S = n * S + S := by ring
                  simp only [List.length_cons] at hS
                  omega)
                (fun tf htf => by
                  have hb := htrail tf htf
                  rw [hlenMat]
                  exact ⟨hb.1, hb.2⟩)
            exact ⟨rho2, c2, d1, d2, d3, d4, d5, d6⟩

theorem ihsLoop_first_range (sid : SeqID) (N : Nat) :
    ∀ (seq : List Nucleotide) (g : POAGraph) (first? last? : Option Nat)
      (g' : POAGraph) (f' l' : Option Nat),
    ihsLoop sid seq g first? last? = (g', f', l') →
    N ≤ g.nodes.length →
    (∀ fv, first? = some fv → N ≤ fv ∧ fv < g.nodes.length) →
    (∀ fv, f' = some fv → N ≤ fv ∧ fv < g'.nodes.length) := by
  intro seq
  induction seq with
  | nil =>
    intro g first? last? g' f' l' hres hN hfirst
    have hres2 : (g, first?, last?) = (g', f', l') := hres
    simp only [Prod.mk.injEq] at hres2
    rw [← hres2.2.1, ← hres2.1]
    exact hfirst
  | cons n rest ih =>
    intro g first? last? g' f' l' hres hN hfirst
    have hfa : ∀ (glen : Nat), g.nodes.length ≤ glen →
        ∀ fv, (if first?.isNone then some g.nodes.length else first?) =
          some fv → N ≤ fv ∧ fv < glen + 1 := by
      intro glen hglen fv hfv
      rcases first? with _ | f0
      · simp only [Option.isNone_none, if_pos] at hfv
        have : g.nodes.length = fv := Option.some_inj.mp hfv
        omega
      · simp only [Option.isNone_some, Bool.false_eq_true, if_false] at hfv
        have := hfirst fv hfv
        omega
    rcases last? with _ | lv
    · have hres2 : ihsLoop sid rest
          ({ g with nodes := g.nodes ++ [⟨[(sid, n)]⟩] })
          (if first?.isNone then some g.nodes.length else first?)
          (some g.nodes.length) = (g', f', l') := hres
      have hlen1 : ({ g with nodes := g.nodes ++ [⟨[(sid, n)]⟩] } :
          POAGraph).nodes.length = g.nodes.length + 1 := by simp
      exact ih ({ g with nodes := g.nodes ++ [⟨[(sid, n)]⟩] })
        (if first?.isNone then some g.nodes.length else first?)
        (some g.nodes.length) g' f' l' hres2 (by rw [hlen1]; omega)
        (fun fv hfv => by
          rw [hlen1]
          exact hfa g.nodes.length (le_refl _) fv hfv)
    · have hres2 : ihsLoop sid rest
          (updateEdge { g with nodes := g.nodes ++ [⟨[(sid, n)]⟩] }
            (some lv) (some g.nodes.length) sid)
          (if first?.isNone then some g.nodes.length else first?)
          (some g.nodes.length) = (g', f', l') := hres
      have hnd : (updateEdge { g with nodes := g.nodes ++ [⟨[(sid, n)]⟩] }
          (some lv) (some g.nodes.length) sid).nodes =
          g.nodes ++ [⟨[(sid, n)]⟩] := rfl
      have hlen2 : (updateEdge { g with nodes := g.nodes ++ [⟨[(sid, n)]⟩] }
          (some lv) (some g.nodes.length) sid).nodes.length =
          g.nodes.length + 1 := by
        rw [hnd]; simp
      exact ih (updateEdge { g with nodes := g.nodes ++ [⟨[(sid, n)]⟩] }
          (some lv) (some g.nodes.length) sid)
        (if first?.isNone then some g.nodes.length else first?)
        (some g.nodes.length) g' f' l' hres2 (by rw [hlen2]; omega)
        (fun fv hfv => by
          rw [hlen2]
          exact hfa g.nodes.length (le_refl _) fv hfv)

theorem insertHangingSeq_fl_range (g : POAGraph) (seq : List Nucleotide)
    (sid : SeqID) (g' : POAGraph) (fl : Option (Nat × Nat))
    (hres : insertHangingSeq g seq sid = (g', fl)) :
    ∀ f l, fl = some (f, l) →
      (g.nodes.length ≤ f ∧ f < g'.nodes.length) ∧
      (g.nodes.length ≤ l ∧ l < g'.nodes.length) := by
  rw [insertHangingSeq] at hres
  by_cases hseq : seq = []
  · rw [if_pos hseq] at hres
    have hres2 : (g, (none : Option (Nat × Nat))) = (g', fl) := hres
    simp only [Prod.mk.injEq] at hres2
    intro f l hfl
    rw [← hres2.2] at hfl
    cases hfl
  · rw [if_neg hseq] at hres
    rcases hE : ihsLoop sid seq g none none with ⟨g2, f?, l?⟩
    rw [hE] at hres
    intro f l hfl
    rcases f? with _ | fv
    · have hres2 : (g2, (none : Option (Nat × Nat))) = (g', fl) := hres
      simp only [Prod.mk.injEq] at hres2
      rw [← hres2.2] at hfl
      cases hfl
    · rcases l? with _ | lv
      · have hres2 : (g2, (none : Option (Nat × Nat))) = (g', fl) := hres
        simp only [Prod.mk.injEq] at hres2
        rw [← hres2.2] at hfl
        cases hfl
      · have hres2 : (g2, some (fv, lv)) = (g', fl) := hres
        simp only [Prod.mk.injEq] at hres2
        rw [← hres2.2] at hfl
        have hfl2 : fv = f ∧ lv = l := by
          have := Option.some_inj.mp hfl
          exact ⟨congrArg Prod.fst this, congrArg Prod.snd this⟩
        have hg2 : g2 = g' := hres2.1
        have hF := ihsLoop_first_range sid g.nodes.length seq g none none
          g2 (some fv) (some lv) hE (le_refl _)
          (fun fv2 hfv2 => by cases hfv2) f (by rw [hfl2.1])
        have hL := ihsLoop_last_range sid g.nodes.length seq g none none
          g2 (some fv) (some lv) hE (le_refl _)
          (fun lv2 hlv2 => by cases hlv2) l (by rw [hfl2.2])
        rw [hg2] at hF hL
        exact ⟨hF, hL⟩

theorem aaLead_forward (g : POAGraph) (seq : Sequence) (sid : SeqID)
    (startIdx : Nat) (g1 : POAGraph) (first0 head0 : Option Nat)
    (hres : aaLead g seq sid startIdx = some (g1, first0, head0))
    (hval : edgesValid g) (rho : Nat → Nat)
    (hf : EdgesForward g.edges rho)
    (hinc : ∀ k, g.nodes.length ≤ k → rho k < rho (k + 1)) :
    edgesValid g1 ∧ EdgesForward g1.edges rho ∧
    g.nodes.length ≤ g1.nodes.length ∧
    g1.nodes.length ≤ g.nodes.length + seq.length ∧
    (∀ hv, head0 = some hv → g.nodes.length ≤ hv ∧
      hv < g1.nodes.length) := by
  rw [aaLead] at hres
  by_cases h1 : startIdx > 0
  · rw [if_pos h1] at hres
    by_cases h2 : startIdx ≤ seq.length
    · rw [if_pos h2] at hres
      rcases hins : insertHangingSeq g (seq.take startIdx) sid with ⟨gI, fl⟩
      rcases insertHangingSeq_forward g (seq.take startIdx) sid gI fl hins
        hval rho hf hinc with ⟨c1, c2, c3⟩
      have hlenI : gI.nodes.length =
          g.nodes.length + (seq.take startIdx).length := by
        have := insertHangingSeq_nodes_length g (seq.take startIdx) sid
        rw [hins] at this
        exact this
      have htk : (seq.take startIdx).length ≤ seq.length := by
        rw [List.length_take]
        omega
      rcases fl with _ | ⟨f, l⟩
      · have hres2 : some ((insertHangingSeq g (seq.take startIdx) sid).1,
            (none : Option Nat), (none : Option Nat)) =
            some (g1, first0, head0) := by
          rw [hins] at hres ⊢
          exact hres
        simp only [Option.some_inj, Prod.mk.injEq] at hres2
        obtain ⟨e1, _, e3⟩ := hres2
        rw [hins] at e1
        have hg1 : gI = g1 := e1
        rw [← hg1]
        refine ⟨c1, c2, c3, by omega, fun hv hh => ?_⟩
        rw [← e3] at hh
        cases hh
      · have hres2 : some ((insertHangingSeq g (seq.take startIdx) sid).1,
            some (f, l).1, some (f, l).2) = some (g1, first0, head0) := by
          rw [hins] at hres ⊢
          exact hres
        simp only [Option.some_inj, Prod.mk.injEq] at hres2
        obtain ⟨e1, _, e3⟩ := hres2
        rw [hins] at e1
        have hg1 : gI = g1 := e1
        rw [← hg1]
        refine ⟨c1, c2, c3, by omega, fun hv hh => ?_⟩
        rw [← e3] at hh
        have hlv : l = hv := Option.some_inj.mp hh
        have hrange := (insertHangingSeq_fl_range g (seq.take startIdx) sid
          gI (some (f, l)) hins f l rfl).2
        rw [← hlv]
        omega
    · rw [if_neg h2] at hres
      cases hres
  · rw [if_neg h1] at hres
    have hres2 : some (g, (none : Option Nat), (none : Option Nat)) =
        some (g1, first0, head0) := hres
    simp only [Option.some_inj, Prod.mk.injEq] at hres2
    obtain ⟨e1, _, e3⟩ := hres2
    rw [← e1]
    refine ⟨hval, hf, le_refl _, by omega, fun hv hh => ?_⟩
    rw [← e3] at hh
    cases hh

theorem aaTrail_forward (g : POAGraph) (seq : Sequence) (sid : SeqID)
    (endIdx : Nat) (hval : edgesValid g) (rho : Nat → Nat)
    (hf : EdgesForward g.edges rho)
    (hinc : ∀ k, g.nodes.length ≤ k → rho k < rho (k + 1)) :
    edgesValid (aaTrail g seq sid endIdx).1 ∧
    EdgesForward (aaTrail g seq sid endIdx).1.edges rho ∧
    g.nodes.length ≤ (aaTrail g seq sid endIdx).1.nodes.length ∧
    (∀ tv, (aaTrail g seq sid endIdx).2 = some tv →
      g.nodes.length ≤ tv ∧
      tv < (aaTrail g seq sid endIdx).1.nodes.length) := by
  rw [aaTrail]
  by_cases h1 : endIdx < seq.length
  · rw [if_pos h1]
    rcases hins : insertHangingSeq g (seq.drop (endIdx + 1)) sid
      with ⟨gI, fl⟩
    rcases insertHangingSeq_forward g (seq.drop (endIdx + 1)) sid gI fl hins
      hval rho hf hinc with ⟨c1, c2, c3⟩
    refine ⟨c1, c2, c3, fun tv htv => ?_⟩
    rcases fl with _ | ⟨f, l⟩
    · cases htv
    · have hftv : f = tv := Option.some_inj.mp htv
      have hrange := (insertHangingSeq_fl_range g (seq.drop (endIdx + 1))
        sid gI (some (f, l)) hins f l rfl).1
      rw [← hftv]
      exact hrange
  · rw [if_neg h1]
    exact ⟨hval, hf, le_refl _, fun tv htv => by cases htv⟩

/-- The potential used to certify acyclicity of a grafted graph: live
nodes keep their scaled topological position, the leading chain lives just
above zero, and the trailing chain (and any later index) lives above
everything. -/
def rhoGraft (pos : Nat → Nat) (S N N1 n : Nat) : Nat → Nat :=
  fun v =>
    if v < N then (pos v + 1) * S
    else if v < N1 then v - N + 1
    else (n + 1) * S + 1 + (v - N1)

theorem rhoGraft_old (pos : Nat → Nat) (S N N1 n v : Nat) (h : v < N) :
    rhoGraft pos S N N1 n v = (pos v + 1) * S := by
  simp only [rhoGraft]
  rw [if_pos h]

theorem rhoGraft_lead (pos : Nat → Nat) (S N N1 n v : Nat) (h1 : N ≤ v)
    (h2 : v < N1) : rhoGraft pos S N N1 n v = v - N + 1 := by
  simp only [rhoGraft]
  rw [if_neg (by omega), if_pos h2]

theorem rhoGraft_trail (pos : Nat → Nat) (S N N1 n v : Nat) (h1 : N ≤ v)
    (h2 : N1 ≤ v) : rhoGraft pos S N N1 n v =
      (n + 1) * S + 1 + (v - N1) := by
  simp only [rhoGraft]
  rw [if_neg (by omega), if_neg (by omega)]

theorem rhoGraft_inc (pos : Nat → Nat) (S N N1 n : Nat) (hN : N ≤ N1)
    (hlead : N1 - N < S) (hS1 : 1 ≤ S) :
    ∀ k, N ≤ k → rhoGraft pos S N N1 n k < rhoGraft pos S N N1 n (k + 1) := by
  have hSle : S ≤ (n + 1) * S := by
    have h := Nat.mul_le_mul_right S (show 1 ≤ n + 1 by omega)
    simpa using h
  intro k hk
  by_cases hk1 : k < N1
  · rw [rhoGraft_lead pos S N N1 n k hk hk1]
    by_cases hk2 : k + 1 < N1
    · rw [rhoGraft_lead pos S N N1 n (k + 1) (by omega) hk2]
      omega
    · rw [rhoGraft_trail pos S N N1 n (k + 1) (by omega) (by omega)]
      omega
  · rw [rhoGraft_trail pos S N N1 n k hk (by omega),
      rhoGraft_trail pos S N N1 n (k + 1) (by omega) (by omega)]
    omega

theorem aaLead_len (g : POAGraph) (seq : Sequence) (sid : SeqID)
    (startIdx : Nat) (g1 : POAGraph) (first0 head0 : Option Nat)
    (hres : aaLead g seq sid startIdx = some (g1, first0, head0)) :
    g.nodes.length ≤ g1.nodes.length ∧
    g1.nodes.length ≤ g.nodes.length + seq.length := by
  rw [aaLead] at hres
  by_cases h1 : startIdx > 0
  · rw [if_pos h1] at hres
    by_cases h2 : startIdx ≤ seq.length
    · rw [if_pos h2] at hres
      rcases hins : insertHangingSeq g (seq.take startIdx) sid with ⟨gI, fl⟩
      have hlenI : gI.nodes.length =
          g.nodes.length + (seq.take startIdx).length := by
        have := insertHangingSeq_nodes_length g (seq.take startIdx) sid
        rw [hins] at this
        exact this
      have htk : (seq.take startIdx).length ≤ seq.length := by
        rw [List.length_take]
        omega
      rcases fl with _ | ⟨f, l⟩
      · have hres2 : some ((insertHangingSeq g (seq.take startIdx) sid).1,
            (none : Option Nat), (none : Option Nat)) =
            some (g1, first0, head0) := by
          rw [hins] at hres ⊢
          exact hres
        simp only [Option.some_inj, Prod.mk.injEq] at hres2
        rw [hins] at hres2
        have hg1 : gI = g1 := hres2.1
        rw [← hg1]
        omega
      · have hres2 : some ((insertHangingSeq g (seq.take startIdx) sid).1,
            some (f, l).1, some (f, l).2) = some (g1, first0, head0) := by
          rw [hins] at hres ⊢
          exact hres
        simp only [Option.some_inj, Prod.mk.injEq] at hres2
        rw [hins] at hres2
        have hg1 : gI = g1 := hres2.1
        rw [← hg1]
        omega
    · rw [if_neg h2] at hres
      cases hres
  · rw [if_neg h1] at hres
    have hres2 : some (g, (none : Option Nat), (none : Option Nat)) =
        some (g1, first0, head0) := hres
    simp only [Option.some_inj, Prod.mk.injEq] at hres2
    have hg1 : g = g1 := hres2.1
    rw [← hg1]
    omega

/-- `add_alignment` of a trace whose graph nodes come from a backtracking
accumulator preserves acyclicity: the grafted graph has valid edges and a
forward potential. -/
theorem addAlignment_forward (g : POAGraph) (al : Alignment) (seq : Sequence)
    (sid : SeqID) (g2 : POAGraph) (head? : Option Nat)
    (hres : addAlignment g al seq sid = some (g2, head?))
    (hval : edgesValid g) (ranks : List Nat)
    (hv : isValidTopo g ranks = true)
    (hchain : accChain ranks 0 al.1) :
    edgesValid g2 ∧ ∃ rho, EdgesForward g2.edges rho := by
  obtain ⟨hlen_r, _, hfwd0⟩ := isValidTopo_facts g ranks hv
  obtain ⟨hpwA, hbndA⟩ := accChain_pairwise_pos g ranks hv al.1 hchain
  have hS1 : 1 ≤ seq.length + al.2.length + 5 := by omega
  have hSle : seq.length + al.2.length + 5 ≤
      (ranks.length + 1) * (seq.length + al.2.length + 5) := by
    have h := Nat.mul_le_mul_right (seq.length + al.2.length + 5)
      (show 1 ≤ ranks.length + 1 by omega)
    simpa using h
  simp only [addAlignment] at hres
  by_cases hgids : al.1 = []
  · rw [if_pos hgids] at hres
    simp only [Option.some_inj, Prod.mk.injEq] at hres
    rw [← hres.1]
    exact ⟨hval, ⟨posOf ranks, fun e he => hfwd0 e he⟩⟩
  · rw [if_neg hgids] at hres
    rcases hv2 : al.2.filterMap id with _ | ⟨startIdx, restIdx⟩
    · rw [hv2] at hres
      cases hres
    · rw [hv2] at hres
      have hres3 : (match aaLead g seq sid startIdx with
          | none => none
          | some (g1, first0, head0) =>
            match aaLoop sid seq (al.2.zip al.1)
                (aaTrail g1 seq sid
                  ((startIdx :: restIdx).getLastD 0)).1 first0 head0 with
            | none => none
            | some (g3, first?, head?) =>
              match first? with
              | some f => some (updateEdge g3 head?
                  (aaTrail g1 seq sid
                    ((startIdx :: restIdx).getLastD 0)).2 sid, some f)
              | none => none :
          Option (POAGraph × Option Nat)) = some (g2, head?) := hres
      rcases hlead : aaLead g seq sid startIdx with _ | ⟨g1, first0, head0⟩
      · rw [hlead] at hres3
        cases hres3
      · rw [hlead] at hres3
        obtain ⟨hN1a, hN1b⟩ := aaLead_len g seq sid startIdx g1 first0
          head0 hlead
        have hincN : ∀ k, g.nodes.length ≤ k →
            rhoGraft (posOf ranks)
              (seq.length + al.2.length + 5) g.nodes.length
              g1.nodes.length ranks.length k <
            rhoGraft (posOf ranks)
              (seq.length + al.2.length + 5) g.nodes.length
              g1.nodes.length ranks.length (k + 1) :=
          rhoGraft_inc _ _ _ _ _ hN1a (by omega) (by omega)
        have hfR : EdgesForward g.edges
            (rhoGraft (posOf ranks)
              (seq.length + al.2.length + 5) g.nodes.length
              g1.nodes.length ranks.length) := by
          intro e he
          have hb := hval e he
          rw [rhoGraft_old _ _ _ _ _ e.src hb.1,
            rhoGraft_old _ _ _ _ _ e.tgt hb.2]
          exact mul_lt_mul_of_pos_right
            (by have := hfwd0 e he; omega) (by omega)
        obtain ⟨hval1, hf1, hlen1a, hlen1b, hhead0'⟩ := aaLead_forward g
          seq sid startIdx g1 first0 head0 hlead hval _ hfR hincN
        obtain ⟨hvalT, hfT, hNT, htf⟩ := aaTrail_forward g1 seq sid
          ((startIdx :: restIdx).getLastD 0) hval1 _ hf1
          (fun k hk => hincN k (by omega))
        have hres4 : (match aaLoop sid seq (al.2.zip al.1)
            (aaTrail g1 seq sid
              ((startIdx :: restIdx).getLastD 0)).1 first0 head0 with
          | none => none
          | some (g3, first?, head?) =>
            match first? with
            | some f => some (updateEdge g3 head?
                (aaTrail g1 seq sid
                  ((startIdx :: restIdx).getLastD 0)).2 sid, some f)
            | none => none :
          Option (POAGraph × Option Nat)) = some (g2, head?) := hres3
        rcases hloop : aaLoop sid seq (al.2.zip al.1)
            (aaTrail g1 seq sid ((startIdx :: restIdx).getLastD 0)).1
            first0 head0 with _ | ⟨g3, firstF, headF⟩
        · rw [hloop] at hres4
          cases hres4
        · rw [hloop] at hres4
          have hsubM := matchedG_sublist al.2 al.1
          have hpwM : List.Pairwise
              (fun a b => posOf ranks a < posOf ranks b)
              (matchedG (al.2.zip al.1)) := hpwA.sublist hsubM
          have hzip : (al.2.zip al.1).length ≤ al.2.length := by
            rw [List.length_zip]
            omega
          have hc0le : ((head0.map
              (fun h0 => h0 - g.nodes.length + 1)).getD 0) ≤
              seq.length := by
            rcases head0 with _ | h0
            · simp
            · have hb := hhead0' h0 rfl
              show h0 - g.nodes.length + 1 ≤ seq.length
              omega
          obtain ⟨rho2, c2, a1, a2, a3, a4, a5, a6⟩ :=
            aaLoop_forward sid seq g.nodes.length ranks.length
              (seq.length + al.2.length + 5) (posOf ranks)
              (al.2.zip al.1)
              (aaTrail g1 seq sid ((startIdx :: restIdx).getLastD 0)).1
              first0 head0 g3 firstF headF
              (rhoGraft (posOf ranks)
                (seq.length + al.2.length + 5) g.nodes.length
                g1.nodes.length ranks.length)
              ((head0.map (fun h0 => h0 - g.nodes.length + 1)).getD 0)
              (aaTrail g1 seq sid ((startIdx :: restIdx).getLastD 0)).2
              hloop (by omega) hvalT hfT
              (fun hv hh => by
                have hb := hhead0' hv hh
                rw [rhoGraft_lead _ _ _ _ _ hv hb.1 hb.2, hh]
                exact ⟨by omega, rfl⟩)
              (fun gid hg => by
                have hb := hbndA gid (hsubM.subset hg)
                have hSgid : seq.length + al.2.length + 5 ≤
                    (posOf ranks gid + 1) *
                    (seq.length + al.2.length + 5) := by
                  have h := Nat.mul_le_mul_right
                    (seq.length + al.2.length + 5)
                    (show 1 ≤ posOf ranks gid + 1 by omega)
                  simpa using h
                refine ⟨hb.1, hb.2, rhoGraft_old _ _ _ _ _ gid hb.1, ?_⟩
                omega)
              hpwM (by omega) (by omega)
              (fun tf htv => by
                have hb := htf tf htv
                rw [rhoGraft_trail _ _ _ _ _ tf (by omega) hb.1]
                exact ⟨hb.2, by omega⟩)
          rcases firstF with _ | f
          · cases hres4
          · have hres6 : some ((updateEdge g3 headF
                (aaTrail g1 seq sid
                  ((startIdx :: restIdx).getLastD 0)).2 sid : POAGraph),
                some f) = some (g2, head?) := hres4
            simp only [Option.some_inj, Prod.mk.injEq] at hres6
            have hg2 : g2 = updateEdge g3 headF
                (aaTrail g1 seq sid
                  ((startIdx :: restIdx).getLastD 0)).2 sid := hres6.1.symm
            rw [hg2]
            constructor
            · intro e he
              rw [show (updateEdge g3 headF
                  (aaTrail g1 seq sid
                    ((startIdx :: restIdx).getLastD 0)).2
                  sid).nodes.length = g3.nodes.length from
                congrArg List.length (updateEdge_nodes g3 headF _ sid)]
              refine updateEdge_valid g3 headF _ sid g3.nodes.length
                (fun e0 he0 => a1 e0 he0) ?_ e he
              intro s t hs ht
              exact ⟨(a4 s hs).1, (a6 t ht).1⟩
            · refine ⟨rho2, ?_⟩
              refine updateEdge_forward g3 headF _ sid rho2 a2 ?_
              intro s t hs ht
              have h1 := (a4 s hs).2
              have h2 := (a6 t ht).2
              omega

/-- One non-seed step of `align`'s loop preserves edge validity and
acyclicity: whichever orientation wins, the grafted trace comes from a
backtracking run against the current (toposorted) graph. -/
theorem alignStep_forward (g : POAGraph) (id : SeqID) (seq : Sequence)
    (g' : POAGraph) (h? : Option Nat)
    (hres : alignStep g id seq = some (g', h?))
    (hval : edgesValid g) :
    edgesValid g' ∧ ∃ rho, EdgesForward g'.edges rho := by
  have hres2 : (match affineSW g seq alignSettings,
      affineSW g seq.reverse alignSettings with
    | some (directScore, directAlignment),
      some (reverseScore, reverseAlignment) =>
      if directScore ≥ reverseScore then
        addAlignment g directAlignment seq id
      else addAlignment g reverseAlignment seq.reverse id
    | _, _ => none : Option (POAGraph × Option Nat)) = some (g', h?) := hres
  rcases hd : affineSW g seq alignSettings with _ | ⟨ds, dal⟩
  · rw [hd] at hres2
    cases hres2
  · rcases hr : affineSW g seq.reverse alignSettings with _ | ⟨rs, ral⟩
    · rw [hd, hr] at hres2
      cases hres2
    · rw [hd, hr] at hres2
      by_cases hsc : ds ≥ rs
      · have hres3 : addAlignment g dal seq id = some (g', h?) := by
          have hres4 : (if ds ≥ rs then addAlignment g dal seq id
              else addAlignment g ral seq.reverse id) = some (g', h?) := hres2
          rw [if_pos hsc] at hres4
          exact hres4
        rcases dal with ⟨dG, dS⟩
        obtain ⟨ranks, htp, hchain⟩ := affineSW_chain g seq alignSettings
          ds dG dS hd
        exact addAlignment_forward g (dG, dS) seq id g' h? hres3 hval ranks
          (toposort_valid g ranks htp) hchain
      · have hres3 : addAlignment g ral seq.reverse id = some (g', h?) := by
          have hres4 : (if ds ≥ rs then addAlignment g dal seq id
              else addAlignment g ral seq.reverse id) = some (g', h?) := hres2
          rw [if_neg hsc] at hres4
          exact hres4
        rcases ral with ⟨rG, rS⟩
        obtain ⟨ranks, htp, hchain⟩ := affineSW_chain g seq.reverse
          alignSettings rs rG rS hr
        exact addAlignment_forward g (rG, rS) seq.reverse id g' h? hres3 hval
          ranks (toposort_valid g ranks htp) hchain

theorem alignLoop_seed (id : SeqID) (seq : Sequence)
    (rest : List (Nat × SeqID × Sequence)) (g : POAGraph)
    (starts : List (SeqID × Nat)) (gI : POAGraph) (fl : Option (Nat × Nat))
    (hins : insertHangingSeq g seq id = (gI, fl)) :
    alignLoop ((0, id, seq) :: rest) g starts =
      match fl with
      | some flv => alignLoop rest gI (starts ++ [(id, flv.1)])
      | none => alignLoop rest gI starts := by
  have h0 : alignLoop ((0, id, seq) :: rest) g starts =
      (match (insertHangingSeq g seq id).2 with
      | some flv => alignLoop rest (insertHangingSeq g seq id).1
          (starts ++ [(id, flv.1)])
      | none => alignLoop rest (insertHangingSeq g seq id).1 starts) := rfl
  have hp1 : (insertHangingSeq g seq id).1 = gI := by rw [hins]
  have hp2 : (insertHangingSeq g seq id).2 = fl := by rw [hins]
  rw [h0, hp1, hp2]
  rcases fl with _ | flv <;> rfl

theorem alignLoop_step (i : Nat) (id : SeqID) (seq : Sequence)
    (rest : List (Nat × SeqID × Sequence)) (g : POAGraph)
    (starts : List (SeqID × Nat)) (hi : ¬ i = 0) :
    alignLoop ((i, id, seq) :: rest) g starts =
      match alignStep g id seq with
      | none => none
      | some (g2, none) => alignLoop rest g2 starts
      | some (g2, some h) => alignLoop rest g2 (starts ++ [(id, h)]) := by
  have h0 : alignLoop ((i, id, seq) :: rest) g starts =
      (if i = 0 then
        match (insertHangingSeq g seq id).2 with
        | some fl => alignLoop rest (insertHangingSeq g seq id).1
            (starts ++ [(id, fl.1)])
        | none => alignLoop rest (insertHangingSeq g seq id).1 starts
      else
        match alignStep g id seq with
        | none => none
        | some (g2, none) => alignLoop rest g2 starts
        | some (g2, some h) => alignLoop rest g2 (starts ++ [(id, h)])) := rfl
  rw [h0, if_neg hi]

/-- The `align`-loop acyclicity invariant: any run of the loop from a
valid, forward-potentialed graph ends in a valid graph with a forward
potential. -/
theorem align_acyclic_invariant :
    ∀ (jobs : List (Nat × SeqID × Sequence)) (g : POAGraph)
      (starts : List (SeqID × Nat)) (g' : POAGraph)
      (starts' : List (SeqID × Nat)),
    alignLoop jobs g starts = some (g', starts') →
    edgesValid g → (∃ rho, EdgesForward g.edges rho) →
    edgesValid g' ∧ ∃ rho, EdgesForward g'.edges rho := by
  intro jobs
  induction jobs with
  | nil =>
    intro g starts g' starts' hres hval hacy
    have hres2 : some (g, starts) = some (g', starts') := hres
    simp only [Option.some_inj, Prod.mk.injEq] at hres2
    rw [← hres2.1]
    exact ⟨hval, hacy⟩
  | cons job rest ih =>
    rcases job with ⟨i, id, seq⟩
    intro g starts g' starts' hres hval hacy
    obtain ⟨rho0, hrho0⟩ := hacy
    by_cases hi : i = 0
    · subst hi
      rcases hins : insertHangingSeq g seq id with ⟨gI, fl⟩
      rw [alignLoop_seed id seq rest g starts gI fl hins] at hres
      have hext := insertHangingSeq_forward g seq id gI fl hins hval
        (fun v => if v < g.nodes.length then rho0 v
          else rhoSup rho0 g.nodes.length + (v - g.nodes.length))
        (fun e he => by
          have hb := hval e he
          show (if e.src < g.nodes.length then rho0 e.src else _) <
            (if e.tgt < g.nodes.length then rho0 e.tgt else _)
          rw [if_pos hb.1, if_pos hb.2]
          exact hrho0 e he)
        (fun k hk => by
          show (if k < g.nodes.length then rho0 k else _) <
            (if k + 1 < g.nodes.length then rho0 (k + 1) else _)
          rw [if_neg (by omega), if_neg (by omega)]
          omega)
      rcases fl with _ | flv
      · exact ih gI starts g' starts' hres hext.1 ⟨_, hext.2.1⟩
      · exact ih gI (starts ++ [(id, flv.1)]) g' starts' hres hext.1
          ⟨_, hext.2.1⟩
    · rw [alignLoop_step i id seq rest g starts hi] at hres
      rcases hstep : alignStep g id seq with _ | ⟨g2, h2?⟩
      · rw [hstep] at hres
        cases hres
      · rw [hstep] at hres
        obtain ⟨hval2, hacy2⟩ := alignStep_forward g id seq g2 h2? hstep hval
        rcases h2? with _ | hnode
        · exact ih g2 starts g' starts' hres hval2 hacy2
        · exact ih g2 (starts ++ [(id, hnode)]) g' starts' hres hval2 hacy2

/-- C5: the graph is acyclic at every point of an `align` run.  After the
loop has processed any prefix of the sorted, enumerated sequences, the
resulting graph still admits a topological order: every edge added by
`insert_hanging_seq`, `update_edge`, or `add_alignment` goes forward under
an explicit potential function, and on such a graph the embedded
`petgraph` toposort used by `affine_sw` and `poa_to_strings` provably
returns a valid order — its failure branch is unreachable. -/
theorem align_graph_acyclic (seqs : List (SeqID × Sequence))
    (pfx sfx : List (Nat × SeqID × Sequence))
    (hsplit : (sortSeqs seqs).enum = pfx ++ sfx)
    (g' : POAGraph) (starts' : List (SeqID × Nat))
    (hrun : alignLoop pfx POAGraph.emptyGraph [] = some (g', starts')) :
    ∃ ord, toposort g' = some ord ∧ isValidTopo g' ord = true := by
  obtain ⟨hval', hacy'⟩ := align_acyclic_invariant pfx POAGraph.emptyGraph []
    g' starts' hrun (fun e he => absurd he (List.not_mem_nil e))
    ⟨fun v => v, fun e he => absurd he (List.not_mem_nil e)⟩
  obtain ⟨rho, hrho⟩ := hacy'
  exact toposort_complete g' hval' rho hrho

theorem align_graph_acyclic_witness :
    ((sortSeqs [((0 : SeqID), [PoaElt.geneFamily 1])]).enum =
      [((0 : Nat), (0 : SeqID), [PoaElt.geneFamily 1])] ++ []) ∧
    (alignLoop [((0 : Nat), (0 : SeqID), [PoaElt.geneFamily 1])]
      POAGraph.emptyGraph [] =
      some (POAGraph.mk [POANode.mk [(0, PoaElt.geneFamily 1)]] [],
        [((0 : SeqID), 0)])) ∧
    (∃ ord, toposort (POAGraph.mk [POANode.mk [(0, PoaElt.geneFamily 1)]]
        []) = some ord ∧
      isValidTopo (POAGraph.mk [POANode.mk [(0, PoaElt.geneFamily 1)]] [])
        ord = true) :=
  ⟨by decide, by decide,
   align_graph_acyclic [((0 : SeqID), [PoaElt.geneFamily 1])]
     [((0 : Nat), (0 : SeqID), [PoaElt.geneFamily 1])] [] (by decide)
     (POAGraph.mk [POANode.mk [(0, PoaElt.geneFamily 1)]] [])
     [((0 : SeqID), 0)] (by decide)⟩

/-! ### C1 support: the single-sequence round trip through a chain graph -/

theorem drop_eq_getD_cons : ∀ (l : List PoaElt) (k : Nat), k < l.length →
    l.drop k = l.getD k PoaElt.Indel :: l.drop (k + 1) := by
  intro l
  induction l with
  | nil => intro k hk; exact absurd hk (by simp)
  | cons x xs ih =>
    intro k hk
    cases k with
    | zero => rfl
    | succ k' => exact ih k' (by simpa using hk)

theorem take_set_succ : ∀ (l : List PoaElt) (k : Nat) (v : PoaElt),
    k < l.length → (l.set k v).take (k + 1) = l.take k ++ [v] := by
  intro l
  induction l with
  | nil => intro k v hk; exact absurd hk (by simp)
  | cons x xs ih =>
    intro k v hk
    cases k with
    | zero => rfl
    | succ k' =>
      have := ih k' v (by simpa using hk)
      show x :: (xs.set k' v).take (k' + 1) = x :: xs.take k' ++ [v]
      rw [this]
      rfl

theorem drop_all_nil : ∀ (l : List PoaElt) (k : Nat), l.length ≤ k →
    l.drop k = [] := by
  intro l
  induction l with
  | nil => intro k _; simp
  | cons x xs ih =>
    intro k hk
    cases k with
    | zero => simp at hk
    | succ k' => exact ih k' (by simpa using hk)

theorem chainNodes_getD (seq : Sequence) (sid : SeqID) :
    ∀ k, k < seq.length → (chainNodes seq sid).getD k ⟨[]⟩ =
      ⟨[(sid, seq.getD k PoaElt.Indel)]⟩ := by
  induction seq with
  | nil => intro k hk; exact absurd hk (by simp)
  | cons x xs ih =>
    intro k hk
    cases k with
    | zero => rfl
    | succ k' => exact ih k' (by simpa using hk)

theorem nucsLookup_single (sid : SeqID) (x : Nucleotide) :
    nucsLookup [(sid, x)] sid = some x := by
  simp [nucsLookup]

theorem range_map_filter_src (sid : SeqID) (base k : Nat) :
    ∀ m, (((List.range m).map (fun j =>
        (⟨base + j, base + j + 1, [sid]⟩ : POAEdge))).filter
        (fun e => e.src = k)) =
      if base ≤ k ∧ k < base + m then
        [(⟨k, k + 1, [sid]⟩ : POAEdge)] else [] := by
  intro m
  induction m with
  | zero =>
    rw [if_neg (by omega)]
    rfl
  | succ m ih =>
    rw [List.range_succ, List.map_append, List.filter_append, ih]
    by_cases hk : base + m = k
    · rw [if_neg (by omega)]
      simp only [List.map_cons, List.map_nil]
      have hone : (([(⟨base + m, base + m + 1, [sid]⟩ : POAEdge)]).filter
          (fun e => e.src = k)) =
          [(⟨k, k + 1, [sid]⟩ : POAEdge)] := by
        rw [hk]
        simp [List.filter]
      rw [hone, if_pos (by omega)]
      rfl
    · simp only [List.map_cons, List.map_nil]
      have hnone : (([(⟨base + m, base + m + 1, [sid]⟩ : POAEdge)]).filter
          (fun e => e.src = k)) = [] := by
        simp [List.filter, hk]
      rw [hnone, List.append_nil]
      by_cases hin : base ≤ k ∧ k < base + m
      · rw [if_pos hin, if_pos (by omega)]
      · rw [if_neg hin, if_neg (by omega)]

theorem chainEdges_filter_src (sid : SeqID) (len k : Nat) :
    ((chainEdges 0 len sid).filter (fun e => e.src = k)) =
      if k < len - 1 then [(⟨k, k + 1, [sid]⟩ : POAEdge)] else [] := by
  rw [chainEdges]
  have h := range_map_filter_src sid 0 k (len - 1)
  rw [h]
  by_cases hk : k < len - 1
  · rw [if_pos (by omega), if_pos hk]
  · rw [if_neg (by omega), if_neg hk]

theorem chainEdges_mem (sid : SeqID) (len : Nat) :
    ∀ e ∈ chainEdges 0 len sid,
      ∃ j, j + 1 < len ∧ e = ⟨j, j + 1, [sid]⟩ := by
  intro e he
  rw [chainEdges] at he
  rcases List.mem_map.mp he with ⟨j, hj, hje⟩
  refine ⟨j, by have := List.mem_range.mp hj; omega, ?_⟩
  rw [← hje]
  show (⟨0 + j, 0 + j + 1, [sid]⟩ : POAEdge) = ⟨j, j + 1, [sid]⟩
  simp

/-- The graph produced by seeding one sequence into the empty graph. -/
def chainGraph (seq : Sequence) (sid : SeqID) : POAGraph :=
  ⟨chainNodes seq sid, chainEdges 0 seq.length sid⟩

/-- In any valid topological order of the chain graph, node `k` sits at
position `k`. -/
theorem chain_topo_pos (seq : Sequence) (sid : SeqID) (ord : List Nat)
    (hv : isValidTopo (chainGraph seq sid) ord = true) :
    ∀ k, k < seq.length → posOf ord k = k := by
  obtain ⟨hlen, hcont, hfwd⟩ := isValidTopo_facts _ ord hv
  have hn : (chainGraph seq sid).nodes.length = seq.length := by
    simp [chainGraph, chainNodes]
  have hmem : ∀ k, k + 1 < seq.length →
      (⟨k, k + 1, [sid]⟩ : POAEdge) ∈ chainEdges 0 seq.length sid := by
    intro k hk
    rw [chainEdges]
    refine List.mem_map.mpr ⟨k, List.mem_range.mpr (by omega), ?_⟩
    show (⟨0 + k, 0 + k + 1, [sid]⟩ : POAEdge) = ⟨k, k + 1, [sid]⟩
    simp
  have hmono : ∀ k, k + 1 < seq.length →
      posOf ord k < posOf ord (k + 1) := by
    intro k hk
    exact hfwd (⟨k, k + 1, [sid]⟩ : POAEdge) (hmem k hk)
  have hlt : ∀ k, k < seq.length → posOf ord k < seq.length := by
    intro k hk
    have hkmem : k ∈ ord := hcont k (by rw [hn]; omega)
    have hfi := List.findIdx_lt_length_of_exists
      (⟨k, hkmem, by simp⟩ : ∃ x ∈ ord, (x == k) = true)
    rw [hlen, hn] at hfi
    exact hfi
  have hstep : ∀ d k, k + d < seq.length →
      posOf ord k + d ≤ posOf ord (k + d) := by
    intro d
    induction d with
    | zero => intro k hk; exact le_rfl
    | succ d ih =>
      intro k hk
      have h1 := ih k (by omega)
      have h2 := hmono (k + d) (by omega)
      have he : k + d + 1 = k + (d + 1) := by omega
      rw [he] at h2
      omega
  intro k hk
  have hge : k ≤ posOf ord k := by
    have := hstep k 0 (by omega)
    have h0 : 0 + k = k := by omega
    rw [h0] at this
    omega
  have hle : posOf ord k ≤ k := by
    have h1 := hstep (seq.length - 1 - k) k (by omega)
    have he : k + (seq.length - 1 - k) = seq.length - 1 := by omega
    rw [he] at h1
    have h2 := hlt (seq.length - 1) (by omega)
    omega
  omega

/-- The `poa_to_strings` walk along a chain spelling `seq` rewrites the
suffix of the row with the suffix of `seq`. -/
theorem ptsWalk_chain (G : POAGraph) (seq : Sequence) (sid : SeqID)
    (rankCol : Nat → Nat)
    (hrc : ∀ k, k < seq.length → rankCol k = k)
    (hnodes : ∀ k, k < seq.length →
      G.nodes.getD k ⟨[]⟩ = ⟨[(sid, seq.getD k PoaElt.Indel)]⟩)
    (hout : ∀ k, k < seq.length → outgoingEdges G k =
      if k + 1 < seq.length then [(⟨k, k + 1, [sid]⟩ : POAEdge)] else []) :
    ∀ (m k fuel : Nat) (row : List PoaElt),
    k < seq.length → m = seq.length - 1 - k → seq.length - k < fuel →
    row.length = seq.length →
    ptsWalk G sid rankCol fuel k row =
      some (row.take k ++ seq.drop k) := by
  intro m
  induction m with
  | zero =>
    intro k fuel row hk hm hfuel hrow
    rcases fuel with _ | fuel
    · omega
    · have hlast : ¬ (k + 1 < seq.length) := by omega
      rw [ptsWalk, hnodes k hk]
      rw [nucsLookup_single, hout k hk, if_neg hlast]
      have hfind : (([] : List POAEdge).find?
          (fun e => e.labels.contains sid)) = none := rfl
      rw [hfind, hrc k hk]
      have hset : row.set k (seq.getD k PoaElt.Indel) =
          row.take k ++ seq.drop k := by
        rw [List.set_eq_take_cons_drop _ (by omega),
          drop_eq_getD_cons seq k hk,
          drop_all_nil row (k + 1) (by omega),
          drop_all_nil seq (k + 1) (by omega)]
      show some (row.set k (seq.getD k PoaElt.Indel)) =
        some (row.take k ++ seq.drop k)
      rw [hset]
  | succ m ih =>
    intro k fuel row hk hm hfuel hrow
    rcases fuel with _ | fuel
    · omega
    · have hnext : k + 1 < seq.length := by omega
      rw [ptsWalk, hnodes k hk]
      rw [nucsLookup_single, hout k hk, if_pos hnext]
      have hfind : (([(⟨k, k + 1, [sid]⟩ : POAEdge)]).find?
          (fun e => e.labels.contains sid)) =
          some ⟨k, k + 1, [sid]⟩ :=
        List.find?_cons_of_pos _ (by simp)
      rw [hfind, hrc k hk]
      have hrec := ih (k + 1) fuel
        (row.set k (seq.getD k PoaElt.Indel)) hnext (by omega) (by omega)
        (by rw [List.length_set]; exact hrow)
      show ptsWalk G sid rankCol fuel (k + 1)
          (row.set k (seq.getD k PoaElt.Indel)) =
        some (row.take k ++ seq.drop k)
      rw [hrec]
      have heq : (row.set k (seq.getD k PoaElt.Indel)).take (k + 1) ++
          seq.drop (k + 1) = row.take k ++ seq.drop k := by
        rw [take_set_succ row k _ (by omega),
          drop_eq_getD_cons seq k hk, List.append_assoc]
        rfl
      rw [heq]

theorem chainGraph_nodes_len (seq : Sequence) (sid : SeqID) :
    (chainGraph seq sid).nodes.length = seq.length := by
  simp [chainGraph, chainNodes]

theorem chainGraph_valid (seq : Sequence) (sid : SeqID) :
    edgesValid (chainGraph seq sid) := by
  intro e he
  rcases chainEdges_mem sid seq.length e he with ⟨j, hj, hje⟩
  rw [chainGraph_nodes_len, hje]
  constructor
  · show j < seq.length
    omega
  · show j + 1 < seq.length
    exact hj

theorem chainGraph_forward (seq : Sequence) (sid : SeqID) :
    EdgesForward (chainGraph seq sid).edges (fun v => v) := by
  intro e he
  rcases chainEdges_mem sid seq.length e he with ⟨j, _, hje⟩
  rw [hje]
  show j < j + 1
  omega

theorem chainGraph_toposort (seq : Sequence) (sid : SeqID) :
    ∃ ord, toposort (chainGraph seq sid) = some ord ∧
      isValidTopo (chainGraph seq sid) ord = true :=
  toposort_complete _ (chainGraph_valid seq sid) (fun v => v)
    (chainGraph_forward seq sid)

theorem chainGraph_outgoing (seq : Sequence) (sid : SeqID) (k : Nat) :
    outgoingEdges (chainGraph seq sid) k =
      if k + 1 < seq.length then [(⟨k, k + 1, [sid]⟩ : POAEdge)] else [] := by
  show ((chainEdges 0 seq.length sid).filter (fun e => e.src = k)).reverse = _
  rw [chainEdges_filter_src]
  by_cases h : k + 1 < seq.length
  · rw [if_pos (by omega), if_pos h]
    rfl
  · rw [if_neg (by omega), if_neg h]
    rfl

theorem align_single (sid : SeqID) (n : Nucleotide) (rest : List Nucleotide) :
    align [(sid, n :: rest)] =
      some (chainGraph (n :: rest) sid, [(sid, 0)]) := by
  have hins : insertHangingSeq POAGraph.emptyGraph (n :: rest) sid =
      (chainGraph (n :: rest) sid, some (0, rest.length)) := by
    rw [insertHangingSeq_cons _ _ _ _ (by intro e he; cases he)]
    simp [chainGraph, POAGraph.emptyGraph]
  show alignLoop [(0, sid, n :: rest)] POAGraph.emptyGraph [] = _
  rw [alignLoop_seed sid (n :: rest) [] POAGraph.emptyGraph []
    (chainGraph (n :: rest) sid) (some (0, rest.length)) hins]
  rfl

theorem poaToStrings_chain (seq : Sequence) (sid : SeqID) (hne : seq ≠ []) :
    poaToStrings (chainGraph seq sid) [(sid, 0)] = some [(sid, seq)] := by
  obtain ⟨ord, htopo, hvalid⟩ := chainGraph_toposort seq sid
  obtain ⟨hlen, -, -⟩ := isValidTopo_facts _ ord hvalid
  have hpos : 0 < seq.length := List.length_pos.mpr hne
  have hwalk : ptsWalk (chainGraph seq sid) sid (fun v => posOf ord v)
      ((chainGraph seq sid).nodes.length + 1) 0
      (List.replicate ord.length PoaElt.Indel) = some seq := by
    have h := ptsWalk_chain (chainGraph seq sid) seq sid
      (fun v => posOf ord v) (chain_topo_pos seq sid ord hvalid)
      (fun k hk => by
        show (chainNodes seq sid).getD k ⟨[]⟩ = _
        exact chainNodes_getD seq sid k hk)
      (fun k _ => chainGraph_outgoing seq sid k)
      (seq.length - 1) 0 ((chainGraph seq sid).nodes.length + 1)
      (List.replicate ord.length PoaElt.Indel)
      hpos rfl (by rw [chainGraph_nodes_len]; omega)
      (by rw [List.length_replicate, hlen, chainGraph_nodes_len])
    rw [h]
    rfl
  rw [poaToStrings, htopo]
  simp only [List.mapM_cons, List.mapM_nil, hwalk, Option.map_some,
    Option.bind_some]
  rfl

/-! ## C1 — round trip through `poa_to_strings` -/

/-- C1 counterexample: the input sequence `[Indel]` is aligned and projected
faithfully — the row read back is `[Indel]` — but stripping `Indel` from the
row yields `[]`, which is neither the original sequence nor its reverse.
The claimed round trip fails whenever the input alphabet contains the
`Indel` symbol itself. -/
theorem poaToStrings_roundtrip_counterexample :
    align [(0, [PoaElt.Indel])] =
      some (⟨[⟨[(0, PoaElt.Indel)]⟩], []⟩, [(0, 0)]) ∧
    poaToStrings ⟨[⟨[(0, PoaElt.Indel)]⟩], []⟩ [(0, 0)] =
      some [(0, [PoaElt.Indel])] ∧
    ([PoaElt.Indel].filter (fun x => !(x == PoaElt.Indel)) ≠ [PoaElt.Indel] ∧
     [PoaElt.Indel].filter (fun x => !(x == PoaElt.Indel)) ≠
       [PoaElt.Indel].reverse) := by
  refine ⟨by decide, by decide, by decide, by decide⟩

/-! ### C1 round trip, general case: list and nucs-map helpers -/

theorem getD_set_ne {α : Type} (d : α) :
    ∀ (l : List α) (i j : Nat) (a : α), j ≠ i →
    (l.set i a).getD j d = l.getD j d := by
  intro l
  induction l with
  | nil => intro i j a _; simp
  | cons x xs ih =>
    intro i j a hji
    cases i with
    | zero =>
      cases j with
      | zero => exact absurd rfl hji
      | succ j => rfl
    | succ i =>
      cases j with
      | zero => rfl
      | succ j => exact ih i j a (fun h => hji (by rw [h]))

theorem getD_set_self {α : Type} (d : α) :
    ∀ (l : List α) (i : Nat) (a : α), i < l.length →
    (l.set i a).getD i d = a := by
  intro l
  induction l with
  | nil => intro i a hi; exact absurd hi (by simp)
  | cons x xs ih =>
    intro i a hi
    cases i with
    | zero => rfl
    | succ i => exact ih i a (by simpa using hi)

theorem getD_append_left {α : Type} (d : α) :
    ∀ (l1 l2 : List α) (j : Nat), j < l1.length →
    (l1 ++ l2).getD j d = l1.getD j d := by
  intro l1
  induction l1 with
  | nil => intro l2 j hj; exact absurd hj (by simp)
  | cons x xs ih =>
    intro l2 j hj
    cases j with
    | zero => rfl
    | succ j => exact ih l2 j (by simpa using hj)

theorem getD_append_right {α : Type} (d : α) :
    ∀ (l1 l2 : List α) (k : Nat),
    (l1 ++ l2).getD (l1.length + k) d = l2.getD k d := by
  intro l1
  induction l1 with
  | nil => intro l2 k; simp
  | cons x xs ih =>
    intro l2 k
    have he : (x :: xs).length + k = (xs.length + k) + 1 := by
      simp [Nat.succ_add]
    rw [he]
    exact ih l2 k

theorem set_append_right {α : Type} :
    ∀ (l1 l2 : List α) (k : Nat) (a : α),
    (l1 ++ l2).set (l1.length + k) a = l1 ++ l2.set k a := by
  intro l1
  induction l1 with
  | nil => intro l2 k a; simp
  | cons x xs ih =>
    intro l2 k a
    have he : (x :: xs).length + k = (xs.length + k) + 1 := by
      simp [Nat.succ_add]
    rw [he]
    show x :: (xs ++ l2).set (xs.length + k) a = x :: (xs ++ l2.set k a)
    rw [ih l2 k a]

theorem replicate_set {α : Type} (x a : α) :
    ∀ (m k : Nat), k < m →
    (List.replicate m x).set k a =
      List.replicate k x ++ a :: List.replicate (m - k - 1) x := by
  intro m
  induction m with
  | zero => intro k hk; omega
  | succ m ih =>
    intro k hk
    cases k with
    | zero => rfl
    | succ k =>
      show x :: (List.replicate m x).set k a = _
      rw [ih k (by omega)]
      have he : m + 1 - (k + 1) - 1 = m - k - 1 := by omega
      rw [he]
      rfl

theorem filter_replicate_indel (m : Nat) :
    (List.replicate m PoaElt.Indel).filter
      (fun x => !(x == PoaElt.Indel)) = [] := by
  induction m with
  | zero => rfl
  | succ m ih =>
    show (PoaElt.Indel :: List.replicate m PoaElt.Indel).filter
      (fun x => !(x == PoaElt.Indel)) = []
    rw [List.filter_cons]
    simp only [beq_self_eq_true, Bool.not_true]
    exact ih

theorem nucsInsert_find_self (k : SeqID) (v : Nucleotide) :
    ∀ (l : List (SeqID × Nucleotide)),
    (nucsInsert l k v).find? (fun p => p.1 = k) = some (k, v) := by
  intro l
  rw [nucsInsert]
  by_cases hany : l.any (fun p => p.1 = k) = true
  · rw [if_pos hany]
    induction l with
    | nil => cases hany
    | cons a as ih =>
      by_cases ha : a.1 = k
      · show ((if a.1 = k then (k, v) else a) ::
          as.map (fun p => if p.1 = k then (k, v) else p)).find?
            (fun p => p.1 = k) = some (k, v)
        rw [if_pos ha]
        rw [List.find?_cons_of_pos _ (by simp)]
      · have hany2 : as.any (fun p => p.1 = k) = true := by
          rcases List.any_eq_true.mp hany with ⟨p, hp, hpk⟩
          rcases List.mem_cons.mp hp with rfl | hp2
          · exact absurd (of_decide_eq_true hpk) ha
          · exact List.any_eq_true.mpr ⟨p, hp2, hpk⟩
        show ((if a.1 = k then (k, v) else a) ::
          as.map (fun p => if p.1 = k then (k, v) else p)).find?
            (fun p => p.1 = k) = some (k, v)
        rw [if_neg ha]
        rw [List.find?_cons_of_neg _ (by simpa using ha)]
        exact ih hany2
  · rw [if_neg hany]
    have hnone : ∀ p ∈ l, ¬(p.1 = k) := by
      intro p hp hpk
      exact hany (List.any_eq_true.mpr ⟨p, hp, by simpa using hpk⟩)
    induction l with
    | nil => simp [List.find?]
    | cons a as ih =>
      show ((a :: as) ++ [(k, v)]).find? (fun p => p.1 = k) = some (k, v)
      rw [List.cons_append,
        List.find?_cons_of_neg _ (by simpa using hnone a (by simp))]
      exact ih
        (fun hc => by
          rcases List.any_eq_true.mp hc with ⟨p, hp, hpk⟩
          exact hany (List.any_eq_true.mpr
            ⟨p, List.mem_cons_of_mem a hp, hpk⟩))
        (fun p hp => hnone p (List.mem_cons_of_mem a hp))

theorem nucsLookup_insert_self (l : List (SeqID × Nucleotide)) (k : SeqID)
    (v : Nucleotide) : nucsLookup (nucsInsert l k v) k = some v := by
  rw [nucsLookup, nucsInsert_find_self]
  rfl

theorem nucsInsert_find_ne (k s : SeqID) (v : Nucleotide) (hs : s ≠ k) :
    ∀ (l : List (SeqID × Nucleotide)),
    (nucsInsert l k v).find? (fun p => p.1 = s) =
      l.find? (fun p => p.1 = s) := by
  intro l
  rw [nucsInsert]
  by_cases hany : l.any (fun p => p.1 = k) = true
  · rw [if_pos hany]
    clear hany
    induction l with
    | nil => rfl
    | cons a as ih =>
      show ((if a.1 = k then (k, v) else a) ::
        as.map (fun p => if p.1 = k then (k, v) else p)).find?
          (fun p => p.1 = s) = (a :: as).find? (fun p => p.1 = s)
      by_cases ha : a.1 = k
      · rw [if_pos ha]
        have hsa : ¬(a.1 = s) := by rw [ha]; exact fun h => hs h.symm
        rw [List.find?_cons_of_neg _ (by simpa using fun h => hs h.symm),
          List.find?_cons_of_neg _ (by simpa using hsa)]
        exact ih
      · rw [if_neg ha]
        by_cases has : a.1 = s
        · rw [List.find?_cons_of_pos _ (by simpa using has),
            List.find?_cons_of_pos _ (by simpa using has)]
        · rw [List.find?_cons_of_neg _ (by simpa using has),
            List.find?_cons_of_neg _ (by simpa using has)]
          exact ih
  · rw [if_neg hany]
    induction l with
    | nil =>
      show ([(k, v)] : List (SeqID × Nucleotide)).find?
        (fun p => p.1 = s) = none
      rw [List.find?_cons_of_neg _ (by simpa using fun h => hs h.symm)]
      rfl
    | cons a as ih =>
      show ((a :: as) ++ [(k, v)]).find? (fun p => p.1 = s) =
        (a :: as).find? (fun p => p.1 = s)
      by_cases has : a.1 = s
      · rw [List.cons_append,
          List.find?_cons_of_pos _ (by simpa using has),
          List.find?_cons_of_pos _ (by simpa using has)]
      · rw [List.cons_append,
          List.find?_cons_of_neg _ (by simpa using has),
          List.find?_cons_of_neg _ (by simpa using has)]
        exact ih (by
          intro hc
          rcases List.any_eq_true.mp hc with ⟨p, hp, hpk⟩
          exact hany (List.any_eq_true.mpr
            ⟨p, List.mem_cons_of_mem a hp, hpk⟩))

theorem nucsLookup_insert_ne (l : List (SeqID × Nucleotide)) (k s : SeqID)
    (v : Nucleotide) (hs : s ≠ k) :
    nucsLookup (nucsInsert l k v) s = nucsLookup l s := by
  rw [nucsLookup, nucsLookup, nucsInsert_find_ne k s v hs]

theorem countP_le_one_unique {α : Type} (p : α → Bool) :
    ∀ (l : List α), l.countP p ≤ 1 →
    ∀ a ∈ l, ∀ b ∈ l, p a = true → p b = true → a = b := by
  intro l
  induction l with
  | nil => intro _ a ha; exact absurd ha (List.not_mem_nil a)
  | cons x xs ih =>
    intro hcnt a ha b hb hpa hpb
    rw [List.countP_cons] at hcnt
    rcases List.mem_cons.mp ha with rfl | ha2
    · rcases List.mem_cons.mp hb with rfl | hb2
      · rfl
      · exfalso
        rw [if_pos hpa] at hcnt
        have hz : xs.countP p = 0 := by omega
        have := List.countP_eq_zero.mp hz b hb2
        exact this hpb
    · rcases List.mem_cons.mp hb with rfl | hb2
      · exfalso
        rw [if_pos hpb] at hcnt
        have hz : xs.countP p = 0 := by omega
        have := List.countP_eq_zero.mp hz a ha2
        exact this hpa
      · exact ih (by omega) a ha2 b hb2 hpa hpb

theorem zip_filterMap_fst_eq :
    ∀ (l1 : List (Option Nat)) (l2 : List (Option Nat)),
    l1.length = l2.length →
    (l1.zip l2).filterMap (fun p => p.1) = l1.filterMap id := by
  intro l1
  induction l1 with
  | nil => intro l2 _; rfl
  | cons a l1 ih =>
    intro l2 hlen
    rcases l2 with _ | ⟨b, l2⟩
    · simp at hlen
    · have hlen2 : l1.length = l2.length := by simpa using hlen
      rcases a with _ | av
      · show (((none, b) :: l1.zip l2).filterMap (fun p => p.1)) = _
        rw [List.filterMap_cons, List.filterMap_cons]
        exact ih l2 hlen2
      · show (((some av, b) :: l1.zip l2).filterMap (fun p => p.1)) = _
        rw [List.filterMap_cons, List.filterMap_cons]
        simp only []
        rw [ih l2 hlen2]
        rfl

theorem range'_getLastD (d : Nat) :
    ∀ (m s : Nat), 1 ≤ m → (List.range' s m).getLastD d = s + m - 1 := by
  intro m
  induction m with
  | zero => intro s h; omega
  | succ m ih =>
    intro s _
    rcases Nat.eq_zero_or_pos m with hm | hm
    · subst hm
      rfl
    · have h1 : List.range' s (m + 1) = s :: List.range' (s + 1) m :=
        List.range'_succ s m 1
      rw [h1]
      have h2 : List.range' (s + 1) m ≠ [] := by
        intro hc
        have := congrArg List.length hc
        simp at this
        omega
      rcases hr : List.range' (s + 1) m with _ | ⟨y, ys⟩
      · exact absurd hr h2
      · have h3 : (s :: y :: ys).getLastD d = (y :: ys).getLastD d := rfl
        rw [h3, ← hr, ih (s + 1) hm]
        omega

theorem range'_map_getD (seq : Sequence) :
    ∀ (m s : Nat), s + m ≤ seq.length →
    (List.range' s m).map (fun i => seq.getD i PoaElt.Empty) =
      (seq.drop s).take m := by
  intro m
  induction m with
  | zero => intro s _; rfl
  | succ m ih =>
    intro s hsm
    have h1 : List.range' s (m + 1) = s :: List.range' (s + 1) m :=
      List.range'_succ s m 1
    rw [h1, List.map_cons, ih (s + 1) (by omega)]
    rw [drop_eq_getD_cons seq s (by omega)]
    have hx : (seq.getD s PoaElt.Indel :: seq.drop (s + 1)).take (m + 1) =
        seq.getD s PoaElt.Indel :: (seq.drop (s + 1)).take m := rfl
    rw [hx]
    have hd : seq.getD s PoaElt.Empty = seq.getD s PoaElt.Indel := by
      rcases hg : seq.get? s with _ | x
      · have := List.get?_eq_none.mp hg
        omega
      · rw [List.getD_eq_get?, List.getD_eq_get?, hg]
        rfl
    rw [hd]

theorem take_drop_take (seq : Sequence) (s m : Nat) (h : s + m = seq.length) :
    seq.take s ++ (seq.drop s).take m = seq := by
  have h1 : (seq.drop s).take m = seq.drop s := by
    have h2 : (seq.drop s).length = m := by
      rw [List.length_drop]
      omega
    rw [← h2]
    exact List.take_length _
  rw [h1, List.take_append_drop]

/-! ### C1 round trip: spine predicates and graft preservation -/

/-- Node `v` contributes symbol `x` for sequence `sid`. -/
def spellsAt (g : POAGraph) (sid : SeqID) (v : Nat) (x : Nucleotide) : Prop :=
  nucsLookup (g.nodes.getD v ⟨[]⟩).nucs sid = some x

/-- An edge of `g` from `a` to `b` whose labels mention `sid`. -/
def sidStep (g : POAGraph) (sid : SeqID) (a b : Nat) : Prop :=
  ∃ e ∈ g.edges, e.src = a ∧ e.tgt = b ∧ sid ∈ e.labels

/-- A walk along `sid`-labelled edges from `v` to `u` whose visited nodes
spell `syms` for `sid`. -/
inductive SpineTo (g : POAGraph) (sid : SeqID) :
    Nat → List Nucleotide → Nat → Prop
  | single : ∀ (v : Nat) (x : Nucleotide), v < g.nodes.length →
      spellsAt g sid v x → SpineTo g sid v [x] v
  | extend : ∀ (v w u : Nat) (x : Nucleotide) (xs : List Nucleotide),
      v < g.nodes.length → spellsAt g sid v x → sidStep g sid v w →
      SpineTo g sid w xs u → SpineTo g sid v (x :: xs) u

/-- A complete `sid`-walk: it spells `syms` and ends at a node from which no
`sid`-labelled edge leaves. -/
def SpineFrom (g : POAGraph) (sid : SeqID) (v : Nat)
    (syms : List Nucleotide) : Prop :=
  ∃ u, SpineTo g sid v syms u ∧ sidOut g.edges u sid = 0

theorem SpineTo_ne_nil (g : POAGraph) (sid : SeqID) (v u : Nat)
    (syms : List Nucleotide) (h : SpineTo g sid v syms u) : syms ≠ [] := by
  cases h with
  | single v x _ _ => exact fun hc => List.cons_ne_nil x [] hc
  | extend v w u x xs _ _ _ _ => exact fun hc => List.cons_ne_nil x xs hc

theorem sidStep_sidOut_pos (g : POAGraph) (sid : SeqID) (a b : Nat)
    (h : sidStep g sid a b) : 1 ≤ sidOut g.edges a sid := by
  rcases h with ⟨e, he, hs, _, hl⟩
  rw [sidOut]
  refine List.countP_pos.mpr ⟨e, he, ?_⟩
  simp only [Bool.and_eq_true, beq_iff_eq]
  exact ⟨hs, by simpa using hl⟩

theorem sidOut_zero_no_step (g : POAGraph) (sid : SeqID) (u : Nat)
    (h : sidOut g.edges u sid = 0) : ∀ b, ¬ sidStep g sid u b := by
  intro b hstep
  have := sidStep_sidOut_pos g sid u b hstep
  omega

theorem SpineTo_snoc (g : POAGraph) (sid : SeqID) (c : Nat) (y : Nucleotide)
    (hc : c < g.nodes.length) (hy : spellsAt g sid c y) :
    ∀ (v u : Nat) (syms : List Nucleotide), SpineTo g sid v syms u →
    sidStep g sid u c → SpineTo g sid v (syms ++ [y]) c := by
  intro v u syms h
  induction h with
  | single v x hv hx =>
    intro hstep
    exact SpineTo.extend v c c x [y] hv hx hstep
      (SpineTo.single c y hc hy)
  | extend v w u x xs hv hx hs _ ih =>
    intro hstep
    exact SpineTo.extend v w c x (xs ++ [y]) hv hx hs (ih hstep)

/-- Graft preservation: a graft labelled `sidN` only appends nodes, keeps
every other sequence's nucs bindings, extends existing edges label-wise, and
all labels it introduces are `sidN`. -/
def Pres (g gN : POAGraph) (sidN : SeqID) : Prop :=
  g.nodes.length ≤ gN.nodes.length ∧
  (∀ v, v < g.nodes.length → ∀ s, s ≠ sidN →
    nucsLookup (gN.nodes.getD v ⟨[]⟩).nucs s =
    nucsLookup (g.nodes.getD v ⟨[]⟩).nucs s) ∧
  (∀ e ∈ g.edges, ∃ e2 ∈ gN.edges, e2.src = e.src ∧ e2.tgt = e.tgt ∧
    ∀ s ∈ e.labels, s ∈ e2.labels) ∧
  (∀ e2 ∈ gN.edges, ∀ s, s ∈ e2.labels → s ≠ sidN →
    ∃ e ∈ g.edges, e.src = e2.src ∧ e.tgt = e2.tgt ∧ s ∈ e.labels)

theorem Pres_refl (g : POAGraph) (sidN : SeqID) : Pres g g sidN := by
  refine ⟨le_refl _, fun v _ s _ => rfl, ?_, ?_⟩
  · exact fun e he => ⟨e, he, rfl, rfl, fun s hs => hs⟩
  · exact fun e2 he2 s hs _ => ⟨e2, he2, rfl, rfl, hs⟩

theorem Pres_trans (g1 g2 g3 : POAGraph) (sidN : SeqID)
    (h12 : Pres g1 g2 sidN) (h23 : Pres g2 g3 sidN) : Pres g1 g3 sidN := by
  obtain ⟨a1, a2, a3, a4⟩ := h12
  obtain ⟨b1, b2, b3, b4⟩ := h23
  refine ⟨le_trans a1 b1, ?_, ?_, ?_⟩
  · intro v hv s hs
    rw [b2 v (by omega) s hs, a2 v hv s hs]
  · intro e he
    rcases a3 e he with ⟨e2, he2, h1, h2, h3⟩
    rcases b3 e2 he2 with ⟨e3, he3, k1, k2, k3⟩
    exact ⟨e3, he3, k1.trans h1, k2.trans h2,
      fun s hs => k3 s (h3 s hs)⟩
  · intro e3 he3 s hs hne
    rcases b4 e3 he3 s hs hne with ⟨e2, he2, h1, h2, h3⟩
    rcases a4 e2 he2 s h3 hne with ⟨e1, he1, k1, k2, k3⟩
    exact ⟨e1, he1, k1.trans h1, k2.trans h2, k3⟩

theorem Pres_addNode (g : POAGraph) (nd : POANode) (sidN : SeqID) :
    Pres g { g with nodes := g.nodes ++ [nd] } sidN := by
  refine ⟨by simp, ?_, ?_, ?_⟩
  · intro v hv s _
    show nucsLookup ((g.nodes ++ [nd]).getD v ⟨[]⟩).nucs s = _
    rw [getD_append_left _ g.nodes [nd] v hv]
  · exact fun e he => ⟨e, he, rfl, rfl, fun s hs => hs⟩
  · exact fun e2 he2 s hs _ => ⟨e2, he2, rfl, rfl, hs⟩

theorem Pres_setInsert (g : POAGraph) (gid : Nat) (nd : POANode)
    (x : Nucleotide) (sidN : SeqID) (hget : g.nodes.get? gid = some nd) :
    Pres g (POAGraph.mk (g.nodes.set gid ⟨nucsInsert nd.nucs sidN x⟩)
      g.edges) sidN := by
  have hlt : gid < g.nodes.length := List.get?_eq_some.mp hget |>.1
  have hgd : g.nodes.getD gid ⟨[]⟩ = nd := by
    rw [List.getD_eq_get?, hget]
    rfl
  refine ⟨by simp, ?_, ?_, ?_⟩
  · intro v hv s hs
    show nucsLookup ((g.nodes.set gid ⟨nucsInsert nd.nucs sidN x⟩).getD
      v ⟨[]⟩).nucs s = _
    by_cases hvg : v = gid
    · subst hvg
      rw [getD_set_self _ g.nodes v _ hlt, hgd]
      exact nucsLookup_insert_ne nd.nucs sidN s x hs
    · rw [getD_set_ne _ g.nodes gid v _ hvg]
  · exact fun e he => ⟨e, he, rfl, rfl, fun s hs => hs⟩
  · exact fun e2 he2 s hs _ => ⟨e2, he2, rfl, rfl, hs⟩

theorem edgesAddLabel_covers (es : List POAEdge) (s t : Nat) (l : SeqID) :
    ∀ e ∈ es, ∃ e2 ∈ edgesAddLabel es s t l, e2.src = e.src ∧
      e2.tgt = e.tgt ∧ ∀ x ∈ e.labels, x ∈ e2.labels := by
  induction es with
  | nil => intro e he; exact absurd he (List.not_mem_nil e)
  | cons a as ih =>
    intro e he
    rw [edgesAddLabel]
    by_cases hm : a.src = s ∧ a.tgt = t
    · rw [if_pos hm]
      rcases List.mem_cons.mp he with rfl | he2
      · exact ⟨{ e with labels := e.labels ++ [l] },
          List.mem_cons_self _ _, rfl, rfl,
          fun x hx => List.mem_append.mpr (Or.inl hx)⟩
      · exact ⟨e, List.mem_cons_of_mem _ he2, rfl, rfl, fun x hx => hx⟩
    · rw [if_neg hm]
      rcases List.mem_cons.mp he with rfl | he2
      · exact ⟨e, List.mem_cons_self _ _, rfl, rfl, fun x hx => hx⟩
      · rcases ih e he2 with ⟨e2, he2m, h1, h2, h3⟩
        exact ⟨e2, List.mem_cons_of_mem _ he2m, h1, h2, h3⟩

theorem Pres_addLabel (g : POAGraph) (s t : Nat) (sidN : SeqID) :
    Pres g { g with edges := edgesAddLabel g.edges s t sidN } sidN := by
  refine ⟨le_refl _, fun v _ s0 _ => rfl, ?_, ?_⟩
  · exact edgesAddLabel_covers g.edges s t sidN
  · intro e2 he2 s0 hs0 hne
    rcases edgesAddLabel_shape g.edges s t sidN e2 he2 with
      ⟨e, he, h1, h2, h3⟩ | rfl
    · rcases h3 with h3 | h3
      · exact ⟨e, he, h1.symm, h2.symm, h3 ▸ hs0⟩
      · rw [h3] at hs0
        rcases List.mem_append.mp hs0 with hx | hx
        · exact ⟨e, he, h1.symm, h2.symm, hx⟩
        · exact absurd (List.mem_singleton.mp hx) hne
    · exact absurd (List.mem_singleton.mp hs0) hne

theorem Pres_updateEdge (g : POAGraph) (a b : Option Nat) (sidN : SeqID) :
    Pres g (updateEdge g a b sidN) sidN := by
  rcases a with _ | av
  · exact Pres_refl g sidN
  · rcases b with _ | bv
    · exact Pres_refl g sidN
    · exact Pres_addLabel g av bv sidN

theorem spellsAt_pres (g gN : POAGraph) (sid sidN : SeqID) (v : Nat)
    (x : Nucleotide) (hne : sid ≠ sidN) (hp : Pres g gN sidN)
    (hv : v < g.nodes.length) (h : spellsAt g sid v x) :
    spellsAt gN sid v x := by
  rw [spellsAt, hp.2.1 v hv sid hne]
  exact h

theorem sidStep_pres (g gN : POAGraph) (sid sidN : SeqID) (a b : Nat)
    (hp : Pres g gN sidN) (h : sidStep g sid a b) : sidStep gN sid a b := by
  rcases h with ⟨e, he, h1, h2, h3⟩
  rcases hp.2.2.1 e he with ⟨e2, he2, k1, k2, k3⟩
  exact ⟨e2, he2, k1.trans h1, k2.trans h2, k3 sid h3⟩

theorem SpineTo_pres (g gN : POAGraph) (sid sidN : SeqID)
    (hne : sid ≠ sidN) (hp : Pres g gN sidN) :
    ∀ (v u : Nat) (syms : List Nucleotide), SpineTo g sid v syms u →
    SpineTo gN sid v syms u := by
  intro v u syms h
  induction h with
  | single v x hv hx =>
    exact SpineTo.single v x (by have := hp.1; omega)
      (spellsAt_pres g gN sid sidN v x hne hp hv hx)
  | extend v w u x xs hv hx hs _ ih =>
    exact SpineTo.extend v w u x xs (by have := hp.1; omega)
      (spellsAt_pres g gN sid sidN v x hne hp hv hx)
      (sidStep_pres g gN sid sidN v w hp hs) ih

theorem sidOut_zero_pres (g gN : POAGraph) (sid sidN : SeqID) (u : Nat)
    (hne : sid ≠ sidN) (hp : Pres g gN sidN)
    (h : sidOut g.edges u sid = 0) : sidOut gN.edges u sid = 0 := by
  rw [sidOut, List.countP_eq_zero]
  intro e2 he2
  simp only [Bool.and_eq_true, beq_iff_eq]
  rintro ⟨hsrc, hcon⟩
  have hmem : sid ∈ e2.labels := by simpa using hcon
  rcases hp.2.2.2 e2 he2 sid hmem hne with ⟨e, he, k1, k2, k3⟩
  have : sidOut g.edges u sid ≠ 0 := by
    rw [sidOut]
    have hpos : 0 < g.edges.countP
        (fun e => e.src == u && e.labels.contains sid) := by
      refine List.countP_pos.mpr ⟨e, he, ?_⟩
      simp only [Bool.and_eq_true, beq_iff_eq]
      exact ⟨k1.trans hsrc, by simpa using k3⟩
    omega
  exact this h

theorem SpineFrom_pres (g gN : POAGraph) (sid sidN : SeqID)
    (hne : sid ≠ sidN) (hp : Pres g gN sidN) (v : Nat)
    (syms : List Nucleotide) (h : SpineFrom g sid v syms) :
    SpineFrom gN sid v syms := by
  rcases h with ⟨u, h1, h2⟩
  exact ⟨u, SpineTo_pres g gN sid sidN hne hp v u syms h1,
    sidOut_zero_pres g gN sid sidN u hne hp h2⟩

theorem SpineTo_addNode (g : POAGraph) (sid : SeqID) (nd : POANode) :
    ∀ (v u : Nat) (syms : List Nucleotide), SpineTo g sid v syms u →
    SpineTo { g with nodes := g.nodes ++ [nd] } sid v syms u := by
  intro v u syms h
  induction h with
  | single v x hv hx =>
    refine SpineTo.single v x (by simp; omega) ?_
    show nucsLookup ((g.nodes ++ [nd]).getD v ⟨[]⟩).nucs sid = some x
    rw [getD_append_left _ g.nodes [nd] v hv]
    exact hx
  | extend v w u x xs hv hx hs _ ih =>
    refine SpineTo.extend v w u x xs (by simp; omega) ?_ hs ih
    show nucsLookup ((g.nodes ++ [nd]).getD v ⟨[]⟩).nucs sid = some x
    rw [getD_append_left _ g.nodes [nd] v hv]
    exact hx

theorem SpineTo_set (g : POAGraph) (sid : SeqID) (gid : Nat) (nd : POANode)
    (hgid : sidOut g.edges gid sid = 0) :
    ∀ (v u : Nat) (syms : List Nucleotide), SpineTo g sid v syms u →
    gid ≠ u →
    SpineTo (POAGraph.mk (g.nodes.set gid nd) g.edges) sid v syms u := by
  intro v u syms h
  induction h with
  | single v x hv hx =>
    intro hne
    refine SpineTo.single v x (by simpa using hv) ?_
    show nucsLookup (((g.nodes.set gid nd)).getD v ⟨[]⟩).nucs sid = some x
    rw [getD_set_ne _ g.nodes gid v nd (fun h => hne h.symm)]
    exact hx
  | extend v w u x xs hv hx hs _ ih =>
    intro hne
    have hvg : v ≠ gid := by
      intro hc
      subst hc
      have := sidStep_sidOut_pos g sid v w hs
      omega
    refine SpineTo.extend v w u x xs (by simpa using hv) ?_ hs (ih hne)
    show nucsLookup (((g.nodes.set gid nd)).getD v ⟨[]⟩).nucs sid = some x
    rw [getD_set_ne _ g.nodes gid v nd hvg]
    exact hx

theorem sidStep_addLabel (g : POAGraph) (sid : SeqID) (s t : Nat)
    (l : SeqID) (a b : Nat) (h : sidStep g sid a b) :
    sidStep { g with edges := edgesAddLabel g.edges s t l } sid a b := by
  rcases h with ⟨e, he, h1, h2, h3⟩
  rcases edgesAddLabel_covers g.edges s t l e he with ⟨e2, he2, k1, k2, k3⟩
  exact ⟨e2, he2, k1.trans h1, k2.trans h2, k3 sid h3⟩

theorem SpineTo_addLabel (g : POAGraph) (sid : SeqID) (s t : Nat)
    (l : SeqID) :
    ∀ (v u : Nat) (syms : List Nucleotide), SpineTo g sid v syms u →
    SpineTo { g with edges := edgesAddLabel g.edges s t l } sid v syms u := by
  intro v u syms h
  induction h with
  | single v x hv hx => exact SpineTo.single v x hv hx
  | extend v w u x xs hv hx hs _ ih =>
    exact SpineTo.extend v w u x xs hv hx
      (sidStep_addLabel g sid s t l v w hs) ih

theorem edgesAddLabel_mem_new (es : List POAEdge) (s t : Nat) (l : SeqID) :
    ∃ e2 ∈ edgesAddLabel es s t l, e2.src = s ∧ e2.tgt = t ∧
      l ∈ e2.labels := by
  induction es with
  | nil =>
    exact ⟨⟨s, t, [l]⟩, List.mem_singleton.mpr rfl, rfl, rfl, by simp⟩
  | cons a as ih =>
    rw [edgesAddLabel]
    by_cases hm : a.src = s ∧ a.tgt = t
    · rw [if_pos hm]
      exact ⟨{ a with labels := a.labels ++ [l] }, List.mem_cons_self _ _,
        hm.1, hm.2, List.mem_append.mpr (Or.inr (by simp))⟩
    · rw [if_neg hm]
      rcases ih with ⟨e2, he2, h1, h2, h3⟩
      exact ⟨e2, List.mem_cons_of_mem _ he2, h1, h2, h3⟩

theorem sidStep_of_updateEdge (g : POAGraph) (a b : Nat) (sid : SeqID) :
    sidStep (updateEdge g (some a) (some b) sid) sid a b := by
  show sidStep { g with edges := edgesAddLabel g.edges a b sid } sid a b
  rcases edgesAddLabel_mem_new g.edges a b sid with ⟨e2, he2, h1, h2, h3⟩
  exact ⟨e2, he2, h1, h2, h3⟩

/-- With at most one `sid`-labelled outgoing edge and at least one step, the
walk's `find?` locates exactly that step. -/
theorem sid_find (g : POAGraph) (sid : SeqID) (v w : Nat)
    (huniq : sidOut g.edges v sid ≤ 1) (hstep : sidStep g sid v w) :
    ∃ f, (outgoingEdges g v).find? (fun e => e.labels.contains sid) =
      some f ∧ f.tgt = w := by
  rcases hstep with ⟨e, he, h1, h2, h3⟩
  have hmem : e ∈ outgoingEdges g v := mem_outgoingEdges.mpr ⟨he, h1⟩
  have hsome : ((outgoingEdges g v).find?
      (fun e => e.labels.contains sid)).isSome := by
    rw [List.find?_isSome]
    exact ⟨e, hmem, by simpa using h3⟩
  rcases hf : (outgoingEdges g v).find? (fun e => e.labels.contains sid)
    with _ | f
  · rw [hf] at hsome
    cases hsome
  · have hfm := List.mem_of_find?_eq_some hf
    have hfp := List.find?_some hf
    have hfe : f ∈ g.edges ∧ f.src = v := mem_outgoingEdges.mp hfm
    have hef : e = f := by
      rw [sidOut] at huniq
      refine countP_le_one_unique
        (fun e => e.src == v && e.labels.contains sid) g.edges huniq
        e he f hfe.1 ?_ ?_
      · simp only [Bool.and_eq_true, beq_iff_eq]
        exact ⟨h1, by simpa using h3⟩
      · simp only [Bool.and_eq_true, beq_iff_eq]
        exact ⟨hfe.2, hfp⟩
    exact ⟨f, hf, by rw [← hef]; exact h2⟩

theorem sid_find_none (g : POAGraph) (sid : SeqID) (u : Nat)
    (h : sidOut g.edges u sid = 0) :
    (outgoingEdges g u).find? (fun e => e.labels.contains sid) = none := by
  rw [List.find?_eq_none]
  intro e he hp
  have hfe := mem_outgoingEdges.mp he
  have : sidStep g sid u e.tgt :=
    ⟨e, hfe.1, hfe.2, rfl, by simpa using hp⟩
  exact absurd this (sidOut_zero_no_step g sid u h e.tgt)

/-- The spine bookkeeping of `aaLoop`: either nothing has been placed yet,
or the placed symbols form a `sid`-walk from the recorded first node to the
recorded head. -/
def SpineState (g : POAGraph) (sid : SeqID) (first? head? : Option Nat)
    (done : List Nucleotide) : Prop :=
  match first?, head? with
  | none, none => done = []
  | some f, some h => SpineTo g sid f done h
  | _, _ => False

/-- The sequence symbols consumed, in order, by the `add_alignment` loop on
a list of `(seq_step, graph_step)` pairs. -/
def symsOf (seq : Sequence) (l : List (Option Nat × Option Nat)) :
    List Nucleotide :=
  (l.filterMap (fun p => p.1)).map (fun i => seq.getD i PoaElt.Empty)

theorem symsOf_nil (seq : Sequence) : symsOf seq [] = [] := rfl

theorem symsOf_cons_none (seq : Sequence) (g? : Option Nat)
    (l : List (Option Nat × Option Nat)) :
    symsOf seq ((none, g?) :: l) = symsOf seq l := rfl

theorem symsOf_cons_some (seq : Sequence) (i : Nat) (g? : Option Nat)
    (l : List (Option Nat × Option Nat)) :
    symsOf seq ((some i, g?) :: l) =
      seq.getD i PoaElt.Empty :: symsOf seq l := rfl

/-! ### C1 round trip: the sequence side of the backtracking trace -/

theorem range'_cons_pred (j m : Nat) (hj : 1 ≤ j) :
    (j - 1) :: List.range' j m = List.range' (j - 1) (m + 1) := by
  have h := List.range'_succ (j - 1) m 1
  have he : j - 1 + 1 = j := by omega
  rw [he] at h
  exact h.symm

theorem extendLeftLoop_seq (M : Mats) (s : AffineNWSettings) (w i : Nat) :
    ∀ (fuel j : Nat) (accG accS : List (Option Nat)) (j2 : Nat)
      (aG aS : List (Option Nat)) (m : Nat),
    extendLeftLoop M s w i fuel j accG accS = .ok (j2, aG, aS) →
    accS.filterMap id = List.range' j m →
    ∃ m2, aS.filterMap id = List.range' j2 m2 ∧ j2 + m2 = j + m := by
  intro fuel
  induction fuel with
  | zero => intro j accG accS j2 aG aS m hc; cases hc
  | succ fuel ih =>
    intro j accG accS j2 aG aS m hc hacc
    rw [extendLeftLoop] at hc
    by_cases hj : j = 0
    · rw [if_pos hj] at hc
      cases hc
    · rw [if_neg hj] at hc
      have hacc1 : (some (j - 1) :: accS).filterMap id =
          List.range' (j - 1) (m + 1) := by
        rw [List.filterMap_cons]
        simp only [id]
        rw [hacc]
        exact range'_cons_pred j m (by omega)
      by_cases hcond : (M.E (i * w + (j - 1)) + s.extend_gap ==
          M.E (i * w + (j - 1) + 1)) = true
      · rw [if_pos hcond] at hc
        rcases ih (j - 1) (none :: accG) (some (j - 1) :: accS) j2 aG aS
          (m + 1) hc hacc1 with ⟨m2, hm1, hm2⟩
        exact ⟨m2, hm1, by omega⟩
      · rw [if_neg hcond] at hc
        simp only [BtRes.ok.injEq, Prod.mk.injEq] at hc
        refine ⟨m + 1, ?_, by omega⟩
        rw [← hc.2.2, ← hc.1]
        exact hacc1

theorem extendUpLoop_seqacc (g : POAGraph) (s : AffineNWSettings)
    (ranks : List Nat) (ranksInv : Nat → Nat) (M : Mats) (w j : Nat) :
    ∀ (fuel i : Nat) (accG accS : List (Option Nat)) (i2 : Nat)
      (aG aS : List (Option Nat)),
    extendUpLoop g s ranks ranksInv M w j fuel i accG accS =
      .ok (i2, aG, aS) →
    aS.filterMap id = accS.filterMap id := by
  intro fuel
  induction fuel with
  | zero => intro i accG accS i2 aG aS hc; cases hc
  | succ fuel ih =>
    intro i accG accS i2 aG aS hc
    simp only [extendUpLoop] at hc
    by_cases hi : i = 0
    · rw [if_pos hi] at hc
      cases hc
    · rw [if_neg hi] at hc
      split at hc
      · simp only [BtRes.ok.injEq, Prod.mk.injEq] at hc
        rw [← hc.2.2]
        simp
      · have := ih _ (some (ranks.getD (i - 1) 0) :: accG) (none :: accS)
          i2 aG aS hc
        rw [this]
        simp

theorem extendUpLoop_lt (g : POAGraph) (s : AffineNWSettings)
    (ranks : List Nat) (ranksInv : Nat → Nat) (M : Mats) (w j : Nat)
    (hb : ∀ i, 1 ≤ i → i ≤ ranks.length →
      ∀ p ∈ incomingEdges g (ranks.getD (i - 1) 0),
        ranksInv p.src + 1 ≤ i - 1) :
    ∀ (fuel i : Nat) (accG accS : List (Option Nat)) (i2 : Nat)
      (aG aS : List (Option Nat)),
    1 ≤ i → i ≤ ranks.length →
    extendUpLoop g s ranks ranksInv M w j fuel i accG accS =
      .ok (i2, aG, aS) →
    i2 < i := by
  intro fuel
  induction fuel with
  | zero => intro i accG accS i2 aG aS _ _ hc; cases hc
  | succ fuel ih =>
    intro i accG accS i2 aG aS hi1 hi2 hc
    simp only [extendUpLoop] at hc
    rw [if_neg (by omega)] at hc
    rcases hfound : (incomingEdges g (ranks.getD (i - 1) 0)).find? (fun p =>
        M.F (i * w + j) == M.H ((ranksInv p.src + 1) * w + j) + s.open_gap ||
        M.F (i * w + j) == M.F ((ranksInv p.src + 1) * w + j) + s.extend_gap)
      with _ | p
    · rw [hfound] at hc
      have hc2 : BtRes.ok ((0 : Nat), some (ranks.getD (i - 1) 0) :: accG,
          none :: accS) = BtRes.ok (i2, aG, aS) := hc
      simp only [BtRes.ok.injEq, Prod.mk.injEq] at hc2
      omega
    · rw [hfound] at hc
      have hple : ranksInv p.src + 1 ≤ i - 1 :=
        hb i hi1 hi2 p (List.mem_of_find?_eq_some hfound)
      split at hc
      · simp only [BtRes.ok.injEq, Prod.mk.injEq] at hc
        omega
      · have hrec := ih (ranksInv p.src + 1)
          (some (ranks.getD (i - 1) 0) :: accG) (none :: accS) i2 aG aS
          (by omega) (by omega) hc
        omega

theorem btLoop_seq (g : POAGraph) (s : AffineNWSettings) (seq : Sequence)
    (ranks : List Nat) (ranksInv : Nat → Nat) (M : Mats) (w : Nat)
    (heq : ∀ i, 1 ≤ i → i ≤ ranks.length →
      eqAt g seq s ranksInv w M (i - 1) (ranks.getD (i - 1) 0))
    (hpis : ∀ i, 1 ≤ i → i ≤ ranks.length →
      ∀ pi ∈ predIs g ranksInv (ranks.getD (i - 1) 0), pi ≤ i - 1) :
    ∀ (fuel i j prevI prevJ : Nat) (accG accS aG aS : List (Option Nat))
      (m : Nat),
    i ≤ ranks.length → j ≤ w - 1 →
    accS.filterMap id = List.range' j m →
    btLoop g s seq ranks ranksInv M w fuel i j prevI prevJ accG accS =
      .ok (aG, aS) →
    ∃ j2 m2, aS.filterMap id = List.range' j2 m2 ∧ j2 + m2 = j + m := by
  have hb : ∀ i', 1 ≤ i' → i' ≤ ranks.length →
      ∀ p ∈ incomingEdges g (ranks.getD (i' - 1) 0),
        ranksInv p.src + 1 ≤ i' - 1 :=
    fun i' h1 h2 p hp =>
      hpis i' h1 h2 _ (predIs_mem_of_incoming g ranksInv _ p hp)
  intro fuel
  induction fuel with
  | zero => intro i j prevI prevJ accG accS aG aS m _ _ _ hc; cases hc
  | succ fuel ih =>
    intro i j prevI prevJ accG accS aG aS m hi hj hacc hc
    simp only [btLoop] at hc
    by_cases h0 : i = 0 ∨ j = 0
    · rw [if_pos h0] at hc
      simp only [BtRes.ok.injEq, Prod.mk.injEq] at hc
      exact ⟨j, m, hc.2 ▸ hacc, rfl⟩
    · rw [if_neg h0] at hc
      have h0' := not_or.mp h0
      have hi1 : 1 ≤ i := Nat.one_le_iff_ne_zero.mpr h0'.1
      have hj1 : 1 ≤ j := Nat.one_le_iff_ne_zero.mpr h0'.2
      rcases hch : btChoice g s seq ranks ranksInv M w i j prevI prevJ
        with ⟨pI, pJ, extL, extU⟩
      rw [hch] at hc
      have hcases := btChoice_cases g s seq ranks ranksInv M w i j prevI
        prevJ pI pJ extL extU hi1 hj1 hj (heq i hi1 hi) (hpis i hi1 hi) hch
      have haccd : pJ = j - 1 →
          ((if j = pJ then none else some (j - 1)) :: accS).filterMap id =
          List.range' pJ (m + 1) := by
        intro hpj
        rw [if_neg (by omega)]
        rw [List.filterMap_cons]
        simp only [id]
        rw [hacc, hpj]
        exact range'_cons_pred j m (by omega)
      have haccn : pJ = j →
          ((if j = pJ then none else some (j - 1)) :: accS).filterMap id =
          List.range' pJ m := by
        intro hpj
        rw [if_pos hpj.symm]
        rw [List.filterMap_cons, hpj]
        exact hacc
      cases extL with
      | true =>
        have h3 : pI = i ∧ pJ = j - 1 := by
          rcases hcases with ⟨_, _, hx, _⟩ | ⟨_, _, hx⟩ | ⟨hp1, hp2, _, _⟩ |
            ⟨_, _, hx, _⟩
          · exact absurd hx (by simp)
          · exact absurd hx (by simp)
          · exact ⟨hp1, hp2⟩
          · exact absurd hx (by simp)
        have hc2 : (match extendLeftLoop M s w pI (pJ + 2) pJ
            ((if i = pI then none else some (ranks.getD (i - 1) 0)) :: accG)
            ((if j = pJ then none else some (j - 1)) :: accS) with
          | .gas => (.gas : BtRes (List (Option Nat) × List (Option Nat)))
          | .panic => .panic
          | .ok (j2, accG2, accS2) =>
            btLoop g s seq ranks ranksInv M w fuel pI j2 pI pJ accG2 accS2) =
            .ok (aG, aS) := hc
        rcases hres : extendLeftLoop M s w pI (pJ + 2) pJ
            ((if i = pI then none else some (ranks.getD (i - 1) 0)) :: accG)
            ((if j = pJ then none else some (j - 1)) :: accS)
          with ⟨j2, aG2, aS2⟩ | _ | _
        · rw [hres] at hc2
          have hc3 : btLoop g s seq ranks ranksInv M w fuel pI j2 pI pJ
              aG2 aS2 = .ok (aG, aS) := hc2
          have hEL := extendLeftLoop_no_gas M s w pI (pJ + 2) pJ
            ((if i = pI then none else some (ranks.getD (i - 1) 0)) :: accG)
            ((if j = pJ then none else some (j - 1)) :: accS) (by omega)
          have hj2 := hEL.2 j2 aG2 aS2 hres
          have hSfm := extendLeftLoop_seq M s w pI (pJ + 2) pJ
            ((if i = pI then none else some (ranks.getD (i - 1) 0)) :: accG)
            ((if j = pJ then none else some (j - 1)) :: accS) j2 aG2 aS2
            (m + 1) hres (haccd h3.2)
          rcases hSfm with ⟨m2, hm1, hm2⟩
          rcases ih pI j2 pI pJ aG2 aS2 aG aS m2 (by omega) (by omega)
            hm1 hc3 with ⟨j3, m3, hk1, hk2⟩
          have hpj := h3.2
          exact ⟨j3, m3, hk1, by omega⟩
        · rw [hres] at hc2
          cases hc2
        · rw [hres] at hc2
          cases hc2
      | false =>
        cases extU with
        | true =>
          have h2 : pI ≤ i - 1 ∧ pJ = j := by
            rcases hcases with ⟨_, _, _, hx⟩ | ⟨hp1, hp2, _⟩ | ⟨_, _, hx, _⟩ |
              ⟨_, _, _, hx⟩
            · exact absurd hx (by simp)
            · exact ⟨hp1, hp2⟩
            · exact absurd hx (by simp)
            · exact absurd hx (by simp)
          have hc2 : (match extendUpLoop g s ranks ranksInv M w pJ (pI + 2) pI
              ((if i = pI then none else some (ranks.getD (i - 1) 0)) :: accG)
              ((if j = pJ then none else some (j - 1)) :: accS) with
            | .gas => (.gas : BtRes (List (Option Nat) × List (Option Nat)))
            | .panic => .panic
            | .ok (i2, accG2, accS2) =>
              btLoop g s seq ranks ranksInv M w fuel i2 pJ i2 pJ accG2 accS2) =
              .ok (aG, aS) := hc
          rcases hres : extendUpLoop g s ranks ranksInv M w pJ (pI + 2) pI
              ((if i = pI then none else some (ranks.getD (i - 1) 0)) :: accG)
              ((if j = pJ then none else some (j - 1)) :: accS)
            with ⟨i2, aG2, aS2⟩ | _ | _
          · rw [hres] at hc2
            have hc3 : btLoop g s seq ranks ranksInv M w fuel i2 pJ i2 pJ
                aG2 aS2 = .ok (aG, aS) := hc2
            have hfm := extendUpLoop_seqacc g s ranks ranksInv M w pJ
              (pI + 2) pI
              ((if i = pI then none else some (ranks.getD (i - 1) 0)) :: accG)
              ((if j = pJ then none else some (j - 1)) :: accS) i2 aG2 aS2
              hres
            have hacc2 : aS2.filterMap id = List.range' pJ m := by
              rw [hfm]
              exact haccn h2.2
            have hlt : i2 < i := by
              by_cases hpi0 : pI = 0
              · exfalso
                rw [hpi0] at hres
                rw [extendUpLoop] at hres
                rw [if_pos rfl] at hres
                cases hres
              · have := extendUpLoop_lt g s ranks ranksInv M w pJ hb
                  (pI + 2) pI
                  ((if i = pI then none else
                    some (ranks.getD (i - 1) 0)) :: accG)
                  ((if j = pJ then none else some (j - 1)) :: accS)
                  i2 aG2 aS2 (by omega) (by omega) hres
                omega
            rcases ih i2 pJ i2 pJ aG2 aS2 aG aS m (by omega)
              (by omega) hacc2 hc3
              with ⟨j3, m3, hk1, hk2⟩
            have hpj := h2.2
            exact ⟨j3, m3, hk1, by omega⟩
          · rw [hres] at hc2
            cases hc2
          · rw [hres] at hc2
            cases hc2
        | false =>
          have hc3 : btLoop g s seq ranks ranksInv M w fuel pI pJ pI pJ
              ((if i = pI then none else some (ranks.getD (i - 1) 0)) :: accG)
              ((if j = pJ then none else some (j - 1)) :: accS) =
              .ok (aG, aS) := hc
          rcases hcases with ⟨hp1, hp2, _, _⟩ | ⟨hp1, hp2, _⟩ | ⟨_, _, hx, _⟩ |
            ⟨hp1, hp2, _, _⟩
          · rcases ih pI pJ pI pJ _ _ aG aS (m + 1) (by omega) (by omega)
              (haccd hp2) hc3 with ⟨j3, m3, hk1, hk2⟩
            exact ⟨j3, m3, hk1, by omega⟩
          · rcases ih pI pJ pI pJ _ _ aG aS m (by omega) (by omega)
              (haccn hp2) hc3 with ⟨j3, m3, hk1, hk2⟩
            exact ⟨j3, m3, hk1, by omega⟩
          · exact absurd hx (by simp)
          · rcases ih pI pJ pI pJ _ _ aG aS (m + 1) (by omega) (by omega)
              (haccd hp2) hc3 with ⟨j3, m3, hk1, hk2⟩
            exact ⟨j3, m3, hk1, by omega⟩

theorem extendLeftLoop_len (M : Mats) (s : AffineNWSettings) (w i : Nat) :
    ∀ (fuel j : Nat) (accG accS : List (Option Nat)) (j2 : Nat)
      (aG aS : List (Option Nat)),
    extendLeftLoop M s w i fuel j accG accS = .ok (j2, aG, aS) →
    aG.length + accS.length = aS.length + accG.length := by
  intro fuel
  induction fuel with
  | zero => intro j accG accS j2 aG aS hc; cases hc
  | succ fuel ih =>
    intro j accG accS j2 aG aS hc
    rw [extendLeftLoop] at hc
    by_cases hj : j = 0
    · rw [if_pos hj] at hc
      cases hc
    · rw [if_neg hj] at hc
      by_cases hcond : (M.E (i * w + (j - 1)) + s.extend_gap ==
          M.E (i * w + (j - 1) + 1)) = true
      · rw [if_pos hcond] at hc
        have := ih (j - 1) (none :: accG) (some (j - 1) :: accS) j2 aG aS hc
        simp only [List.length_cons] at this
        omega
      · rw [if_neg hcond] at hc
        simp only [BtRes.ok.injEq, Prod.mk.injEq] at hc
        rw [← hc.2.1, ← hc.2.2]
        simp only [List.length_cons]
        omega

theorem extendUpLoop_len (g : POAGraph) (s : AffineNWSettings)
    (ranks : List Nat) (ranksInv : Nat → Nat) (M : Mats) (w j : Nat) :
    ∀ (fuel i : Nat) (accG accS : List (Option Nat)) (i2 : Nat)
      (aG aS : List (Option Nat)),
    extendUpLoop g s ranks ranksInv M w j fuel i accG accS =
      .ok (i2, aG, aS) →
    aG.length + accS.length = aS.length + accG.length := by
  intro fuel
  induction fuel with
  | zero => intro i accG accS i2 aG aS hc; cases hc
  | succ fuel ih =>
    intro i accG accS i2 aG aS hc
    simp only [extendUpLoop] at hc
    by_cases hi : i = 0
    · rw [if_pos hi] at hc
      cases hc
    · rw [if_neg hi] at hc
      split at hc
      · simp only [BtRes.ok.injEq, Prod.mk.injEq] at hc
        rw [← hc.2.1, ← hc.2.2]
        simp only [List.length_cons]
        omega
      · have := ih _ (some (ranks.getD (i - 1) 0) :: accG) (none :: accS)
          i2 aG aS hc
        simp only [List.length_cons] at this
        omega

theorem btLoop_len (g : POAGraph) (s : AffineNWSettings) (seq : Sequence)
    (ranks : List Nat) (ranksInv : Nat → Nat) (M : Mats) (w : Nat) :
    ∀ (fuel i j prevI prevJ : Nat) (accG accS aG aS : List (Option Nat)),
    btLoop g s seq ranks ranksInv M w fuel i j prevI prevJ accG accS =
      .ok (aG, aS) →
    aG.length + accS.length = aS.length + accG.length := by
  intro fuel
  induction fuel with
  | zero => intro i j prevI prevJ accG accS aG aS hc; cases hc
  | succ fuel ih =>
    intro i j prevI prevJ accG accS aG aS hc
    simp only [btLoop] at hc
    by_cases h0 : i = 0 ∨ j = 0
    · rw [if_pos h0] at hc
      simp only [BtRes.ok.injEq, Prod.mk.injEq] at hc
      rw [← hc.1, ← hc.2]
      omega
    · rw [if_neg h0] at hc
      rcases hch : btChoice g s seq ranks ranksInv M w i j prevI prevJ
        with ⟨pI, pJ, extL, extU⟩
      rw [hch] at hc
      cases extL with
      | true =>
        rcases hres : extendLeftLoop M s w pI (pJ + 2) pJ
            ((if i = pI then none else some (ranks.getD (i - 1) 0)) :: accG)
            ((if j = pJ then none else some (j - 1)) :: accS)
          with ⟨j2, aG2, aS2⟩ | _ | _
        · rw [hres] at hc
          have h1 := extendLeftLoop_len M s w pI (pJ + 2) pJ
            ((if i = pI then none else some (ranks.getD (i - 1) 0)) :: accG)
            ((if j = pJ then none else some (j - 1)) :: accS) j2 aG2 aS2 hres
          have h2 := ih pI j2 pI pJ aG2 aS2 aG aS hc
          simp only [List.length_cons] at h1
          omega
        · rw [hres] at hc
          cases hc
        · rw [hres] at hc
          cases hc
      | false =>
        cases extU with
        | true =>
          rcases hres : extendUpLoop g s ranks ranksInv M w pJ (pI + 2) pI
              ((if i = pI then none else some (ranks.getD (i - 1) 0)) :: accG)
              ((if j = pJ then none else some (j - 1)) :: accS)
            with ⟨i2, aG2, aS2⟩ | _ | _
          · rw [hres] at hc
            have h1 := extendUpLoop_len g s ranks ranksInv M w pJ (pI + 2)
              pI
              ((if i = pI then none else some (ranks.getD (i - 1) 0)) :: accG)
              ((if j = pJ then none else some (j - 1)) :: accS) i2 aG2 aS2
              hres
            have h2 := ih i2 pJ i2 pJ aG2 aS2 aG aS hc
            simp only [List.length_cons] at h1
            omega
          · rw [hres] at hc
            cases hc
          · rw [hres] at hc
            cases hc
        | false =>
          have h2 := ih pI pJ pI pJ
            ((if i = pI then none else some (ranks.getD (i - 1) 0)) :: accG)
            ((if j = pJ then none else some (j - 1)) :: accS) aG aS hc
          simp only [List.length_cons] at h2
          omega

/-- The sequence-position entries of any `affine_sw` trace form a contiguous
ascending run ending at the last sequence position, and the two trace
vectors have equal length. -/
theorem affineSW_seqtrace (g : POAGraph) (seq : Sequence)
    (s : AffineNWSettings) (score : Int) (aG aS : List (Option Nat))
    (h : affineSW g seq s = some (score, (aG, aS))) :
    aG.length = aS.length ∧
    ∃ s0 m, aS.filterMap id = List.range' s0 m ∧ s0 + m = seq.length := by
  rw [affineSW] at h
  rcases htp : toposort g with _ | ranks
  · rw [htp] at h
    cases h
  · rw [htp] at h
    have hv := toposort_valid g ranks htp
    have heq : ∀ i, 1 ≤ i → i ≤ ranks.length →
        eqAt g seq s (posOf ranks) (seq.length + 1)
          (buildMatrix g seq s ranks (posOf ranks)) (i - 1)
          (ranks.getD (i - 1) 0) := by
      intro i h1 h2
      obtain ⟨hmem, hpos⟩ := valid_topo_getD g ranks hv i h1 h2
      have hres := buildMatrix_eqAt g seq s ranks hv _ hmem
      rw [hpos] at hres
      exact hres
    have hpis : ∀ i, 1 ≤ i → i ≤ ranks.length →
        ∀ pi ∈ predIs g (posOf ranks) (ranks.getD (i - 1) 0), pi ≤ i - 1 := by
      intro i h1 h2 pi hpi
      obtain ⟨hmem, hpos⟩ := valid_topo_getD g ranks hv i h1 h2
      have hle := valid_topo_predIs g ranks hv _ hmem pi hpi
      omega
    have h2 : (match btLoop g s seq ranks (posOf ranks)
        (buildMatrix g seq s ranks (posOf ranks)) (seq.length + 1)
        ((btStart g (buildMatrix g seq s ranks (posOf ranks)) ranks
            (posOf ranks) (seq.length + 1)).2 + (seq.length + 1 - 1) + 2)
        (btStart g (buildMatrix g seq s ranks (posOf ranks)) ranks
            (posOf ranks) (seq.length + 1)).2
        (seq.length + 1 - 1) 0 0 [] [] with
      | BtRes.ok acc => some ((btStart g
          (buildMatrix g seq s ranks (posOf ranks)) ranks (posOf ranks)
          (seq.length + 1)).1, acc)
      | _ => none) = some (score, aG, aS) := h
    rcases hbt : btLoop g s seq ranks (posOf ranks)
        (buildMatrix g seq s ranks (posOf ranks)) (seq.length + 1)
        ((btStart g (buildMatrix g seq s ranks (posOf ranks)) ranks
            (posOf ranks) (seq.length + 1)).2 + (seq.length + 1 - 1) + 2)
        (btStart g (buildMatrix g seq s ranks (posOf ranks)) ranks
            (posOf ranks) (seq.length + 1)).2
        (seq.length + 1 - 1) 0 0 [] [] with acc | _ | _
    · rw [hbt] at h2
      rcases acc with ⟨aG1, aS1⟩
      simp only [Option.some_inj, Prod.mk.injEq] at h2
      have haG : aG1 = aG := h2.2.1
      have haS : aS1 = aS := h2.2.2
      have hle := btStart_snd_le g (buildMatrix g seq s ranks (posOf ranks))
        ranks (seq.length + 1)
      have hlen := btLoop_len g s seq ranks (posOf ranks)
        (buildMatrix g seq s ranks (posOf ranks)) (seq.length + 1) _ _ _ _ _
        [] [] aG1 aS1 hbt
      have hseq := btLoop_seq g s seq ranks (posOf ranks)
        (buildMatrix g seq s ranks (posOf ranks)) (seq.length + 1) heq hpis
        _ _ (seq.length + 1 - 1) 0 0 [] [] aG1 aS1 0 (by omega) (by omega)
        rfl hbt
      rcases hseq with ⟨j2, m2, hk1, hk2⟩
      refine ⟨?_, j2, m2, ?_, ?_⟩
      · simp only [List.length_nil] at hlen
        rw [← haG, ← haS]
        omega
      · rw [← haS]
        exact hk1
      · omega
    · rw [hbt] at h2
      cases h2
    · rw [hbt] at h2
      cases h2

/-! ### C1 round trip: the chains of `insert_hanging_seq` are spines -/

theorem SpineTo_last_lt (g : POAGraph) (sid : SeqID) :
    ∀ (v u : Nat) (syms : List Nucleotide), SpineTo g sid v syms u →
    u < g.nodes.length := by
  intro v u syms h
  induction h with
  | single v x hv _ => exact hv
  | extend _ _ _ _ _ _ _ _ _ ih => exact ih

theorem SpineTo_first_lt (g : POAGraph) (sid : SeqID) (v u : Nat)
    (syms : List Nucleotide) (h : SpineTo g sid v syms u) :
    v < g.nodes.length := by
  cases h with
  | single v x hv _ => exact hv
  | extend v w u x xs hv _ _ _ => exact hv

theorem chainEdges_mem_base (sid : SeqID) (N len k : Nat)
    (hk : k + 1 < len) :
    (⟨N + k, N + k + 1, [sid]⟩ : POAEdge) ∈ chainEdges N len sid := by
  rw [chainEdges]
  exact List.mem_map.mpr ⟨k, List.mem_range.mpr (by omega), rfl⟩

theorem chain_spineTo (g : POAGraph) (seq : Sequence) (sid : SeqID)
    (N : Nat) (hN : N = g.nodes.length) :
    ∀ (m k : Nat), k < seq.length → m = seq.length - 1 - k →
    SpineTo (POAGraph.mk (g.nodes ++ chainNodes seq sid)
        (g.edges ++ chainEdges N seq.length sid)) sid
      (N + k) (seq.drop k) (N + seq.length - 1) := by
  have hlen : (g.nodes ++ chainNodes seq sid).length =
      g.nodes.length + seq.length := by
    rw [List.length_append, chainNodes, List.length_map]
  have hspell : ∀ k, k < seq.length →
      spellsAt (POAGraph.mk (g.nodes ++ chainNodes seq sid)
        (g.edges ++ chainEdges N seq.length sid)) sid (N + k)
        (seq.getD k PoaElt.Indel) := by
    intro k hk
    show nucsLookup ((g.nodes ++ chainNodes seq sid).getD (N + k)
      ⟨[]⟩).nucs sid = _
    rw [hN, getD_append_right _ g.nodes (chainNodes seq sid) k,
      chainNodes_getD seq sid k hk]
    exact nucsLookup_single sid _
  intro m
  induction m with
  | zero =>
    intro k hk hm
    have hke : k = seq.length - 1 := by omega
    have hdk : seq.drop k = [seq.getD k PoaElt.Indel] := by
      rw [drop_eq_getD_cons seq k hk, drop_all_nil seq (k + 1) (by omega)]
    rw [hdk]
    have hve : N + seq.length - 1 = N + k := by omega
    rw [hve]
    exact SpineTo.single (N + k) _ (by rw [hlen]; omega) (hspell k hk)
  | succ m ih =>
    intro k hk hm
    have hk1 : k + 1 < seq.length := by omega
    have hdk : seq.drop k =
        seq.getD k PoaElt.Indel :: seq.drop (k + 1) := by
      rw [drop_eq_getD_cons seq k hk]
    rw [hdk]
    refine SpineTo.extend (N + k) (N + k + 1) (N + seq.length - 1) _ _
      (by rw [hlen]; omega) (hspell k hk) ?_ ?_
    · refine ⟨⟨N + k, N + k + 1, [sid]⟩, ?_, rfl, rfl, by simp⟩
      exact List.mem_append.mpr
        (Or.inr (chainEdges_mem_base sid N seq.length k hk1))
    · have := ih (k + 1) hk1 (by omega)
      have he : N + (k + 1) = N + k + 1 := by omega
      rw [he] at this
      exact this

theorem chain_last_out (g : POAGraph) (seq : Sequence) (sid : SeqID)
    (N : Nat) (hN : N = g.nodes.length) (hval : edgesValid g)
    (hne : seq ≠ []) (s0 : SeqID) :
    sidOut (g.edges ++ chainEdges N seq.length sid)
      (N + seq.length - 1) s0 = 0 := by
  have hpos : 0 < seq.length := List.length_pos.mpr hne
  rw [sidOut_append]
  have h1 : sidOut g.edges (N + seq.length - 1) s0 = 0 := by
    rw [sidOut, List.countP_eq_zero]
    intro e he
    simp only [Bool.and_eq_true, beq_iff_eq]
    rintro ⟨hsrc, -⟩
    have := (hval e he).1
    omega
  have h2 : sidOut (chainEdges N seq.length sid)
      (N + seq.length - 1) s0 = 0 := by
    rw [sidOut, List.countP_eq_zero]
    intro e he
    rw [chainEdges] at he
    rcases List.mem_map.mp he with ⟨j, hj, hje⟩
    have hjlt := List.mem_range.mp hj
    simp only [Bool.and_eq_true, beq_iff_eq]
    rintro ⟨hsrc, -⟩
    rw [← hje] at hsrc
    have : N + j = N + seq.length - 1 := hsrc
    omega
  omega

/-- `insert_hanging_seq` on a non-empty list produces a spine for `sid`
from its first to its last node, with no `sid` exit at the last node. -/
theorem insertHangingSeq_spine (g : POAGraph) (seq : List Nucleotide)
    (sid : SeqID) (gI : POAGraph) (fl : Option (Nat × Nat))
    (hres : insertHangingSeq g seq sid = (gI, fl))
    (hval : edgesValid g) (hne : seq ≠ []) :
    ∃ f l, fl = some (f, l) ∧ SpineTo gI sid f seq l ∧
      sidOut gI.edges l sid = 0 := by
  rcases seq with _ | ⟨n, rest⟩
  · exact absurd rfl hne
  · rw [insertHangingSeq_cons g n rest sid hval] at hres
    simp only [Prod.mk.injEq] at hres
    obtain ⟨h1, h2⟩ := hres
    refine ⟨g.nodes.length, g.nodes.length + rest.length, h2.symm, ?_, ?_⟩
    · have hs := chain_spineTo g (n :: rest) sid g.nodes.length rfl
        ((n :: rest).length - 1) 0 (by simp) (by omega)
      rw [h1] at hs
      have he1 : g.nodes.length + 0 = g.nodes.length := by omega
      have he2 : g.nodes.length + (n :: rest).length - 1 =
          g.nodes.length + rest.length := by
        simp only [List.length_cons]
        omega
      rw [he1, he2] at hs
      exact hs
    · have hc := chain_last_out g (n :: rest) sid g.nodes.length rfl hval
        (by simp) sid
      have he2 : g.nodes.length + (n :: rest).length - 1 =
          g.nodes.length + rest.length := by
        simp only [List.length_cons]
        omega
      rw [he2] at hc
      rw [← h1]
      exact hc

theorem Pres_insertHangingSeq (g : POAGraph) (seq : List Nucleotide)
    (sid : SeqID) (gI : POAGraph) (fl : Option (Nat × Nat))
    (hres : insertHangingSeq g seq sid = (gI, fl))
    (hval : edgesValid g) : Pres g gI sid := by
  rcases seq with _ | ⟨n, rest⟩
  · rw [insertHangingSeq_nil] at hres
    simp only [Prod.mk.injEq] at hres
    rw [← hres.1]
    exact Pres_refl g sid
  · rw [insertHangingSeq_cons g n rest sid hval] at hres
    simp only [Prod.mk.injEq] at hres
    rw [← hres.1]
    refine ⟨by simp, ?_, ?_, ?_⟩
    · intro v hv s _
      show nucsLookup (((g.nodes ++ chainNodes (n :: rest) sid)).getD v
        ⟨[]⟩).nucs s = _
      rw [getD_append_left _ g.nodes _ v hv]
    · intro e he
      exact ⟨e, List.mem_append.mpr (Or.inl he), rfl, rfl, fun s hs => hs⟩
    · intro e2 he2 s hs hne
      rcases List.mem_append.mp he2 with he2 | he2
      · exact ⟨e2, he2, rfl, rfl, hs⟩
      · exfalso
        rw [chainEdges] at he2
        rcases List.mem_map.mp he2 with ⟨j, _, hje⟩
        rw [← hje] at hs
        exact hne (List.mem_singleton.mp hs)

theorem Pres_aaLead (g : POAGraph) (seq : Sequence) (sid : SeqID)
    (startIdx : Nat) (g1 : POAGraph) (first0 head0 : Option Nat)
    (hres : aaLead g seq sid startIdx = some (g1, first0, head0))
    (hval : edgesValid g) : Pres g g1 sid := by
  rw [aaLead] at hres
  by_cases h1 : startIdx > 0
  · rw [if_pos h1] at hres
    by_cases h2 : startIdx ≤ seq.length
    · rw [if_pos h2] at hres
      rcases hins : insertHangingSeq g (seq.take startIdx) sid
        with ⟨gI, fl⟩
      have hp := Pres_insertHangingSeq g (seq.take startIdx) sid gI fl
        hins hval
      rcases fl with _ | flv
      · have : some (gI, (none : Option Nat), (none : Option Nat)) =
            some (g1, first0, head0) := by
          rw [← hres, hins]
        simp only [Option.some_inj, Prod.mk.injEq] at this
        rw [← this.1]
        exact hp
      · have : some (gI, some flv.1, some flv.2) =
            some (g1, first0, head0) := by
          rw [← hres, hins]
        simp only [Option.some_inj, Prod.mk.injEq] at this
        rw [← this.1]
        exact hp
    · rw [if_neg h2] at hres
      cases hres
  · rw [if_neg h1] at hres
    simp only [Option.some_inj, Prod.mk.injEq] at hres
    rw [← hres.1]
    exact Pres_refl g sid

/-- The lead of `add_alignment` establishes the spine bookkeeping for the
prefix `seq.take startIdx`. -/
theorem aaLead_path (g : POAGraph) (seq : Sequence) (sid : SeqID)
    (startIdx : Nat) (g1 : POAGraph) (first0 head0 : Option Nat)
    (hres : aaLead g seq sid startIdx = some (g1, first0, head0))
    (hval : edgesValid g) (hstart : startIdx ≤ seq.length) :
    SpineState g1 sid first0 head0 (seq.take startIdx) := by
  rw [aaLead] at hres
  by_cases h1 : startIdx > 0
  · rw [if_pos h1, if_pos hstart] at hres
    rcases hins : insertHangingSeq g (seq.take startIdx) sid
      with ⟨gI, fl⟩
    have htne : seq.take startIdx ≠ [] := by
      intro hc
      have h2 := congrArg List.length hc
      rw [List.length_take] at h2
      simp only [List.length_nil] at h2
      omega
    rcases insertHangingSeq_spine g (seq.take startIdx) sid gI fl hins
      hval htne with ⟨f, l, hfl, hsp, _⟩
    rw [hfl] at hins
    have : some (gI, some (f, l).1, some (f, l).2) =
        some (g1, first0, head0) := by
      rw [← hres, hins]
    simp only [Option.some_inj, Prod.mk.injEq] at this
    obtain ⟨e1, e2, e3⟩ := this
    rw [← e1, ← e2, ← e3]
    exact hsp
  · rw [if_neg h1] at hres
    simp only [Option.some_inj, Prod.mk.injEq] at hres
    obtain ⟨e1, e2, e3⟩ := hres
    have hs0 : startIdx = 0 := by omega
    rw [← e2, ← e3, hs0]
    show (List.take 0 seq) = []
    rfl

theorem aaTrail_trivial (g : POAGraph) (seq : Sequence) (sid : SeqID)
    (hne : seq ≠ []) :
    aaTrail g seq sid (seq.length - 1) = (g, none) := by
  have hpos : 0 < seq.length := List.length_pos.mpr hne
  rw [aaTrail, if_pos (by omega)]
  have hdrop : seq.drop (seq.length - 1 + 1) = [] := by
    apply drop_all_nil
    omega
  rw [hdrop, insertHangingSeq_nil]
  rfl

theorem getD_of_get? {α : Type} (d : α) (l : List α) (i : Nat) (x : α)
    (h : l.get? i = some x) : l.getD i d = x := by
  rw [List.getD_eq_get?, h]
  rfl

theorem getD_append_len {α : Type} (d : α) (l : List α) (x : α) :
    (l ++ [x]).getD l.length d = x := by
  have h := getD_append_right d l [x] 0
  rw [Nat.add_zero] at h
  exact h

/-- The main loop of `add_alignment` grows the spine by one node per
consumed sequence position and is a `Pres`-graft for `sid`. -/
theorem aaLoop_path (sid : SeqID) (seq : Sequence) (N0 : Nat) :
    ∀ (rest : List (Option Nat × Option Nat)) (g : POAGraph)
      (first? head? : Option Nat) (g2 : POAGraph) (first2 head2 : Option Nat)
      (done : List Nucleotide),
    aaLoop sid seq rest g first? head? = some (g2, first2, head2) →
    edgesValid g →
    (∀ v sid', sidOut g.edges v sid' ≤ 1) →
    (∀ h, head? = some h → h < g.nodes.length ∧ sidOut g.edges h sid = 0) →
    (rest.filterMap (fun p => p.2)).Nodup →
    (∀ gid ∈ rest.filterMap (fun p => p.2), gid < N0 ∧
      sidOut g.edges gid sid = 0 ∧ ∀ h, head? = some h → gid ≠ h) →
    N0 ≤ g.nodes.length →
    SpineState g sid first? head? done →
    Pres g g2 sid ∧
    SpineState g2 sid first2 head2 (done ++ symsOf seq rest) := by
  intro rest
  induction rest with
  | nil =>
    intro g first? head? g2 first2 head2 done hres hval hle hhead _ _ _ hsp
    have hres2 : some (g, first?, head?) = some (g2, first2, head2) := hres
    simp only [Option.some_inj, Prod.mk.injEq] at hres2
    obtain ⟨h1, h2, h3⟩ := hres2
    subst h1; subst h2; subst h3
    rw [symsOf_nil, List.append_nil]
    exact ⟨Pres_refl g sid, hsp⟩
  | cons pr rest' ih =>
    rcases pr with ⟨sIdx?, gid?⟩
    intro g first? head? g2 first2 head2 done hres hval hle hhead hnd hgids
      hN0 hsp
    have hsubl : List.Sublist (rest'.filterMap (fun p => p.2))
        (((sIdx?, gid?) :: rest').filterMap (fun p => p.2)) :=
      List.Sublist.filterMap _ (List.sublist_cons_self _ _)
    rcases sIdx? with _ | sIdx
    · have hres2 : aaLoop sid seq rest' g first? head? =
          some (g2, first2, head2) := hres
      rw [symsOf_cons_none]
      exact ih g first? head? g2 first2 head2 done hres2 hval hle hhead
        (hsubl.nodup hnd) (fun gid hg => hgids gid (hsubl.subset hg)) hN0 hsp
    · rcases hget : seq.get? sIdx with _ | nuc
      · have hres2 : (match seq.get? sIdx with
            | none => none
            | some nuc =>
              match gid? with
              | none =>
                aaLoop sid seq rest'
                  (updateEdge { g with nodes := g.nodes ++ [⟨[(sid, nuc)]⟩] }
                    head? (some g.nodes.length) sid)
                  (if first?.isNone then some g.nodes.length else first?)
                  (some g.nodes.length)
              | some gid =>
                match g.nodes.get? gid with
                | none => none
                | some nd =>
                  aaLoop sid seq rest'
                    (updateEdge { g with nodes := g.nodes.set gid (POANode.mk (nucsInsert nd.nucs sid nuc)) } head? (some gid) sid)
                    (if first?.isNone then some gid else first?)
                    (some gid) :
            Option (POAGraph × Option Nat × Option Nat)) =
            some (g2, first2, head2) := hres
        rw [hget] at hres2
        cases hres2
      · have hnucD : seq.getD sIdx PoaElt.Empty = nuc :=
          getD_of_get? PoaElt.Empty seq sIdx nuc hget
        have hsyms : symsOf seq ((some sIdx, gid?) :: rest') =
            nuc :: symsOf seq rest' := by
          rw [symsOf_cons_some, hnucD]
        have happ : done ++ (nuc :: symsOf seq rest') =
            (done ++ [nuc]) ++ symsOf seq rest' := by
          rw [List.append_assoc]
          rfl
        have hres2 : (match gid? with
            | none =>
              aaLoop sid seq rest'
                (updateEdge { g with nodes := g.nodes ++ [⟨[(sid, nuc)]⟩] }
                  head? (some g.nodes.length) sid)
                (if first?.isNone then some g.nodes.length else first?)
                (some g.nodes.length)
            | some gid =>
              match g.nodes.get? gid with
              | none => none
              | some nd =>
                aaLoop sid seq rest'
                  (updateEdge { g with nodes := g.nodes.set gid (POANode.mk (nucsInsert nd.nucs sid nuc)) } head? (some gid) sid)
                  (if first?.isNone then some gid else first?)
                  (some gid) :
            Option (POAGraph × Option Nat × Option Nat)) =
            some (g2, first2, head2) := by
          have hres3 : (match seq.get? sIdx with
              | none => none
              | some nuc =>
                match gid? with
                | none =>
                  aaLoop sid seq rest'
                    (updateEdge { g with nodes :=
                        g.nodes ++ [⟨[(sid, nuc)]⟩] }
                      head? (some g.nodes.length) sid)
                    (if first?.isNone then some g.nodes.length else first?)
                    (some g.nodes.length)
                | some gid =>
                  match g.nodes.get? gid with
                  | none => none
                  | some nd =>
                    aaLoop sid seq rest'
                      (updateEdge { g with nodes := g.nodes.set gid (POANode.mk (nucsInsert nd.nucs sid nuc)) } head? (some gid) sid)
                      (if first?.isNone then some gid else first?)
                      (some gid) :
              Option (POAGraph × Option Nat × Option Nat)) =
              some (g2, first2, head2) := hres
          rw [hget] at hres3
          exact hres3
        rcases gid? with _ | gid
        · -- insertion: a fresh node is appended and becomes the new head
          have hlenA : ({ g with nodes := g.nodes ++ [⟨[(sid, nuc)]⟩] } :
              POAGraph).nodes.length = g.nodes.length + 1 := by simp
          have hspellC : spellsAt
              ({ g with nodes := g.nodes ++ [⟨[(sid, nuc)]⟩] } : POAGraph)
              sid g.nodes.length nuc := by
            show nucsLookup ((g.nodes ++
              [(⟨[(sid, nuc)]⟩ : POANode)]).getD g.nodes.length ⟨[]⟩).nucs
              sid = some nuc
            rw [getD_append_len]
            exact nucsLookup_single sid nuc
          rcases head? with _ | h0
          · rcases first? with _ | f
            · have hdone : done = [] := hsp
              have hres3 : aaLoop sid seq rest'
                  ({ g with nodes := g.nodes ++ [⟨[(sid, nuc)]⟩] })
                  (some g.nodes.length)
                  (some g.nodes.length) = some (g2, first2, head2) := hres2
              have hspN : SpineState
                  ({ g with nodes := g.nodes ++ [⟨[(sid, nuc)]⟩] } : POAGraph)
                  sid (some g.nodes.length) (some g.nodes.length) [nuc] :=
                SpineTo.single g.nodes.length nuc (by rw [hlenA]; omega)
                  hspellC
              rcases ih _ _ _ _ _ _ [nuc] hres3
                (fun e he => by have := hval e he; rw [hlenA]; omega)
                hle
                (fun h hh => by
                  have hh2 : g.nodes.length = h := Option.some_inj.mp hh
                  rw [hlenA]
                  refine ⟨by omega, ?_⟩
                  rw [← hh2]
                  exact sidOut_eq_zero_of_ge g hval _ (le_refl _) sid)
                (hsubl.nodup hnd)
                (fun gid hg => by
                  rcases hgids gid (hsubl.subset hg) with ⟨d1, d2, _⟩
                  refine ⟨d1, d2, fun h hh => ?_⟩
                  have hh2 : g.nodes.length = h := Option.some_inj.mp hh
                  omega)
                (by rw [hlenA]; omega)
                hspN
                with ⟨c1, c2⟩
              refine ⟨Pres_trans g _ g2 sid (Pres_addNode g _ sid) c1, ?_⟩
              rw [hsyms, happ, hdone]
              exact c2
            · exact hsp.elim
          · rcases first? with _ | f
            · exact hsp.elim
            · have hspT : SpineTo g sid f done h0 := hsp
              have hres3 : aaLoop sid seq rest'
                  (updateEdge { g with nodes := g.nodes ++ [⟨[(sid, nuc)]⟩] }
                    (some h0) (some g.nodes.length) sid)
                  (some f)
                  (some g.nodes.length) = some (g2, first2, head2) := hres2
              have hed : (updateEdge { g with nodes :=
                  g.nodes ++ [⟨[(sid, nuc)]⟩] }
                  (some h0) (some g.nodes.length) sid).edges =
                  edgesAddLabel g.edges h0 g.nodes.length sid := rfl
              have hlen2 : (updateEdge { g with nodes :=
                  g.nodes ++ [⟨[(sid, nuc)]⟩] }
                  (some h0) (some g.nodes.length) sid).nodes.length =
                  g.nodes.length + 1 := by
                show (g.nodes ++ [(POANode.mk [(sid, nuc)])]).length =
                  g.nodes.length + 1
                simp
              rcases hhead h0 rfl with ⟨hh1, hh2⟩
              rcases sidOut_step g.edges h0 g.nodes.length sid hle hh2
                with ⟨s1, s2⟩
              have hspT2 : SpineTo (updateEdge { g with nodes :=
                  g.nodes ++ [⟨[(sid, nuc)]⟩] }
                  (some h0) (some g.nodes.length) sid) sid f
                  (done ++ [nuc]) g.nodes.length := by
                have hA := SpineTo_addNode g sid ⟨[(sid, nuc)]⟩ f h0 done hspT
                have hB := SpineTo_addLabel
                  ({ g with nodes := g.nodes ++ [⟨[(sid, nuc)]⟩] } : POAGraph)
                  sid h0 g.nodes.length sid f h0 done hA
                refine SpineTo_snoc _ sid g.nodes.length nuc
                  (by rw [hlen2]; omega) ?_ f h0 (done) hB ?_
                · show nucsLookup ((g.nodes ++
                    [(⟨[(sid, nuc)]⟩ : POANode)]).getD g.nodes.length
                    ⟨[]⟩).nucs sid = some nuc
                  rw [getD_append_len]
                  exact nucsLookup_single sid nuc
                · exact sidStep_of_updateEdge
                    ({ g with nodes := g.nodes ++ [⟨[(sid, nuc)]⟩] } :
                      POAGraph) h0 g.nodes.length sid
              rcases ih _ _ _ _ _ _ (done ++ [nuc]) hres3
                (fun e he => by
                  rw [hed] at he
                  rw [hlen2]
                  exact edgesAddLabel_valid g.edges h0 g.nodes.length sid
                    (g.nodes.length + 1)
                    (fun e0 he0 => by have := hval e0 he0; omega)
                    (by omega) (by omega) e he)
                (fun v sid' => by rw [hed]; exact s1 v sid')
                (fun h hh => by
                  have hh3 : g.nodes.length = h := Option.some_inj.mp hh
                  rw [hlen2, hed]
                  refine ⟨by omega, ?_⟩
                  rw [s2 h (by omega) sid, ← hh3]
                  exact sidOut_eq_zero_of_ge g hval _ (le_refl _) sid)
                (hsubl.nodup hnd)
                (fun gid hg => by
                  rcases hgids gid (hsubl.subset hg) with ⟨d1, d2, d3⟩
                  rw [hed]
                  refine ⟨d1, ?_, fun h hh => ?_⟩
                  · rw [s2 gid (d3 h0 rfl) sid]
                    exact d2
                  · have hh3 : g.nodes.length = h := Option.some_inj.mp hh
                    omega)
                (by rw [hlen2]; omega)
                hspT2
                with ⟨c1, c2⟩
              have hpres : Pres g (updateEdge { g with nodes :=
                  g.nodes ++ [⟨[(sid, nuc)]⟩] }
                  (some h0) (some g.nodes.length) sid) sid :=
                Pres_trans g _ _ sid (Pres_addNode g _ sid)
                  (Pres_updateEdge _ (some h0) (some g.nodes.length) sid)
              refine ⟨Pres_trans g _ g2 sid hpres c1, ?_⟩
              rw [hsyms, happ]
              exact c2
        · -- match step: an existing node is updated and becomes the head
          have hres4 : (match g.nodes.get? gid with
              | none => none
              | some nd =>
                aaLoop sid seq rest'
                  (updateEdge { g with nodes := g.nodes.set gid (POANode.mk (nucsInsert nd.nucs sid nuc)) } head? (some gid) sid)
                  (if first?.isNone then some gid else first?) (some gid) :
              Option (POAGraph × Option Nat × Option Nat)) =
              some (g2, first2, head2) := hres2
          rcases hnode : g.nodes.get? gid with _ | nd
          · rw [hnode] at hres4
            cases hres4
          · rw [hnode] at hres4
            have hfmc : ((some sIdx, some gid) :: rest').filterMap
                (fun p => p.2) = gid :: rest'.filterMap (fun p => p.2) := rfl
            have hgid0 : gid < N0 ∧ sidOut g.edges gid sid = 0 ∧
                ∀ h, head? = some h → gid ≠ h := by
              apply hgids
              rw [hfmc]
              exact List.mem_cons_self _ _
            have hndc : (gid :: rest'.filterMap (fun p => p.2)).Nodup := by
              rw [← hfmc]
              exact hnd
            have hgnotin : gid ∉ rest'.filterMap (fun p => p.2) :=
              (List.nodup_cons.mp hndc).1
            have hndtail := (List.nodup_cons.mp hndc).2
            have hgidlt : gid < g.nodes.length := by
              have := hgid0.1
              omega
            have hspellG : spellsAt
                (POAGraph.mk (g.nodes.set gid
                  (POANode.mk (nucsInsert nd.nucs sid nuc))) g.edges)
                sid gid nuc := by
              show nucsLookup ((g.nodes.set gid
                (POANode.mk (nucsInsert nd.nucs sid nuc))).getD gid
                ⟨[]⟩).nucs sid = some nuc
              rw [getD_set_self _ g.nodes gid _ hgidlt]
              exact nucsLookup_insert_self nd.nucs sid nuc
            rcases head? with _ | h0
            · rcases first? with _ | f
              · have hdone : done = [] := hsp
                have hres3 : aaLoop sid seq rest'
                    ({ g with nodes := g.nodes.set gid (POANode.mk (nucsInsert nd.nucs sid nuc)) })
                    (some gid) (some gid) =
                    some (g2, first2, head2) := hres4
                have hspN : SpineState
                    (POAGraph.mk (g.nodes.set gid
                      (POANode.mk (nucsInsert nd.nucs sid nuc))) g.edges)
                    sid (some gid) (some gid) [nuc] :=
                  SpineTo.single gid nuc (by simpa using hgidlt) hspellG
                rcases ih _ _ _ _ _ _ [nuc] hres3
                  (fun e he => by
                    have := hval e he
                    simpa using this)
                  hle
                  (fun h hh => by
                    have hh2 : gid = h := Option.some_inj.mp hh
                    refine ⟨?_, ?_⟩
                    · show h < (g.nodes.set gid
                        (POANode.mk (nucsInsert nd.nucs sid nuc))).length
                      simp only [List.length_set]
                      omega
                    · rw [← hh2]
                      exact hgid0.2.1)
                  hndtail
                  (fun gid' hg => by
                    rcases hgids gid' (hsubl.subset hg) with ⟨d1, d2, _⟩
                    refine ⟨d1, d2, fun h hh => ?_⟩
                    have hh2 : gid = h := Option.some_inj.mp hh
                    intro hc
                    rw [← hh2] at hc
                    rw [hc] at hg
                    exact hgnotin hg)
                  (by
                    show N0 ≤ (g.nodes.set gid
                      (POANode.mk (nucsInsert nd.nucs sid nuc))).length
                    simp only [List.length_set]
                    omega)
                  hspN
                  with ⟨c1, c2⟩
                refine ⟨Pres_trans g _ g2 sid
                  (Pres_setInsert g gid nd nuc sid hnode) c1, ?_⟩
                rw [hsyms, happ, hdone]
                exact c2
              · exact hsp.elim
            · rcases first? with _ | f
              · exact hsp.elim
              · have hspT : SpineTo g sid f done h0 := hsp
                rcases hhead h0 rfl with ⟨hh1, hh2⟩
                rcases sidOut_step g.edges h0 gid sid hle hh2 with ⟨s1, s2⟩
                have hed : (updateEdge { g with nodes := g.nodes.set gid (POANode.mk (nucsInsert nd.nucs sid nuc)) } (some h0)
                    (some gid) sid).edges =
                    edgesAddLabel g.edges h0 gid sid := rfl
                have hlen2 : (updateEdge { g with nodes := g.nodes.set gid (POANode.mk (nucsInsert nd.nucs sid nuc)) } (some h0)
                    (some gid) sid).nodes.length = g.nodes.length := by
                  show (g.nodes.set gid
                    (POANode.mk (nucsInsert nd.nucs sid nuc))).length = _
                  simp
                have hres3 : aaLoop sid seq rest'
                    (updateEdge { g with nodes := g.nodes.set gid (POANode.mk (nucsInsert nd.nucs sid nuc)) } (some h0)
                      (some gid) sid)
                    (some f) (some gid) =
                    some (g2, first2, head2) := hres4
                have hspT2 : SpineTo (updateEdge (POAGraph.mk
                    (g.nodes.set gid
                      (POANode.mk (nucsInsert nd.nucs sid nuc))) g.edges)
                    (some h0)
                    (some gid) sid) sid f (done ++ [nuc]) gid := by
                  have hA := SpineTo_set g sid gid
                    (POANode.mk (nucsInsert nd.nucs sid nuc)) hgid0.2.1
                    f h0 done hspT (fun hc => hgid0.2.2 h0 rfl hc)
                  have hB := SpineTo_addLabel
                    (POAGraph.mk (g.nodes.set gid
                      (POANode.mk (nucsInsert nd.nucs sid nuc))) g.edges)
                    sid h0 gid sid f h0 done hA
                  refine SpineTo_snoc _ sid gid nuc ?_ ?_ f h0 done hB ?_
                  · show gid < (g.nodes.set gid
                      (POANode.mk (nucsInsert nd.nucs sid nuc))).length
                    simp only [List.length_set]
                    omega
                  · show nucsLookup ((g.nodes.set gid
                      (POANode.mk (nucsInsert nd.nucs sid nuc))).getD gid
                      ⟨[]⟩).nucs sid = some nuc
                    rw [getD_set_self _ g.nodes gid _ hgidlt]
                    exact nucsLookup_insert_self nd.nucs sid nuc
                  · exact sidStep_of_updateEdge
                      (POAGraph.mk (g.nodes.set gid
                        (POANode.mk (nucsInsert nd.nucs sid nuc))) g.edges)
                      h0 gid sid
                rcases ih _ _ _ _ _ _ (done ++ [nuc]) hres3
                  (fun e he => by
                    rw [hed] at he
                    rw [hlen2]
                    exact edgesAddLabel_valid g.edges h0 gid sid
                      g.nodes.length
                      (fun e0 he0 => hval e0 he0) hh1 (by omega) e he)
                  (fun v sid' => by
                    rw [hed]
                    exact s1 v sid')
                  (fun h hh => by
                    have hh3 : gid = h := Option.some_inj.mp hh
                    rw [hlen2, hed]
                    refine ⟨by omega, ?_⟩
                    rw [← hh3, s2 gid (hgid0.2.2 h0 rfl) sid]
                    exact hgid0.2.1)
                  hndtail
                  (fun gid' hg => by
                    rcases hgids gid' (hsubl.subset hg) with ⟨d1, d2, d3⟩
                    rw [hed]
                    refine ⟨d1, ?_, fun h hh => ?_⟩
                    · rw [s2 gid' (d3 h0 rfl) sid]
                      exact d2
                    · have hh3 : gid = h := Option.some_inj.mp hh
                      intro hc
                      rw [← hh3] at hc
                      rw [hc] at hg
                      exact hgnotin hg)
                  (by rw [hlen2]; omega)
                  hspT2
                  with ⟨c1, c2⟩
                have hpres : Pres g (updateEdge (POAGraph.mk
                    (g.nodes.set gid
                      (POANode.mk (nucsInsert nd.nucs sid nuc))) g.edges)
                    (some h0)
                    (some gid) sid) sid :=
                  Pres_trans g _ _ sid
                    (Pres_setInsert g gid nd nuc sid hnode)
                    (Pres_updateEdge _ (some h0) (some gid) sid)
                refine ⟨Pres_trans g _ g2 sid hpres c1, ?_⟩
                rw [hsyms, happ]
                exact c2

theorem range'_eq_cons (s0 m a : Nat) (l : List Nat)
    (h : List.range' s0 m = a :: l) : s0 = a ∧ 1 ≤ m := by
  rcases m with _ | m
  · cases h
  · have h2 := List.range'_succ s0 m 1
    rw [h2] at h
    have := List.cons.injEq s0 (List.range' (s0 + 1) m) a l
    rw [this] at h
    exact ⟨h.1, by omega⟩

/-- `add_alignment` on an `affine_sw` trace grafts the whole sequence as a
single spine, returned head first, and preserves every other sequence's
spine. -/
theorem addAlignment_path (g : POAGraph) (al : Alignment) (seq : Sequence)
    (sid : SeqID) (g2 : POAGraph) (head? : Option Nat)
    (hres : addAlignment g al seq sid = some (g2, head?))
    (hval : edgesValid g)
    (hle : ∀ v sid', sidOut g.edges v sid' ≤ 1)
    (hfresh : ∀ v, sidOut g.edges v sid = 0)
    (hnd : (al.1.filterMap id).Nodup)
    (hbnd : ∀ x ∈ al.1.filterMap id, x < g.nodes.length)
    (hlen : al.1.length = al.2.length)
    (hrange : ∃ s0 m, al.2.filterMap id = List.range' s0 m ∧
      s0 + m = seq.length) :
    Pres g g2 sid ∧
    (∀ h, head? = some h → SpineFrom g2 sid h seq) := by
  simp only [addAlignment] at hres
  by_cases hgids : al.1 = []
  · rw [if_pos hgids] at hres
    simp only [Option.some_inj, Prod.mk.injEq] at hres
    refine ⟨?_, ?_⟩
    · rw [← hres.1]
      exact Pres_refl g sid
    · intro h hh
      rw [← hres.2] at hh
      cases hh
  · rw [if_neg hgids] at hres
    rcases hv2 : al.2.filterMap id with _ | ⟨startIdx, restIdx⟩
    · rw [hv2] at hres
      cases hres
    · rw [hv2] at hres
      rcases hrange with ⟨s0, m, hfm, hsm⟩
      have hcons : List.range' s0 m = startIdx :: restIdx := by
        rw [← hfm, hv2]
      rcases range'_eq_cons s0 m startIdx restIdx hcons with ⟨hs0, hm1⟩
      have hslt : startIdx < seq.length := by omega
      have hseqne : seq ≠ [] := by
        intro hc
        rw [hc] at hslt
        simp at hslt
      have hend : (startIdx :: restIdx).getLastD 0 = seq.length - 1 := by
        rw [← hcons, range'_getLastD 0 m s0 hm1]
        omega
      have hres3 : (match aaLead g seq sid startIdx with
          | none => none
          | some (g1, first0, head0) =>
            match aaLoop sid seq (al.2.zip al.1)
                (aaTrail g1 seq sid
                  ((startIdx :: restIdx).getLastD 0)).1 first0 head0 with
            | none => none
            | some (g3, first?, head?) =>
              match first? with
              | some f => some (updateEdge g3 head?
                  (aaTrail g1 seq sid
                    ((startIdx :: restIdx).getLastD 0)).2 sid, some f)
              | none => none :
          Option (POAGraph × Option Nat)) = some (g2, head?) := hres
      rcases hlead : aaLead g seq sid startIdx with _ | ⟨g1, first0, head0⟩
      · rw [hlead] at hres3
        cases hres3
      · rw [hlead] at hres3
        rcases aaLead_sid g seq sid startIdx g1 first0 head0 hlead hval hle
          with ⟨l1, l2, l3, l4, l5, l6⟩
        have hpres1 : Pres g g1 sid :=
          Pres_aaLead g seq sid startIdx g1 first0 head0 hlead hval
        have hsp1 : SpineState g1 sid first0 head0 (seq.take startIdx) :=
          aaLead_path g seq sid startIdx g1 first0 head0 hlead hval
            (by omega)
        have htr : aaTrail g1 seq sid ((startIdx :: restIdx).getLastD 0) =
            (g1, none) := by
          rw [hend]
          exact aaTrail_trivial g1 seq sid hseqne
        have htr1 : (aaTrail g1 seq sid
            ((startIdx :: restIdx).getLastD 0)).1 = g1 := by
          rw [htr]
        have htr2 : (aaTrail g1 seq sid
            ((startIdx :: restIdx).getLastD 0)).2 = none := by
          rw [htr]
        have hres4 : (match aaLoop sid seq (al.2.zip al.1)
            (aaTrail g1 seq sid
              ((startIdx :: restIdx).getLastD 0)).1 first0 head0 with
          | none => none
          | some (g3, first?, head?) =>
            match first? with
            | some f => some (updateEdge g3 head?
                (aaTrail g1 seq sid
                  ((startIdx :: restIdx).getLastD 0)).2 sid, some f)
            | none => none :
          Option (POAGraph × Option Nat)) = some (g2, head?) := hres3
        rw [htr1, htr2] at hres4
        rcases hloop : aaLoop sid seq (al.2.zip al.1) g1 first0 head0
          with _ | ⟨g3, firstF, headF⟩
        · rw [hloop] at hres4
          cases hres4
        · rw [hloop] at hres4
          have hsubz := zip_filterMap_snd_sublist al.2 al.1
          have hheadfact : ∀ h, head0 = some h → h < g1.nodes.length ∧
              sidOut g1.edges h sid = 0 := by
            intro h hh
            rcases l6 h hh with ⟨d1, d2, d3⟩
            exact ⟨d1, d3⟩
          have hgidfact : ∀ gid ∈ (al.2.zip al.1).filterMap (fun p => p.2),
              gid < g.nodes.length ∧ sidOut g1.edges gid sid = 0 ∧
              ∀ h, head0 = some h → gid ≠ h := by
            intro gid hg
            have hgm := hsubz.subset hg
            have hgb := hbnd gid hgm
            refine ⟨hgb, ?_, fun h hh => ?_⟩
            · rw [l4 gid hgb sid]
              exact hfresh gid
            · rcases l6 h hh with ⟨_, d2, _⟩
              omega
          rcases aaLoop_sid sid seq g.nodes.length (al.2.zip al.1) g1
              first0 head0 g3 firstF headF hloop l1 l2 hheadfact
              (hsubz.nodup hnd) hgidfact (by omega)
            with ⟨a1, a2, a3, a4, a5⟩
          rcases aaLoop_path sid seq g.nodes.length (al.2.zip al.1) g1
              first0 head0 g3 firstF headF (seq.take startIdx) hloop l1 l2
              hheadfact (hsubz.nodup hnd) hgidfact (by omega) hsp1
            with ⟨p1, p2⟩
          have hsyms : symsOf seq (al.2.zip al.1) = (seq.drop s0).take m := by
            rw [symsOf, zip_filterMap_fst_eq al.2 al.1 hlen.symm, hv2,
              ← hcons]
            exact range'_map_getD seq m s0 (by omega)
          have hdone : seq.take startIdx ++ symsOf seq (al.2.zip al.1) =
              seq := by
            rw [hsyms, ← hs0]
            exact take_drop_take seq s0 m hsm
          rcases firstF with _ | f
          · cases hres4
          · have hres6 : some ((updateEdge g3 headF none sid : POAGraph),
                some f) = some (g2, head?) := hres4
            have hupd : updateEdge g3 headF none sid = g3 := by
              rcases headF with _ | hv0
              · rfl
              · rfl
            rw [hupd] at hres6
            simp only [Option.some_inj, Prod.mk.injEq] at hres6
            obtain ⟨hg2, hhd⟩ := hres6
            rcases headF with _ | hF
            · rw [hdone] at p2
              have : SpineState g3 sid (some f) none seq := p2
              exact this.elim
            · rw [hdone] at p2
              have hspT : SpineTo g3 sid f seq hF := p2
              refine ⟨?_, ?_⟩
              · rw [← hg2]
                exact Pres_trans g g1 g3 sid hpres1 p1
              · intro h hh
                have hfh : f = h := by
                  rw [← hhd] at hh
                  exact Option.some_inj.mp hh
                rw [← hg2, ← hfh]
                refine ⟨hF, hspT, ?_⟩
                exact (a3 hF rfl).2

/-- One grafting step of `align` preserves all spines and lays down the
grafted sequence, in the orientation the score comparison selected, as a
new spine from the returned head. -/
theorem alignStep_path (g : POAGraph) (id : SeqID) (seq : Sequence)
    (gS : POAGraph) (head? : Option Nat) (done : List SeqID)
    (hres : alignStep g id seq = some (gS, head?))
    (hinv : graphInv g done) (hid : id ∉ done) :
    Pres g gS id ∧
    (∀ h, head? = some h →
      SpineFrom gS id h seq ∨ SpineFrom gS id h seq.reverse) := by
  obtain ⟨i1, i2, i3⟩ := hinv
  have hfresh : ∀ v, sidOut g.edges v id = 0 :=
    sidOut_zero_of_labels g.edges done id i3 hid
  simp only [alignStep] at hres
  rcases hd : affineSW g seq alignSettings with _ | ⟨ds, dal⟩
  · rw [hd] at hres
    cases hres
  · rw [hd] at hres
    rcases hr : affineSW g seq.reverse alignSettings with _ | ⟨rs, ral⟩
    · rw [hr] at hres
      cases hres
    · rw [hr] at hres
      rcases dal with ⟨daG, daS⟩
      rcases ral with ⟨raG, raS⟩
      have hres2 : (if ds ≥ rs then addAlignment g (daG, daS) seq id
          else addAlignment g (raG, raS) seq.reverse id) =
          some (gS, head?) := hres
      by_cases hs : ds ≥ rs
      · rw [if_pos hs] at hres2
        rcases affineSW_trace g seq alignSettings ds daG daS hd
          with ⟨w1, w2⟩
        rcases affineSW_seqtrace g seq alignSettings ds daG daS hd
          with ⟨w3, w4⟩
        rcases addAlignment_path g (daG, daS) seq id gS head? hres2 i1 i2
          hfresh w1 w2 w3 w4 with ⟨c1, c2⟩
        exact ⟨c1, fun h hh => Or.inl (c2 h hh)⟩
      · rw [if_neg hs] at hres2
        rcases affineSW_trace g seq.reverse alignSettings rs raG raS hr
          with ⟨w1, w2⟩
        rcases affineSW_seqtrace g seq.reverse alignSettings rs raG raS hr
          with ⟨w3, w4⟩
        rcases addAlignment_path g (raG, raS) seq.reverse id gS head? hres2
          i1 i2 hfresh w1 w2 w3 w4 with ⟨c1, c2⟩
        exact ⟨c1, fun h hh => Or.inr (c2 h hh)⟩

/-- The heads accumulated by `align`'s loop: each one starts a complete
spine spelling its own input sequence, direct or reversed. -/
def startsInv (g : POAGraph) (seqs : List (SeqID × Sequence))
    (done : List SeqID) (starts : List (SeqID × Nat)) : Prop :=
  ∀ p ∈ starts, p.1 ∈ done ∧ ∃ sq, (p.1, sq) ∈ seqs ∧
    (SpineFrom g p.1 p.2 sq ∨ SpineFrom g p.1 p.2 sq.reverse)

theorem startsInv_pres (g gN : POAGraph) (seqs : List (SeqID × Sequence))
    (done : List SeqID) (starts : List (SeqID × Nat)) (idN : SeqID)
    (hp : Pres g gN idN) (hidN : idN ∉ done)
    (h : startsInv g seqs done starts) :
    startsInv gN seqs done starts := by
  intro p hps
  rcases h p hps with ⟨h1, sq, h2, h3⟩
  have hne : p.1 ≠ idN := fun hc => hidN (hc ▸ h1)
  refine ⟨h1, sq, h2, ?_⟩
  rcases h3 with h3 | h3
  · exact Or.inl (SpineFrom_pres g gN p.1 idN hne hp p.2 sq h3)
  · exact Or.inr (SpineFrom_pres g gN p.1 idN hne hp p.2 sq.reverse h3)

theorem startsInv_mono (g : POAGraph) (seqs : List (SeqID × Sequence))
    (done : List SeqID) (idN : SeqID) (starts : List (SeqID × Nat))
    (h : startsInv g seqs done starts) :
    startsInv g seqs (done ++ [idN]) starts := by
  intro p hps
  rcases h p hps with ⟨h1, sq, h2, h3⟩
  exact ⟨List.mem_append.mpr (Or.inl h1), sq, h2, h3⟩

theorem alignLoop_path (seqs : List (SeqID × Sequence)) :
    ∀ (jobs : List (Nat × SeqID × Sequence)) (g : POAGraph)
      (starts : List (SeqID × Nat)) (done : List SeqID),
    graphInv g done →
    (∀ j ∈ jobs, j.2.1 ∉ done) →
    ((jobs.map (fun j => j.2.1)).Nodup) →
    (∀ j ∈ jobs, (j.2.1, j.2.2) ∈ seqs) →
    startsInv g seqs done starts →
    ∀ (g2 : POAGraph) (starts2 : List (SeqID × Nat)),
    alignLoop jobs g starts = some (g2, starts2) →
    ∃ done2, graphInv g2 done2 ∧ startsInv g2 seqs done2 starts2 := by
  intro jobs
  induction jobs with
  | nil =>
    intro g starts done hinv _ _ _ hstv g2 starts2 hres
    have hres2 : some (g, starts) = some (g2, starts2) := hres
    simp only [Option.some_inj, Prod.mk.injEq] at hres2
    rw [← hres2.1, ← hres2.2]
    exact ⟨done, hinv, hstv⟩
  | cons job rest ih =>
    rcases job with ⟨i, id, seq⟩
    intro g starts done hinv hdis hnd hjobs hstv g2 starts2 hres
    have hidnd : id ∉ done := hdis (i, id, seq) (List.mem_cons_self _ _)
    have hndid : id ∉ rest.map (fun j => j.2.1) := by
      have hmc : ((i, id, seq) :: rest).map (fun j => j.2.1) =
          id :: rest.map (fun j => j.2.1) := rfl
      rw [hmc] at hnd
      exact (List.nodup_cons.mp hnd).1
    have hnd2 : (rest.map (fun j => j.2.1)).Nodup := by
      have hmc : ((i, id, seq) :: rest).map (fun j => j.2.1) =
          id :: rest.map (fun j => j.2.1) := rfl
      rw [hmc] at hnd
      exact (List.nodup_cons.mp hnd).2
    have hdis2 : ∀ j ∈ rest, j.2.1 ∉ done ++ [id] := by
      intro j hj hc
      rcases List.mem_append.mp hc with hc | hc
      · exact hdis j (List.mem_cons_of_mem _ hj) hc
      · have hje : j.2.1 = id := List.mem_singleton.mp hc
        rw [← hje] at hndid
        exact hndid (List.mem_map_of_mem _ hj)
    have hjobs2 : ∀ j ∈ rest, (j.2.1, j.2.2) ∈ seqs :=
      fun j hj => hjobs j (List.mem_cons_of_mem _ hj)
    have hseqmem : (id, seq) ∈ seqs :=
      hjobs (i, id, seq) (List.mem_cons_self _ _)
    simp only [alignLoop] at hres
    by_cases hi : i = 0
    · rw [if_pos hi] at hres
      rcases hins : insertHangingSeq g seq id with ⟨gI, fl⟩
      obtain ⟨i1, i2, i3⟩ := hinv
      rcases insertHangingSeq_sid g seq id gI fl hins i1 i2
        with ⟨c1, c2, _, _, c5, _⟩
      have hinvI : graphInv gI (done ++ [id]) := by
        refine ⟨c1, c2, fun e he x hx => ?_⟩
        rcases c5 e he x hx with rfl | ⟨e0, he0, hx0⟩
        · exact List.mem_append.mpr (Or.inr (List.mem_singleton.mpr rfl))
        · exact List.mem_append.mpr (Or.inl (i3 e0 he0 x hx0))
      have hpres : Pres g gI id := Pres_insertHangingSeq g seq id gI fl
        hins i1
      have hstvI : startsInv gI seqs (done ++ [id]) starts :=
        startsInv_mono gI seqs done id starts
          (startsInv_pres g gI seqs done starts id hpres hidnd hstv)
      rw [hins] at hres
      rcases fl with _ | fl0
      · have hres2 : alignLoop rest gI starts = some (g2, starts2) := hres
        exact ih gI starts (done ++ [id]) hinvI hdis2 hnd2 hjobs2 hstvI
          g2 starts2 hres2
      · have hres2 : alignLoop rest gI (starts ++ [(id, fl0.1)]) =
            some (g2, starts2) := hres
        have hseqne : seq ≠ [] := by
          intro hc
          rw [hc, insertHangingSeq_nil] at hins
          simp only [Prod.mk.injEq] at hins
          cases hins.2
        rcases insertHangingSeq_spine g seq id gI (some fl0) hins i1
          hseqne with ⟨f, l, hfl, hsp, hout⟩
        have hstvI2 : startsInv gI seqs (done ++ [id])
            (starts ++ [(id, fl0.1)]) := by
          intro p hps
          rcases List.mem_append.mp hps with hps | hps
          · exact hstvI p hps
          · have hpe : p = (id, fl0.1) := List.mem_singleton.mp hps
            rw [hpe]
            refine ⟨List.mem_append.mpr (Or.inr (by simp)), seq,
              hseqmem, Or.inl ?_⟩
            have hf1 : fl0.1 = f := by
              have := Option.some_inj.mp hfl
              rw [this]
            rw [hf1]
            exact ⟨l, hsp, hout⟩
        exact ih gI (starts ++ [(id, fl0.1)]) (done ++ [id]) hinvI hdis2
          hnd2 hjobs2 hstvI2 g2 starts2 hres2
    · rw [if_neg hi] at hres
      rcases hstep : alignStep g id seq with _ | ⟨gS, h2?⟩
      · rw [hstep] at hres
        cases hres
      · rw [hstep] at hres
        have hinvS : graphInv gS (done ++ [id]) :=
          alignStep_inv g id seq gS h2? done hstep hinv hidnd
        rcases alignStep_path g id seq gS h2? done hstep hinv hidnd
          with ⟨hpres, hspine⟩
        have hstvS : startsInv gS seqs (done ++ [id]) starts :=
          startsInv_mono gS seqs done id starts
            (startsInv_pres g gS seqs done starts id hpres hidnd hstv)
        rcases h2? with _ | hv
        · have hres2 : alignLoop rest gS starts = some (g2, starts2) := hres
          exact ih gS starts (done ++ [id]) hinvS hdis2 hnd2 hjobs2 hstvS
            g2 starts2 hres2
        · have hres2 : alignLoop rest gS (starts ++ [(id, hv)]) =
              some (g2, starts2) := hres
          have hstvS2 : startsInv gS seqs (done ++ [id])
              (starts ++ [(id, hv)]) := by
            intro p hps
            rcases List.mem_append.mp hps with hps | hps
            · exact hstvS p hps
            · have hpe : p = (id, hv) := List.mem_singleton.mp hps
              rw [hpe]
              exact ⟨List.mem_append.mpr (Or.inr (by simp)), seq,
                hseqmem, hspine hv rfl⟩
          exact ih gS (starts ++ [(id, hv)]) (done ++ [id]) hinvS hdis2
            hnd2 hjobs2 hstvS2 g2 starts2 hres2

/-! ### C1 round trip: the `poa_to_strings` walk along a spine -/

theorem valid_topo_poslt (g : POAGraph) (ord : List Nat)
    (hvt : isValidTopo g ord = true) :
    ∀ w, w < g.nodes.length → posOf ord w < g.nodes.length := by
  obtain ⟨hlen, hcont, -⟩ := isValidTopo_facts g ord hvt
  intro w hw
  have hmem : w ∈ ord := hcont w hw
  have hfi := List.findIdx_lt_length_of_exists
    (⟨w, hmem, by simp⟩ : ∃ x ∈ ord, (x == w) = true)
  rw [hlen] at hfi
  exact hfi

theorem snoc_append {α : Type} (L R : List α) (x : α) :
    (L ++ [x]) ++ R = L ++ x :: R := by
  rw [List.append_assoc]
  rfl

theorem filter_append_replicate (A C : List PoaElt) (k : Nat) :
    (A ++ List.replicate k PoaElt.Indel ++ C).filter
      (fun y => !(y == PoaElt.Indel)) =
    A.filter (fun y => !(y == PoaElt.Indel)) ++
    C.filter (fun y => !(y == PoaElt.Indel)) := by
  rw [List.append_assoc, List.filter_append, List.filter_append,
    filter_replicate_indel]
  rfl

theorem filter_cons_replicate (x : PoaElt) (k : Nat) :
    (x :: List.replicate k PoaElt.Indel).filter
      (fun y => !(y == PoaElt.Indel)) =
    [x].filter (fun y => !(y == PoaElt.Indel)) := by
  rw [List.filter_cons, List.filter_cons, filter_replicate_indel]
  by_cases h : (!(x == PoaElt.Indel)) = true
  · rw [if_pos h, if_pos h]
    rfl
  · rw [if_neg h, if_neg h]
    rfl

theorem filter_single_cons (x : PoaElt) (xs : List PoaElt) :
    [x].filter (fun y => !(y == PoaElt.Indel)) ++
      xs.filter (fun y => !(y == PoaElt.Indel)) =
    (x :: xs).filter (fun y => !(y == PoaElt.Indel)) := by
  rw [List.filter_cons, List.filter_cons]
  by_cases h : (!(x == PoaElt.Indel)) = true
  · rw [if_pos h, if_pos h]
    rfl
  · rw [if_neg h, if_neg h]
    rfl

theorem set_row_decomp (n p : Nat) (pre : List PoaElt) (x : PoaElt)
    (hpre : pre.length ≤ p) (hp : p < n) :
    (pre ++ List.replicate (n - pre.length) PoaElt.Indel).set p x =
      pre ++ List.replicate (p - pre.length) PoaElt.Indel ++
        x :: List.replicate (n - (p + 1)) PoaElt.Indel := by
  have h1 := set_append_right pre
    (List.replicate (n - pre.length) PoaElt.Indel) (p - pre.length) x
  have hpe : pre.length + (p - pre.length) = p := by omega
  rw [hpe] at h1
  rw [h1, replicate_set PoaElt.Indel x (n - pre.length) (p - pre.length)
    (by omega)]
  have hcount : n - pre.length - (p - pre.length) - 1 = n - (p + 1) := by
    omega
  rw [hcount, ← List.append_assoc]

/-- Walking `poa_to_strings` along a complete spine writes exactly the
spine's symbols into fresh columns; stripping `Indel` from the resulting
row appends the spine's non-`Indel` symbols to those of the prefix. -/
theorem ptsWalk_spine (g : POAGraph) (sid : SeqID) (ord : List Nat)
    (hvt : isValidTopo g ord = true)
    (huniq : ∀ v0 s0, sidOut g.edges v0 s0 ≤ 1) :
    ∀ (v u : Nat) (syms : List Nucleotide), SpineTo g sid v syms u →
    sidOut g.edges u sid = 0 →
    ∀ (fuel : Nat) (pre : List PoaElt),
    g.nodes.length - posOf ord v < fuel →
    pre.length ≤ posOf ord v →
    ∃ row, ptsWalk g sid (fun y => posOf ord y) fuel v
        (pre ++ List.replicate (g.nodes.length - pre.length) PoaElt.Indel) =
      some row ∧
    row.filter (fun y => !(y == PoaElt.Indel)) =
      pre.filter (fun y => !(y == PoaElt.Indel)) ++
      syms.filter (fun y => !(y == PoaElt.Indel)) := by
  obtain ⟨hlen, hcont, hfwd⟩ := isValidTopo_facts g ord hvt
  intro v u syms h
  induction h with
  | single v x hv hx =>
    intro hstop fuel pre hfuel hpre
    rcases fuel with _ | fuel
    · omega
    · have hx2 : nucsLookup ((g.nodes.getD v ⟨[]⟩)).nucs sid = some x := hx
      have hplt : posOf ord v < g.nodes.length :=
        valid_topo_poslt g ord hvt v hv
      rw [ptsWalk, hx2, sid_find_none g sid v hstop]
      refine ⟨_, rfl, ?_⟩
      rw [set_row_decomp g.nodes.length (posOf ord v) pre x hpre hplt,
        filter_append_replicate pre
          (x :: List.replicate (g.nodes.length - (posOf ord v + 1))
            PoaElt.Indel) (posOf ord v - pre.length),
        filter_cons_replicate]
  | extend v w u x xs hv hx hs htail ih =>
    intro hstop fuel pre hfuel hpre
    rcases fuel with _ | fuel
    · omega
    · have hx2 : nucsLookup ((g.nodes.getD v ⟨[]⟩)).nucs sid = some x := hx
      have hplt : posOf ord v < g.nodes.length :=
        valid_topo_poslt g ord hvt v hv
      have hpw : posOf ord v < posOf ord w := by
        rcases hs with ⟨e, he, hsrc, htgt, -⟩
        have := hfwd e he
        rw [hsrc, htgt] at this
        exact this
      rcases sid_find g sid v w (huniq v sid) hs with ⟨f, hfind, hftgt⟩
      have hstep1 : ptsWalk g sid (fun y => posOf ord y) (fuel + 1) v
          (pre ++ List.replicate (g.nodes.length - pre.length)
            PoaElt.Indel) =
          ptsWalk g sid (fun y => posOf ord y) fuel w
          ((pre ++ List.replicate (g.nodes.length - pre.length)
            PoaElt.Indel).set (posOf ord v) x) := by
        rw [ptsWalk, hx2, hfind]
        show ptsWalk g sid (fun y => posOf ord y) fuel f.tgt
          ((pre ++ List.replicate (g.nodes.length - pre.length)
            PoaElt.Indel).set (posOf ord v) x) = _
        rw [hftgt]
      rw [hstep1]
      have hrow1 : (pre ++ List.replicate
            (g.nodes.length - pre.length) PoaElt.Indel).set (posOf ord v) x =
          (pre ++ List.replicate (posOf ord v - pre.length) PoaElt.Indel ++
            [x]) ++ List.replicate (g.nodes.length -
            (pre ++ List.replicate (posOf ord v - pre.length) PoaElt.Indel ++
              [x]).length) PoaElt.Indel := by
        rw [set_row_decomp g.nodes.length (posOf ord v) pre x hpre hplt,
          snoc_append]
        have hplen : (pre ++ List.replicate (posOf ord v - pre.length)
            PoaElt.Indel ++ [x]).length = posOf ord v + 1 := by
          simp only [List.length_append, List.length_replicate,
            List.length_cons, List.length_nil]
          omega
        rw [hplen]
      rw [hrow1]
      have hwlt : posOf ord w < g.nodes.length := by
        have hwv : w < g.nodes.length :=
          SpineTo_first_lt g sid w u xs htail
        exact valid_topo_poslt g ord hvt w hwv
      have hplen2 : (pre ++ List.replicate (posOf ord v - pre.length)
          PoaElt.Indel ++ [x]).length = posOf ord v + 1 := by
        simp only [List.length_append, List.length_replicate,
          List.length_cons, List.length_nil]
        omega
      rcases ih hstop fuel
          (pre ++ List.replicate (posOf ord v - pre.length) PoaElt.Indel ++
            [x])
          (by omega) (by rw [hplen2]; omega)
        with ⟨row, hrow, hfil⟩
      refine ⟨row, hrow, ?_⟩
      rw [hfil, filter_append_replicate pre [x]
        (posOf ord v - pre.length), List.append_assoc, filter_single_cons]

theorem mapM_exists {α β : Type} (f : α → Option β) :
    ∀ (l : List α), (∀ a ∈ l, ∃ b, f a = some b) →
    ∃ bs, l.mapM f = some bs ∧ ∀ a ∈ l, ∃ b ∈ bs, f a = some b := by
  intro l
  induction l with
  | nil =>
    intro _
    refine ⟨[], rfl, ?_⟩
    intro a ha
    exact absurd ha (List.not_mem_nil a)
  | cons a l ih =>
    intro hall
    rcases hall a (List.mem_cons_self a l) with ⟨b, hb⟩
    rcases ih (fun a2 ha2 => hall a2 (List.mem_cons_of_mem a ha2))
      with ⟨bs, hbs, hmem⟩
    refine ⟨b :: bs, ?_, ?_⟩
    · rw [List.mapM_cons, hb, hbs]
      rfl
    · intro a2 ha2
      rcases List.mem_cons.mp ha2 with rfl | ha3
      · exact ⟨b, List.mem_cons_self b bs, hb⟩
      · rcases hmem a2 ha3 with ⟨b2, hb2, hfb2⟩
        exact ⟨b2, List.mem_cons_of_mem b hb2, hfb2⟩

/-- A complete spine makes the `poa_to_strings` walk succeed, and the row's
non-`Indel` content is exactly the spine's non-`Indel` content. -/
theorem walk_of_spine (g : POAGraph) (ord : List Nat)
    (hvt : isValidTopo g ord = true)
    (huniq : ∀ v0 s0, sidOut g.edges v0 s0 ≤ 1)
    (sid : SeqID) (head : Nat) (sq : List Nucleotide)
    (hsp : SpineFrom g sid head sq) :
    ∃ row, ptsWalk g sid (fun y => posOf ord y) (g.nodes.length + 1) head
        (List.replicate ord.length PoaElt.Indel) = some row ∧
      row.filter (fun y => !(y == PoaElt.Indel)) =
        sq.filter (fun y => !(y == PoaElt.Indel)) := by
  obtain ⟨hlen2, -, -⟩ := isValidTopo_facts g ord hvt
  rcases hsp with ⟨u, hTo, hstop⟩
  rcases ptsWalk_spine g sid ord hvt huniq head u sq hTo hstop
      (g.nodes.length + 1) [] (by omega) (Nat.zero_le _)
    with ⟨row, hrow, hfil⟩
  have hrepl : List.replicate ord.length PoaElt.Indel =
      ([] : List PoaElt) ++ List.replicate
        (g.nodes.length - ([] : List PoaElt).length) PoaElt.Indel := by
    rw [hlen2]
    rfl
  refine ⟨row, ?_, ?_⟩
  · rw [hrepl]
    exact hrow
  · rw [hfil]
    rfl

theorem keys_nodup_unique {β : Type} :
    ∀ (l : List (SeqID × β)), (l.map Prod.fst).Nodup →
    ∀ (k : SeqID) (a b : β), (k, a) ∈ l → (k, b) ∈ l → a = b := by
  intro l
  induction l with
  | nil => intro _ k a b ha; exact absurd ha (List.not_mem_nil _)
  | cons x xs ih =>
    intro hnd k a b ha hb
    have hnd2 := List.nodup_cons.mp hnd
    rcases List.mem_cons.mp ha with rfl | ha2
    · rcases List.mem_cons.mp hb with hxb | hb2
      · have := congrArg Prod.snd hxb
        exact this.symm
      · exfalso
        have hm : k ∈ xs.map Prod.fst := List.mem_map.mpr ⟨(k, b), hb2, rfl⟩
        exact hnd2.1 hm
    · rcases List.mem_cons.mp hb with rfl | hb2
      · exfalso
        have hm : k ∈ xs.map Prod.fst := List.mem_map.mpr ⟨(k, a), ha2, rfl⟩
        exact hnd2.1 hm
      · exact ih hnd2.2 k a b ha2 hb2

/-- C1 (amended): the round trip holds for `Indel`-free inputs.  For every
input map with distinct keys, every `seq_id` that received a head entry, and
every input sequence free of the `Indel` symbol, `poa_to_strings` on
`align`'s result succeeds, and stripping `Indel` from that `seq_id`'s row
reproduces the original sequence in order, or its exact reversal when the
reversed orientation was grafted. -/
theorem align_roundtrip (seqs : List (SeqID × Sequence))
    (hkeys : (seqs.map Prod.fst).Nodup)
    (g : POAGraph) (starts : List (SeqID × Nat))
    (hrun : align seqs = some (g, starts))
    (sid : SeqID) (head : Nat) (hhead : (sid, head) ∈ starts)
    (seq : Sequence) (hseq : (sid, seq) ∈ seqs)
    (hfree : PoaElt.Indel ∉ seq) :
    ∃ rows row, poaToStrings g starts = some rows ∧ (sid, row) ∈ rows ∧
      (row.filter (fun y => !(y == PoaElt.Indel)) = seq ∨
       row.filter (fun y => !(y == PoaElt.Indel)) = seq.reverse) := by
  have hrun2 : alignLoop (sortSeqs seqs).enum POAGraph.emptyGraph [] =
      some (g, starts) := hrun
  have hperm : List.Perm (sortSeqs seqs) seqs := sortSeqs_perm seqs
  have hsortnd : ((sortSeqs seqs).map Prod.fst).Nodup :=
    (hperm.map Prod.fst).symm.nodup hkeys
  have henum : ((sortSeqs seqs).enum.map (fun j => j.2.1)).Nodup := by
    have h1 : (sortSeqs seqs).enum.map (fun j : Nat × SeqID × Sequence =>
        j.2.1) = ((sortSeqs seqs).enum.map Prod.snd).map Prod.fst := by
      rw [List.map_map]
      rfl
    rw [h1, List.enum_map_snd]
    exact hsortnd
  have hjobs : ∀ j ∈ (sortSeqs seqs).enum, (j.2.1, j.2.2) ∈ seqs := by
    intro j hj
    have h1 : j.2 ∈ (sortSeqs seqs).enum.map Prod.snd :=
      List.mem_map_of_mem Prod.snd hj
    rw [List.enum_map_snd] at h1
    exact hperm.subset h1
  have hinv0 : graphInv POAGraph.emptyGraph [] := by
    refine ⟨fun e he => ?_, fun v sidv => ?_, fun e he => ?_⟩
    · exact absurd he (List.not_mem_nil e)
    · show sidOut [] v sidv ≤ 1
      rw [sidOut_nil]
      omega
    · exact absurd he (List.not_mem_nil e)
  have hstv0 : startsInv POAGraph.emptyGraph seqs [] [] :=
    fun p hp => absurd hp (List.not_mem_nil p)
  rcases alignLoop_path seqs (sortSeqs seqs).enum POAGraph.emptyGraph [] []
      hinv0 (fun j _ hc => List.not_mem_nil _ hc) henum hjobs hstv0 g starts
      hrun2
    with ⟨done2, hginv2, hstv2⟩
  obtain ⟨hval2, hacy2⟩ := align_acyclic_invariant (sortSeqs seqs).enum
    POAGraph.emptyGraph [] g starts hrun2
    (fun e he => absurd he (List.not_mem_nil e))
    ⟨fun v => v, fun e he => absurd he (List.not_mem_nil e)⟩
  obtain ⟨rho, hrho⟩ := hacy2
  obtain ⟨ord, htopo, hvt⟩ := toposort_complete g hval2 rho hrho
  have huniq : ∀ v0 s0, sidOut g.edges v0 s0 ≤ 1 := hginv2.2.1
  have hall : ∀ p ∈ starts, ∃ b,
      (ptsWalk g p.1 (fun v => posOf ord v) (g.nodes.length + 1) p.2
        (List.replicate ord.length PoaElt.Indel)).map
        (fun row => (p.1, row)) = some b := by
    intro p hp
    rcases hstv2 p hp with ⟨-, sq, -, hsp | hsp⟩
    · rcases walk_of_spine g ord hvt huniq p.1 p.2 sq hsp
        with ⟨row, hrow, -⟩
      exact ⟨(p.1, row), by rw [hrow]; rfl⟩
    · rcases walk_of_spine g ord hvt huniq p.1 p.2 sq.reverse hsp
        with ⟨row, hrow, -⟩
      exact ⟨(p.1, row), by rw [hrow]; rfl⟩
  rcases mapM_exists (fun p : SeqID × Nat =>
      (ptsWalk g p.1 (fun v => posOf ord v) (g.nodes.length + 1) p.2
        (List.replicate ord.length PoaElt.Indel)).map
        (fun row => (p.1, row))) starts hall
    with ⟨rows, hmapm, hmem⟩
  have hp2s : poaToStrings g starts = some rows := by
    rw [poaToStrings, htopo]
    exact hmapm
  rcases hstv2 (sid, head) hhead with ⟨-, sq, hsqmem, hsp⟩
  have hsqeq : sq = seq := keys_nodup_unique seqs hkeys sid sq seq hsqmem
    hseq
  rcases hmem (sid, head) hhead with ⟨b, hbmem, hfb⟩
  have hfilters : seq.filter (fun y => !(y == PoaElt.Indel)) = seq := by
    rw [List.filter_eq_self]
    intro x hx
    have hxne : x ≠ PoaElt.Indel := fun hc => hfree (hc ▸ hx)
    simpa using hxne
  have hfiltersr : seq.reverse.filter (fun y => !(y == PoaElt.Indel)) =
      seq.reverse := by
    rw [List.filter_eq_self]
    intro x hx
    have hxs : x ∈ seq := List.mem_reverse.mp hx
    have hxne : x ≠ PoaElt.Indel := fun hc => hfree (hc ▸ hxs)
    simpa using hxne
  rcases hsp with hsp | hsp
  · rcases walk_of_spine g ord hvt huniq sid head sq hsp
      with ⟨row, hrow, hfil⟩
    have hfb2 : (ptsWalk g sid (fun v => posOf ord v)
        (g.nodes.length + 1) head
        (List.replicate ord.length PoaElt.Indel)).map
        (fun row => (sid, row)) = some b := hfb
    rw [hrow] at hfb2
    have hbval : (sid, row) = b := Option.some_inj.mp hfb2
    refine ⟨rows, row, hp2s, ?_, Or.inl ?_⟩
    · rw [hbval]
      exact hbmem
    · rw [hfil, hsqeq]
      exact hfilters
  · rcases walk_of_spine g ord hvt huniq sid head sq.reverse hsp
      with ⟨row, hrow, hfil⟩
    have hfb2 : (ptsWalk g sid (fun v => posOf ord v)
        (g.nodes.length + 1) head
        (List.replicate ord.length PoaElt.Indel)).map
        (fun row => (sid, row)) = some b := hfb
    rw [hrow] at hfb2
    have hbval : (sid, row) = b := Option.some_inj.mp hfb2
    refine ⟨rows, row, hp2s, ?_, Or.inr ?_⟩
    · rw [hbval]
      exact hbmem
    · rw [hfil, hsqeq]
      exact hfiltersr

theorem align_roundtrip_witness :
    ((([((0 : SeqID), [gf1, gf2])]).map Prod.fst).Nodup) ∧
    (align [((0 : SeqID), [gf1, gf2])] =
      some (POAGraph.mk [POANode.mk [(0, gf1)], POANode.mk [(0, gf2)]]
        [POAEdge.mk 0 1 [0]], [((0 : SeqID), 0)])) ∧
    (((0 : SeqID), (0 : Nat)) ∈ [((0 : SeqID), (0 : Nat))]) ∧
    (((0 : SeqID), [gf1, gf2]) ∈ [((0 : SeqID), [gf1, gf2])]) ∧
    (PoaElt.Indel ∉ [gf1, gf2]) ∧
    ∃ rows row, poaToStrings
        (POAGraph.mk [POANode.mk [(0, gf1)], POANode.mk [(0, gf2)]]
          [POAEdge.mk 0 1 [0]]) [((0 : SeqID), 0)] = some rows ∧
      ((0 : SeqID), row) ∈ rows ∧
      (row.filter (fun y => !(y == PoaElt.Indel)) = [gf1, gf2] ∨
       row.filter (fun y => !(y == PoaElt.Indel)) = [gf1, gf2].reverse) :=
  ⟨by decide, by decide, by decide, by decide, by decide,
    align_roundtrip [((0 : SeqID), [gf1, gf2])] (by decide)
      (POAGraph.mk [POANode.mk [(0, gf1)], POANode.mk [(0, gf2)]]
        [POAEdge.mk 0 1 [0]]) [((0 : SeqID), 0)] (by decide)
      0 0 (by decide) [gf1, gf2] (by decide) (by decide)⟩

end Genominicus
